import Mathlib

/-!
# Ship parts: connectivity, collision composition and piston actuation

A shallow embedding of `src/game/ship.cpp`.

Entities are identified by their `Game::Id`; since a component belongs to exactly one
entity, a pointer to a `ShipPartBlocks` or `ShipPartPiston` is represented by the id of
its entity.  Hash sets are represented by lists without regard to order.
-/

namespace Ship

/-! ## Vectors and rectangles -/

/-- Two-dimensional integer vector (the `ivec2` of the math library). -/
structure ivec2 where
  x : Int
  y : Int
deriving DecidableEq, Repr

namespace ivec2

instance : Add ivec2 := ⟨fun u v => ⟨u.x + v.x, u.y + v.y⟩⟩
instance : Sub ivec2 := ⟨fun u v => ⟨u.x - v.x, u.y - v.y⟩⟩
instance : Neg ivec2 := ⟨fun u => ⟨-u.x, -u.y⟩⟩

/-- Component access `v[i]` with a boolean index: `false` is x, `true` is y. -/
def get (v : ivec2) (i : Bool) : Int := if i then v.y else v.x

/-- The vector `ivec2::axis(i, len)`: `len` along axis `i`, zero along the other one. -/
def axis (i : Bool) (len : Int) : ivec2 := if i then ⟨0, len⟩ else ⟨len, 0⟩

end ivec2

/-- Axis-aligned integer rectangle given by two corners (the `irect2` of the math library). -/
structure irect2 where
  a : ivec2
  b : ivec2
deriving DecidableEq, Repr

/-- Translation of a rectangle, `rect + offset`. -/
def irect2.shift (r : irect2) (o : ivec2) : irect2 := ⟨r.a + o, r.b + o⟩

/-! ## World state -/

/-- Entity identifier, `Game::Id`. -/
abbrev Id := Nat

/-- The part of the entity world that `ship.cpp` reads and writes.

* `structures`, `pistons`: the existing `ShipPartBlocks` and `ShipPartPiston` entities;
* `links s`: `game.get_links<"pistons">(s)`, in insertion order;
* `a p`, `b p`: `game.get_link<"a">(p)` and `game.get_link<"b">(p)`;
* `pos`: `ShipPartBlocks::pos`;
* the remaining fields are the data members of `ShipPartPiston`. -/
structure Game where
  structures : List Id
  pistons : List Id
  links : Id → List Id
  a : Id → Id
  b : Id → Id
  pos : Id → ivec2
  is_vertical : Id → Bool
  pos_relative_to_a : Id → ivec2
  pos_relative_to_b : Id → ivec2
  last_rect : Id → irect2
  dir_flip_flop : Id → Bool

/-- The result of a connectivity query, `ConnectedShipParts`. -/
structure ConnectedShipParts where
  blocks : List Id := []
  pistons : List Id := []
  entity_ids : List Id := []
  cant_skip_because_of_cycle : Bool := false
deriving DecidableEq, Repr

/-! ## `FindConnectedShipParts` -/

section Traversal

variable (g : Game) (half_skipped_piston : Option Id) (skip_piston_direction : Option Bool)

/-- The lambda `HandlePiston` of `FindConnectedShipParts`, open in its recursive call
`HandleBlocks` exactly as in the source (which passes both lambdas as arguments).
`prev_blocks = none` is the null pointer.  The test `skip_piston_direction.value() == d`
is only evaluated by the source when the optional is non-empty. -/
def HandlePistonF (HandleBlocks : Id → Option Id → ConnectedShipParts → Option ConnectedShipParts)
    (piston : Id) (prev_blocks : Option Id) (ret : ConnectedShipParts) :
    Option ConnectedShipParts :=
  let ret := { ret with pistons := ret.pistons.insert piston,
                        entity_ids := ret.entity_ids.insert piston }
  let second (ret : ConnectedShipParts) : Option ConnectedShipParts :=
    if prev_blocks.isSome || skip_piston_direction.isNone
        || skip_piston_direction != some true then
      let blocks := g.b piston
      if some blocks != prev_blocks then
        if prev_blocks.isSome && half_skipped_piston == some piston
            && skip_piston_direction == some false then
          some { ret with cant_skip_because_of_cycle := true }
        else
          HandleBlocks blocks (some piston) ret
      else some ret
    else some ret
  if prev_blocks.isSome || skip_piston_direction.isNone
      || skip_piston_direction != some false then
    let blocks := g.a piston
    if some blocks != prev_blocks then
      if prev_blocks.isSome && half_skipped_piston == some piston
          && skip_piston_direction == some true then
        some { ret with cant_skip_because_of_cycle := true }
      else
        match HandleBlocks blocks (some piston) ret with
        | none => none
        | some ret => if ret.cant_skip_because_of_cycle then some ret else second ret
    else second ret
  else second ret

/-- The `for` loop of the lambda `HandleBlocks` over the `"pistons"` links of `blocks`. -/
def HandleBlocksLoop (HandlePiston : Id → Option Id → ConnectedShipParts → Option ConnectedShipParts)
    (blocks : Id) (prev_piston : Option Id) :
    List Id → ConnectedShipParts → Option ConnectedShipParts
  | [], ret => some ret
  | elem :: rest, ret =>
    if some elem == prev_piston then
      HandleBlocksLoop HandlePiston blocks prev_piston rest ret
    else
      match HandlePiston elem (some blocks) ret with
      | none => none
      | some ret =>
        if ret.cant_skip_because_of_cycle then some ret
        else HandleBlocksLoop HandlePiston blocks prev_piston rest ret

/-- The lambda `HandleBlocks` of `FindConnectedShipParts`, open in its recursive call
`HandlePiston`.  `prev_piston = none` is the null pointer. -/
def HandleBlocksF (HandlePiston : Id → Option Id → ConnectedShipParts → Option ConnectedShipParts)
    (blocks : Id) (prev_piston : Option Id) (ret : ConnectedShipParts) :
    Option ConnectedShipParts :=
  if blocks ∈ ret.blocks then some ret
  else
    let ret := { ret with blocks := blocks :: ret.blocks,
                          entity_ids := ret.entity_ids.insert blocks }
    HandleBlocksLoop HandlePiston blocks prev_piston (g.links blocks) ret

/-- The recursion of the two lambdas tied with a bound on the nesting depth of
`HandleBlocks`; `none` means the bound was too small. -/
def HandleBlocks : Nat → Id → Option Id → ConnectedShipParts → Option ConnectedShipParts
  | 0 => fun _ _ _ => none
  | fuel + 1 =>
    HandleBlocksF g
      (HandlePistonF g half_skipped_piston skip_piston_direction (HandleBlocks fuel))

/-- The lambda `HandlePiston` with its recursive calls bounded by `fuel`. -/
def HandlePiston (fuel : Nat) : Id → Option Id → ConnectedShipParts → Option ConnectedShipParts :=
  HandlePistonF g half_skipped_piston skip_piston_direction
    (HandleBlocks g half_skipped_piston skip_piston_direction fuel)

end Traversal

/-- The argument `std::variant<ShipPartBlocks *, ShipPartPiston *>`. -/
inductive BlocksOrPiston where
  | blocks (id : Id)
  | piston (id : Id)
deriving DecidableEq, Repr

/-- Function `FindConnectedShipParts`.  The result is `none` when the assertion on
`skip_piston_direction` fails.  Every nested visit of a Structure marks a new Structure,
so a nesting depth of one more than the number of Structures is never exceeded in a
world whose links stay inside it (theorem `HandleBlocks_isSome`). -/
def FindConnectedShipParts (g : Game) (blocks_or_piston : BlocksOrPiston)
    (skip_piston_direction : Option Bool) : Option ConnectedShipParts :=
  let fuel := g.structures.length + 1
  match blocks_or_piston with
  | .blocks blocks =>
    if skip_piston_direction.isSome then none
    else HandleBlocks g none skip_piston_direction fuel blocks none {}
  | .piston piston =>
    let half_skipped_piston := if skip_piston_direction.isSome then some piston else none
    HandlePiston g half_skipped_piston skip_piston_direction fuel piston none {}

/-! ## Specification vocabulary for the traversal -/

/-- Endpoint of a piston selected by a direction: `true` is link `"a"`, `false` is `"b"`. -/
def Game.endpoint (g : Game) (dir : Bool) (p : Id) : Id := if dir then g.a p else g.b p

/-- Insertion of a piston into `ret.pistons` and of its id into `ret.entity_ids`. -/
def ConnectedShipParts.addPiston (r : ConnectedShipParts) (p : Id) : ConnectedShipParts :=
  { r with pistons := r.pistons.insert p, entity_ids := r.entity_ids.insert p }

/-- Insertion of a fresh Structure into `ret.blocks` and of its id into `ret.entity_ids`. -/
def ConnectedShipParts.addBlocks (r : ConnectedShipParts) (v : Id) : ConnectedShipParts :=
  { r with blocks := v :: r.blocks, entity_ids := r.entity_ids.insert v }

/-- The assignment `ret.cant_skip_because_of_cycle = true`. -/
def ConnectedShipParts.setFlag (r : ConnectedShipParts) : ConnectedShipParts :=
  { r with cant_skip_because_of_cycle := true }

/-- The calls that occur below the starting call of a traversal: a visit of a Structure,
the remainder of its link loop, a visit of a piston coming from Structure `v`, and the
handling of one endpoint of that piston. -/
inductive Call where
  | blocks (v : Id) (q : Option Id)
  | loop (v : Id) (q : Option Id) (l : List Id)
  | piston (p : Id) (v : Id)
  | side (p : Id) (v : Id) (dir : Bool)

/-- Big-step description of the nested calls of a traversal that is entered with the
cycle flag unset: `Run g hsp skip c r r'` says that call `c` turns `ret = r` into `r'`. -/
inductive Run (g : Game) (hsp : Option Id) (skip : Option Bool) :
    Call → ConnectedShipParts → ConnectedShipParts → Prop where
  | blocks_seen {v q r} : v ∈ r.blocks → Run g hsp skip (.blocks v q) r r
  | blocks_new {v q r r'} : v ∉ r.blocks →
      Run g hsp skip (.loop v q (g.links v)) (r.addBlocks v) r' →
      Run g hsp skip (.blocks v q) r r'
  | loop_nil {v q r} : Run g hsp skip (.loop v q []) r r
  | loop_skip {v q p l r r'} : some p = q →
      Run g hsp skip (.loop v q l) r r' → Run g hsp skip (.loop v q (p :: l)) r r'
  | loop_stop {v q p l r r'} : some p ≠ q →
      Run g hsp skip (.piston p v) r r' → r'.cant_skip_because_of_cycle = true →
      Run g hsp skip (.loop v q (p :: l)) r r'
  | loop_next {v q p l r r1 r'} : some p ≠ q →
      Run g hsp skip (.piston p v) r r1 → r1.cant_skip_because_of_cycle = false →
      Run g hsp skip (.loop v q l) r1 r' → Run g hsp skip (.loop v q (p :: l)) r r'
  | piston_stop {p v r r'} :
      Run g hsp skip (.side p v true) (r.addPiston p) r' →
      r'.cant_skip_because_of_cycle = true → Run g hsp skip (.piston p v) r r'
  | piston_next {p v r r1 r'} :
      Run g hsp skip (.side p v true) (r.addPiston p) r1 →
      r1.cant_skip_because_of_cycle = false →
      Run g hsp skip (.side p v false) r1 r' → Run g hsp skip (.piston p v) r r'
  | side_idle {p v dir r} : g.endpoint dir p = v → Run g hsp skip (.side p v dir) r r
  | side_flag {p v dir r} : g.endpoint dir p ≠ v → hsp = some p → skip = some dir →
      Run g hsp skip (.side p v dir) r r.setFlag
  | side_visit {p v dir r r'} : g.endpoint dir p ≠ v → ¬ (hsp = some p ∧ skip = some dir) →
      Run g hsp skip (.blocks (g.endpoint dir p) (some p)) r r' →
      Run g hsp skip (.side p v dir) r r'

/-- The ids recorded in `entity_ids` are exactly the members of `blocks` and `pistons`. -/
def IdsExact (r : ConnectedShipParts) : Prop :=
  ∀ x, x ∈ r.entity_ids ↔ x ∈ r.blocks ∨ x ∈ r.pistons

/-- Piston `p` is recorded in `r` together with both of its endpoint Structures. -/
def Full (g : Game) (r : ConnectedShipParts) (p : Id) : Prop :=
  p ∈ r.pistons ∧ g.a p ∈ r.blocks ∧ g.b p ∈ r.blocks

/-- Every Structure added between `r` and `r'` has all its links, except the exempted
ones, recorded in `r'` together with their endpoints. -/
def Closed (g : Game) (r r' : ConnectedShipParts) (exempt : Id → Id → Prop) : Prop :=
  ∀ u ∈ r'.blocks, u ∉ r.blocks → ∀ p ∈ g.links u, ¬ exempt u p → Full g r' p

/-- What a call that ends with the cycle flag unset has explored. -/
def ClosedPost (g : Game) : Call → ConnectedShipParts → ConnectedShipParts → Prop
  | .blocks v q, r, r' => v ∈ r'.blocks ∧ Closed g r r' (fun u p => u = v ∧ some p = q)
  | .loop v q l, r, r' => v ∈ r.blocks →
      (∀ p ∈ l, some p ≠ q → Full g r' p) ∧ Closed g r r' (fun _ _ => False)
  | .piston p v, r, r' => v ∈ r.blocks → Full g r' p ∧ Closed g r r' (fun _ _ => False)
  | .side p v dir, r, r' => v ∈ r.blocks →
      g.endpoint dir p ∈ r'.blocks ∧ Closed g r r' (fun _ p' => p' = p)

/-! ## Graph vocabulary -/

/-- Links are consistent and stay inside the world: a Structure links only to existing
pistons, an existing piston is in the links of a Structure exactly when that Structure is
its `"a"` or `"b"` endpoint, and both endpoints of an existing piston exist. -/
structure Game.LinksConsistent (g : Game) : Prop where
  links_mem : ∀ s ∈ g.structures, ∀ p ∈ g.links s, p ∈ g.pistons
  links_iff : ∀ s ∈ g.structures, ∀ p ∈ g.pistons, p ∈ g.links s ↔ (g.a p = s ∨ g.b p = s)
  a_mem : ∀ p ∈ g.pistons, g.a p ∈ g.structures
  b_mem : ∀ p ∈ g.pistons, g.b p ∈ g.structures

/-- Structures `u` and `w` are the two endpoints of some piston other than `avoid`. -/
def Game.Adj (g : Game) (avoid : Option Id) (u w : Id) : Prop :=
  ∃ p ∈ g.pistons, some p ≠ avoid ∧ ((g.a p = u ∧ g.b p = w) ∨ (g.b p = u ∧ g.a p = w))

/-- Structure `w` is joined to `u` by a path of pistons none of which is `avoid`. -/
def Game.Reachable (g : Game) (avoid : Option Id) : Id → Id → Prop :=
  Relation.ReflTransGen (g.Adj avoid)

/-- The two ways a traversal is parameterised: without a half-skipped piston, or with an
existing half-skipped piston and a skip direction. -/
inductive Mode (g : Game) : Option Id → Option Bool → Prop where
  | plain (skip : Option Bool) : Mode g none skip
  | excl (P : Id) (d : Bool) : P ∈ g.pistons → Mode g (some P) (some d)

/-- Relation between input and output of a call issued at Structure `v`: added
Structures are reachable from `v`, added pistons touch a recorded Structure, the flag is
raised only when the half-skipped piston has distinct endpoints and the excluded one is
reachable, and a run that ends with the flag unset has not added the excluded endpoint
of such a piston. -/
def Sound (g : Game) (hsp : Option Id) (skip : Option Bool) (v : Id)
    (r r' : ConnectedShipParts) : Prop :=
  (∀ u ∈ r'.blocks, u ∈ r.blocks ∨ g.Reachable hsp v u) ∧
  (∀ p ∈ r'.pistons, p ∈ r.pistons ∨ (p ∈ g.pistons ∧ (g.a p ∈ r'.blocks ∨ g.b p ∈ r'.blocks))) ∧
  (r'.cant_skip_because_of_cycle = true → r.cant_skip_because_of_cycle = true ∨
    ∃ P d, hsp = some P ∧ skip = some d ∧ g.a P ≠ g.b P ∧
      g.Reachable hsp v (g.endpoint (!d) P)) ∧
  (r'.cant_skip_because_of_cycle = false → ∀ P d, hsp = some P → skip = some d →
    g.a P ≠ g.b P → g.endpoint (!d) P ∈ r'.blocks → g.endpoint (!d) P ∈ r.blocks)

/-- Conditions under which the nested calls are issued. -/
def SoundPre (g : Game) (hsp : Option Id) (skip : Option Bool) :
    Call → ConnectedShipParts → Prop
  | .blocks v q, r => v ∈ g.structures ∧ ∀ P d, hsp = some P → skip = some d →
      (g.endpoint d P ∈ r.blocks ∧ q ≠ some P) ∨ (v = g.endpoint d P ∧ q = some P)
  | .loop v q l, r => v ∈ g.structures ∧ v ∈ r.blocks ∧ (∀ p ∈ l, p ∈ g.links v) ∧
      ∀ P d, hsp = some P → skip = some d →
        g.endpoint d P ∈ r.blocks ∧ (v = g.endpoint d P → q = some P)
  | .piston p v, r => v ∈ g.structures ∧ v ∈ r.blocks ∧ p ∈ g.links v ∧
      ∀ P d, hsp = some P → skip = some d →
        g.endpoint d P ∈ r.blocks ∧ (p = P → v ≠ g.endpoint d P)
  | .side p v _, r => v ∈ g.structures ∧ v ∈ r.blocks ∧ p ∈ g.links v ∧
      ∀ P d, hsp = some P → skip = some d →
        g.endpoint d P ∈ r.blocks ∧ (p = P → v ≠ g.endpoint d P)

/-- What the nested calls guarantee under `SoundPre`. -/
def SoundPost (g : Game) (hsp : Option Id) (skip : Option Bool) :
    Call → ConnectedShipParts → ConnectedShipParts → Prop
  | .blocks v _, r, r' => Sound g hsp skip v r r'
  | .loop v q l, r, r' => Sound g hsp skip v r r' ∧
      (r'.cant_skip_because_of_cycle = false → ∀ P, hsp = some P → P ∈ l → q = some P)
  | .piston p v, r, r' => Sound g hsp skip v r r' ∧
      (hsp = some p → r'.cant_skip_because_of_cycle = true)
  | .side p v dir, r, r' => Sound g hsp skip v r r' ∧
      (hsp = some p → skip = some dir → r'.cant_skip_because_of_cycle = true)

/-- Number of existing Structures not yet recorded in `r.blocks`: the variant of the
traversal. -/
def unvisited (g : Game) (r : ConnectedShipParts) : Nat :=
  (g.structures.toFinset \ r.blocks.toFinset).card

/-- The starting entity of a query exists in the world. -/
def BlocksOrPiston.Exists (g : Game) : BlocksOrPiston → Prop
  | .blocks s => s ∈ g.structures
  | .piston P => P ∈ g.pistons

instance (g : Game) : (start : BlocksOrPiston) → Decidable (start.Exists g)
  | .blocks s => inferInstanceAs (Decidable (s ∈ g.structures))
  | .piston P => inferInstanceAs (Decidable (P ∈ g.pistons))

/-- Structure `u` is in the connected component of the start: reachable from the starting
Structure, or from an endpoint of the starting piston. -/
def Game.ReachableFrom (g : Game) (start : BlocksOrPiston) (u : Id) : Prop :=
  match start with
  | .blocks s => g.Reachable none s u
  | .piston P => g.Reachable none (g.a P) u ∨ g.Reachable none (g.b P) u

/-! ## Collision composition -/

instance : HAdd irect2 ivec2 irect2 := ⟨irect2.shift⟩
instance : HSub irect2 ivec2 irect2 := ⟨fun r o => r.shift (-o)⟩

/-- Entity predicate `std::function<bool(const Game::Entity &)>`; `none` is the empty
function object. -/
abbrev EntityFilter := Option (Id → Bool)

/-- The static terrain `MapObject`.  The collision primitives of the tile map are not
part of `ship.cpp`; only their boolean results are used:
`CollidesWithMap blocks offset` is `blocks->map.CollidesWithMap(map->map, offset)` for the
grid of Structure `blocks`, and `CollidesWithBox rect` is `map->map.CollidesWithBox(rect)`. -/
structure MapObject where
  pos : ivec2
  CollidesWithMap : Id → ivec2 → Bool
  CollidesWithBox : irect2 → Bool

/-- The spatial index `DynamicSolidTree` as seen by `ship.cpp`:
`CollideAabb box visitor` is the box query `aabb_tree.CollideAabb`, `GetNodeUserData` gives
the entity stored at a node, `CalculateRect ship` is `ship.CalculateRect()`, and the last
two fields are the fine tests of the `DynamicSolid` component of an entity. -/
structure DynamicSolidTree where
  CollideAabb : irect2 → (Nat → Bool) → Bool
  GetNodeUserData : Nat → Id
  CalculateRect : Id → irect2
  solidBoxCollisionTest : Id → irect2 → Bool
  solidShipBlocksCollisionTest : Id → Id → ivec2 → Bool

/-- Method `DynamicSolidTree::BoxCollisionTest`. -/
def DynamicSolidTree.BoxCollisionTest (t : DynamicSolidTree) (box : irect2)
    (entity_filter : EntityFilter) : Bool :=
  t.CollideAabb box (fun node_index =>
    let e := t.GetNodeUserData node_index
    match entity_filter with
    | some f => if !f e then false else t.solidBoxCollisionTest e box
    | none => t.solidBoxCollisionTest e box)

/-- Method `DynamicSolidTree::ShipBlocksCollisionTest`. -/
def DynamicSolidTree.ShipBlocksCollisionTest (t : DynamicSolidTree) (ship : Id)
    (ship_offset : ivec2) (entity_filter : EntityFilter) : Bool :=
  t.CollideAabb (t.CalculateRect ship + ship_offset) (fun node_index =>
    let e := t.GetNodeUserData node_index
    match entity_filter with
    | some f => if !f e then false else t.solidShipBlocksCollisionTest e ship ship_offset
    | none => t.solidShipBlocksCollisionTest e ship ship_offset)

/-- Function `CollideShipParts`: the two loops return `true` at the first collision. -/
def CollideShipParts (g : Game) (parts : ConnectedShipParts) (offset : ivec2)
    (map : Option MapObject) (tree : Option DynamicSolidTree)
    (entity_filter : EntityFilter) : Bool :=
  if parts.blocks.any (fun blocks =>
      (match map with
        | some m => m.CollidesWithMap blocks (g.pos blocks + offset - m.pos)
        | none => false) ||
      (match tree with
        | some t => t.ShipBlocksCollisionTest blocks offset entity_filter
        | none => false)) then true
  else if parts.pistons.any (fun piston =>
      (match map with
        | some m => m.CollidesWithBox (g.last_rect piston + offset - m.pos)
        | none => false) ||
      (match tree with
        | some t => t.BoxCollisionTest (g.last_rect piston + offset) entity_filter
        | none => false)) then true
  else false

/-! ## Piston actuation -/

/-- What `ship.cpp` obtains from outside the functions embedded here.

* `tile_size`: the constant `ShipGrid::tile_size`;
* `map`: `game.get<MapObject>().get_opt()`;
* `tree`: `game.get<DynamicSolidTree>().get_opt()`; the index caches the geometry of the
  entities, so what its queries answer is a function of the Structure positions and the
  piston rectangles current at the time of the query;
* `piston_rect cornerA cornerB is_vertical`: the rectangle a piston occupies, as computed
  by `ShipPartPiston::UpdateAabb` from its two corners and its orientation. -/
structure Externals where
  tile_size : Int
  map : Option MapObject
  tree : Option ((Id → ivec2) → (Id → irect2) → DynamicSolidTree)
  piston_rect : ivec2 → ivec2 → Bool → irect2

/-- Modelled from the spec: `ConnectedShipParts::LambdaNoSuchEntityHere` is declared in
`ship.h`, a header that is not at hand; the filter accepts exactly the entities that are
not members of this set (it is "used to avoid self-collision between a structure and its
own actuators/blocks"). -/
def ConnectedShipParts.LambdaNoSuchEntityHere (parts : ConnectedShipParts) : Id → Bool :=
  fun e => !parts.entity_ids.contains e

/-- Modelled from the spec: `ShipPartPiston::UpdateAabb` is declared in `ship.h`, a
header that is not at hand; it recomputes the cached occupied rectangle of the piston
from its derived geometry (the index entry follows the rectangle). -/
def ShipPartPiston.UpdateAabb (env : Externals) (g : Game) (this : Id) : Game :=
  let rect := env.piston_rect (g.pos (g.a this) + g.pos_relative_to_a this)
    (g.pos (g.b this) + g.pos_relative_to_b this) (g.is_vertical this)
  { g with last_rect := Function.update g.last_rect this rect }

/-- Function `MoveShipParts`.  Both loops run over sets, so every member is handled
once; `ShipPartBlocks::UpdateAabb` only refreshes the index entry of the Structure, which
is a function of its position. -/
def MoveShipParts (env : Externals) (g : Game) (parts : ConnectedShipParts)
    (offset : ivec2) : Game :=
  let g := { g with pos := fun blocks =>
    if blocks ∈ parts.blocks then g.pos blocks + offset else g.pos blocks }
  { g with last_rect := fun piston =>
    if piston ∈ parts.pistons then (ShipPartPiston.UpdateAabb env g piston).last_rect piston
    else g.last_rect piston }

/-- Result type `ShipPartPiston::ExtendRetractStatus`. -/
inductive ExtendRetractStatus where
  | at_min_length
  | stuck
  | ok
deriving DecidableEq, Repr

/-- The local `current_length` of `ExtendOrRetract`: corner B minus corner A along the
axis of the piston. -/
def ShipPartPiston.current_length (g : Game) (this : Id) : Int :=
  ((g.pos (g.b this)).get (g.is_vertical this)
      + (g.pos_relative_to_b this).get (g.is_vertical this))
    - ((g.pos (g.a this)).get (g.is_vertical this)
      + (g.pos_relative_to_a this).get (g.is_vertical this))

/-- The locals of `ExtendOrRetract` that are computed between the length guard and the
decision (source lines 80 to 112). -/
structure ExtendOrRetract.Locals where
  parts_a : ConnectedShipParts
  parts_b : ConnectedShipParts
  offset_a : ivec2
  offset_b : ivec2
  can_move_a : Bool
  can_move_b : Bool
  ground_a : Bool
  ground_b : Bool
deriving DecidableEq, Repr

/-- Source lines 80 to 112 of `ExtendOrRetract`: the two sides, their candidate offsets,
the collision tests and the ground flags.  `none` when a traversal gives no result. -/
def ExtendOrRetract.locals (env : Externals) (g : Game) (this : Id)
    (extend gravity_tweaks : Bool) : Option ExtendOrRetract.Locals :=
  match FindConnectedShipParts g (.piston this) (some true),
      FindConnectedShipParts g (.piston this) (some false) with
  | some parts_a, some parts_b =>
    let parts_a := { parts_a with pistons := parts_a.pistons.erase this }
    let parts_b := { parts_b with pistons := parts_b.pistons.erase this }
    let map := env.map
    let tree := env.tree.map (fun t => t g.pos g.last_rect)
    let offset_a := ivec2.axis (g.is_vertical this) (if extend then -1 else 1)
    let offset_b := ivec2.axis (g.is_vertical this) (if extend then 1 else -1)
    let can_move_a := !CollideShipParts g parts_a offset_a map tree
      (some parts_a.LambdaNoSuchEntityHere)
    let can_move_b := !CollideShipParts g parts_b offset_b map tree
      (some parts_b.LambdaNoSuchEntityHere)
    let gravity : ivec2 := ⟨0, 1⟩
    let lambda : Id → Bool := fun e =>
      parts_a.LambdaNoSuchEntityHere e && parts_b.LambdaNoSuchEntityHere e
    let ground_a :=
      if gravity_tweaks then
        if offset_a = gravity then !can_move_a
        else CollideShipParts g parts_a gravity map tree (some lambda)
      else false
    let ground_b :=
      if gravity_tweaks then
        if offset_b = gravity then !can_move_b
        else CollideShipParts g parts_b gravity map tree (some lambda)
      else false
    some { parts_a := parts_a, parts_b := parts_b, offset_a := offset_a,
           offset_b := offset_b, can_move_a := can_move_a, can_move_b := can_move_b,
           ground_a := ground_a, ground_b := ground_b }
  | _, _ => none

/-- The assignment `dir_flip_flop = !dir_flip_flop` of source line 118. -/
def ShipPartPiston.flip (g : Game) (this : Id) : Game :=
  { g with dir_flip_flop := Function.update g.dir_flip_flop this (!g.dir_flip_flop this) }

/-- The condition of source line 121, "force move A when B sits on the floor", evaluated
after the flip of line 118. -/
def ExtendOrRetract.force_move_a (env : Externals) (g : Game) (this : Id) (extend : Bool)
    (l : ExtendOrRetract.Locals) : Bool :=
  let g := ShipPartPiston.flip g this
  g.is_vertical this && !extend &&
    CollideShipParts g l.parts_b (-l.offset_b) env.map
      (env.tree.map (fun t => t g.pos g.last_rect)) (some l.parts_b.LambdaNoSuchEntityHere)

/-- Source lines 118 and 124 to 130 of `ExtendOrRetract` for a given final value of
`move_b`: flip the tie-break flag, move side B or side A by its candidate offset, and
refresh the rectangle of the acting piston. -/
def ExtendOrRetract.commit (env : Externals) (g : Game) (this : Id)
    (l : ExtendOrRetract.Locals) (move_b : Bool) : Game :=
  let g := ShipPartPiston.flip g this
  let g := if move_b then MoveShipParts env g l.parts_b l.offset_b
    else MoveShipParts env g l.parts_a l.offset_a
  ShipPartPiston.UpdateAabb env g this

/-- Method `ShipPartPiston::ExtendOrRetract`; the result pairs the returned status with
the world after the call. -/
def ExtendOrRetract (env : Externals) (g : Game) (this : Id) (extend gravity_tweaks : Bool) :
    Option (ExtendRetractStatus × Game) :=
  let min_length := env.tile_size
  let current_length := ShipPartPiston.current_length g this
  if !extend && decide (current_length ≤ min_length) then
    some (.at_min_length, g)
  else
    match ExtendOrRetract.locals env g this extend gravity_tweaks with
    | none => none
    | some l =>
      if !l.can_move_a && !l.can_move_b then
        some (.stuck, g)
      else
        let move_b := !l.can_move_a ||
          (l.can_move_b && (decide (l.ground_a > l.ground_b) ||
            (l.ground_a == l.ground_b && g.dir_flip_flop this)))
        let move_b := if ExtendOrRetract.force_move_a env g this extend l then false else move_b
        some (.ok, ExtendOrRetract.commit env g this l move_b)

/-- The side that `ExtendOrRetract` moves for a given final value of `move_b`: side B when
it is true, side A otherwise. -/
def ExtendOrRetract.Locals.side (l : ExtendOrRetract.Locals) (move_b : Bool) :
    ConnectedShipParts :=
  if move_b then l.parts_b else l.parts_a

/-! ## Example worlds -/

/-- A chain of three Structures `0 -10- 1 -11- 2` (piston 10 from 0 to 1, piston 11 from
1 to 2) and an isolated Structure `3`; all geometry at the origin. -/
def exampleChain : Game where
  structures := [0, 1, 2, 3]
  pistons := [10, 11]
  links := fun s => match s with
    | 0 => [10]
    | 1 => [10, 11]
    | 2 => [11]
    | _ => []
  a := fun p => match p with
    | 10 => 0
    | _ => 1
  b := fun p => match p with
    | 10 => 1
    | _ => 2
  pos := fun _ => ⟨0, 0⟩
  is_vertical := fun _ => false
  pos_relative_to_a := fun _ => ⟨0, 0⟩
  pos_relative_to_b := fun _ => ⟨0, 0⟩
  last_rect := fun _ => ⟨⟨0, 0⟩, ⟨0, 0⟩⟩
  dir_flip_flop := fun _ => false

/-- A loop of three Structures joined by three pistons: 10 from 0 to 1, 11 from 1 to 2,
12 from 0 to 2. -/
def exampleLoop : Game where
  structures := [0, 1, 2]
  pistons := [10, 11, 12]
  links := fun s => match s with
    | 0 => [10, 12]
    | 1 => [10, 11]
    | 2 => [11, 12]
    | _ => []
  a := fun p => match p with
    | 11 => 1
    | _ => 0
  b := fun p => match p with
    | 10 => 1
    | _ => 2
  pos := fun _ => ⟨0, 0⟩
  is_vertical := fun _ => false
  pos_relative_to_a := fun _ => ⟨0, 0⟩
  pos_relative_to_b := fun _ => ⟨0, 0⟩
  last_rect := fun _ => ⟨⟨0, 0⟩, ⟨0, 0⟩⟩
  dir_flip_flop := fun _ => false

/-- Two Structures one above the other, `0` at `(0,0)` and `1` at `(0,8)`, joined by the
vertical piston `10` whose corner A is `(0,4)` and corner B is `(0,8)`: its length is 4. -/
def examplePair : Game where
  structures := [0, 1]
  pistons := [10]
  links := fun s => match s with
    | 0 => [10]
    | 1 => [10]
    | _ => []
  a := fun _ => 0
  b := fun _ => 1
  pos := fun s => match s with
    | 0 => ⟨0, 0⟩
    | _ => ⟨0, 8⟩
  is_vertical := fun _ => true
  pos_relative_to_a := fun _ => ⟨0, 4⟩
  pos_relative_to_b := fun _ => ⟨0, 0⟩
  last_rect := fun _ => ⟨⟨0, 4⟩, ⟨4, 8⟩⟩
  dir_flip_flop := fun _ => false

/-- The world `examplePair` with Structure `1` one unit lower, at `(0,9)`, so that the
piston has length 5, and with the tie-break flag of the piston set. -/
def exampleTall : Game :=
  { examplePair with
    pos := fun s => match s with
      | 0 => ⟨0, 0⟩
      | _ => ⟨0, 9⟩
    last_rect := fun _ => ⟨⟨0, 4⟩, ⟨4, 9⟩⟩
    dir_flip_flop := fun _ => true }

/-- Two Structures side by side, `0` at `(0,0)` and `1` at `(8,0)`, joined by the
horizontal piston `10` of length 4. -/
def exampleFlat : Game :=
  { examplePair with
    pos := fun s => match s with
      | 0 => ⟨0, 0⟩
      | _ => ⟨8, 0⟩
    is_vertical := fun _ => false
    pos_relative_to_a := fun _ => ⟨4, 0⟩
    last_rect := fun _ => ⟨⟨4, 0⟩, ⟨8, 4⟩⟩ }

/-- Tiles of 4 pixels, no terrain and no spatial index: nothing ever collides. -/
def exampleFree : Externals where
  tile_size := 4
  map := none
  tree := none
  piston_rect := fun ca cb v => ⟨ca, cb + ivec2.axis (!v) 4⟩

/-- Tiles of 4 pixels and a terrain that collides with everything. -/
def exampleWalled : Externals :=
  { exampleFree with
    map := some { pos := ⟨0, 0⟩, CollidesWithMap := fun _ _ => true,
                  CollidesWithBox := fun _ => true } }

/-- Tiles of 4 pixels and a floor right below Structure `1` of `exampleTall`: the grid of
Structure `1` collides with the terrain from height 10 on, nothing else collides. -/
def exampleFloor : Externals :=
  { exampleFree with
    map := some { pos := ⟨0, 0⟩,
                  CollidesWithMap := fun blocks offset => blocks == 1 && decide (10 ≤ offset.y),
                  CollidesWithBox := fun _ => false } }

/-- The locals of `ExtendOrRetract` in the world `examplePair` when extending without
obstacles: side A is Structure `0`, side B is Structure `1`, both are free to move. -/
def examplePairLocals : ExtendOrRetract.Locals where
  parts_a := ⟨[0], [], [0, 10], false⟩
  parts_b := ⟨[1], [], [1, 10], false⟩
  offset_a := ⟨0, -1⟩
  offset_b := ⟨0, 1⟩
  can_move_a := true
  can_move_b := true
  ground_a := false
  ground_b := false

/-- The world `examplePair` after side A has been moved up by one unit. -/
def examplePairExtended : Game :=
  ExtendOrRetract.commit exampleFree examplePair 10 examplePairLocals false

/-- The locals of `ExtendOrRetract` in the world `exampleFlat` over the ledge when
extending with gravity tweaks: both sides are free to move and only side A is grounded. -/
def exampleFlatLocals : ExtendOrRetract.Locals where
  parts_a := ⟨[0], [], [0, 10], false⟩
  parts_b := ⟨[1], [], [1, 10], false⟩
  offset_a := ⟨-1, 0⟩
  offset_b := ⟨1, 0⟩
  can_move_a := true
  can_move_b := true
  ground_a := true
  ground_b := false

/-- The locals of `ExtendOrRetract` in the world `exampleTall` over the floor when
retracting: both sides are free to move. -/
def exampleTallLocals : ExtendOrRetract.Locals where
  parts_a := ⟨[0], [], [0, 10], false⟩
  parts_b := ⟨[1], [], [1, 10], false⟩
  offset_a := ⟨0, 1⟩
  offset_b := ⟨0, -1⟩
  can_move_a := true
  can_move_b := true
  ground_a := false
  ground_b := false

/-- The world `exampleTall` after side A has been moved down by one unit. -/
def exampleTallRetracted : Game :=
  ExtendOrRetract.commit exampleFloor exampleTall 10 exampleTallLocals false

/-- A spatial index with two entries, node `0` holding entity `7` and node `1` holding
entity `8`; every query box meets both entries, entity `7` collides with every box and
every ship, entity `8` with none. -/
def exampleTree : DynamicSolidTree where
  CollideAabb := fun _ visitor => visitor 0 || visitor 1
  GetNodeUserData := fun node => if node = 0 then 7 else 8
  CalculateRect := fun _ => ⟨⟨0, 0⟩, ⟨4, 4⟩⟩
  solidBoxCollisionTest := fun e _ => e == 7
  solidShipBlocksCollisionTest := fun e _ _ => e == 7

/-- The loop of `exampleLoop` with a fourth Structure `3` hanging from Structure `0` by
piston `13`; Structure `0` enumerates its links in the order 10, 12, 13. -/
def exampleKite : Game :=
  { exampleLoop with
    structures := [0, 1, 2, 3]
    pistons := [10, 11, 12, 13]
    links := fun s => match s with
      | 0 => [10, 12, 13]
      | 1 => [10, 11]
      | 2 => [11, 12]
      | 3 => [13]
      | _ => []
    a := fun p => match p with
      | 11 => 1
      | _ => 0
    b := fun p => match p with
      | 10 => 1
      | 13 => 3
      | _ => 2 }

/-- The world `exampleKite` with the links of Structure `0` enumerated in the order
10, 13, 12 instead. -/
def exampleKiteReordered : Game :=
  { exampleKite with
    links := fun s => match s with
      | 0 => [10, 13, 12]
      | 1 => [10, 11]
      | 2 => [11, 12]
      | 3 => [13]
      | _ => [] }

/-! ## Robust integer arithmetic (`utils/robust_math.h`) -/

/-- An integral type of the language: its signedness and its width in bits. -/
structure IntType where
  signed : Bool
  bits : Nat
deriving DecidableEq, Repr

/-- The smallest value of an integral type, `std::numeric_limits<T>::min()`. -/
def IntType.min (T : IntType) : Int := if T.signed then -(2 ^ (T.bits - 1)) else 0

/-- The largest value of an integral type, `std::numeric_limits<T>::max()`. -/
def IntType.max (T : IntType) : Int :=
  if T.signed then 2 ^ (T.bits - 1) - 1 else 2 * 2 ^ (T.bits - 1) - 1

/-- The value `v` is representable in the type `T`. -/
def IntType.InRange (T : IntType) (v : Int) : Prop := T.min ≤ v ∧ v ≤ T.max

instance (T : IntType) (v : Int) : Decidable (T.InRange v) := by
  unfold IntType.InRange; infer_instance

/-- The conversion `T(v)` of an integer to the integral type `T`: the value congruent to
`v` modulo two to the power of the width. -/
def IntType.cast (T : IntType) (v : Int) : Int :=
  (v - T.min) % (2 * 2 ^ (T.bits - 1)) + T.min

/-- Integral promotion of the language: a type narrower than `int` is promoted to `int`,
whose width is `int_bits`. -/
def IntType.promote (int_bits : Nat) (T : IntType) : IntType :=
  if T.bits < int_bits then ⟨true, int_bits⟩ else T

/-- The type `std::common_type_t<A, B>` of two integral types, which is the type given by
the usual arithmetic conversions of the language: after promotion, "this picks the larger
of two types. If they have the same size but different signedness, the unsigned one is
used." -/
def common_type (int_bits : Nat) (A B : IntType) : IntType :=
  let A := A.promote int_bits
  let B := B.promote int_bits
  if A.bits < B.bits then B
  else if B.bits < A.bits then A
  else if A.signed then B else A

namespace Robust

/-- The enumeration `Robust::Ordering`. -/
inductive Ordering where
  | less
  | equal
  | greater
  | unordered
deriving DecidableEq, Repr

/-- The branch of `Robust::equal` for two integral types `A` and `B`.  The built-in
comparison of the last branch converts both operands to the common type. -/
def equal (int_bits : Nat) (A B : IntType) (a b : Int) : Bool :=
  let C := common_type int_bits A B
  if A.signed && !B.signed then decide (a ≥ 0) && (C.cast a == C.cast b)
  else if !A.signed && B.signed then decide (b ≥ 0) && (C.cast a == C.cast b)
  else C.cast a == C.cast b

/-- The branch of `Robust::less` for two integral types `A` and `B`. -/
def less (int_bits : Nat) (A B : IntType) (a b : Int) : Bool :=
  let C := common_type int_bits A B
  if A.signed && !B.signed then decide (a < 0) || decide (C.cast a < C.cast b)
  else if !A.signed && B.signed then decide (b > 0) && decide (C.cast a < C.cast b)
  else decide (C.cast a < C.cast b)

/-- Function `Robust::greater`. -/
def greater (int_bits : Nat) (A B : IntType) (a b : Int) : Bool :=
  less int_bits B A b a

/-- The branch of `Robust::compare_three_way` for two integral types. -/
def compare_three_way (int_bits : Nat) (A B : IntType) (a b : Int) : Ordering :=
  if less int_bits A B a b then .less
  else if greater int_bits A B a b then .greater
  else if equal int_bits A B a b then .equal
  else .unordered

/-- The built-in division `a / b` of the type `T` for a nonzero `b`: the quotient
truncated toward zero; `none` when the quotient is not representable in `T`, where the
behaviour of the language is undefined. -/
def builtin_div (T : IntType) (a b : Int) : Option Int :=
  if T.InRange (Int.tdiv a b) then some (Int.tdiv a b) else none

/-- The built-in remainder `a % b` of the type `T` for a nonzero `b`; `none` when the
quotient `a / b` is not representable in `T`, where the behaviour of the language is
undefined. -/
def builtin_rem (T : IntType) (a b : Int) : Option Int :=
  if T.InRange (Int.tdiv a b) then some (Int.tmod a b) else none

/-- Function `Robust::division_fails(a, b, c)` on the type `T`: the returned boolean and
the value stored in `c`; `none` when the call has undefined behaviour. -/
def division_fails (T : IntType) (a b : Int) : Option (Bool × Int) :=
  if b = 0 then some (true, a)
  else (builtin_div T a b).map (fun c => (false, c))

/-- Function `Robust::remainder_fails(a, b, c)` on the type `T`. -/
def remainder_fails (T : IntType) (a b : Int) : Option (Bool × Int) :=
  if b = 0 then some (true, 0)
  else (builtin_rem T a b).map (fun c => (false, c))

end Robust

/-! ## Further example worlds and vocabulary for the actuation -/

/-- Tiles of 4 pixels, the floor of `exampleFloor` right below Structure `1` of
`exampleTall`, and an obstacle right below Structure `0`: the grid of Structure `0`
collides with the terrain from height 1 on. -/
def exampleBlocked : Externals :=
  { exampleFree with
    map := some { pos := ⟨0, 0⟩,
                  CollidesWithMap := fun blocks offset =>
                    (blocks == 1 && decide (10 ≤ offset.y)) ||
                    (blocks == 0 && decide (1 ≤ offset.y)),
                  CollidesWithBox := fun _ => false } }

/-- A spatial index with the single entry `0`, which holds Structure `1` and is met by
every query; Structure `0` collides with that body when it is shifted one unit down, and
nothing else collides. -/
def exampleRestingTree : DynamicSolidTree where
  CollideAabb := fun _ visitor => visitor 0
  GetNodeUserData := fun _ => 1
  CalculateRect := fun _ => ⟨⟨0, 0⟩, ⟨4, 4⟩⟩
  solidBoxCollisionTest := fun _ _ => false
  solidShipBlocksCollisionTest := fun e ship offset =>
    e == 1 && ship == 0 && offset == (⟨0, 1⟩ : ivec2)

/-- Tiles of 4 pixels, no terrain, and the spatial index `exampleRestingTree`: Structure
`0` rests on Structure `1` and on nothing else. -/
def exampleResting : Externals :=
  { exampleFree with tree := some (fun _ _ => exampleRestingTree) }

/-- The locals of `ExtendOrRetract` in the world `exampleFlat` with the index of
`exampleResting` when extending with gravity tweaks: both sides are free to move, side A
rests on Structure `1` of side B only, and no side is grounded. -/
def exampleFlatRestingLocals : ExtendOrRetract.Locals :=
  { exampleFlatLocals with ground_a := false }

/-- The set `parts`, shifted by `offset`, meets no terrain, and every body of the spatial
index that it hits is a member of `parts` itself or of `other` (the entity ids of a side
of a piston include the piston).  `Intersects box node` says that the entry `node` of the
index intersects `box`. -/
def HitsOnlyMembers (g : Game) (map : Option MapObject) (tree : Option DynamicSolidTree)
    (Intersects : irect2 → Nat → Prop) (parts other : ConnectedShipParts)
    (offset : ivec2) : Prop :=
  (∀ m, map = some m →
    (∀ blocks ∈ parts.blocks, m.CollidesWithMap blocks (g.pos blocks + offset - m.pos) = false) ∧
    (∀ piston ∈ parts.pistons,
      m.CollidesWithBox (g.last_rect piston + offset - m.pos) = false)) ∧
  (∀ t, tree = some t → ∀ node,
    ((∃ blocks ∈ parts.blocks, Intersects (t.CalculateRect blocks + offset) node ∧
        t.solidShipBlocksCollisionTest (t.GetNodeUserData node) blocks offset = true) ∨
      (∃ piston ∈ parts.pistons, Intersects (g.last_rect piston + offset) node ∧
        t.solidBoxCollisionTest (t.GetNodeUserData node)
          (g.last_rect piston + offset) = true)) →
    t.GetNodeUserData node ∈ parts.entity_ids ∨ t.GetNodeUserData node ∈ other.entity_ids)

/-! ## Counting the calls of the traversal -/

/-- The result under construction of `FindConnectedShipParts` together with two counters
that the source does not keep: `calls`, the number of calls of the lambdas `HandleBlocks`
and `HandlePiston` entered so far, and `bodies`, the number of calls of `HandleBlocks`
that got past the test `ret.blocks.contains(&blocks)`. -/
structure Counted where
  ret : ConnectedShipParts
  calls : Nat
  bodies : Nat
deriving DecidableEq, Repr

/-- One more call of a lambda has been entered. -/
def Counted.call : Counted → Counted
  | ⟨ret, calls, bodies⟩ => ⟨ret, calls + 1, bodies⟩

/-- One more call of `HandleBlocks` got past the test of the visited set. -/
def Counted.body : Counted → Counted
  | ⟨ret, calls, bodies⟩ => ⟨ret, calls, bodies + 1⟩

/-- An assignment to `ret`; the counters stay. -/
def Counted.update (f : ConnectedShipParts → ConnectedShipParts) : Counted → Counted
  | ⟨ret, calls, bodies⟩ => ⟨f ret, calls, bodies⟩

section CountedTraversal

variable (g : Game) (half_skipped_piston : Option Id) (skip_piston_direction : Option Bool)

/-- The lambda `HandlePiston` of `FindConnectedShipParts` with the counters: the text of
`HandlePistonF`, and `calls` is incremented on entry. -/
def HandlePistonF_counted (HandleBlocks : Id → Option Id → Counted → Option Counted)
    (piston : Id) (prev_blocks : Option Id) (st : Counted) : Option Counted :=
  let st := st.call.update (fun ret =>
    { ret with pistons := ret.pistons.insert piston,
               entity_ids := ret.entity_ids.insert piston })
  let second (st : Counted) : Option Counted :=
    if prev_blocks.isSome || skip_piston_direction.isNone
        || skip_piston_direction != some true then
      let blocks := g.b piston
      if some blocks != prev_blocks then
        if prev_blocks.isSome && half_skipped_piston == some piston
            && skip_piston_direction == some false then
          some (st.update (fun ret => { ret with cant_skip_because_of_cycle := true }))
        else
          HandleBlocks blocks (some piston) st
      else some st
    else some st
  if prev_blocks.isSome || skip_piston_direction.isNone
      || skip_piston_direction != some false then
    let blocks := g.a piston
    if some blocks != prev_blocks then
      if prev_blocks.isSome && half_skipped_piston == some piston
          && skip_piston_direction == some true then
        some (st.update (fun ret => { ret with cant_skip_because_of_cycle := true }))
      else
        match HandleBlocks blocks (some piston) st with
        | none => none
        | some st => if st.ret.cant_skip_because_of_cycle then some st else second st
    else second st
  else second st

/-- The `for` loop of the lambda `HandleBlocks`, with the counters passed along. -/
def HandleBlocksLoop_counted (HandlePiston : Id → Option Id → Counted → Option Counted)
    (blocks : Id) (prev_piston : Option Id) : List Id → Counted → Option Counted
  | [], st => some st
  | elem :: rest, st =>
    if some elem == prev_piston then
      HandleBlocksLoop_counted HandlePiston blocks prev_piston rest st
    else
      match HandlePiston elem (some blocks) st with
      | none => none
      | some st =>
        if st.ret.cant_skip_because_of_cycle then some st
        else HandleBlocksLoop_counted HandlePiston blocks prev_piston rest st

/-- The lambda `HandleBlocks` with the counters: the text of `HandleBlocksF`, `calls` is
incremented on entry and `bodies` after the test of the visited set. -/
def HandleBlocksF_counted (HandlePiston : Id → Option Id → Counted → Option Counted)
    (blocks : Id) (prev_piston : Option Id) (st : Counted) : Option Counted :=
  let st := st.call
  if blocks ∈ st.ret.blocks then some st
  else
    let st := st.body.update (fun ret =>
      { ret with blocks := blocks :: ret.blocks,
                 entity_ids := ret.entity_ids.insert blocks })
    HandleBlocksLoop_counted HandlePiston blocks prev_piston (g.links blocks) st

/-- The recursion of the two counted lambdas, bounded like `HandleBlocks`. -/
def HandleBlocks_counted : Nat → Id → Option Id → Counted → Option Counted
  | 0 => fun _ _ _ => none
  | fuel + 1 =>
    HandleBlocksF_counted g
      (HandlePistonF_counted g half_skipped_piston skip_piston_direction
        (HandleBlocks_counted fuel))

/-- The counted lambda `HandlePiston` with its recursive calls bounded by `fuel`. -/
def HandlePiston_counted (fuel : Nat) : Id → Option Id → Counted → Option Counted :=
  HandlePistonF_counted g half_skipped_piston skip_piston_direction
    (HandleBlocks_counted g half_skipped_piston skip_piston_direction fuel)

end CountedTraversal

/-- Function `FindConnectedShipParts` with the counters, both zero before the starting
call. -/
def FindConnectedShipParts_counted (g : Game) (blocks_or_piston : BlocksOrPiston)
    (skip_piston_direction : Option Bool) : Option Counted :=
  let fuel := g.structures.length + 1
  match blocks_or_piston with
  | .blocks blocks =>
    if skip_piston_direction.isSome then none
    else HandleBlocks_counted g none skip_piston_direction fuel blocks none ⟨{}, 0, 0⟩
  | .piston piston =>
    let half_skipped_piston := if skip_piston_direction.isSome then some piston else none
    HandlePiston_counted g half_skipped_piston skip_piston_direction fuel piston none
      ⟨{}, 0, 0⟩

/-- The number of piston links of the Structures of a list: the sum of the lengths of
their `"pistons"` link lists. -/
def Game.link_count (g : Game) (l : List Id) : Nat := (l.map (fun s => (g.links s).length)).sum

/-- The counters of `st2` exceed those of `st1` by at most `k` calls beyond twice the
piston links of the Structures added in between, and by one body for each Structure
added; the Structures added exist. -/
def Counted.Within (g : Game) (k : Nat) (st1 st2 : Counted) : Prop :=
  st2.calls + 2 * g.link_count st1.ret.blocks ≤ st1.calls + k + 2 * g.link_count st2.ret.blocks ∧
  st2.bodies + st1.ret.blocks.length = st1.bodies + st2.ret.blocks.length ∧
  ∀ u ∈ st2.ret.blocks, u ∈ st1.ret.blocks ∨ u ∈ g.structures

/-- A counted call started on `st` tracks the uncounted call started on `st.ret`: both
run out of fuel, or both return and the counted one returns the same `ret` with counters
`Within` the allowance `k`. -/
def Counted.Tracks (g : Game) (k : Nat) (plain : Option ConnectedShipParts) (st : Counted)
    (counted : Option Counted) : Prop :=
  match counted with
  | none => plain = none
  | some st2 => plain = some st2.ret ∧ Counted.Within g k st st2

/-- Two Structures `0` and `1` joined by the three pistons `10`, `11` and `12`, each with
endpoint `a` on Structure `0` and endpoint `b` on Structure `1`. -/
def exampleTriple : Game :=
  { exampleLoop with
    structures := [0, 1]
    pistons := [10, 11, 12]
    links := fun s => match s with
      | 0 => [10, 11, 12]
      | 1 => [10, 11, 12]
      | _ => []
    a := fun _ => 0
    b := fun _ => 1 }

/-! ## Vocabulary for the endpoints of an excluded piston -/

/-- Conditions under which the nested calls of a traversal are issued, as far as the
current Structure is concerned: it exists, it is already recorded, and the piston or the
links at hand are among its `"pistons"` links. -/
def VisitPre (g : Game) : Call → ConnectedShipParts → Prop
  | .blocks v _, _ => v ∈ g.structures
  | .loop v _ l, r => v ∈ g.structures ∧ v ∈ r.blocks ∧ ∀ p ∈ l, p ∈ g.links v
  | .piston p v, r => v ∈ g.structures ∧ v ∈ r.blocks ∧ p ∈ g.links v
  | .side p v _, r => v ∈ g.structures ∧ v ∈ r.blocks ∧ p ∈ g.links v

/-! ## The ground tests of the actuation without the shortcut -/

/-- The collision test is monotone in its filter: a filter that rejects more entities
never creates a collision. -/
def CollideShipParts.FilterMonotone (g : Game) (map : Option MapObject)
    (tree : Option DynamicSolidTree) : Prop :=
  ∀ (parts : ConnectedShipParts) (offset : ivec2) (f f2 : Id → Bool),
    (∀ e, f2 e = true → f e = true) →
    CollideShipParts g parts offset map tree (some f2) = true →
    CollideShipParts g parts offset map tree (some f) = true

/-- The box query of the spatial index is monotone in its visitor: a visitor that
accepts fewer nodes never creates a hit. -/
def DynamicSolidTree.VisitorMonotone (t : DynamicSolidTree) : Prop :=
  ∀ (box : irect2) (v v2 : Nat → Bool), (∀ n, v2 n = true → v n = true) →
    t.CollideAabb box v2 = true → t.CollideAabb box v = true

/-- Reference version of `ExtendOrRetract.locals` that follows the words of the
specification: the two ground flags are always computed by `CollideShipParts` with the
gravity offset and the shared filter, never taken from `can_move_a` or `can_move_b`.
Everything else is the text of `ExtendOrRetract.locals`. -/
def ExtendOrRetract.locals_always_tested (env : Externals) (g : Game) (this : Id)
    (extend gravity_tweaks : Bool) : Option ExtendOrRetract.Locals :=
  match FindConnectedShipParts g (.piston this) (some true),
      FindConnectedShipParts g (.piston this) (some false) with
  | some parts_a, some parts_b =>
    let parts_a := { parts_a with pistons := parts_a.pistons.erase this }
    let parts_b := { parts_b with pistons := parts_b.pistons.erase this }
    let map := env.map
    let tree := env.tree.map (fun t => t g.pos g.last_rect)
    let offset_a := ivec2.axis (g.is_vertical this) (if extend then -1 else 1)
    let offset_b := ivec2.axis (g.is_vertical this) (if extend then 1 else -1)
    let can_move_a := !CollideShipParts g parts_a offset_a map tree
      (some parts_a.LambdaNoSuchEntityHere)
    let can_move_b := !CollideShipParts g parts_b offset_b map tree
      (some parts_b.LambdaNoSuchEntityHere)
    let gravity : ivec2 := ⟨0, 1⟩
    let lambda : Id → Bool := fun e =>
      parts_a.LambdaNoSuchEntityHere e && parts_b.LambdaNoSuchEntityHere e
    let ground_a :=
      if gravity_tweaks then CollideShipParts g parts_a gravity map tree (some lambda)
      else false
    let ground_b :=
      if gravity_tweaks then CollideShipParts g parts_b gravity map tree (some lambda)
      else false
    some { parts_a := parts_a, parts_b := parts_b, offset_a := offset_a,
           offset_b := offset_b, can_move_a := can_move_a, can_move_b := can_move_b,
           ground_a := ground_a, ground_b := ground_b }
  | _, _ => none

/-- The value of `move_b` when `MoveShipParts` is reached (source lines 117 to 122): the
decision of line 117, overridden by the condition of line 121. -/
def ExtendOrRetract.move_b (env : Externals) (g : Game) (this : Id) (extend : Bool)
    (l : ExtendOrRetract.Locals) : Bool :=
  let move_b := !l.can_move_a ||
    (l.can_move_b && (decide (l.ground_a > l.ground_b) ||
      (l.ground_a == l.ground_b && g.dir_flip_flop this)))
  if ExtendOrRetract.force_move_a env g this extend l then false else move_b

/-- Reference version of `ExtendOrRetract` over `ExtendOrRetract.locals_always_tested`;
everything else is the text of `ExtendOrRetract`. -/
def ExtendOrRetract_always_tested (env : Externals) (g : Game) (this : Id)
    (extend gravity_tweaks : Bool) : Option (ExtendRetractStatus × Game) :=
  let min_length := env.tile_size
  let current_length := ShipPartPiston.current_length g this
  if !extend && decide (current_length ≤ min_length) then
    some (.at_min_length, g)
  else
    match ExtendOrRetract.locals_always_tested env g this extend gravity_tweaks with
    | none => none
    | some l =>
      if !l.can_move_a && !l.can_move_b then
        some (.stuck, g)
      else
        let move_b := !l.can_move_a ||
          (l.can_move_b && (decide (l.ground_a > l.ground_b) ||
            (l.ground_a == l.ground_b && g.dir_flip_flop this)))
        let move_b := if ExtendOrRetract.force_move_a env g this extend l then false else move_b
        some (.ok, ExtendOrRetract.commit env g this l move_b)

/-! ## Distance from a point to a piston -/

/-- Modelled from the spec: the scalar `clamp_min(value, min)` of the math library, a
header that is not at hand; it is the larger of the two arguments, and `min` defaults to
zero. -/
def clamp_min (value : Int) (min : Int) : Int := if value < min then min else value

/-- Modelled from the spec: `clamp_var_min(var, min)` of the math library assigns
`clamp_min(var, min)` to `var`; the result is the new value of `var`. -/
def clamp_var_min (var : Int) (min : Int) : Int := clamp_min var min

/-- The type `int` of the platform: signed, 32 bits wide. -/
def int32 : IntType := ⟨true, 32⟩

/-- The result of an arithmetic operation of type `int` whose exact value is `v`: `v`
itself when it is representable, and the representable value congruent to `v` modulo
`2 ^ 32` otherwise, which is what the compiled two's complement arithmetic gives (the
language leaves the overflow of `int` undefined). -/
def int_wrap (v : Int) : Int := int32.cast v

/-- The sum of two `ivec2`, computed coordinate by coordinate in `int`. -/
def ivec2.add_int (u v : ivec2) : ivec2 := ⟨int_wrap (u.x + v.x), int_wrap (u.y + v.y)⟩

/-- Method `ShipPartPiston::DistanceToPoint`, with its arithmetic in `int`.  The constant
`ShipGrid::tile_size` is a parameter; `tile_size / 2` is the truncating division of the
language, and `abs` is the absolute value of an `int`. -/
def ShipPartPiston.DistanceToPoint (tile_size : Int) (g : Game) (this : Id) (point : ivec2) :
    Int :=
  let a := ivec2.add_int (ivec2.add_int (g.pos (g.a this)) (g.pos_relative_to_a this))
    (ivec2.axis (!g.is_vertical this) (Int.tdiv tile_size 2))
  let relative_pos := int_wrap (point.get (g.is_vertical this) - a.get (g.is_vertical this))
  let length := int_wrap (int_wrap ((g.pos (g.b this)).get (g.is_vertical this)
    + (g.pos_relative_to_b this).get (g.is_vertical this)) - a.get (g.is_vertical this))
  let ret := clamp_min
    (int_wrap (int_wrap |int_wrap (point.get (!g.is_vertical this)
      - a.get (!g.is_vertical this))| - Int.tdiv tile_size 2)) 0
  let ret := if relative_pos < 0 then clamp_var_min ret (int_wrap (-relative_pos)) else ret
  let ret :=
    if relative_pos > length then clamp_var_min ret (int_wrap (relative_pos - length)) else ret
  ret

/-- Position of a point along the axis of a piston, measured from corner A
(`A.pos + pos_relative_to_a`). -/
def ShipPartPiston.along (g : Game) (this : Id) (point : ivec2) : Int :=
  point.get (g.is_vertical this)
    - (g.pos (g.a this) + g.pos_relative_to_a this).get (g.is_vertical this)

/-- Position of a point across the axis of a piston, measured from its centre line, which
runs half a tile (`tile_size / 2`) beside corner A. -/
def ShipPartPiston.across (tile_size : Int) (g : Game) (this : Id) (point : ivec2) : Int :=
  point.get (!g.is_vertical this)
    - ((g.pos (g.a this) + g.pos_relative_to_a this).get (!g.is_vertical this)
      + Int.tdiv tile_size 2)

/-- No arithmetic operation of `DistanceToPoint` overflows `int`: the exact value of every
intermediate result is representable.  The results are, in the order of the source: the
two coordinates of `A.pos + pos_relative_to_a`, the coordinate of `a` across the axis
(the one along the axis has zero added), `relative_pos`, the sum for corner B and
`length`, the difference across the axis, its absolute value, the value given to
`clamp_min`, and the two values given to `clamp_var_min` where they are computed. -/
def ShipPartPiston.DistanceToPoint.NoOverflow (tile_size : Int) (g : Game) (this : Id)
    (point : ivec2) : Prop :=
  int32.InRange ((g.pos (g.a this)).get (g.is_vertical this)
    + (g.pos_relative_to_a this).get (g.is_vertical this)) ∧
  int32.InRange ((g.pos (g.a this)).get (!g.is_vertical this)
    + (g.pos_relative_to_a this).get (!g.is_vertical this)) ∧
  int32.InRange ((g.pos (g.a this)).get (!g.is_vertical this)
    + (g.pos_relative_to_a this).get (!g.is_vertical this) + Int.tdiv tile_size 2) ∧
  int32.InRange (ShipPartPiston.along g this point) ∧
  int32.InRange ((g.pos (g.b this)).get (g.is_vertical this)
    + (g.pos_relative_to_b this).get (g.is_vertical this)) ∧
  int32.InRange (ShipPartPiston.current_length g this) ∧
  int32.InRange (ShipPartPiston.across tile_size g this point) ∧
  int32.InRange |ShipPartPiston.across tile_size g this point| ∧
  int32.InRange (|ShipPartPiston.across tile_size g this point| - Int.tdiv tile_size 2) ∧
  (ShipPartPiston.along g this point < 0 →
    int32.InRange (-ShipPartPiston.along g this point)) ∧
  (ShipPartPiston.along g this point > ShipPartPiston.current_length g this →
    int32.InRange (ShipPartPiston.along g this point - ShipPartPiston.current_length g this))

instance (tile_size : Int) (g : Game) (this : Id) (point : ivec2) :
    Decidable (ShipPartPiston.DistanceToPoint.NoOverflow tile_size g this point) := by
  unfold ShipPartPiston.DistanceToPoint.NoOverflow; infer_instance

/-! ## Buffered output stream (`utils/output_stream.h`) -/

namespace Stream

/-- A value of `std::uint8_t`. -/
abbrev Byte := Fin 256

/-- The difference `a - b` of two `std::size_t` values: the exact difference when `b ≤ a`,
the difference wrapped modulo `2 ^ 64` otherwise. -/
def size_sub (a b : Nat) : Nat :=
  if b ≤ a then a - b else (a + 2 ^ 64 - b) % 2 ^ 64

/-- The effect of `std::copy_n(src, n, dst + pos)`: the first `n` bytes of `src` replace
the bytes `pos .. pos + n` of the array `dst`; reading or writing outside of the arrays is
`none`. -/
def copy_n (src : List Byte) (n : Nat) (dst : List Byte) (pos : Nat) : Option (List Byte) :=
  if n ≤ src.length ∧ pos + n ≤ dst.length then
    some (dst.take pos ++ src.take n ++ dst.drop (pos + n))
  else none

/-- The members `buffer`, `buffer_pos` and `buffer_capacity` of `Output::Data`, with the
byte ranges that have been handed to the callback `flush`, in call order, in place of the
callback. -/
structure Output where
  buffer : List Byte
  buffer_pos : Nat
  buffer_capacity : Nat
  flushed : List (List Byte)
  deriving DecidableEq, Repr

/-- The constructor `Output(name, flush, capacity)`: `std::make_unique<std::uint8_t[]>`
makes an array of `capacity` zero bytes. -/
def Output.create (capacity : Nat) : Output :=
  { buffer := List.replicate capacity 0
    buffer_pos := 0
    buffer_capacity := capacity
    flushed := [] }

/-- The call `data.flush(*this, ptr, size)` of the callback with the range `range`. -/
def Output.flush (s : Output) (range : List Byte) : Output :=
  match s with
  | ⟨buffer, buffer_pos, buffer_capacity, flushed⟩ =>
    ⟨buffer, buffer_pos, buffer_capacity, flushed ++ [range]⟩

/-- The assignment `data.buffer_pos = pos`. -/
def Output.set_pos (s : Output) (pos : Nat) : Output :=
  match s with
  | ⟨buffer, _, buffer_capacity, flushed⟩ => ⟨buffer, pos, buffer_capacity, flushed⟩

/-- The assignment of the array `data.buffer`. -/
def Output.set_buffer (s : Output) (buffer : List Byte) : Output :=
  match s with
  | ⟨_, buffer_pos, buffer_capacity, flushed⟩ => ⟨buffer, buffer_pos, buffer_capacity, flushed⟩

/-- The method `Output::Flush`. -/
def Output.Flush (s : Output) : Output :=
  if s.buffer_pos > 0 then
    (s.flush (s.buffer.take s.buffer_pos)).set_pos 0
  else s

/-- The method `Output::NeedBufferSpace`. -/
def Output.NeedBufferSpace (s : Output) : Output :=
  if s.buffer_pos = s.buffer_capacity then s.Flush else s

/-- The method `Output::WriteByte(byte)`; a store outside of the array is `none`. -/
def Output.WriteByte (s : Output) (byte : Byte) : Option Output :=
  let s := s.NeedBufferSpace
  if s.buffer_pos < s.buffer.length then
    some ((s.set_buffer (s.buffer.set s.buffer_pos byte)).set_pos (s.buffer_pos + 1))
  else none

/-- The method `Output::WriteBytes(ptr, size)`, the range `ptr .. ptr + size` given as the
list `bytes`. -/
def Output.WriteBytes (s : Output) (bytes : List Byte) : Option Output :=
  let segment_size := min (size_sub s.buffer_capacity s.buffer_pos) bytes.length
  match copy_n bytes segment_size s.buffer s.buffer_pos with
  | none => none
  | some buffer =>
    let s := s.set_buffer buffer
    let s := s.set_pos (s.buffer_pos + segment_size)
    let ptr := bytes.drop segment_size
    let size := bytes.length - segment_size
    if size > 0 then
      let s := s.Flush
      some (s.flush ptr)
    else some s

/-- A call of one of the two writing methods. -/
inductive WriteCall where
  | WriteByte (byte : Byte)
  | WriteBytes (bytes : List Byte)
  deriving DecidableEq, Repr

/-- The bytes a call writes. -/
def WriteCall.written : WriteCall → List Byte
  | .WriteByte byte => [byte]
  | .WriteBytes bytes => bytes

/-- One call on a stream. -/
def Output.call (s : Output) : WriteCall → Option Output
  | .WriteByte byte => s.WriteByte byte
  | .WriteBytes bytes => s.WriteBytes bytes

/-- A sequence of calls on a stream, in order. -/
def Output.run (s : Output) : List WriteCall → Option Output
  | [] => some s
  | c :: calls =>
    match s.call c with
    | none => none
    | some s => s.run calls

/-- The bytes a sequence of calls writes, in write order. -/
def written (calls : List WriteCall) : List Byte :=
  (calls.map WriteCall.written).flatten

/-- The state of a stream agrees with the bytes `w` written so far: the array has
`buffer_capacity` bytes, `buffer_pos` is within the array, the ranges handed to the
callback followed by the buffered bytes are `w`, and no range is empty. -/
structure Output.Holds (s : Output) (w : List Byte) : Prop where
  length : s.buffer.length = s.buffer_capacity
  pos : s.buffer_pos ≤ s.buffer_capacity
  data : s.flushed.flatten ++ s.buffer.take s.buffer_pos = w
  nonempty : ∀ r ∈ s.flushed, r ≠ []

end Stream

/-! ## Structure decomposition -/

instance : HMul ivec2 Int ivec2 := ⟨fun v n => ⟨v.x * n, v.y * n⟩⟩

/-- Modelled from the spec: the tile enumeration `ShipGrid::Tile` is declared in `ship.h`,
a header that is not at hand; a tile is "classified into exactly one of empty,
solid-attachable, solid-non-attachable, piston-track-horizontal, piston-track-vertical". -/
inductive ShipGrid.Tile where
  | air
  | attachable
  | non_attachable
  | piston_h
  | piston_v
deriving DecidableEq, Repr

/-- Modelled from the spec: the enumeration `ShipGrid::PistonRelation` of `ship.h`, the
class of a tile with respect to pistons. -/
inductive ShipGrid.PistonRelation where
  | empty
  | solid_attachable
  | solid_non_attachable
  | track
deriving DecidableEq, Repr

/-- Modelled from the spec: `ShipGrid::GetTileInfo(tile).piston`, the class of a tile. -/
def ShipGrid.GetTileInfo : ShipGrid.Tile → ShipGrid.PistonRelation
  | .air => .empty
  | .attachable => .solid_attachable
  | .non_attachable => .solid_non_attachable
  | .piston_h => .track
  | .piston_v => .track

/-- A cell of a ship grid: its tile and the rest of its contents. -/
structure ShipGrid.Cell where
  tile : ShipGrid.Tile
  contents : Nat
deriving DecidableEq, Repr

instance : Inhabited ShipGrid.Cell := ⟨⟨.air, 0⟩⟩

/-- Modelled from the spec: the container `Array2D` of the multi-array library, a "2D
array of Tile, origin-relative, resizable with an origin-shift delta".  `data` is only
read inside the bounds. -/
structure Array2D (α : Type) where
  size : ivec2
  data : ivec2 → α

/-- Modelled from the spec: the test `bounds().contains(p)` of the multi-array library;
the bounds of a grid are the rectangle from the origin to `size`. -/
def Array2D.contains {α : Type} (arr : Array2D α) (p : ivec2) : Bool :=
  decide (0 ≤ p.x) && decide (p.x < arr.size.x) && decide (0 ≤ p.y) && decide (p.y < arr.size.y)

/-- Modelled from the spec: the access `safe_nonthrowing_at(p)` of the multi-array
library, for reading; outside the bounds it gives a default element. -/
def Array2D.safe_nonthrowing_at {α : Type} [Inhabited α] (arr : Array2D α) (p : ivec2) : α :=
  if arr.contains p then arr.data p else default

/-- Modelled from the spec: the assignment `safe_nonthrowing_at(p) = v` of the multi-array
library; outside the bounds nothing is stored. -/
def Array2D.assign {α : Type} (arr : Array2D α) (p : ivec2) (v : α) : Array2D α :=
  if arr.contains p then { arr with data := Function.update arr.data p v } else arr

/-- Modelled from the spec: the size `bounds().combine(p).size()` (math library) of the
smallest rectangle that contains the bounds and the point `p`, by which the grid
"auto-grows". -/
def Array2D.combine_size {α : Type} (arr : Array2D α) (p : ivec2) : ivec2 :=
  ⟨max arr.size.x (p.x + 1) - min 0 p.x, max arr.size.y (p.y + 1) - min 0 p.y⟩

/-- Modelled from the spec: the call `resize(new_size, offset)` of the multi-array
library, "resizable with an origin-shift delta": the old contents reappear shifted by
`offset`, new elements are default. -/
def Array2D.resize {α : Type} [Inhabited α] (arr : Array2D α) (new_size offset : ivec2) :
    Array2D α :=
  { size := new_size
    data := fun p => if arr.contains (p - offset) then arr.data (p - offset) else default }

/-- Modelled from the spec: the componentwise `clamp_max(v, m)` of the math library. -/
def clamp_max (v : ivec2) (m : Int) : ivec2 := ⟨min v.x m, min v.y m⟩

/-- Modelled from the spec: the positions enumerated by `vector_range(size)` of the math
library, row by row. -/
def vector_range (size : ivec2) : List ivec2 :=
  (List.range size.y.toNat).flatMap (fun (y : Nat) =>
    (List.range size.x.toNat).map (fun (x : Nat) => (⟨(x : Int), (y : Int)⟩ : ivec2)))

/-- Modelled from the spec: the four directions `ivec2::dir4(i)` of the math library, the
steps of "4-connectivity". -/
def ivec2.dir4 (i : Nat) : ivec2 :=
  match i % 4 with
  | 0 => ⟨1, 0⟩
  | 1 => ⟨0, 1⟩
  | 2 => ⟨-1, 0⟩
  | _ => ⟨0, -1⟩

/-- The input of the decomposition: the position and the grid `map.cells` of the
Structure `self`. -/
structure ShipPartBlocks where
  pos : ivec2
  cells : Array2D ShipGrid.Cell

/-- The local struct `QueuedPiston`.  `block_a` and `block_b` point to new Structures,
represented by their index in the order of creation; `block_b = none` is the null
pointer. -/
structure QueuedPiston where
  is_vertical : Bool
  block_a : Nat
  abs_pixel_pos_a : ivec2
  block_b : Option Nat
  abs_pixel_pos_b : ivec2
deriving DecidableEq, Repr

/-- Ways in which the decomposition does not return normally: the two fatal assertions,
and the exhaustion of the recursion bound of the embedding. -/
inductive Fault where
  | visiting_same_piston_twice
  | unfinished_piston
  | out_of_fuel
deriving DecidableEq, Repr

/-- The state that the recursive lambda of the flood fill reads and writes: the array
`visited` (as the list of flagged positions), the multimap `queued_pistons` (as the list
of its key and value pairs), and the grid and tile offset of the Structure being built. -/
structure FillState where
  visited : List ivec2
  queued_pistons : List (ivec2 × QueuedPiston)
  cells : Array2D ShipGrid.Cell
  new_part_tile_offset : ivec2

section Decompose

/-! The constant `ShipGrid::tile_size` is declared in `ship.h`, a header that is not at
hand: it is a parameter of the definitions below.  `self` is the Structure that is
decomposed. -/

variable (tile_size : Int) (self : ShipPartBlocks)

/-- The lambda `IsRegularTile`. -/
def IsRegularTile (tile : ShipGrid.Tile) : Bool :=
  let piston := ShipGrid.GetTileInfo tile
  piston == .solid_attachable || piston == .solid_non_attachable

/-- The body of the loop "handle pistons arriving here" after its assertion: an entry of
the Structure being built is skipped; any other entry gets its end `b`, and its ends are
swapped and moved by one tile if they are out of order. -/
def arriving_one (new_part : Nat) (abs_tile_pos : ivec2) (elem : QueuedPiston) : QueuedPiston :=
  if elem.block_a = new_part then elem
  else
    let elem := { elem with block_b := some new_part,
                            abs_pixel_pos_b := abs_tile_pos * tile_size + self.pos }
    if elem.abs_pixel_pos_a.get elem.is_vertical
        > elem.abs_pixel_pos_b.get elem.is_vertical then
      { elem with
        block_a := new_part
        block_b := some elem.block_a
        abs_pixel_pos_a := elem.abs_pixel_pos_b + ivec2.axis elem.is_vertical tile_size
        abs_pixel_pos_b := elem.abs_pixel_pos_a + ivec2.axis elem.is_vertical tile_size }
    else elem

/-- The loop "handle pistons arriving here" over the entries queued for `abs_tile_pos`;
`new_part` is the index of the Structure being built. -/
def arriving (new_part : Nat) (abs_tile_pos : ivec2) :
    List (ivec2 × QueuedPiston) → Except Fault (List (ivec2 × QueuedPiston))
  | [] => .ok []
  | (key, elem) :: rest =>
    if key = abs_tile_pos then
      if elem.block_b.isSome then .error .visiting_same_piston_twice
      else
        match arriving new_part abs_tile_pos rest with
        | .error e => .error e
        | .ok rest => .ok ((key, arriving_one tile_size self new_part abs_tile_pos elem) :: rest)
    else
      match arriving new_part abs_tile_pos rest with
      | .error e => .error e
      | .ok rest => .ok ((key, elem) :: rest)

/-- The `while (true)` loop that follows a piston track from `piston_tile_pos`; the
first argument bounds the number of iterations, `none` means the bound was too small. -/
def probe (piston_tile_type : ShipGrid.Tile) (step : ivec2) : Nat → ivec2 → Option ivec2
  | 0, _ => none
  | fuel + 1, piston_tile_pos =>
    let new_pos := piston_tile_pos + step
    if !self.cells.contains new_pos
        || (self.cells.safe_nonthrowing_at new_pos).tile != piston_tile_type then
      some piston_tile_pos
    else probe piston_tile_type step fuel new_pos

/-- The body of the two nested `for` loops of "handle pistons starting here" for one
pair of `is_vertical` and `is_backward`. -/
def starting_one (new_part : Nat) (abs_tile_pos : ivec2) (visited : List ivec2)
    (is_vertical is_backward : Bool) (queued_pistons : List (ivec2 × QueuedPiston)) :
    Except Fault (List (ivec2 × QueuedPiston)) :=
  let piston_tile_type := if is_vertical then ShipGrid.Tile.piston_v else ShipGrid.Tile.piston_h
  let step := ivec2.axis is_vertical (if is_backward then -1 else 1)
  match probe self piston_tile_type step
      ((self.cells.size.x + self.cells.size.y).toNat + 1) abs_tile_pos with
  | none => .error .out_of_fuel
  | some piston_tile_pos =>
    if piston_tile_pos ≠ abs_tile_pos then
      let end_tile_pos := piston_tile_pos + step
      if self.cells.contains end_tile_pos
          && ShipGrid.GetTileInfo (self.cells.safe_nonthrowing_at end_tile_pos).tile
            == .solid_attachable
          && !(visited.contains end_tile_pos) then
        .ok (queued_pistons ++ [(end_tile_pos,
          { is_vertical := is_vertical
            block_a := new_part
            abs_pixel_pos_a := (abs_tile_pos + step) * tile_size + self.pos
            block_b := none
            abs_pixel_pos_b := ⟨0, 0⟩ })])
      else .ok queued_pistons
    else .ok queued_pistons

/-- The block "handle pistons starting here": the four probes of an attachable tile, in
the order of the two nested `for` loops. -/
def starting (new_part : Nat) (abs_tile_pos : ivec2) (visited : List ivec2)
    (this_tile : ShipGrid.Tile) (queued_pistons : List (ivec2 × QueuedPiston)) :
    Except Fault (List (ivec2 × QueuedPiston)) :=
  if ShipGrid.GetTileInfo this_tile == .solid_attachable then
    (starting_one tile_size self new_part abs_tile_pos visited false false queued_pistons).bind
      fun q => (starting_one tile_size self new_part abs_tile_pos visited false true q).bind
      fun q => (starting_one tile_size self new_part abs_tile_pos visited true false q).bind
      fun q => starting_one tile_size self new_part abs_tile_pos visited true true q
  else .ok queued_pistons

/-- Source lines 219 to 229: compute the relative position of the tile, grow the new
grid with an origin shift if the position is outside its bounds, and copy the cell.  The
result is the new grid and the new value of `new_part_tile_offset`. -/
def grow_and_copy (abs_tile_pos : ivec2) (cells : Array2D ShipGrid.Cell)
    (new_part_tile_offset : ivec2) : Array2D ShipGrid.Cell × ivec2 :=
  let rel_tile_pos := abs_tile_pos - new_part_tile_offset
  if !cells.contains rel_tile_pos then
    let delta := clamp_max rel_tile_pos 0
    let cells := cells.resize (cells.combine_size rel_tile_pos) (-delta)
    let new_part_tile_offset := new_part_tile_offset + delta
    let rel_tile_pos := rel_tile_pos - delta
    (cells.assign rel_tile_pos (self.cells.safe_nonthrowing_at abs_tile_pos),
      new_part_tile_offset)
  else
    (cells.assign rel_tile_pos (self.cells.safe_nonthrowing_at abs_tile_pos),
      new_part_tile_offset)

/-- The part of the recursive lambda between the visit guard and the recursive calls:
mark the tile, grow the new grid if needed, copy the cell, resolve the pistons arriving
here and queue the pistons starting here. -/
def visit (new_part : Nat) (abs_tile_pos : ivec2) (st : FillState) : Except Fault FillState :=
  let this_tile := (self.cells.safe_nonthrowing_at abs_tile_pos).tile
  let visited := abs_tile_pos :: st.visited
  let grown := grow_and_copy self abs_tile_pos st.cells st.new_part_tile_offset
  match arriving tile_size self new_part abs_tile_pos st.queued_pistons with
  | .error e => .error e
  | .ok queued_pistons =>
    match starting tile_size self new_part abs_tile_pos visited this_tile queued_pistons with
    | .error e => .error e
    | .ok queued_pistons =>
      .ok { visited := visited, queued_pistons := queued_pistons, cells := grown.1,
            new_part_tile_offset := grown.2 }

/-- The recursive lambda of the flood fill, open in its recursive call. -/
def fillF (new_part : Nat) (lambda : ivec2 → FillState → Except Fault FillState)
    (abs_tile_pos : ivec2) (st : FillState) : Except Fault FillState :=
  if !self.cells.contains abs_tile_pos then .ok st
  else if !IsRegularTile (self.cells.safe_nonthrowing_at abs_tile_pos).tile then .ok st
  else if st.visited.contains abs_tile_pos then .ok st
  else
    (visit tile_size self new_part abs_tile_pos st).bind
      fun st => (lambda (abs_tile_pos + ivec2.dir4 0) st).bind
      fun st => (lambda (abs_tile_pos + ivec2.dir4 1) st).bind
      fun st => (lambda (abs_tile_pos + ivec2.dir4 2) st).bind
      fun st => lambda (abs_tile_pos + ivec2.dir4 3) st

/-- The recursive lambda with its nesting depth bounded by the first argument. -/
def fill (new_part : Nat) : Nat → ivec2 → FillState → Except Fault FillState
  | 0 => fun _ _ => .error .out_of_fuel
  | fuel + 1 => fillF tile_size self new_part (fill new_part fuel)

/-- A Structure created by the decomposition: its grid and position;
`tile_offset` records the final value of the local `new_part_tile_offset`, from which the
position is computed. -/
structure NewPart where
  cells : Array2D ShipGrid.Cell
  tile_offset : ivec2
  pos : ivec2

/-- State of the outer loop of the decomposition. -/
structure DecomposeState where
  visited : List ivec2
  queued_pistons : List (ivec2 × QueuedPiston)
  parts : List NewPart

/-- The loop over `vector_range(self.map.cells.size())`: every unvisited regular tile
starts a flood fill that builds one new Structure. -/
def fill_loop : List ivec2 → DecomposeState → Except Fault DecomposeState
  | [], s => .ok s
  | tile_pos :: rest, s =>
    if IsRegularTile (self.cells.safe_nonthrowing_at tile_pos).tile
        && !(s.visited.contains tile_pos) then
      match fill tile_size self s.parts.length
          ((self.cells.size.x * self.cells.size.y).toNat + 1) tile_pos
          { visited := s.visited, queued_pistons := s.queued_pistons,
            cells := { size := ⟨0, 0⟩, data := fun _ => default },
            new_part_tile_offset := tile_pos } with
      | .error e => .error e
      | .ok st =>
        fill_loop rest
          { visited := st.visited, queued_pistons := st.queued_pistons,
            parts := s.parts ++ [{ cells := st.cells, tile_offset := st.new_part_tile_offset,
                                   pos := self.pos + st.new_part_tile_offset * tile_size }] }
    else fill_loop rest s

/-- A piston created by the decomposition: the indices of the Structures linked as `"a"`
and `"b"` and the data members set at creation. -/
structure NewPiston where
  a : Nat
  b : Nat
  is_vertical : Bool
  pos_relative_to_a : ivec2
  pos_relative_to_b : ivec2
deriving DecidableEq, Repr

/-- The loop "add the pistons" over the queued entries. -/
def add_pistons (parts : List NewPart) : List (ivec2 × QueuedPiston) → Except Fault (List NewPiston)
  | [] => .ok []
  | (_, elem) :: rest =>
    match elem.block_b with
    | none => .error .unfinished_piston
    | some block_b =>
      match add_pistons parts rest with
      | .error e => .error e
      | .ok pistons =>
        .ok ({ a := elem.block_a
               b := block_b
               is_vertical := elem.is_vertical
               pos_relative_to_a := elem.abs_pixel_pos_a
                 - ((parts.get? elem.block_a).map NewPart.pos).getD ⟨0, 0⟩
               pos_relative_to_b := elem.abs_pixel_pos_b
                 - ((parts.get? block_b).map NewPart.pos).getD ⟨0, 0⟩ } :: pistons)

/-- Function `DecomposeToComponentsAndDelete`: the Structures and pistons that replace
`self`, or the fatal assertion that stops it. -/
def DecomposeToComponentsAndDelete : Except Fault (List NewPart × List NewPiston) :=
  match fill_loop tile_size self (vector_range self.cells.size)
      { visited := [], queued_pistons := [], parts := [] } with
  | .error e => .error e
  | .ok s =>
    match add_pistons s.parts s.queued_pistons with
    | .error e => .error e
    | .ok pistons => .ok (s.parts, pistons)

end Decompose

/-- Big-step description of the recursive lambda of the flood fill that builds the new
Structure with index `new_part`: `FillRun tile_size self new_part abs st st'` says that
the call on `abs` turns the state `st` into `st'`. -/
inductive FillRun (tile_size : Int) (self : ShipPartBlocks) (new_part : Nat) :
    ivec2 → FillState → FillState → Prop where
  | skip {abs st} :
      (self.cells.contains abs = false ∨
        IsRegularTile (self.cells.safe_nonthrowing_at abs).tile = false ∨ abs ∈ st.visited) →
      FillRun tile_size self new_part abs st st
  | visit {abs st st0 st1 st2 st3 st4} :
      self.cells.contains abs = true →
      IsRegularTile (self.cells.safe_nonthrowing_at abs).tile = true →
      abs ∉ st.visited →
      visit tile_size self new_part abs st = .ok st0 →
      FillRun tile_size self new_part (abs + ivec2.dir4 0) st0 st1 →
      FillRun tile_size self new_part (abs + ivec2.dir4 1) st1 st2 →
      FillRun tile_size self new_part (abs + ivec2.dir4 2) st2 st3 →
      FillRun tile_size self new_part (abs + ivec2.dir4 3) st3 st4 →
      FillRun tile_size self new_part abs st st4

/-! ## Connectivity of tiles and the tiles of a new Structure -/

/-- A solid tile of the grid of `self`: a position whose tile is regular (attachable or
non-attachable).  Positions outside the grid read as empty and are not solid. -/
def ShipPartBlocks.Solid (self : ShipPartBlocks) (t : ivec2) : Prop :=
  IsRegularTile (self.cells.safe_nonthrowing_at t).tile = true

instance (self : ShipPartBlocks) (t : ivec2) : Decidable (self.Solid t) := by
  unfold ShipPartBlocks.Solid; infer_instance

/-- Two solid tiles of `self` that are 4-adjacent. -/
def ShipPartBlocks.Link (self : ShipPartBlocks) (t u : ivec2) : Prop :=
  self.Solid t ∧ self.Solid u ∧ ∃ i : Nat, u = t + ivec2.dir4 i

/-- Two tiles joined by a path of 4-adjacent solid tiles of `self`. -/
def ShipPartBlocks.Joined (self : ShipPartBlocks) : ivec2 → ivec2 → Prop :=
  Relation.ReflTransGen self.Link

/-- A 4-connected component of solid tiles of `self`. -/
def ShipPartBlocks.IsComponent (self : ShipPartBlocks) (C : Set ivec2) : Prop :=
  ∃ t, self.Solid t ∧ C = {u | self.Joined t u}

/-- The cell that the new Structure has at the place of the tile `t` of the original
grid: since `pos = self.pos + tile_offset * tile_size`, the local position
`t - tile_offset` of the new grid lies where the tile `t` of the original was. -/
def NewPart.at_original (P : NewPart) (t : ivec2) : ShipGrid.Cell :=
  P.cells.safe_nonthrowing_at (t - P.tile_offset)

/-- The new Structure has a solid tile at the place of the tile `t` of the original. -/
def NewPart.Holds (P : NewPart) (t : ivec2) : Prop :=
  IsRegularTile (P.at_original t).tile = true

instance (P : NewPart) (t : ivec2) : Decidable (P.Holds t) := by
  unfold NewPart.Holds; infer_instance

/-- Two tiles joined by a path of 4-adjacent solid tiles of `self` that the new Structure
`P` holds. -/
def NewPart.JoinedIn (self : ShipPartBlocks) (P : NewPart) : ivec2 → ivec2 → Prop :=
  Relation.ReflTransGen (fun t u => self.Link t u ∧ P.Holds t ∧ P.Holds u)

/-- The number of solid tiles of a grid. -/
def solid_count (cells : Array2D ShipGrid.Cell) : Nat :=
  ((vector_range cells.size).filter
    (fun p => IsRegularTile (cells.safe_nonthrowing_at p).tile)).length

/-- A grid without piston tracks. -/
def ShipPartBlocks.NoTracks (self : ShipPartBlocks) : Prop :=
  ∀ p, ShipGrid.GetTileInfo (self.cells.safe_nonthrowing_at p).tile ≠ .track

/-- The grid given by its rows of tiles; the contents of the cell at `(x, y)` is the
number `x + 10 * y`. -/
def gridOf (rows : List (List ShipGrid.Tile)) : Array2D ShipGrid.Cell :=
  { size := ⟨(rows.headD []).length, rows.length⟩
    data := fun p =>
      ⟨(((rows.get? p.y.toNat).getD []).get? p.x.toNat).getD .air, (p.x + 10 * p.y).toNat⟩ }

/-- A Structure in the shape of a U: two attachable tiles joined by a horizontal track
on the first row and by solid tiles on the second row. -/
def exampleU : ShipPartBlocks :=
  ⟨⟨100, 200⟩, gridOf [[.attachable, .piston_h, .piston_h, .attachable],
    [.non_attachable, .non_attachable, .non_attachable, .non_attachable]]⟩

/-- A Structure whose two halves are joined by a horizontal track only. -/
def exampleTwo : ShipPartBlocks :=
  ⟨⟨100, 200⟩, gridOf [[.attachable, .piston_h, .piston_h, .attachable],
    [.non_attachable, .air, .non_attachable, .non_attachable]]⟩

/-- A Structure without tracks and with two components of solid tiles. -/
def exampleIslands : ShipPartBlocks :=
  ⟨⟨100, 200⟩, gridOf [[.air, .attachable, .air, .attachable],
    [.non_attachable, .non_attachable, .air, .air]]⟩

/-! ## Invariants of the decomposition -/

/-- Queue invariant: an entry queued for a tile that is not visited yet is unfinished. -/
def QueueOpen (visited : List ivec2) (q : List (ivec2 × QueuedPiston)) : Prop :=
  ∀ e ∈ q, e.1 ∉ visited → e.2.block_b = none

/-- What "handle pistons starting here" pushes for the tile `abs` and the axis `iv`: an
unfinished entry of the Structure being built, keyed by an unvisited tile `j + 1` steps
away along the axis, with at least one track tile in between. -/
def Pushed (tile_size : Int) (self : ShipPartBlocks) (new_part : Nat) (abs : ivec2)
    (visited : List ivec2) (e : ivec2 × QueuedPiston) : Prop :=
  e.1 ∉ visited ∧ e.2.block_b = none ∧ e.2.block_a = new_part ∧
    ∃ (σ : Int) (j : Nat), (σ = 1 ∨ σ = -1) ∧ 1 ≤ j ∧
      e.1 = abs + ivec2.axis e.2.is_vertical σ * ((j : Int) + 1) ∧
      e.2.abs_pixel_pos_a = (abs + ivec2.axis e.2.is_vertical σ) * tile_size + self.pos

/-- Queue invariant: the Structures of an entry have an index below `bound`; an
unfinished entry starts on the line of its key tile, off the key tile; a finished entry
links two different Structures and its corners are ordered. -/
def EntryGood (tile_size : Int) (self : ShipPartBlocks) (bound : Nat)
    (e : ivec2 × QueuedPiston) : Prop :=
  e.2.block_a < bound ∧
  match e.2.block_b with
  | none =>
    e.2.abs_pixel_pos_a.get e.2.is_vertical ≠ (e.1 * tile_size + self.pos).get e.2.is_vertical ∧
    e.2.abs_pixel_pos_a.get (!e.2.is_vertical)
      = (e.1 * tile_size + self.pos).get (!e.2.is_vertical)
  | some b =>
    b < bound ∧ e.2.block_a ≠ b ∧
    e.2.abs_pixel_pos_a.get e.2.is_vertical < e.2.abs_pixel_pos_b.get e.2.is_vertical ∧
    e.2.abs_pixel_pos_a.get (!e.2.is_vertical) = e.2.abs_pixel_pos_b.get (!e.2.is_vertical)

/-- State invariant of the flood fill that builds one new Structure and started with
the visited tiles `visited0`: visited tiles are solid and listed once, the new grid
holds exactly the cells of the tiles visited by this fill, and the queue is open. -/
structure FillInv (original : ShipPartBlocks) (visited0 : List ivec2) (st : FillState) :
    Prop where
  solid : ∀ t ∈ st.visited, original.Solid t
  nodup : st.visited.Nodup
  old : ∀ t ∈ visited0, t ∈ st.visited
  view : ∀ t, st.cells.safe_nonthrowing_at (t - st.new_part_tile_offset) =
    if t ∈ st.visited ∧ t ∉ visited0 then original.cells.safe_nonthrowing_at t else default
  queue : QueueOpen st.visited st.queued_pistons

/-- The solid tiles of `self` that are not in the list `visited`. -/
def unvisited_tiles (self : ShipPartBlocks) (visited : List ivec2) : Finset ivec2 :=
  (vector_range self.cells.size).toFinset.filter (fun p => self.Solid p ∧ p ∉ visited)

/-- Queue invariant: the Structures of an entry have an index below `bound`, and a
finished entry links two different Structures. -/
def EntryLinked (bound : Nat) (e : ivec2 × QueuedPiston) : Prop :=
  e.2.block_a < bound ∧ ∀ b, e.2.block_b = some b → b < bound ∧ e.2.block_a ≠ b

/-- Invariant of the outer loop of the decomposition: the visited tiles are solid,
listed once and closed under adjacency; they are the tiles held by the Structures built
so far; each Structure holds one 4-connected component, as a copy; two Structures hold
no common tile. -/
structure OuterInv (tile_size : Int) (original : ShipPartBlocks) (s : DecomposeState) :
    Prop where
  solid : ∀ t ∈ s.visited, original.Solid t
  nodup : s.visited.Nodup
  closed : ∀ t ∈ s.visited, ∀ i, original.Solid (t + ivec2.dir4 i) →
    t + ivec2.dir4 i ∈ s.visited
  queue : QueueOpen s.visited s.queued_pistons
  cover : ∀ t, t ∈ s.visited ↔ ∃ P ∈ s.parts, P.Holds t
  component : ∀ P ∈ s.parts, ∃ seed, original.Solid seed ∧
    ∀ t, P.Holds t ↔ original.Joined seed t
  copy : ∀ P ∈ s.parts, ∀ t, P.Holds t →
    P.at_original t = original.cells.safe_nonthrowing_at t
  disjoint : s.parts.Pairwise (fun P Q => ∀ t, P.Holds t → ¬ Q.Holds t)
  count : (s.parts.map (fun P => solid_count P.cells)).sum = s.visited.length
  pos : ∀ P ∈ s.parts, P.pos = original.pos + P.tile_offset * tile_size

/-- A Structure whose horizontal track is reached from its right end first: the scan
starts the first flood fill on the top right tile. -/
def exampleSwap : ShipPartBlocks :=
  ⟨⟨100, 200⟩, gridOf [[.air, .air, .non_attachable],
    [.attachable, .piston_h, .attachable]]⟩

/-! ## Tile tracks and the ends of the queued pistons -/

/-- The tile of `self` at `t` is attachable. -/
def ShipPartBlocks.Attachable (self : ShipPartBlocks) (t : ivec2) : Prop :=
  ShipGrid.GetTileInfo (self.cells.safe_nonthrowing_at t).tile = .solid_attachable

instance (self : ShipPartBlocks) (t : ivec2) : Decidable (self.Attachable t) := by
  unfold ShipPartBlocks.Attachable; infer_instance

/-- The tile type `piston_tile_type` of the tracks of an orientation. -/
def track_tile (is_vertical : Bool) : ShipGrid.Tile :=
  if is_vertical then ShipGrid.Tile.piston_v else ShipGrid.Tile.piston_h

/-- A tile track of `self`: the attachable tile `T`, then `m ≥ 1` track tiles of the
orientation `is_vertical` along the axis, then the attachable tile
`T + axis (m + 1)`. -/
def ShipPartBlocks.IsTrack (self : ShipPartBlocks) (is_vertical : Bool) (T : ivec2) (m : Nat) :
    Prop :=
  1 ≤ m ∧ self.Attachable T ∧ self.Attachable (T + ivec2.axis is_vertical ((m : Int) + 1)) ∧
  ∀ k : Nat, 1 ≤ k → k ≤ m →
    (self.cells.safe_nonthrowing_at (T + ivec2.axis is_vertical (k : Int))).tile
      = track_tile is_vertical

/-- The new Structure with index `i` holds the tile `t`. -/
def OwnedBy (parts : List NewPart) (i : Nat) (t : ivec2) : Prop :=
  ∃ P, parts.get? i = some P ∧ P.Holds t

/-- During the flood fill that builds the Structure after `parts` and started with the
visited tiles `visited0`: the Structure with index `i` holds the tile `t`, or it is the
one being built and `t` was visited by this fill. -/
def OwnedDuring (parts : List NewPart) (visited0 visited : List ivec2) (i : Nat)
    (t : ivec2) : Prop :=
  OwnedBy parts i t ∨ (i = parts.length ∧ t ∈ visited ∧ t ∉ visited0)

/-- What "handle pistons starting here" pushes for the tile `abs`, with the track it
found: an unfinished entry of the Structure being built, keyed by an attachable tile
`j + 1` steps away along the axis, with `j ≥ 1` track tiles in between, and starting at
the corner of the track tile next to `abs`. -/
def PushedTrack (tile_size : Int) (self : ShipPartBlocks) (new_part : Nat) (abs : ivec2)
    (e : ivec2 × QueuedPiston) : Prop :=
  e.2.block_b = none ∧ e.2.block_a = new_part ∧ self.Attachable abs ∧ self.Attachable e.1 ∧
    ∃ (σ : Int) (j : Nat), (σ = 1 ∨ σ = -1) ∧ 1 ≤ j ∧
      e.1 = abs + ivec2.axis e.2.is_vertical (σ * ((j : Int) + 1)) ∧
      (∀ k : Nat, 1 ≤ k → k ≤ j →
        (self.cells.safe_nonthrowing_at (abs + ivec2.axis e.2.is_vertical (σ * (k : Int)))).tile
          = track_tile e.2.is_vertical) ∧
      e.2.abs_pixel_pos_a = (abs + ivec2.axis e.2.is_vertical σ) * tile_size + self.pos

/-- Queue invariant: an entry belongs to a tile track from `T` to `E = T + axis (m + 1)`.
An unfinished entry is keyed by one end of the track, its Structure `block_a` owns the
other end, and its corner is that of the track tile next to the owned end; a finished
entry has `block_a` owning `T` with the corner of the first track tile, and `block_b`
owning `E` with the corner of `E`. -/
def EntryTrack (tile_size : Int) (self : ShipPartBlocks) (own : Nat → ivec2 → Prop)
    (e : ivec2 × QueuedPiston) : Prop :=
  ∃ (T : ivec2) (m : Nat), self.IsTrack e.2.is_vertical T m ∧
    match e.2.block_b with
    | none =>
      (e.1 = T + ivec2.axis e.2.is_vertical ((m : Int) + 1) ∧ own e.2.block_a T ∧
        e.2.abs_pixel_pos_a = (T + ivec2.axis e.2.is_vertical 1) * tile_size + self.pos) ∨
      (e.1 = T ∧ own e.2.block_a (T + ivec2.axis e.2.is_vertical ((m : Int) + 1)) ∧
        e.2.abs_pixel_pos_a
          = (T + ivec2.axis e.2.is_vertical (m : Int)) * tile_size + self.pos)
    | some b =>
      own e.2.block_a T ∧ own b (T + ivec2.axis e.2.is_vertical ((m : Int) + 1)) ∧
      e.2.abs_pixel_pos_a = (T + ivec2.axis e.2.is_vertical 1) * tile_size + self.pos ∧
      e.2.abs_pixel_pos_b
        = (T + ivec2.axis e.2.is_vertical ((m : Int) + 1)) * tile_size + self.pos

/-- A Structure in the shape of a U, as in `exampleU`, whose right arm carries a second
horizontal track that leads to a separate attachable tile: the track tile `(1, 0)` joins
two tiles of the same component, the track tile `(3, 0)` joins the tile `(2, 0)` of the
U to the tile `(4, 0)`, a component of its own. -/
def exampleMixed : ShipPartBlocks :=
  ⟨⟨100, 200⟩, gridOf [[.attachable, .piston_h, .attachable, .piston_h, .attachable],
    [.non_attachable, .non_attachable, .non_attachable, .air, .air]]⟩

end Ship

/-! # Theorems -/

namespace Ship
/-! ## The traversal functions refine the big-step relation -/

variable {g : Game} {hsp : Option Id} {skip : Option Bool}

theorem HandlePistonF_run
    {f : Id → Option Id → ConnectedShipParts → Option ConnectedShipParts}
    (hf : ∀ v q r r', f v q r = some r' → r.cant_skip_because_of_cycle = false →
      Run g hsp skip (.blocks v q) r r')
    {p v : Id} {r r' : ConnectedShipParts}
    (h : HandlePistonF g hsp skip f p (some v) r = some r')
    (hr : r.cant_skip_because_of_cycle = false) :
    Run g hsp skip (.piston p v) r r' := by
  have hr1 : (r.addPiston p).cant_skip_because_of_cycle = false := hr
  -- the second half, as a relation
  have second : ∀ r1 r2 : ConnectedShipParts, r1.cant_skip_because_of_cycle = false →
      (if ¬ g.b p = v then
        if (hsp == some p && skip == some false) = true then
          some { r1 with cant_skip_because_of_cycle := true }
        else f (g.b p) (some p) r1
      else some r1) = some r2 → Run g hsp skip (.side p v false) r1 r2 := by
    intro r1 r2 h1 h2
    by_cases hb : g.b p = v
    · simp [hb] at h2
      subst h2
      exact Run.side_idle (by simp [Game.endpoint, hb])
    · by_cases ht : hsp = some p ∧ skip = some false
      · simp [hb, ht.1, ht.2] at h2
        subst h2
        exact Run.side_flag (by simp [Game.endpoint, hb]) ht.1 ht.2
      · have ht' : (hsp == some p && skip == some false) = false := by
          simpa using ht
        simp only [bne_iff_ne, ne_eq, Option.some.injEq, hb, not_false_eq_true, if_true, ht',
          Bool.false_eq_true, if_false] at h2
        exact Run.side_visit (by simp [Game.endpoint, hb]) ht
          (by simpa [Game.endpoint] using hf _ _ _ _ h2 h1)
  simp only [HandlePistonF, Option.isSome_some, Bool.true_or, Bool.true_and, if_true] at h
  by_cases ha : g.a p = v
  · simp only [ha, bne_self_eq_false, Bool.false_eq_true, if_false, bne_iff_ne, ne_eq,
      Option.some.injEq] at h
    exact Run.piston_next (Run.side_idle (by simp [Game.endpoint, ha])) hr1 (second _ _ hr1 h)
  · by_cases ht : hsp = some p ∧ skip = some true
    · simp [ha, ht.1, ht.2] at h
      subst h
      exact Run.piston_stop (Run.side_flag (by simp [Game.endpoint, ha]) ht.1 ht.2) rfl
    · have ht' : (hsp == some p && skip == some true) = false := by
        simpa using ht
      simp only [bne_iff_ne, ne_eq, Option.some.injEq, ha, not_false_eq_true, if_true, ht',
          Bool.false_eq_true, if_false] at h
      cases hfa : f (g.a p) (some p) (r.addPiston p) with
      | none =>
        simp only [ConnectedShipParts.addPiston] at hfa
        simp [hfa] at h
      | some r1 =>
        have hrun := hf _ _ _ _ hfa hr1
        simp only [ConnectedShipParts.addPiston] at hfa
        simp only [hfa] at h
        have hs1 : Run g hsp skip (.side p v true) (r.addPiston p) r1 :=
          Run.side_visit (by simp [Game.endpoint, ha]) ht (by simpa [Game.endpoint] using hrun)
        by_cases hfl : r1.cant_skip_because_of_cycle = true
        · simp only [hfl, if_true, Option.some.injEq] at h
          subst h
          exact Run.piston_stop hs1 hfl
        · simp only [hfl, Bool.false_eq_true, if_false] at h
          have hfl' : r1.cant_skip_because_of_cycle = false := by simpa using hfl
          exact Run.piston_next hs1 hfl' (second _ _ hfl' h)
theorem HandleBlocksLoop_run
    {f : Id → Option Id → ConnectedShipParts → Option ConnectedShipParts}
    (hf : ∀ p v r r', f p (some v) r = some r' → r.cant_skip_because_of_cycle = false →
      Run g hsp skip (.piston p v) r r')
    {v : Id} {q : Option Id} (l : List Id) {r r' : ConnectedShipParts}
    (h : HandleBlocksLoop f v q l r = some r')
    (hr : r.cant_skip_because_of_cycle = false) :
    Run g hsp skip (.loop v q l) r r' := by
  induction l generalizing r with
  | nil =>
    simp only [HandleBlocksLoop, Option.some.injEq] at h
    subst h
    exact Run.loop_nil
  | cons p l ih =>
    simp only [HandleBlocksLoop] at h
    by_cases hq : some p = q
    · simp only [hq, beq_self_eq_true, if_true] at h
      exact Run.loop_skip hq (ih h hr)
    · have hq' : (some p == q) = false := by simpa using hq
      simp only [hq', Bool.false_eq_true, if_false] at h
      cases hfp : f p (some v) r with
      | none => simp [hfp] at h
      | some r1 =>
        simp only [hfp] at h
        have hp := hf _ _ _ _ hfp hr
        by_cases hfl : r1.cant_skip_because_of_cycle = true
        · simp only [hfl, if_true, Option.some.injEq] at h
          subst h
          exact Run.loop_stop hq hp hfl
        · simp only [hfl, Bool.false_eq_true, if_false] at h
          have hfl' : r1.cant_skip_because_of_cycle = false := by simpa using hfl
          exact Run.loop_next hq hp hfl' (ih h hfl')

theorem HandleBlocksF_run
    {f : Id → Option Id → ConnectedShipParts → Option ConnectedShipParts}
    (hf : ∀ p v r r', f p (some v) r = some r' → r.cant_skip_because_of_cycle = false →
      Run g hsp skip (.piston p v) r r')
    {v : Id} {q : Option Id} {r r' : ConnectedShipParts}
    (h : HandleBlocksF g f v q r = some r')
    (hr : r.cant_skip_because_of_cycle = false) :
    Run g hsp skip (.blocks v q) r r' := by
  simp only [HandleBlocksF] at h
  by_cases hv : v ∈ r.blocks
  · simp only [hv, if_true, Option.some.injEq] at h
    subst h
    exact Run.blocks_seen hv
  · simp only [hv, if_false] at h
    exact Run.blocks_new hv (HandleBlocksLoop_run hf _ h hr)

theorem HandleBlocks_run (fuel : Nat) {v : Id} {q : Option Id} {r r' : ConnectedShipParts}
    (h : HandleBlocks g hsp skip fuel v q r = some r')
    (hr : r.cant_skip_because_of_cycle = false) :
    Run g hsp skip (.blocks v q) r r' := by
  induction fuel generalizing v q r r' with
  | zero => simp [HandleBlocks] at h
  | succ n ih =>
    simp only [HandleBlocks] at h
    exact HandleBlocksF_run (fun p v r r' hp hr => HandlePistonF_run
      (fun v q r r' hb hr => ih hb hr) hp hr) h hr

theorem HandlePiston_run (fuel : Nat) {p v : Id} {r r' : ConnectedShipParts}
    (h : HandlePiston g hsp skip fuel p (some v) r = some r')
    (hr : r.cant_skip_because_of_cycle = false) :
    Run g hsp skip (.piston p v) r r' :=
  HandlePistonF_run (fun _ _ _ _ hb hr => HandleBlocks_run fuel hb hr) h hr

/-! ## Invariants of the nested calls -/

theorem Run.grows {c : Call} {r r' : ConnectedShipParts} (h : Run g hsp skip c r r') :
    r.blocks ⊆ r'.blocks ∧ r.pistons ⊆ r'.pistons ∧
      (r.cant_skip_because_of_cycle = true → r'.cant_skip_because_of_cycle = true) := by
  induction h with
  | blocks_seen _ => exact ⟨fun _ h => h, fun _ h => h, id⟩
  | blocks_new _ _ ih =>
    exact ⟨fun x hx => ih.1 (List.mem_cons_of_mem _ hx), ih.2.1, ih.2.2⟩
  | loop_nil => exact ⟨fun _ h => h, fun _ h => h, id⟩
  | loop_skip _ _ ih => exact ih
  | loop_stop _ _ _ ih => exact ih
  | loop_next _ _ _ _ ih1 ih2 =>
    exact ⟨fun x hx => ih2.1 (ih1.1 hx), fun x hx => ih2.2.1 (ih1.2.1 hx),
      fun hx => ih2.2.2 (ih1.2.2 hx)⟩
  | piston_stop _ _ ih =>
    exact ⟨ih.1, fun x hx => ih.2.1 (by simp [ConnectedShipParts.addPiston, hx]), ih.2.2⟩
  | piston_next _ _ _ ih1 ih2 =>
    exact ⟨fun x hx => ih2.1 (ih1.1 hx),
      fun x hx => ih2.2.1 (ih1.2.1 (by simp [ConnectedShipParts.addPiston, hx])),
      fun hx => ih2.2.2 (ih1.2.2 hx)⟩
  | side_idle _ => exact ⟨fun _ h => h, fun _ h => h, id⟩
  | side_flag _ _ _ => exact ⟨fun _ h => h, fun _ h => h, fun _ => rfl⟩
  | side_visit _ _ _ ih => exact ih

theorem IdsExact.withPiston {r : ConnectedShipParts} (h : IdsExact r) (p : Id) :
    IdsExact (r.addPiston p) := by
  intro x
  simp only [ConnectedShipParts.addPiston, List.mem_insert_iff, h x]
  tauto

theorem IdsExact.withBlocks {r : ConnectedShipParts} (h : IdsExact r) (v : Id) :
    IdsExact (r.addBlocks v) := by
  intro x
  simp only [ConnectedShipParts.addBlocks, List.mem_insert_iff, List.mem_cons, h x]
  tauto

theorem Run.idsExact {c : Call} {r r' : ConnectedShipParts} (h : Run g hsp skip c r r')
    (hr : IdsExact r) : IdsExact r' := by
  induction h with
  | blocks_seen _ => exact hr
  | blocks_new _ _ ih => exact ih (hr.withBlocks _)
  | loop_nil => exact hr
  | loop_skip _ _ ih => exact ih hr
  | loop_stop _ _ _ ih => exact ih hr
  | loop_next _ _ _ _ ih1 ih2 => exact ih2 (ih1 hr)
  | piston_stop _ _ ih => exact ih (hr.withPiston _)
  | piston_next _ _ _ ih1 ih2 => exact ih2 (ih1 (hr.withPiston _))
  | side_idle _ => exact hr
  | side_flag _ _ _ => exact hr
  | side_visit _ _ _ ih => exact ih hr

theorem Full.lift {r r' : ConnectedShipParts} {p : Id} (h : Full g r p)
    (hb : r.blocks ⊆ r'.blocks) (hp : r.pistons ⊆ r'.pistons) : Full g r' p :=
  ⟨hp h.1, hb h.2.1, hb h.2.2⟩

theorem Closed.chain {r r1 r' : ConnectedShipParts} {e1 e2 e : Id → Id → Prop}
    (h1 : Closed g r r1 e1) (h2 : Closed g r1 r' e2)
    (hb : r1.blocks ⊆ r'.blocks) (hp : r1.pistons ⊆ r'.pistons)
    (he1 : ∀ u p, u ∈ r1.blocks → u ∉ r.blocks → e1 u p → e u p)
    (he2 : ∀ u p, u ∈ r'.blocks → u ∉ r1.blocks → e2 u p → e u p) :
    Closed g r r' e := by
  intro u hu hnu p hp' hex
  by_cases hu1 : u ∈ r1.blocks
  · exact (h1 u hu1 hnu p hp' (fun h => hex (he1 u p hu1 hnu h))).lift hb hp
  · exact h2 u hu hu1 p hp' (fun h => hex (he2 u p hu hu1 h))

theorem Closed.same (r : ConnectedShipParts) (e : Id → Id → Prop) : Closed g r r e :=
  fun _ hu hnu => absurd hu hnu

theorem Run.explored {c : Call} {r r' : ConnectedShipParts} (h : Run g hsp skip c r r')
    (hfl : r'.cant_skip_because_of_cycle = false) : ClosedPost g c r r' := by
  induction h with
  | blocks_seen hv => exact ⟨hv, Closed.same _ _⟩
  | @blocks_new v q r r' hv hl ih =>
    have ih := ih hfl (List.mem_cons_self _ _)
    have hm := hl.grows
    refine ⟨hm.1 (List.mem_cons_self _ _), ?_⟩
    intro u hu hnu p hp hex
    by_cases huv : u = v
    · subst huv
      exact ih.1 p hp (fun hq => hex ⟨rfl, hq⟩)
    · exact ih.2 u hu (by simpa [ConnectedShipParts.addBlocks, huv] using hnu) p hp (fun h => h)
  | loop_nil => exact fun _ => ⟨fun p hp => absurd hp (List.not_mem_nil _), Closed.same _ _⟩
  | @loop_skip v q p l r r' hq _ ih =>
    intro hv
    have ih := ih hfl hv
    refine ⟨fun p' hp' hq' => ?_, ih.2⟩
    rcases List.mem_cons.1 hp' with rfl | hp'
    · exact absurd hq hq'
    · exact ih.1 p' hp' hq'
  | loop_stop _ _ hf _ => rw [hf] at hfl; cases hfl
  | @loop_next v q p l r r1 r' hq hp hf hl ih1 ih2 =>
    intro hv
    have hm1 := hp.grows
    have hm2 := hl.grows
    have ih1 := ih1 hf hv
    have ih2 := ih2 hfl (hm1.1 hv)
    refine ⟨fun p' hp' hq' => ?_, ih1.2.chain ih2.2 hm2.1 hm2.2.1 (fun _ _ _ _ h => h)
      (fun _ _ _ _ h => h)⟩
    rcases List.mem_cons.1 hp' with rfl | hp'
    · exact ih1.1.lift hm2.1 hm2.2.1
    · exact ih2.1 p' hp' hq'
  | piston_stop _ hf _ => rw [hf] at hfl; cases hfl
  | @piston_next p v r r1 r' h1 hf h2 ih1 ih2 =>
    intro hv
    have hm1 := h1.grows
    have hm2 := h2.grows
    have hv1 : v ∈ (r.addPiston p).blocks := hv
    have ih1 := ih1 hf hv1
    have ih2 := ih2 hfl (hm1.1 hv1)
    have hpm : p ∈ r'.pistons :=
      hm2.2.1 (hm1.2.1 (by simp [ConnectedShipParts.addPiston]))
    have hfull : Full g r' p := by
      refine ⟨hpm, ?_, ?_⟩
      · simpa [Game.endpoint] using hm2.1 ih1.1
      · simpa [Game.endpoint] using ih2.1
    refine ⟨hfull, ?_⟩
    intro u hu hnu p' hp' _
    by_cases hpp : p' = p
    · subst hpp; exact hfull
    · have hc : Closed g (r.addPiston p) r' (fun _ p' => p' = p) :=
        ih1.2.chain ih2.2 hm2.1 hm2.2.1 (fun _ _ _ _ h => h) (fun _ _ _ _ h => h)
      exact hc u hu hnu p' hp' hpp
  | side_idle he => exact fun hv => ⟨he ▸ hv, Closed.same _ _⟩
  | side_flag _ _ _ => simp [ConnectedShipParts.setFlag] at hfl
  | @side_visit p v dir r r' he ht hb ih =>
    intro _
    have ih := ih hfl
    refine ⟨ih.1, ?_⟩
    intro u hu hnu p' hp' hex
    exact ih.2 u hu hnu p' hp' (fun h => hex (Option.some.inj h.2))

theorem Sound.refl (v : Id) (r : ConnectedShipParts) : Sound g hsp skip v r r :=
  ⟨fun _ h => Or.inl h, fun _ h => Or.inl h, fun h => Or.inl h, fun _ _ _ _ _ _ h => h⟩

theorem Sound.trans {v : Id} {r r1 r' : ConnectedShipParts}
    (h1 : Sound g hsp skip v r r1) (h2 : Sound g hsp skip v r1 r')
    (hb : r1.blocks ⊆ r'.blocks) (hf1 : r'.cant_skip_because_of_cycle = false →
      r1.cant_skip_because_of_cycle = false) :
    Sound g hsp skip v r r' := by
  refine ⟨fun u hu => ?_, fun p hp => ?_, fun hf => ?_, fun hf P d hP hd hab hfar => ?_⟩
  · rcases h2.1 u hu with h | h
    · exact h1.1 u h
    · exact Or.inr h
  · rcases h2.2.1 p hp with h | h
    · rcases h1.2.1 p h with h | h
      · exact Or.inl h
      · exact Or.inr ⟨h.1, h.2.imp (fun x => hb x) (fun x => hb x)⟩
    · exact Or.inr h
  · rcases h2.2.2.1 hf with h | h
    · exact h1.2.2.1 h
    · exact Or.inr h
  · exact h1.2.2.2 (hf1 hf) P d hP hd hab (h2.2.2.2 hf P d hP hd hab hfar)

theorem Game.LinksConsistent.of_link (hc : g.LinksConsistent) {v p : Id}
    (hv : v ∈ g.structures) (hp : p ∈ g.links v) :
    p ∈ g.pistons ∧ (g.a p = v ∨ g.b p = v) ∧ g.a p ∈ g.structures ∧ g.b p ∈ g.structures :=
  have hpm := hc.links_mem v hv p hp
  ⟨hpm, (hc.links_iff v hv p hpm).1 hp, hc.a_mem p hpm, hc.b_mem p hpm⟩

theorem Game.endpoint_not (g : Game) (d : Bool) (p : Id) :
    (g.endpoint d p = g.a p ∧ g.endpoint (!d) p = g.b p) ∨
    (g.endpoint d p = g.b p ∧ g.endpoint (!d) p = g.a p) := by
  cases d <;> simp [Game.endpoint]

theorem Sound.addPiston {v p : Id} {r r' : ConnectedShipParts}
    (hs : Sound g hsp skip v (r.addPiston p) r') (hb : r.blocks ⊆ r'.blocks)
    (hvr : v ∈ r.blocks) (hp : p ∈ g.pistons) (hend : g.a p = v ∨ g.b p = v) :
    Sound g hsp skip v r r' := by
  refine ⟨hs.1, fun p' hp' => ?_, hs.2.2.1, hs.2.2.2⟩
  rcases hs.2.1 p' hp' with h | h
  · rcases List.mem_insert_iff.1 h with rfl | h
    · refine Or.inr ⟨hp, ?_⟩
      rcases hend with h | h
      · exact Or.inl (h ▸ hb hvr)
      · exact Or.inr (h ▸ hb hvr)
    · exact Or.inl h
  · exact Or.inr h

theorem Sound.step {v e : Id} {r r' : ConnectedShipParts}
    (hs : Sound g hsp skip e r r') (hadj : g.Adj hsp v e) : Sound g hsp skip v r r' := by
  refine ⟨fun u hu => (hs.1 u hu).imp id (fun h => Relation.ReflTransGen.head hadj h),
    hs.2.1, fun hf => (hs.2.2.1 hf).imp id ?_, hs.2.2.2⟩
  rintro ⟨P, d, hP, hd, hab, h⟩
  exact ⟨P, d, hP, hd, hab, Relation.ReflTransGen.head hadj h⟩

theorem Run.sound (hc : g.LinksConsistent) (hm : Mode g hsp skip) {c : Call}
    {r r' : ConnectedShipParts} (h : Run g hsp skip c r r')
    (hpre : SoundPre g hsp skip c r) : SoundPost g hsp skip c r r' := by
  induction h with
  | blocks_seen hv => exact Sound.refl _ _
  | @blocks_new v q r r' hv hl ih =>
    obtain ⟨hvs, hg⟩ := hpre
    have hpre' : SoundPre g hsp skip (.loop v q (g.links v)) (r.addBlocks v) := by
      refine ⟨hvs, List.mem_cons_self _ _, fun p hp => hp, fun P d hP hd => ?_⟩
      rcases hg P d hP hd with ⟨hn, _⟩ | ⟨hvn, hq⟩
      · exact ⟨List.mem_cons_of_mem _ hn, fun hvn => absurd (hvn ▸ hn) hv⟩
      · exact ⟨hvn ▸ List.mem_cons_self _ _, fun _ => hq⟩
    obtain ⟨hs, he⟩ := ih hpre'
    refine ⟨fun u hu => ?_, hs.2.1, hs.2.2.1, fun hf P d hP hd hab hfar => ?_⟩
    · rcases hs.1 u hu with h | h
      · rcases List.mem_cons.1 h with rfl | h
        · exact Or.inr Relation.ReflTransGen.refl
        · exact Or.inl h
      · exact Or.inr h
    · rcases List.mem_cons.1 (hs.2.2.2 hf P d hP hd hab hfar) with h | h
      · exfalso
        cases hm with
        | plain => cases hP
        | excl P0 d0 hPm =>
          cases hP; cases hd
          have hPl : P ∈ g.links v := by
            refine (hc.links_iff v hvs P hPm).2 ?_
            rcases g.endpoint_not d P with ⟨_, h2⟩ | ⟨_, h2⟩
            · exact Or.inr (h2 ▸ h)
            · exact Or.inl (h2 ▸ h)
          have hq := he hf P rfl hPl
          rcases hg P d rfl rfl with ⟨_, hq'⟩ | ⟨hvn, _⟩
          · exact hq' hq
          · rw [hvn] at h
            rcases g.endpoint_not d P with ⟨h1, h2⟩ | ⟨h1, h2⟩
            · rw [h1, h2] at h; exact hab h.symm
            · rw [h1, h2] at h; exact hab h
      · exact h
  | loop_nil => exact ⟨Sound.refl _ _, fun _ P _ hPl => absurd hPl (List.not_mem_nil _)⟩
  | @loop_skip v q p l r r' hq _ ih =>
    obtain ⟨hvs, hvr, hl', hg⟩ := hpre
    obtain ⟨hs, he⟩ := ih ⟨hvs, hvr, fun p hp => hl' p (List.mem_cons_of_mem _ hp), hg⟩
    refine ⟨hs, fun hf P hP hPl => ?_⟩
    rcases List.mem_cons.1 hPl with rfl | h
    · exact hq.symm
    · exact he hf P hP h
  | @loop_stop v q p l r r' hq _ hf ih =>
    obtain ⟨hvs, hvr, hl', hg⟩ := hpre
    obtain ⟨hs, _⟩ := ih ⟨hvs, hvr, hl' p (List.mem_cons_self _ _), fun P d hP hd =>
      ⟨(hg P d hP hd).1, fun hpP hvn => hq (by rw [hpP, (hg P d hP hd).2 hvn])⟩⟩
    exact ⟨hs, fun hf' => by rw [hf] at hf'; cases hf'⟩
  | @loop_next v q p l r r1 r' hq hp hf hl ih1 ih2 =>
    obtain ⟨hvs, hvr, hl', hg⟩ := hpre
    have hm1 := hp.grows
    have hm2 := hl.grows
    obtain ⟨hs1, hfl1⟩ := ih1 ⟨hvs, hvr, hl' p (List.mem_cons_self _ _), fun P d hP hd =>
      ⟨(hg P d hP hd).1, fun hpP hvn => hq (by rw [hpP, (hg P d hP hd).2 hvn])⟩⟩
    obtain ⟨hs2, he2⟩ := ih2 ⟨hvs, hm1.1 hvr, fun p hp => hl' p (List.mem_cons_of_mem _ hp),
      fun P d hP hd => ⟨hm1.1 (hg P d hP hd).1, (hg P d hP hd).2⟩⟩
    refine ⟨hs1.trans hs2 hm2.1 (fun _ => hf), fun hf' P hP hPl => ?_⟩
    rcases List.mem_cons.1 hPl with rfl | h
    · have := hfl1 hP
      rw [hf] at this; cases this
    · exact he2 hf' P hP h
  | @piston_stop p v r r' h1 hf ih =>
    obtain ⟨hvs, hvr, hpl, hg⟩ := hpre
    obtain ⟨hpm, hend, _, _⟩ := hc.of_link hvs hpl
    obtain ⟨hs, _⟩ := ih ⟨hvs, hvr, hpl, hg⟩
    exact ⟨hs.addPiston h1.grows.1 hvr hpm hend, fun _ => hf⟩
  | @piston_next p v r r1 r' h1 hf h2 ih1 ih2 =>
    obtain ⟨hvs, hvr, hpl, hg⟩ := hpre
    obtain ⟨hpm, hend, _, _⟩ := hc.of_link hvs hpl
    have hm1 := h1.grows
    have hm2 := h2.grows
    obtain ⟨hs1, hfl1⟩ := ih1 ⟨hvs, hvr, hpl, hg⟩
    obtain ⟨hs2, hfl2⟩ := ih2 ⟨hvs, hm1.1 hvr, hpl,
      fun P d hP hd => ⟨hm1.1 (hg P d hP hd).1, (hg P d hP hd).2⟩⟩
    refine ⟨(hs1.trans hs2 hm2.1 (fun _ => hf)).addPiston
      (fun x hx => hm2.1 (hm1.1 hx)) hvr hpm hend, fun hP => ?_⟩
    cases hm with
    | plain => cases hP
    | excl P0 d0 hPm =>
      cases d0 with
      | true => have := hfl1 hP rfl; rw [hf] at this; cases this
      | false => exact hfl2 hP rfl
  | @side_idle p v dir r he =>
    obtain ⟨_, _, _, hg⟩ := hpre
    exact ⟨Sound.refl _ _, fun hP hd => absurd he.symm ((hg p dir hP hd).2 rfl)⟩
  | @side_flag p v dir r he hP hd =>
    obtain ⟨hvs, hvr, hpl, hg⟩ := hpre
    obtain ⟨hpm, hend, _, _⟩ := hc.of_link hvs hpl
    refine ⟨⟨fun _ h => Or.inl h, fun _ h => Or.inl h,
      fun _ => Or.inr ⟨p, dir, hP, hd, ?_⟩, fun hf => by cases hf⟩, fun _ _ => rfl⟩
    suffices hv : v = g.endpoint (!dir) p by
      refine ⟨fun hab => ?_, hv ▸ Relation.ReflTransGen.refl⟩
      rw [hv] at he
      rcases g.endpoint_not dir p with ⟨h1, h2⟩ | ⟨h1, h2⟩
      · rw [h1, h2] at he; exact he hab
      · rw [h1, h2] at he; exact he hab.symm
    have hv : v = g.endpoint (!dir) p := by
      have hne := (hg p dir hP hd).2 rfl
      rcases g.endpoint_not dir p with ⟨h1, h2⟩ | ⟨h1, h2⟩
      · rw [h1] at hne; rw [h2]
        rcases hend with h | h
        · exact absurd h.symm hne
        · exact h.symm
      · rw [h1] at hne; rw [h2]
        rcases hend with h | h
        · exact h.symm
        · exact absurd h.symm hne
    exact hv
  | @side_visit p v dir r r' he ht hb ih =>
    obtain ⟨hvs, hvr, hpl, hg⟩ := hpre
    obtain ⟨hpm, hend, ham, hbm⟩ := hc.of_link hvs hpl
    have hes : g.endpoint dir p ∈ g.structures := by
      cases dir
      · exact hbm
      · exact ham
    have hother : g.endpoint (!dir) p = v := by
      rcases g.endpoint_not dir p with ⟨h1, h2⟩ | ⟨h1, h2⟩
      · rw [h1] at he; rw [h2]
        rcases hend with h | h
        · exact absurd h he
        · exact h
      · rw [h1] at he; rw [h2]
        rcases hend with h | h
        · exact h
        · exact absurd h he
    have hne : some p ≠ hsp := by
      intro hh
      cases hm with
      | plain => cases hh
      | excl P0 d0 hPm =>
        cases hh
        have hvne := (hg p d0 rfl rfl).2 rfl
        have hdd : dir ≠ d0 := fun h => ht ⟨rfl, by rw [h]⟩
        have : d0 = !dir := by cases dir <;> cases d0 <;> simp_all
        subst this
        exact hvne hother.symm
    have hadj : g.Adj hsp v (g.endpoint dir p) := by
      refine ⟨p, hpm, hne, ?_⟩
      rcases g.endpoint_not dir p with ⟨h1, h2⟩ | ⟨h1, h2⟩
      · exact Or.inr ⟨h2 ▸ hother, h1.symm⟩
      · exact Or.inl ⟨h2 ▸ hother, h1.symm⟩
    have hs := ih ⟨hes, fun P d hP hd =>
      Or.inl ⟨(hg P d hP hd).1, fun h => hne (h.trans hP.symm)⟩⟩
    exact ⟨Sound.step hs hadj, fun hP hd => absurd ⟨hP, hd⟩ ht⟩

/-! ## The nesting bound of `FindConnectedShipParts` suffices -/

theorem unvisited_mono {r r' : ConnectedShipParts} (h : r.blocks ⊆ r'.blocks) :
    unvisited g r' ≤ unvisited g r := by
  apply Finset.card_le_card
  intro x hx
  simp only [Finset.mem_sdiff, List.mem_toFinset] at hx ⊢
  exact ⟨hx.1, fun hh => hx.2 (h hh)⟩

theorem unvisited_addBlocks {r : ConnectedShipParts} {v : Id} (hv : v ∈ g.structures)
    (hn : v ∉ r.blocks) : unvisited g (r.addBlocks v) < unvisited g r := by
  apply Finset.card_lt_card
  rw [Finset.ssubset_iff_of_subset]
  · refine ⟨v, ?_, ?_⟩
    · simp only [Finset.mem_sdiff, List.mem_toFinset]
      exact ⟨hv, hn⟩
    · simp [ConnectedShipParts.addBlocks]
  · intro x hx
    simp only [Finset.mem_sdiff, List.mem_toFinset, ConnectedShipParts.addBlocks,
      List.mem_cons, not_or] at hx ⊢
    exact ⟨hx.1, hx.2.2⟩

theorem unvisited_le (r : ConnectedShipParts) : unvisited g r ≤ g.structures.length :=
  le_trans (Finset.card_le_card Finset.sdiff_subset) (List.toFinset_card_le _)

theorem HandlePistonF_isSome (hc : g.LinksConsistent) {n : Nat}
    {f : Id → Option Id → ConnectedShipParts → Option ConnectedShipParts}
    (hf : ∀ v q r, v ∈ g.structures → r.cant_skip_because_of_cycle = false →
      unvisited g r < n → ∃ r', f v q r = some r')
    (hfrun : ∀ v q r r', f v q r = some r' → r.cant_skip_because_of_cycle = false →
      Run g hsp skip (.blocks v q) r r')
    {p : Id} (hp : p ∈ g.pistons) (pv : Option Id) (r : ConnectedShipParts)
    (hr : r.cant_skip_because_of_cycle = false) (hn : unvisited g r < n) :
    ∃ r', HandlePistonF g hsp skip f p pv r = some r' := by
  have second : ∀ r1 : ConnectedShipParts, r1.cant_skip_because_of_cycle = false →
      unvisited g r1 < n → ∃ r',
      (if (pv.isSome || skip.isNone || skip != some true) = true then
        if (some (g.b p) != pv) = true then
          if (pv.isSome && hsp == some p && skip == some false) = true then
            some { r1 with cant_skip_because_of_cycle := true }
          else f (g.b p) (some p) r1
        else some r1
      else some r1) = some r' := by
    intro r1 h1 h2
    split_ifs
    · exact ⟨_, rfl⟩
    · exact hf _ _ _ (hc.b_mem p hp) h1 h2
    · exact ⟨_, rfl⟩
    · exact ⟨_, rfl⟩
  have hr1 : (r.addPiston p).cant_skip_because_of_cycle = false := hr
  have hn1 : unvisited g (r.addPiston p) < n := hn
  simp only [HandlePistonF]
  by_cases c1 : (pv.isSome || skip.isNone || skip != some false) = true
  · rw [if_pos c1]
    by_cases c2 : (some (g.a p) != pv) = true
    · rw [if_pos c2]
      by_cases c3 : (pv.isSome && hsp == some p && skip == some true) = true
      · rw [if_pos c3]; exact ⟨_, rfl⟩
      · rw [if_neg c3]
        obtain ⟨r2, h2⟩ := hf (g.a p) (some p) _ (hc.a_mem p hp) hr1 hn1
        have hm := (hfrun _ _ _ _ h2 hr1).grows
        simp only [ConnectedShipParts.addPiston] at h2
        rw [h2]
        simp only
        by_cases hfl : r2.cant_skip_because_of_cycle = true
        · rw [if_pos hfl]; exact ⟨_, rfl⟩
        · rw [if_neg hfl]
          exact second r2 (by simpa using hfl) (lt_of_le_of_lt (unvisited_mono hm.1) hn1)
    · rw [if_neg c2]; exact second _ hr1 hn1
  · rw [if_neg c1]; exact second _ hr1 hn1

theorem HandleBlocksLoop_isSome {n : Nat}
    {f : Id → Option Id → ConnectedShipParts → Option ConnectedShipParts}
    (hf : ∀ p pv r, p ∈ g.pistons → r.cant_skip_because_of_cycle = false →
      unvisited g r < n → ∃ r', f p pv r = some r')
    (hfrun : ∀ p v r r', f p (some v) r = some r' → r.cant_skip_because_of_cycle = false →
      Run g hsp skip (.piston p v) r r')
    (v : Id) (q : Option Id) (l : List Id) (hl : ∀ p ∈ l, p ∈ g.pistons)
    (r : ConnectedShipParts) (hr : r.cant_skip_because_of_cycle = false)
    (hn : unvisited g r < n) :
    ∃ r', HandleBlocksLoop f v q l r = some r' := by
  induction l generalizing r with
  | nil => exact ⟨r, rfl⟩
  | cons p l ih =>
    have ih := ih (fun p hp => hl p (List.mem_cons_of_mem _ hp))
    simp only [HandleBlocksLoop]
    by_cases c1 : (some p == q) = true
    · rw [if_pos c1]; exact ih r hr hn
    · rw [if_neg c1]
      obtain ⟨r1, h1⟩ := hf p (some v) r (hl p (List.mem_cons_self _ _)) hr hn
      have hm := (hfrun _ _ _ _ h1 hr).grows
      rw [h1]
      simp only
      by_cases hfl : r1.cant_skip_because_of_cycle = true
      · rw [if_pos hfl]; exact ⟨_, rfl⟩
      · rw [if_neg hfl]
        exact ih r1 (by simpa using hfl) (lt_of_le_of_lt (unvisited_mono hm.1) hn)

theorem HandleBlocks_isSome (hc : g.LinksConsistent) (n : Nat) (v : Id) (q : Option Id)
    (r : ConnectedShipParts) (hv : v ∈ g.structures)
    (hr : r.cant_skip_because_of_cycle = false) (hn : unvisited g r < n) :
    ∃ r', HandleBlocks g hsp skip n v q r = some r' := by
  induction n generalizing v q r with
  | zero => exact absurd hn (Nat.not_lt_zero _)
  | succ n ih =>
    simp only [HandleBlocks, HandleBlocksF]
    by_cases hvr : v ∈ r.blocks
    · rw [if_pos hvr]; exact ⟨_, rfl⟩
    · rw [if_neg hvr]
      have hlt : unvisited g (r.addBlocks v) < n :=
        lt_of_lt_of_le (unvisited_addBlocks hv hvr) (Nat.lt_succ_iff.1 hn)
      exact HandleBlocksLoop_isSome
        (fun p pv r hp hr hn => HandlePistonF_isSome hc
          (fun v q r hv hr hn => ih v q r hv hr hn)
          (fun v q r r' h hr => HandleBlocks_run n h hr) hp pv r hr hn)
        (fun p v r r' h hr => HandlePistonF_run
          (fun v q r r' h hr => HandleBlocks_run n h hr) h hr)
        v q (g.links v) (fun p hp => hc.links_mem v hv p hp) (r.addBlocks v) hr hlt

theorem HandlePiston_isSome (hc : g.LinksConsistent) (n : Nat) (p : Id) (pv : Option Id)
    (r : ConnectedShipParts) (hp : p ∈ g.pistons)
    (hr : r.cant_skip_because_of_cycle = false) (hn : unvisited g r < n) :
    ∃ r', HandlePiston g hsp skip n p pv r = some r' :=
  HandlePistonF_isSome hc (fun v q r hv hr hn => HandleBlocks_isSome hc n v q r hv hr hn)
    (fun _ _ _ _ h hr => HandleBlocks_run n h hr) hp pv r hr hn

/-! ## The starting calls -/

theorem FindConnectedShipParts_blocks (g : Game) (s : Id) :
    FindConnectedShipParts g (.blocks s) none =
      HandleBlocks g none none (g.structures.length + 1) s none {} := by
  simp [FindConnectedShipParts]

theorem FindConnectedShipParts_piston_excl (g : Game) (P : Id) (d : Bool) :
    FindConnectedShipParts g (.piston P) (some d) =
      HandleBlocks g (some P) (some d) (g.structures.length + 1) (g.endpoint d P) (some P)
        (({} : ConnectedShipParts).addPiston P) := by
  cases d
  · simp [FindConnectedShipParts, HandlePiston, HandlePistonF, Game.endpoint,
      ConnectedShipParts.addPiston]
  · simp only [FindConnectedShipParts, HandlePiston, HandlePistonF, Game.endpoint,
      ConnectedShipParts.addPiston]
    simp
    cases HandleBlocks g (some P) (some true) (g.structures.length + 1) (g.a P) (some P)
      { blocks := [], pistons := [P], entity_ids := [P], cant_skip_because_of_cycle := false } with
    | none => rfl
    | some r => simp

theorem FindConnectedShipParts_piston_none (g : Game) (P : Id) :
    FindConnectedShipParts g (.piston P) none =
      match HandleBlocks g none none (g.structures.length + 1) (g.a P) (some P)
        (({} : ConnectedShipParts).addPiston P) with
      | none => none
      | some r =>
        if r.cant_skip_because_of_cycle then some r
        else HandleBlocks g none none (g.structures.length + 1) (g.b P) (some P) r := by
  simp [FindConnectedShipParts, HandlePiston, HandlePistonF, ConnectedShipParts.addPiston]

/-! ## Reachability and the exact result of a traversal -/

theorem Game.Adj.swap {A : Option Id} {u w : Id} (h : g.Adj A u w) : g.Adj A w u := by
  obtain ⟨p, hp, hne, h⟩ := h
  exact ⟨p, hp, hne, h.symm.imp (fun h => ⟨h.2, h.1⟩) (fun h => ⟨h.2, h.1⟩)⟩

theorem Game.Reachable.symm {A : Option Id} {u w : Id} (h : g.Reachable A u w) :
    g.Reachable A w u := by
  induction h with
  | refl => exact Relation.ReflTransGen.refl
  | tail _ hadj ih => exact Relation.ReflTransGen.head hadj.swap ih

theorem Game.Reachable.weaken {A : Option Id} {u w : Id} (h : g.Reachable A u w) :
    g.Reachable none u w := by
  induction h with
  | refl => exact Relation.ReflTransGen.refl
  | tail _ hadj ih =>
    obtain ⟨p, hp, _, h⟩ := hadj
    exact Relation.ReflTransGen.tail ih ⟨p, hp, by simp, h⟩

/-- A set of Structures that contains `s` and is closed under the links not avoided
contains everything reachable from `s`. -/
theorem Game.Reachable.closed (hc : g.LinksConsistent) {A : Option Id} {S : Id → Prop}
    (hS : ∀ u ∈ g.structures, S u → ∀ p ∈ g.links u, some p ≠ A → S (g.a p) ∧ S (g.b p))
    {s : Id} (hs : s ∈ g.structures) (h0 : S s) {u : Id} (h : g.Reachable A s u) :
    S u ∧ u ∈ g.structures := by
  induction h with
  | refl => exact ⟨h0, hs⟩
  | tail _ hadj ih =>
    obtain ⟨p, hp, hne, h⟩ := hadj
    rcases h with ⟨h1, h2⟩ | ⟨h1, h2⟩
    · have hl := (hc.links_iff _ ih.2 p hp).2 (Or.inl h1)
      exact ⟨h2 ▸ (hS _ ih.2 ih.1 p hl hne).2, h2 ▸ hc.b_mem p hp⟩
    · have hl := (hc.links_iff _ ih.2 p hp).2 (Or.inr h1)
      exact ⟨h2 ▸ (hS _ ih.2 ih.1 p hl hne).1, h2 ▸ hc.a_mem p hp⟩

theorem Game.Reachable.mem_structures (hc : g.LinksConsistent) {A : Option Id} {s u : Id}
    (hs : s ∈ g.structures) (h : g.Reachable A s u) : u ∈ g.structures :=
  (Game.Reachable.closed hc (S := fun _ => True) (fun _ _ _ _ _ _ => ⟨trivial, trivial⟩)
    hs trivial h).2

theorem unvisited_start (g : Game) (r : ConnectedShipParts) :
    unvisited g r < g.structures.length + 1 :=
  Nat.lt_succ_of_le (unvisited_le r)

/-- Traversal from a Structure without exclusion: total, exact and flag-free. -/
theorem HandleBlocks_plain (hc : g.LinksConsistent) {s : Id} (hs : s ∈ g.structures) :
    ∃ ret, HandleBlocks g none none (g.structures.length + 1) s none {} = some ret ∧
      (∀ u, u ∈ ret.blocks ↔ g.Reachable none s u) ∧
      (∀ p, p ∈ ret.pistons ↔ p ∈ g.pistons ∧ (g.a p ∈ ret.blocks ∨ g.b p ∈ ret.blocks)) ∧
      IdsExact ret ∧ ret.cant_skip_because_of_cycle = false := by
  obtain ⟨ret, hret⟩ := @HandleBlocks_isSome g (none) (none) hc _ s none {} hs rfl
    (unvisited_start g _)
  have hrun := HandleBlocks_run _ hret rfl
  have hsound : Sound g none none s {} ret :=
    Run.sound hc (Mode.plain none) hrun ⟨hs, fun P d hP => by cases hP⟩
  have hfl : ret.cant_skip_because_of_cycle = false := by
    cases h : ret.cant_skip_because_of_cycle with
    | false => rfl
    | true =>
      rcases hsound.2.2.1 h with h' | ⟨P, d, hP, _⟩
      · cases h'
      · cases hP
  have hcl := hrun.explored hfl
  have hblocks : ∀ u, u ∈ ret.blocks ↔ g.Reachable none s u := by
    intro u
    constructor
    · intro hu
      rcases hsound.1 u hu with h | h
      · cases h
      · exact h
    · intro hu
      refine (Game.Reachable.closed hc (S := fun u => u ∈ ret.blocks) ?_ hs hcl.1 hu).1
      intro u _ hu p hp _
      have := hcl.2 u hu (List.not_mem_nil _) p hp (fun h => by cases h.2)
      exact ⟨this.2.1, this.2.2⟩
  refine ⟨ret, hret, hblocks, fun p => ?_, hrun.idsExact (fun x => by simp), hfl⟩
  constructor
  · intro hp
    rcases hsound.2.1 p hp with h | h
    · cases h
    · exact h
  · rintro ⟨hpm, hend⟩
    have key : ∀ u, u ∈ ret.blocks → (g.a p = u ∨ g.b p = u) → p ∈ ret.pistons := by
      intro u hu he
      have hus := Game.Reachable.mem_structures hc hs ((hblocks u).1 hu)
      have hl := (hc.links_iff u hus p hpm).2 he
      exact (hcl.2 u hu (List.not_mem_nil _) p hl (fun h => by cases h.2)).1
    rcases hend with h | h
    · exact key _ h (Or.inl rfl)
    · exact key _ h (Or.inr rfl)

theorem Game.endpoint_mem (hc : g.LinksConsistent) {P : Id} (hP : P ∈ g.pistons) (d : Bool) :
    g.endpoint d P ∈ g.structures := by
  cases d
  · exact hc.b_mem P hP
  · exact hc.a_mem P hP

theorem Game.endpoint_cases (g : Game) (d : Bool) (P : Id) :
    g.a P = g.endpoint d P ∨ g.b P = g.endpoint d P := by
  cases d <;> simp [Game.endpoint]

/-- Traversal from a piston with an exclusion direction: total; the flag is raised
exactly when the piston has distinct endpoints and the excluded one is reachable around
the piston; and when it is not raised the result is the exact component of the explored
endpoint. -/
theorem FindConnectedShipParts_excl (hc : g.LinksConsistent) {P : Id} (hP : P ∈ g.pistons)
    (d : Bool) :
    ∃ ret, FindConnectedShipParts g (.piston P) (some d) = some ret ∧
      (ret.cant_skip_because_of_cycle = true ↔
        g.a P ≠ g.b P ∧ g.Reachable (some P) (g.endpoint d P) (g.endpoint (!d) P)) ∧
      (ret.cant_skip_because_of_cycle = false →
        (∀ u, u ∈ ret.blocks ↔ g.Reachable (some P) (g.endpoint d P) u) ∧
        (∀ p, p ∈ ret.pistons ↔
          p ∈ g.pistons ∧ (g.a p ∈ ret.blocks ∨ g.b p ∈ ret.blocks))) ∧
      IdsExact ret ∧ P ∈ ret.pistons := by
  have hns := Game.endpoint_mem hc hP d
  obtain ⟨ret, hret⟩ := @HandleBlocks_isSome g (some P) (some d) hc _
    (g.endpoint d P) (some P) (({} : ConnectedShipParts).addPiston P) hns rfl
    (unvisited_start g _)
  have hrun := HandleBlocks_run _ hret rfl
  have hsound : Sound g (some P) (some d) (g.endpoint d P)
      (({} : ConnectedShipParts).addPiston P) ret :=
    Run.sound hc (Mode.excl P d hP) hrun ⟨hns, fun P' d' hP' hd' =>
      Or.inr ⟨by cases hP'; cases hd'; rfl, by cases hP'; rfl⟩⟩
  have hclosed : ret.cant_skip_because_of_cycle = false → ∀ u,
      g.Reachable (some P) (g.endpoint d P) u → u ∈ ret.blocks := by
    intro hfl u hu
    have hcl := hrun.explored hfl
    refine (Game.Reachable.closed hc (S := fun u => u ∈ ret.blocks) ?_ hns hcl.1 hu).1
    intro u _ hu p hp hne
    have := hcl.2 u hu (List.not_mem_nil _) p hp (fun h => hne h.2)
    exact ⟨this.2.1, this.2.2⟩
  have hPr : P ∈ ret.pistons := hrun.grows.2.1 (by simp [ConnectedShipParts.addPiston])
  refine ⟨ret, by rw [FindConnectedShipParts_piston_excl]; exact hret, ⟨fun h => ?_, fun h => ?_⟩,
    fun hfl => ⟨fun u => ⟨fun hu => ?_, hclosed hfl u⟩, fun p => ⟨fun hp => ?_, ?_⟩⟩,
    hrun.idsExact (fun x => by simp [ConnectedShipParts.addPiston]), hPr⟩
  · rcases hsound.2.2.1 h with h' | ⟨P', d', hP', hd', hr⟩
    · cases h'
    · cases hP'; cases hd'; exact hr
  · cases hfl : ret.cant_skip_because_of_cycle with
    | true => rfl
    | false =>
      have hfar := hclosed hfl _ h.2
      have := hsound.2.2.2 hfl P d rfl rfl h.1 hfar
      cases this
  · rcases hsound.1 u hu with h | h
    · cases h
    · exact h
  · rcases hsound.2.1 p hp with h | h
    · have hpP : p = P := by simpa [ConnectedShipParts.addPiston] using h
      subst hpP
      have hn := hrun.explored hfl |>.1
      refine ⟨hP, ?_⟩
      rcases g.endpoint_cases d p with h | h
      · exact Or.inl (h ▸ hn)
      · exact Or.inr (h ▸ hn)
    · exact h
  · rintro ⟨hpm, hend⟩
    by_cases hpP : p = P
    · subst hpP; exact hPr
    · have hcl := hrun.explored hfl
      have key : ∀ u, u ∈ ret.blocks → (g.a p = u ∨ g.b p = u) → p ∈ ret.pistons := by
        intro u hu he
        have hreach : g.Reachable (some P) (g.endpoint d P) u := by
          rcases hsound.1 u hu with h | h
          · cases h
          · exact h
        have hus := Game.Reachable.mem_structures hc hns hreach
        have hl := (hc.links_iff u hus p hpm).2 he
        exact (hcl.2 u hu (List.not_mem_nil _) p hl
          (fun h => hpP (Option.some.inj h.2))).1
      rcases hend with h | h
      · exact key _ h (Or.inl rfl)
      · exact key _ h (Or.inr rfl)

theorem Sound.flag_plain {sk : Option Bool} {v : Id} {r r' : ConnectedShipParts}
    (hs : Sound g none sk v r r') (hr : r.cant_skip_because_of_cycle = false) :
    r'.cant_skip_because_of_cycle = false := by
  cases h : r'.cant_skip_because_of_cycle with
  | false => rfl
  | true =>
    rcases hs.2.2.1 h with h' | ⟨P, d, hP, _⟩
    · rw [hr] at h'; cases h'
    · cases hP

/-- Traversal from a piston without exclusion: total, exact and flag-free. -/
theorem FindConnectedShipParts_piston_plain (hc : g.LinksConsistent) {P : Id}
    (hP : P ∈ g.pistons) :
    ∃ ret, FindConnectedShipParts g (.piston P) none = some ret ∧
      (∀ u, u ∈ ret.blocks ↔ g.Reachable none (g.a P) u ∨ g.Reachable none (g.b P) u) ∧
      (∀ p, p ∈ ret.pistons ↔ p ∈ g.pistons ∧ (g.a p ∈ ret.blocks ∨ g.b p ∈ ret.blocks)) ∧
      IdsExact ret ∧ ret.cant_skip_because_of_cycle = false := by
  have has := hc.a_mem P hP
  have hbs := hc.b_mem P hP
  obtain ⟨r2, h2⟩ := @HandleBlocks_isSome g (none) (none) hc _
    (g.a P) (some P) (({} : ConnectedShipParts).addPiston P) has rfl (unvisited_start g _)
  have run1 := HandleBlocks_run _ h2 rfl
  have sound1 : Sound g none none (g.a P) (({} : ConnectedShipParts).addPiston P) r2 :=
    Run.sound hc (Mode.plain none) run1 ⟨has, fun P d hP => by cases hP⟩
  have hfl2 := sound1.flag_plain rfl
  obtain ⟨r3, h3⟩ := @HandleBlocks_isSome g (none) (none) hc _
    (g.b P) (some P) r2 hbs hfl2 (unvisited_start g _)
  have run2 := HandleBlocks_run _ h3 hfl2
  have sound2 : Sound g none none (g.b P) r2 r3 :=
    Run.sound hc (Mode.plain none) run2 ⟨hbs, fun P d hP => by cases hP⟩
  have hfl3 := sound2.flag_plain hfl2
  have hcl1 := run1.explored hfl2
  have hcl2 := run2.explored hfl3
  have hm1 := run1.grows
  have hm2 := run2.grows
  have hPr : P ∈ r3.pistons := hm2.2.1 (hm1.2.1 (by simp [ConnectedShipParts.addPiston]))
  have hfull : ∀ u ∈ r3.blocks, ∀ p ∈ g.links u, Full g r3 p := by
    intro u hu p hp
    by_cases hpP : p = P
    · subst hpP; exact ⟨hPr, hm2.1 hcl1.1, hcl2.1⟩
    · by_cases hu2 : u ∈ r2.blocks
      · exact (hcl1.2 u hu2 (List.not_mem_nil _) p hp
          (fun h => hpP (Option.some.inj h.2))).lift hm2.1 hm2.2.1
      · exact hcl2.2 u hu hu2 p hp (fun h => hpP (Option.some.inj h.2))
  have hblocks : ∀ u, u ∈ r3.blocks ↔
      g.Reachable none (g.a P) u ∨ g.Reachable none (g.b P) u := by
    intro u
    constructor
    · intro hu
      rcases sound2.1 u hu with h | h
      · rcases sound1.1 u h with h | h
        · cases h
        · exact Or.inl h
      · exact Or.inr h
    · have hS : ∀ u ∈ g.structures, u ∈ r3.blocks → ∀ p ∈ g.links u, some p ≠ none →
          g.a p ∈ r3.blocks ∧ g.b p ∈ r3.blocks :=
        fun u _ hu p hp _ => ⟨(hfull u hu p hp).2.1, (hfull u hu p hp).2.2⟩
      rintro (h | h)
      · exact (Game.Reachable.closed hc (S := fun u => u ∈ r3.blocks) hS has
          (hm2.1 hcl1.1) h).1
      · exact (Game.Reachable.closed hc (S := fun u => u ∈ r3.blocks) hS hbs hcl2.1 h).1
  refine ⟨r3, ?_, hblocks, fun p => ⟨fun hp => ?_, ?_⟩,
    run2.idsExact (run1.idsExact (fun x => by simp [ConnectedShipParts.addPiston])), hfl3⟩
  · rw [FindConnectedShipParts_piston_none, h2]
    simp only [hfl2, Bool.false_eq_true, if_false]
    exact h3
  · rcases sound2.2.1 p hp with h | h
    · rcases sound1.2.1 p h with h | h
      · have hpP : p = P := by simpa [ConnectedShipParts.addPiston] using h
        subst hpP
        exact ⟨hP, Or.inl (hm2.1 hcl1.1)⟩
      · exact ⟨h.1, h.2.imp (fun x => hm2.1 x) (fun x => hm2.1 x)⟩
    · exact h
  · rintro ⟨hpm, hend⟩
    have key : ∀ u, u ∈ r3.blocks → (g.a p = u ∨ g.b p = u) → p ∈ r3.pistons := by
      intro u hu he
      have hus : u ∈ g.structures := by
        rcases (hblocks u).1 hu with h | h
        · exact Game.Reachable.mem_structures hc has h
        · exact Game.Reachable.mem_structures hc hbs h
      exact (hfull u hu p ((hc.links_iff u hus p hpm).2 he)).1
    rcases hend with h | h
    · exact key _ h (Or.inl rfl)
    · exact key _ h (Or.inr rfl)

theorem exampleChain_consistent : exampleChain.LinksConsistent :=
  ⟨by decide, by decide, by decide, by decide⟩

theorem exampleLoop_consistent : exampleLoop.LinksConsistent :=
  ⟨by decide, by decide, by decide, by decide⟩

/-- Reachability in the whole graph from an endpoint of `P` splits into reachability
around `P` from its two endpoints. -/
theorem Game.Reachable.split {P s u : Id} (hs : s = g.a P ∨ s = g.b P)
    (h : g.Reachable none s u) :
    g.Reachable (some P) (g.a P) u ∨ g.Reachable (some P) (g.b P) u := by
  induction h with
  | refl =>
    rcases hs with rfl | rfl
    · exact Or.inl Relation.ReflTransGen.refl
    · exact Or.inr Relation.ReflTransGen.refl
  | @tail u w _ hadj ih =>
    obtain ⟨p, hp, _, hend⟩ := hadj
    by_cases hpP : p = P
    · subst hpP
      rcases hend with ⟨_, h2⟩ | ⟨_, h2⟩
      · exact Or.inr (h2 ▸ Relation.ReflTransGen.refl)
      · exact Or.inl (h2 ▸ Relation.ReflTransGen.refl)
    · have hadj' : g.Adj (some P) u w := ⟨p, hp, fun h => hpP (Option.some.inj h), hend⟩
      exact ih.imp (fun h => Relation.ReflTransGen.tail h hadj')
        (fun h => Relation.ReflTransGen.tail h hadj')

theorem Game.Reachable.join {P s u : Id} (hP : P ∈ g.pistons) (hs : s = g.a P ∨ s = g.b P)
    (h : g.Reachable (some P) (g.a P) u ∨ g.Reachable (some P) (g.b P) u) :
    g.Reachable none s u := by
  have hab : g.Adj none (g.a P) (g.b P) := ⟨P, hP, by simp, Or.inl ⟨rfl, rfl⟩⟩
  rcases hs with rfl | rfl
  · rcases h with h | h
    · exact h.weaken
    · exact Relation.ReflTransGen.head hab h.weaken
  · rcases h with h | h
    · exact Relation.ReflTransGen.head hab.swap h.weaken
    · exact h.weaken

/-! ## Claims about `FindConnectedShipParts` -/

/-- C1: in a finite world with consistent links, `FindConnectedShipParts` started without
an exclusion direction (from a Structure, or from a piston with `skip_piston_direction`
empty) returns a result, and that result is exactly the connected component of the start:
`blocks` holds the Structures reachable from the start, `pistons` the existing pistons
with an endpoint among them, `entity_ids` the ids of those members, and
`cant_skip_because_of_cycle` is false. -/
theorem FindConnectedShipParts_connected_component (g : Game) (hc : g.LinksConsistent)
    (start : BlocksOrPiston) (hstart : start.Exists g) :
    ∃ ret, FindConnectedShipParts g start none = some ret ∧
      (∀ u, u ∈ ret.blocks ↔ g.ReachableFrom start u) ∧
      (∀ p, p ∈ ret.pistons ↔ p ∈ g.pistons ∧ (g.a p ∈ ret.blocks ∨ g.b p ∈ ret.blocks)) ∧
      (∀ x, x ∈ ret.entity_ids ↔ x ∈ ret.blocks ∨ x ∈ ret.pistons) ∧
      ret.cant_skip_because_of_cycle = false := by
  cases start with
  | blocks s =>
    rw [FindConnectedShipParts_blocks]
    exact HandleBlocks_plain hc hstart
  | piston P => exact FindConnectedShipParts_piston_plain hc hstart

theorem FindConnectedShipParts_connected_component_witness :
    exampleChain.LinksConsistent ∧ (BlocksOrPiston.piston 11).Exists exampleChain ∧
    ∃ ret, FindConnectedShipParts exampleChain (.piston 11) none = some ret ∧
      (∀ u, u ∈ ret.blocks ↔ exampleChain.ReachableFrom (.piston 11) u) ∧
      (∀ p, p ∈ ret.pistons ↔ p ∈ exampleChain.pistons ∧
        (exampleChain.a p ∈ ret.blocks ∨ exampleChain.b p ∈ ret.blocks)) ∧
      (∀ x, x ∈ ret.entity_ids ↔ x ∈ ret.blocks ∨ x ∈ ret.pistons) ∧
      ret.cant_skip_because_of_cycle = false :=
  ⟨exampleChain_consistent, by decide,
    FindConnectedShipParts_connected_component exampleChain exampleChain_consistent
      (.piston 11) (by decide)⟩

/-- C2: in a finite world with consistent links, for a piston `P` with two distinct
endpoints that are joined by a path not using `P`, `FindConnectedShipParts(P, d)` returns
a result with `cant_skip_because_of_cycle = true`, for both exclusion directions `d`. -/
theorem FindConnectedShipParts_cycle_flag (g : Game) (hc : g.LinksConsistent) (P : Id)
    (hP : P ∈ g.pistons) (hab : g.a P ≠ g.b P)
    (hcycle : g.Reachable (some P) (g.a P) (g.b P)) (d : Bool) :
    ∃ ret, FindConnectedShipParts g (.piston P) (some d) = some ret ∧
      ret.cant_skip_because_of_cycle = true := by
  obtain ⟨ret, hret, hflag, _⟩ := FindConnectedShipParts_excl hc hP d
  refine ⟨ret, hret, hflag.2 ⟨hab, ?_⟩⟩
  cases d
  · exact hcycle.symm
  · exact hcycle

theorem FindConnectedShipParts_cycle_flag_witness :
    exampleLoop.LinksConsistent ∧ 10 ∈ exampleLoop.pistons ∧
    exampleLoop.a 10 ≠ exampleLoop.b 10 ∧
    exampleLoop.Reachable (some 10) (exampleLoop.a 10) (exampleLoop.b 10) ∧
    ∃ ret, FindConnectedShipParts exampleLoop (.piston 10) (some false) = some ret ∧
      ret.cant_skip_because_of_cycle = true :=
  have hpath : exampleLoop.Reachable (some 10) (exampleLoop.a 10) (exampleLoop.b 10) :=
    Relation.ReflTransGen.tail
      (Relation.ReflTransGen.single ⟨12, by decide, by decide, Or.inl ⟨rfl, rfl⟩⟩)
      ⟨11, by decide, by decide, Or.inr ⟨rfl, rfl⟩⟩
  ⟨exampleLoop_consistent, by decide, by decide, hpath,
    FindConnectedShipParts_cycle_flag exampleLoop exampleLoop_consistent 10 (by decide)
      (by decide) hpath false⟩

/-- C3: in a finite world with consistent links, for a piston `P` on no cycle (its two
endpoints are not joined by a path avoiding `P`), both `FindConnectedShipParts(P, true)`
and `FindConnectedShipParts(P, false)` return `cant_skip_because_of_cycle = false`, and
the union of their block sets, and of their piston sets together with `P`, are the block
set and piston set of `FindConnectedShipParts` started without exclusion from either
endpoint Structure of `P`. -/
theorem FindConnectedShipParts_tree_symmetry (g : Game) (hc : g.LinksConsistent) (P : Id)
    (hP : P ∈ g.pistons) (htree : ¬ g.Reachable (some P) (g.a P) (g.b P)) :
    ∃ ra rb, FindConnectedShipParts g (.piston P) (some true) = some ra ∧
      FindConnectedShipParts g (.piston P) (some false) = some rb ∧
      ra.cant_skip_because_of_cycle = false ∧ rb.cant_skip_because_of_cycle = false ∧
      ∀ s, s = g.a P ∨ s = g.b P →
        ∃ rf, FindConnectedShipParts g (.blocks s) none = some rf ∧
          (∀ u, u ∈ rf.blocks ↔ u ∈ ra.blocks ∨ u ∈ rb.blocks) ∧
          (∀ p, p ∈ rf.pistons ↔ p ∈ ra.pistons ∨ p ∈ rb.pistons ∨ p = P) := by
  have hab : g.a P ≠ g.b P := fun h => htree (h ▸ Relation.ReflTransGen.refl)
  obtain ⟨ra, hra, hfa, hea, _, hPa⟩ := FindConnectedShipParts_excl hc hP true
  obtain ⟨rb, hrb, hfb, heb, _, _⟩ := FindConnectedShipParts_excl hc hP false
  have hfla : ra.cant_skip_because_of_cycle = false := by
    cases h : ra.cant_skip_because_of_cycle with
    | false => rfl
    | true => exact absurd (hfa.1 h).2 htree
  have hflb : rb.cant_skip_because_of_cycle = false := by
    cases h : rb.cant_skip_because_of_cycle with
    | false => rfl
    | true => exact absurd (hfb.1 h).2.symm htree
  obtain ⟨hba, hpa⟩ := hea hfla
  obtain ⟨hbb, hpb⟩ := heb hflb
  refine ⟨ra, rb, hra, hrb, hfla, hflb, fun s hs => ?_⟩
  have hss : s ∈ g.structures := by
    rcases hs with rfl | rfl
    · exact hc.a_mem P hP
    · exact hc.b_mem P hP
  obtain ⟨rf, hrf, hbf, hpf, _, _⟩ := HandleBlocks_plain hc hss
  have hblocks : ∀ u, u ∈ rf.blocks ↔ u ∈ ra.blocks ∨ u ∈ rb.blocks := by
    intro u
    rw [hbf u, hba u, hbb u]
    exact ⟨fun h => Game.Reachable.split hs h, fun h => Game.Reachable.join hP hs h⟩
  refine ⟨rf, by rw [FindConnectedShipParts_blocks]; exact hrf, hblocks, fun p => ?_⟩
  rw [hpf p, hpa p, hpb p, hblocks, hblocks]
  constructor
  · rintro ⟨hpm, (h | h) | (h | h)⟩
    · exact Or.inl ⟨hpm, Or.inl h⟩
    · exact Or.inr (Or.inl ⟨hpm, Or.inl h⟩)
    · exact Or.inl ⟨hpm, Or.inr h⟩
    · exact Or.inr (Or.inl ⟨hpm, Or.inr h⟩)
  · rintro (⟨hpm, h⟩ | ⟨hpm, h⟩ | rfl)
    · exact ⟨hpm, h.imp Or.inl Or.inl⟩
    · exact ⟨hpm, h.imp Or.inr Or.inr⟩
    · exact ⟨hP, Or.inl (Or.inl ((hba _).2 Relation.ReflTransGen.refl))⟩

theorem exampleChain_tree : ¬ exampleChain.Reachable (some 10) (exampleChain.a 10)
    (exampleChain.b 10) := fun h =>
  absurd (Game.Reachable.closed exampleChain_consistent (S := fun u => u = 0)
    (by decide) (by decide) rfl h).1 (by decide)

theorem FindConnectedShipParts_tree_symmetry_witness :
    exampleChain.LinksConsistent ∧ 10 ∈ exampleChain.pistons ∧
    ¬ exampleChain.Reachable (some 10) (exampleChain.a 10) (exampleChain.b 10) ∧
    ∃ ra rb, FindConnectedShipParts exampleChain (.piston 10) (some true) = some ra ∧
      FindConnectedShipParts exampleChain (.piston 10) (some false) = some rb ∧
      ra.cant_skip_because_of_cycle = false ∧ rb.cant_skip_because_of_cycle = false ∧
      ∀ s, s = exampleChain.a 10 ∨ s = exampleChain.b 10 →
        ∃ rf, FindConnectedShipParts exampleChain (.blocks s) none = some rf ∧
          (∀ u, u ∈ rf.blocks ↔ u ∈ ra.blocks ∨ u ∈ rb.blocks) ∧
          (∀ p, p ∈ rf.pistons ↔ p ∈ ra.pistons ∨ p ∈ rb.pistons ∨ p = 10) :=
  ⟨exampleChain_consistent, by decide, exampleChain_tree,
    FindConnectedShipParts_tree_symmetry exampleChain exampleChain_consistent 10
      (by decide) exampleChain_tree⟩

/-! ## Claims about `CollideShipParts` -/

/-- C4: `CollideShipParts(parts, offset, map, tree, filter)` is true exactly when some
Structure of `parts.blocks` collides with the terrain (map present, grid tested at
`pos + offset - map.pos`) or with the index (tree present, `ShipBlocksCollisionTest` at
that offset with that filter), or some piston of `parts.pistons` does (map present,
`last_rect + offset - map.pos` against the terrain; tree present, `BoxCollisionTest` of
`last_rect + offset` with that filter).  In particular it is false for a set with no
blocks and no pistons, whatever the offset, and false for every set when both map and
tree are absent. -/
theorem CollideShipParts_iff (g : Game) (parts : ConnectedShipParts) (offset : ivec2)
    (map : Option MapObject) (tree : Option DynamicSolidTree) (entity_filter : EntityFilter) :
    (CollideShipParts g parts offset map tree entity_filter = true ↔
      (∃ blocks ∈ parts.blocks,
        (∃ m, map = some m ∧ m.CollidesWithMap blocks (g.pos blocks + offset - m.pos) = true) ∨
        (∃ t, tree = some t ∧ t.ShipBlocksCollisionTest blocks offset entity_filter = true)) ∨
      (∃ piston ∈ parts.pistons,
        (∃ m, map = some m ∧ m.CollidesWithBox (g.last_rect piston + offset - m.pos) = true) ∨
        (∃ t, tree = some t ∧
          t.BoxCollisionTest (g.last_rect piston + offset) entity_filter = true))) ∧
    (∀ ids flag, CollideShipParts g ⟨[], [], ids, flag⟩ offset map tree entity_filter = false) ∧
    CollideShipParts g parts offset none none entity_filter = false := by
  refine ⟨?_, ?_, ?_⟩
  · cases map <;> cases tree <;> simp [CollideShipParts]
  · intro ids flag
    simp [CollideShipParts]
  · simp [CollideShipParts]

/-! ## Claims about `ExtendOrRetract` -/

theorem examplePair_consistent : examplePair.LinksConsistent :=
  ⟨by decide, by decide, by decide, by decide⟩

theorem FindConnectedShipParts_piston_isSome {g : Game} (hc : g.LinksConsistent) {P : Id}
    (hP : P ∈ g.pistons) (d : Bool) :
    ∃ ret, FindConnectedShipParts g (.piston P) (some d) = some ret := by
  rw [FindConnectedShipParts_piston_excl]
  exact HandleBlocks_isSome hc _ _ _ _ (Game.endpoint_mem hc hP d) rfl (unvisited_start g _)

theorem ExtendOrRetract.locals_isSome (env : Externals) {g : Game} (hc : g.LinksConsistent)
    {this : Id} (hthis : this ∈ g.pistons) (extend gravity_tweaks : Bool) :
    ∃ l, ExtendOrRetract.locals env g this extend gravity_tweaks = some l := by
  obtain ⟨ra, hra⟩ := FindConnectedShipParts_piston_isSome hc hthis true
  obtain ⟨rb, hrb⟩ := FindConnectedShipParts_piston_isSome hc hthis false
  simp only [ExtendOrRetract.locals, hra, hrb]
  exact ⟨_, rfl⟩

/-- The value of `move_b` when `MoveShipParts` is reached (source line 124). -/
theorem ExtendOrRetract_of_locals {env : Externals} {g : Game} {this : Id}
    {extend gravity_tweaks : Bool} {l : ExtendOrRetract.Locals}
    (hguard : ¬ (extend = false ∧ ShipPartPiston.current_length g this ≤ env.tile_size))
    (hl : ExtendOrRetract.locals env g this extend gravity_tweaks = some l) :
    ExtendOrRetract env g this extend gravity_tweaks =
      if l.can_move_a = false ∧ l.can_move_b = false then some (.stuck, g)
      else some (.ok, ExtendOrRetract.commit env g this l
        (if ExtendOrRetract.force_move_a env g this extend l then false
         else !l.can_move_a || (l.can_move_b && (decide (l.ground_a > l.ground_b) ||
            (l.ground_a == l.ground_b && g.dir_flip_flop this))))) := by
  have hg : (!extend && decide (ShipPartPiston.current_length g this ≤ env.tile_size)) = false := by
    cases extend <;> simp_all
  simp only [ExtendOrRetract, hg, hl, Bool.false_eq_true, if_false]
  cases l.can_move_a <;> cases l.can_move_b <;> simp

/-- The length guard of source line 77: a retraction of a piston that is not longer than
`ShipGrid::tile_size` returns at once. -/
theorem ExtendOrRetract_guard (env : Externals) (g : Game) (this : Id)
    (gravity_tweaks : Bool)
    (hlen : ShipPartPiston.current_length g this ≤ env.tile_size) :
    ExtendOrRetract env g this false gravity_tweaks = some (.at_min_length, g) := by
  simp [ExtendOrRetract, hlen]

/-- C6: a call of `ExtendOrRetract` that passes the length guard, that is one that does
not return `at_min_length`, returns a result in a world with consistent links; the result
is `stuck` exactly when both candidate-offset collision tests report a collision
(`can_move_a` and `can_move_b` are both false), in which case the world is unchanged, and
otherwise it is `ok`. -/
theorem ExtendOrRetract_stuck_iff (env : Externals) (g : Game) (this : Id)
    (extend gravity_tweaks : Bool) (hc : g.LinksConsistent) (hthis : this ∈ g.pistons)
    (hguard : ¬ (extend = false ∧ ShipPartPiston.current_length g this ≤ env.tile_size)) :
    ∃ l status g', ExtendOrRetract.locals env g this extend gravity_tweaks = some l ∧
      ExtendOrRetract env g this extend gravity_tweaks = some (status, g') ∧
      status ≠ .at_min_length ∧
      (status = .stuck ↔ l.can_move_a = false ∧ l.can_move_b = false) ∧
      (status = .stuck → g' = g) ∧
      (status ≠ .stuck → status = .ok) := by
  obtain ⟨l, hl⟩ := ExtendOrRetract.locals_isSome env hc hthis extend gravity_tweaks
  have h := ExtendOrRetract_of_locals hguard hl
  by_cases hs : l.can_move_a = false ∧ l.can_move_b = false
  · rw [if_pos hs] at h
    exact ⟨l, .stuck, g, hl, h, by decide, by simp [hs], fun _ => rfl, fun h => absurd rfl h⟩
  · rw [if_neg hs] at h
    exact ⟨l, .ok, _, hl, h, by decide, by simp [hs], (fun h => nomatch h), fun _ => rfl⟩

theorem ExtendOrRetract_stuck_iff_witness :
    examplePair.LinksConsistent ∧ 10 ∈ examplePair.pistons ∧
    ¬ (true = false ∧ ShipPartPiston.current_length examplePair 10 ≤ exampleWalled.tile_size) ∧
    ∃ l status g', ExtendOrRetract.locals exampleWalled examplePair 10 true false = some l ∧
      ExtendOrRetract exampleWalled examplePair 10 true false = some (status, g') ∧
      status ≠ .at_min_length ∧
      (status = .stuck ↔ l.can_move_a = false ∧ l.can_move_b = false) ∧
      (status = .stuck → g' = examplePair) ∧
      (status ≠ .stuck → status = .ok) :=
  ⟨examplePair_consistent, by decide, by decide,
    ExtendOrRetract_stuck_iff exampleWalled examplePair 10 true false examplePair_consistent
      (by decide) (by decide)⟩


theorem ivec2.get_add (u v : ivec2) (i : Bool) : (u + v).get i = u.get i + v.get i := by
  cases i <;> rfl

theorem ivec2.get_axis_self (i : Bool) (n : Int) : (ivec2.axis i n).get i = n := by
  cases i <;> rfl

theorem ExtendOrRetract.locals_spec {env : Externals} {g : Game} {this : Id}
    {extend gravity_tweaks : Bool} {l : ExtendOrRetract.Locals}
    (hl : ExtendOrRetract.locals env g this extend gravity_tweaks = some l) :
    ∃ ra rb, FindConnectedShipParts g (.piston this) (some true) = some ra ∧
      FindConnectedShipParts g (.piston this) (some false) = some rb ∧
      l.parts_a = { ra with pistons := ra.pistons.erase this } ∧
      l.parts_b = { rb with pistons := rb.pistons.erase this } ∧
      l.offset_a = ivec2.axis (g.is_vertical this) (if extend then -1 else 1) ∧
      l.offset_b = ivec2.axis (g.is_vertical this) (if extend then 1 else -1) := by
  simp only [ExtendOrRetract.locals] at hl
  cases hra : FindConnectedShipParts g (.piston this) (some true) with
  | none => simp [hra] at hl
  | some ra =>
    cases hrb : FindConnectedShipParts g (.piston this) (some false) with
    | none => simp [hra, hrb] at hl
    | some rb =>
      simp only [hra, hrb, Option.some.injEq] at hl
      subst hl
      exact ⟨ra, rb, rfl, rfl, rfl, rfl, rfl, rfl⟩

theorem ExtendOrRetract.commit_pos (env : Externals) (g : Game) (this : Id)
    (l : ExtendOrRetract.Locals) (move_b : Bool) (s : Id) :
    (ExtendOrRetract.commit env g this l move_b).pos s =
      if s ∈ (l.side move_b).blocks then
        g.pos s + (if move_b then l.offset_b else l.offset_a)
      else g.pos s := by
  cases move_b <;> rfl

/-- A call that returns `ok` passed the length guard, computed its locals and committed a
move. -/
theorem ExtendOrRetract_ok_inv {env : Externals} {g g' : Game} {this : Id}
    {extend gravity_tweaks : Bool}
    (hres : ExtendOrRetract env g this extend gravity_tweaks = some (.ok, g')) :
    ¬ (extend = false ∧ ShipPartPiston.current_length g this ≤ env.tile_size) ∧
    ∃ l move_b, ExtendOrRetract.locals env g this extend gravity_tweaks = some l ∧
      ¬ (l.can_move_a = false ∧ l.can_move_b = false) ∧
      g' = ExtendOrRetract.commit env g this l move_b := by
  have hguard : ¬ (extend = false ∧
      ShipPartPiston.current_length g this ≤ env.tile_size) := by
    rintro ⟨rfl, hlen⟩
    rw [ExtendOrRetract_guard env g this gravity_tweaks hlen] at hres
    cases hres
  refine ⟨hguard, ?_⟩
  cases hl : ExtendOrRetract.locals env g this extend gravity_tweaks with
  | none =>
    have hg : (!extend && decide (ShipPartPiston.current_length g this ≤ env.tile_size))
        = false := by
      cases extend <;> simp_all
    simp [ExtendOrRetract, hg, hl] at hres
  | some l =>
    rw [ExtendOrRetract_of_locals hguard hl] at hres
    by_cases hs : l.can_move_a = false ∧ l.can_move_b = false
    · rw [if_pos hs] at hres
      cases hres
    · rw [if_neg hs] at hres
      simp only [Option.some.injEq, Prod.mk.injEq, true_and] at hres
      exact ⟨l, _, rfl, hs, hres.symm⟩

/-- On a piston that lies on no cycle the two half traversals return the components of
its two endpoints in the graph without that piston. -/
theorem FindConnectedShipParts_sides_of_tree {g : Game} (hc : g.LinksConsistent) {P : Id}
    (hP : P ∈ g.pistons) (htree : ¬ g.Reachable (some P) (g.a P) (g.b P))
    {ra rb : ConnectedShipParts}
    (hra : FindConnectedShipParts g (.piston P) (some true) = some ra)
    (hrb : FindConnectedShipParts g (.piston P) (some false) = some rb) :
    (∀ u, u ∈ ra.blocks ↔ g.Reachable (some P) (g.a P) u) ∧
    (∀ u, u ∈ rb.blocks ↔ g.Reachable (some P) (g.b P) u) := by
  have hab : g.a P ≠ g.b P := fun h => htree (h ▸ Relation.ReflTransGen.refl)
  obtain ⟨ra', hra', hfa, hea, _, _⟩ := FindConnectedShipParts_excl hc hP true
  obtain ⟨rb', hrb', hfb, heb, _, _⟩ := FindConnectedShipParts_excl hc hP false
  rw [hra] at hra'; cases hra'
  rw [hrb] at hrb'; cases hrb'
  have hfla : ra.cant_skip_because_of_cycle = false := by
    cases h : ra.cant_skip_because_of_cycle with
    | false => rfl
    | true => exact absurd (hfa.1 h).2 htree
  have hflb : rb.cant_skip_because_of_cycle = false := by
    cases h : rb.cant_skip_because_of_cycle with
    | false => rfl
    | true => exact absurd (hfb.1 h).2.symm htree
  exact ⟨(hea hfla).1, (heb hflb).1⟩

/-- C7 (as amended): a call of `ExtendOrRetract` that returns `ok` on a piston lying on
no cycle translates exactly one of the two sides: every Structure of that side moves by
exactly one unit (one pixel, not one tile) along the axis of the piston and by zero on
the other axis, every Structure outside that side, in particular every Structure of the
other side, keeps its position, and the move pushes the two sides apart when extending
and pulls them together when retracting (the length of the piston grows, respectively
shrinks, by one). -/
theorem ExtendOrRetract_moves_one_side (env : Externals) (g g' : Game) (this : Id)
    (extend gravity_tweaks : Bool) (hc : g.LinksConsistent) (hthis : this ∈ g.pistons)
    (htree : ¬ g.Reachable (some this) (g.a this) (g.b this))
    (hres : ExtendOrRetract env g this extend gravity_tweaks = some (.ok, g')) :
    ∃ l move_b, ExtendOrRetract.locals env g this extend gravity_tweaks = some l ∧
      g' = ExtendOrRetract.commit env g this l move_b ∧
      (∀ s, g'.pos s =
        if s ∈ (l.side move_b).blocks then
          g.pos s + ivec2.axis (g.is_vertical this) (if extend = move_b then 1 else -1)
        else g.pos s) ∧
      (if move_b then g.b this else g.a this) ∈ (l.side move_b).blocks ∧
      (∀ s ∈ (l.side (!move_b)).blocks, s ∉ (l.side move_b).blocks) ∧
      ShipPartPiston.current_length g' this =
        ShipPartPiston.current_length g this + (if extend then 1 else -1) := by
  obtain ⟨_, l, move_b, hl, _, hg'⟩ := ExtendOrRetract_ok_inv hres
  obtain ⟨ra, rb, hra, hrb, hpa, hpb, hoa, hob⟩ := ExtendOrRetract.locals_spec hl
  obtain ⟨hba, hbb⟩ := FindConnectedShipParts_sides_of_tree hc hthis htree hra hrb
  have hA : ∀ u, u ∈ l.parts_a.blocks ↔ g.Reachable (some this) (g.a this) u := by
    intro u; rw [hpa]; exact hba u
  have hB : ∀ u, u ∈ l.parts_b.blocks ↔ g.Reachable (some this) (g.b this) u := by
    intro u; rw [hpb]; exact hbb u
  have hdisj : ∀ u, u ∈ l.parts_a.blocks → u ∈ l.parts_b.blocks → False := fun u ha hb =>
    htree (Relation.ReflTransGen.trans ((hA u).1 ha) ((hB u).1 hb).symm)
  have haA : g.a this ∈ l.parts_a.blocks := (hA _).2 Relation.ReflTransGen.refl
  have hbB : g.b this ∈ l.parts_b.blocks := (hB _).2 Relation.ReflTransGen.refl
  have hpos : ∀ s, g'.pos s =
      if s ∈ (l.side move_b).blocks then
        g.pos s + ivec2.axis (g.is_vertical this) (if extend = move_b then 1 else -1)
      else g.pos s := by
    intro s
    rw [hg', ExtendOrRetract.commit_pos, hoa, hob]
    cases move_b <;> cases extend <;> rfl
  refine ⟨l, move_b, hl, hg', hpos, ?_, ?_, ?_⟩
  · cases move_b
    · exact haA
    · exact hbB
  · cases move_b
    · exact fun s hb ha => hdisj s ha hb
    · exact fun s ha hb => hdisj s ha hb
  · have e1 : g'.a this = g.a this := by rw [hg']; cases move_b <;> rfl
    have e2 : g'.b this = g.b this := by rw [hg']; cases move_b <;> rfl
    have e3 : g'.is_vertical this = g.is_vertical this := by rw [hg']; cases move_b <;> rfl
    have e4 : g'.pos_relative_to_a this = g.pos_relative_to_a this := by
      rw [hg']; cases move_b <;> rfl
    have e5 : g'.pos_relative_to_b this = g.pos_relative_to_b this := by
      rw [hg']; cases move_b <;> rfl
    simp only [ShipPartPiston.current_length, e1, e2, e3, e4, e5, hpos]
    cases move_b
    · have hb' : g.b this ∉ l.parts_a.blocks := fun h => hdisj _ h hbB
      simp only [ExtendOrRetract.Locals.side, Bool.false_eq_true, if_false, haA, hb', if_true,
        ivec2.get_add, ivec2.get_axis_self]
      cases extend <;> simp <;> ring
    · have ha' : g.a this ∉ l.parts_b.blocks := fun h => hdisj _ haA h
      simp only [ExtendOrRetract.Locals.side, if_true, hbB, ha', if_false,
        ivec2.get_add, ivec2.get_axis_self]
      cases extend <;> simp <;> ring

theorem examplePair_tree : ¬ examplePair.Reachable (some 10) (examplePair.a 10)
    (examplePair.b 10) := fun h =>
  absurd (Game.Reachable.closed examplePair_consistent (S := fun u => u = 0)
    (by decide) (by decide) rfl h).1 (by decide)

/-- C7 as stated fails: with tiles of 4 pixels, extending the piston of `examplePair`
(which lies on no cycle) without obstacles returns `ok` and moves Structure `0` from
`(0,0)` to `(0,-1)`, one unit, while Structure `1` stays at `(0,8)`; no Structure has
moved by one tile along the axis. -/
theorem ExtendOrRetract_one_tile_counterexample :
    exampleFree.tile_size = 4 ∧ examplePair.pos 0 = ⟨0, 0⟩ ∧ examplePair.pos 1 = ⟨0, 8⟩ ∧
    (ExtendOrRetract exampleFree examplePair 10 true false).map
      (fun r => (r.1, r.2.pos 0, r.2.pos 1)) = some (.ok, ⟨0, -1⟩, ⟨0, 8⟩) ∧
    (ExtendOrRetract exampleFree examplePair 10 true false).map
      (fun r => decide (∃ s ∈ examplePair.structures,
        r.2.pos s = examplePair.pos s + ivec2.axis true exampleFree.tile_size ∨
        r.2.pos s = examplePair.pos s + ivec2.axis true (-exampleFree.tile_size)))
      = some false := by
  decide

theorem ExtendOrRetract_moves_one_side_witness :
    examplePair.LinksConsistent ∧ 10 ∈ examplePair.pistons ∧
    ¬ examplePair.Reachable (some 10) (examplePair.a 10) (examplePair.b 10) ∧
    ExtendOrRetract exampleFree examplePair 10 true false = some (.ok, examplePairExtended) ∧
    ∃ l move_b, ExtendOrRetract.locals exampleFree examplePair 10 true false = some l ∧
      examplePairExtended = ExtendOrRetract.commit exampleFree examplePair 10 l move_b ∧
      (∀ s, examplePairExtended.pos s =
        if s ∈ (l.side move_b).blocks then
          examplePair.pos s +
            ivec2.axis (examplePair.is_vertical 10) (if true = move_b then 1 else -1)
        else examplePair.pos s) ∧
      (if move_b then examplePair.b 10 else examplePair.a 10) ∈ (l.side move_b).blocks ∧
      (∀ s ∈ (l.side (!move_b)).blocks, s ∉ (l.side move_b).blocks) ∧
      ShipPartPiston.current_length examplePairExtended 10 =
        ShipPartPiston.current_length examplePair 10 + (if true then 1 else -1) :=
  ⟨examplePair_consistent, by decide, examplePair_tree, rfl,
    ExtendOrRetract_moves_one_side exampleFree examplePair examplePairExtended 10 true false
      examplePair_consistent (by decide) examplePair_tree rfl⟩

theorem ExtendOrRetract.commit_dir_flip_flop (env : Externals) (g : Game) (this : Id)
    (l : ExtendOrRetract.Locals) (move_b : Bool) :
    (ExtendOrRetract.commit env g this l move_b).dir_flip_flop this = !g.dir_flip_flop this := by
  cases move_b <;>
    simp [ExtendOrRetract.commit, MoveShipParts, ShipPartPiston.UpdateAabb, ShipPartPiston.flip]

/-- C11 as stated fails: retracting the piston of `examplePair`, which is at its minimal
length, returns `at_min_length` and leaves `dir_flip_flop` at `false`; extending it
between walls returns `stuck` and leaves it at `false` as well. -/
theorem ExtendOrRetract_flip_counterexample :
    examplePair.dir_flip_flop 10 = false ∧
    (ExtendOrRetract exampleFree examplePair 10 false false).map
      (fun r => (r.1, r.2.dir_flip_flop 10)) = some (.at_min_length, false) ∧
    (ExtendOrRetract exampleWalled examplePair 10 true false).map
      (fun r => (r.1, r.2.dir_flip_flop 10)) = some (.stuck, false) := by
  decide

/-- C11 (as amended): in a world with consistent links every call of `ExtendOrRetract`
returns, and the value of `dir_flip_flop` after the call is the negation of its value
before the call exactly when `ok` is returned; when `at_min_length` or `stuck` is
returned it keeps its value. -/
theorem ExtendOrRetract_dir_flip_flop (env : Externals) (g : Game) (this : Id)
    (extend gravity_tweaks : Bool) (hc : g.LinksConsistent) (hthis : this ∈ g.pistons) :
    ∃ status g', ExtendOrRetract env g this extend gravity_tweaks = some (status, g') ∧
      g'.dir_flip_flop this =
        (if status = .ok then !g.dir_flip_flop this else g.dir_flip_flop this) := by
  by_cases hguard : extend = false ∧ ShipPartPiston.current_length g this ≤ env.tile_size
  · obtain ⟨rfl, hlen⟩ := hguard
    exact ⟨.at_min_length, g, ExtendOrRetract_guard env g this gravity_tweaks hlen, rfl⟩
  · obtain ⟨l, hl⟩ := ExtendOrRetract.locals_isSome env hc hthis extend gravity_tweaks
    have h := ExtendOrRetract_of_locals hguard hl
    by_cases hs : l.can_move_a = false ∧ l.can_move_b = false
    · rw [if_pos hs] at h
      exact ⟨.stuck, g, h, rfl⟩
    · rw [if_neg hs] at h
      exact ⟨.ok, _, h, ExtendOrRetract.commit_dir_flip_flop env g this l _⟩

theorem ExtendOrRetract_dir_flip_flop_witness :
    examplePair.LinksConsistent ∧ 10 ∈ examplePair.pistons ∧
    ∃ status g', ExtendOrRetract exampleFree examplePair 10 true false = some (status, g') ∧
      g'.dir_flip_flop 10 =
        (if status = .ok then !examplePair.dir_flip_flop 10 else examplePair.dir_flip_flop 10) :=
  ⟨examplePair_consistent, by decide,
    ExtendOrRetract_dir_flip_flop exampleFree examplePair 10 true false examplePair_consistent
      (by decide)⟩

theorem ivec2.add_assoc' (u v w : ivec2) : u + v + w = u + (v + w) := by
  cases u; cases v; cases w
  show ivec2.mk _ _ = ivec2.mk _ _
  congr 1 <;> exact Int.add_assoc _ _ _

/-- C18: `MoveShipParts(parts, offset)` adds `offset` to the position of every Structure
in `parts.blocks`, keeps the position of every other Structure, and changes no piston's
`is_vertical`, `pos_relative_to_a` or `pos_relative_to_b` (nor any link); consequently
moving by `o1` and then by `o2` leaves the same positions as moving by `o1 + o2`. -/
theorem MoveShipParts_frame (env : Externals) (g : Game) (parts : ConnectedShipParts)
    (offset : ivec2) :
    (∀ s ∈ parts.blocks, (MoveShipParts env g parts offset).pos s = g.pos s + offset) ∧
    (∀ s, s ∉ parts.blocks → (MoveShipParts env g parts offset).pos s = g.pos s) ∧
    (MoveShipParts env g parts offset).is_vertical = g.is_vertical ∧
    (MoveShipParts env g parts offset).pos_relative_to_a = g.pos_relative_to_a ∧
    (MoveShipParts env g parts offset).pos_relative_to_b = g.pos_relative_to_b ∧
    (MoveShipParts env g parts offset).a = g.a ∧
    (MoveShipParts env g parts offset).b = g.b ∧
    (MoveShipParts env g parts offset).links = g.links ∧
    (∀ o2, (MoveShipParts env (MoveShipParts env g parts offset) parts o2).pos =
      (MoveShipParts env g parts (offset + o2)).pos) := by
  refine ⟨fun s hs => ?_, fun s hs => ?_, rfl, rfl, rfl, rfl, rfl, rfl, fun o2 => ?_⟩
  · simp [MoveShipParts, hs]
  · simp [MoveShipParts, hs]
  · funext s
    by_cases hs : s ∈ parts.blocks
    · simp [MoveShipParts, hs, ivec2.add_assoc']
    · simp [MoveShipParts, hs]

/-- C19: suppose the box query of the spatial index returns true exactly when the
visitor accepts some entry intersecting the query box.  Then `BoxCollisionTest` (and
likewise `ShipBlocksCollisionTest`, on the translated rectangle of the ship) is true if
and only if some entry intersecting the box holds a body that `entity_filter` accepts, or
no filter is supplied, and whose own fine test returns true; so a filter that rejects
every body makes both tests false. -/
theorem DynamicSolidTree_tests_iff (t : DynamicSolidTree) (Intersects : irect2 → Nat → Prop)
    (hquery : ∀ box visitor, t.CollideAabb box visitor = true ↔
      ∃ node, Intersects box node ∧ visitor node = true)
    (box : irect2) (ship : Id) (ship_offset : ivec2) (entity_filter : EntityFilter) :
    (t.BoxCollisionTest box entity_filter = true ↔
      ∃ node, Intersects box node ∧
        (∀ f, entity_filter = some f → f (t.GetNodeUserData node) = true) ∧
        t.solidBoxCollisionTest (t.GetNodeUserData node) box = true) ∧
    (t.ShipBlocksCollisionTest ship ship_offset entity_filter = true ↔
      ∃ node, Intersects (t.CalculateRect ship + ship_offset) node ∧
        (∀ f, entity_filter = some f → f (t.GetNodeUserData node) = true) ∧
        t.solidShipBlocksCollisionTest (t.GetNodeUserData node) ship ship_offset = true) ∧
    (∀ f, entity_filter = some f → (∀ e, f e = false) →
      t.BoxCollisionTest box entity_filter = false ∧
      t.ShipBlocksCollisionTest ship ship_offset entity_filter = false) := by
  have hbox : t.BoxCollisionTest box entity_filter = true ↔
      ∃ node, Intersects box node ∧
        (∀ f, entity_filter = some f → f (t.GetNodeUserData node) = true) ∧
        t.solidBoxCollisionTest (t.GetNodeUserData node) box = true := by
    rw [DynamicSolidTree.BoxCollisionTest, hquery]
    cases entity_filter with
    | none => simp
    | some f =>
      constructor
      · rintro ⟨node, hi, hv⟩
        refine ⟨node, hi, ?_⟩
        cases hf : f (t.GetNodeUserData node) <;> simp_all
      · rintro ⟨node, hi, hf, hv⟩
        refine ⟨node, hi, ?_⟩
        simp [hf f rfl, hv]
  have hship : t.ShipBlocksCollisionTest ship ship_offset entity_filter = true ↔
      ∃ node, Intersects (t.CalculateRect ship + ship_offset) node ∧
        (∀ f, entity_filter = some f → f (t.GetNodeUserData node) = true) ∧
        t.solidShipBlocksCollisionTest (t.GetNodeUserData node) ship ship_offset = true := by
    rw [DynamicSolidTree.ShipBlocksCollisionTest, hquery]
    cases entity_filter with
    | none => simp
    | some f =>
      constructor
      · rintro ⟨node, hi, hv⟩
        refine ⟨node, hi, ?_⟩
        cases hf : f (t.GetNodeUserData node) <;> simp_all
      · rintro ⟨node, hi, hf, hv⟩
        refine ⟨node, hi, ?_⟩
        simp [hf f rfl, hv]
  refine ⟨hbox, hship, fun f hf hall => ⟨?_, ?_⟩⟩
  · cases h : t.BoxCollisionTest box entity_filter with
    | false => rfl
    | true =>
      obtain ⟨node, _, hacc, _⟩ := hbox.1 h
      have := hacc f hf
      rw [hall] at this
      cases this
  · cases h : t.ShipBlocksCollisionTest ship ship_offset entity_filter with
    | false => rfl
    | true =>
      obtain ⟨node, _, hacc, _⟩ := hship.1 h
      have := hacc f hf
      rw [hall] at this
      cases this

theorem exampleTree_query : ∀ (box : irect2) (visitor : Nat → Bool),
    exampleTree.CollideAabb box visitor = true ↔
      ∃ node, (fun (_ : irect2) (n : Nat) => n = 0 ∨ n = 1) box node ∧ visitor node = true := by
  intro box visitor
  simp only [exampleTree, Bool.or_eq_true]
  constructor
  · rintro (h | h)
    · exact ⟨0, Or.inl rfl, h⟩
    · exact ⟨1, Or.inr rfl, h⟩
  · rintro ⟨node, rfl | rfl, h⟩
    · exact Or.inl h
    · exact Or.inr h

theorem DynamicSolidTree_tests_iff_witness :
    (∀ (box : irect2) (visitor : Nat → Bool),
      exampleTree.CollideAabb box visitor = true ↔
        ∃ node, (fun (_ : irect2) (n : Nat) => n = 0 ∨ n = 1) box node ∧
          visitor node = true) ∧
    ((exampleTree.BoxCollisionTest ⟨⟨0, 0⟩, ⟨1, 1⟩⟩ (some (fun e => e != 7)) = true ↔
      ∃ node, (fun (_ : irect2) (n : Nat) => n = 0 ∨ n = 1) ⟨⟨0, 0⟩, ⟨1, 1⟩⟩ node ∧
        (∀ f, some (fun e => e != 7) = some f → f (exampleTree.GetNodeUserData node) = true) ∧
        exampleTree.solidBoxCollisionTest (exampleTree.GetNodeUserData node)
          ⟨⟨0, 0⟩, ⟨1, 1⟩⟩ = true) ∧
    (exampleTree.ShipBlocksCollisionTest 3 ⟨0, 1⟩ (some (fun e => e != 7)) = true ↔
      ∃ node, (fun (_ : irect2) (n : Nat) => n = 0 ∨ n = 1)
          (exampleTree.CalculateRect 3 + (⟨0, 1⟩ : ivec2)) node ∧
        (∀ f, some (fun e => e != 7) = some f → f (exampleTree.GetNodeUserData node) = true) ∧
        exampleTree.solidShipBlocksCollisionTest (exampleTree.GetNodeUserData node)
          3 ⟨0, 1⟩ = true) ∧
    (∀ f, some (fun e => e != 7) = some f → (∀ e, f e = false) →
      exampleTree.BoxCollisionTest ⟨⟨0, 0⟩, ⟨1, 1⟩⟩ (some (fun e => e != 7)) = false ∧
      exampleTree.ShipBlocksCollisionTest 3 ⟨0, 1⟩ (some (fun e => e != 7)) = false)) :=
  ⟨exampleTree_query,
    DynamicSolidTree_tests_iff exampleTree (fun _ n => n = 0 ∨ n = 1) exampleTree_query
      ⟨⟨0, 0⟩, ⟨1, 1⟩⟩ 3 ⟨0, 1⟩ (some (fun e => e != 7))⟩


/-! ## Claims about the independence of the traversal order -/

theorem Run.nodup {g : Game} {hsp : Option Id} {skip : Option Bool} {c : Call}
    {r r' : ConnectedShipParts} (h : Run g hsp skip c r r')
    (hr : r.blocks.Nodup ∧ r.pistons.Nodup) : r'.blocks.Nodup ∧ r'.pistons.Nodup := by
  induction h with
  | blocks_seen _ => exact hr
  | blocks_new hv _ ih => exact ih ⟨List.nodup_cons.2 ⟨hv, hr.1⟩, hr.2⟩
  | loop_nil => exact hr
  | loop_skip _ _ ih => exact ih hr
  | loop_stop _ _ _ ih => exact ih hr
  | loop_next _ _ _ _ ih1 ih2 => exact ih2 (ih1 hr)
  | piston_stop _ _ ih => exact ih ⟨hr.1, hr.2.insert⟩
  | piston_next _ _ _ ih1 ih2 => exact ih2 (ih1 ⟨hr.1, hr.2.insert⟩)
  | side_idle _ => exact hr
  | side_flag _ _ _ => exact hr
  | side_visit _ _ _ ih => exact ih hr

/-- Every result of `FindConnectedShipParts` lists each Structure and each piston at most
once. -/
theorem FindConnectedShipParts_nodup {g : Game} {start : BlocksOrPiston}
    {skip : Option Bool} {ret : ConnectedShipParts}
    (h : FindConnectedShipParts g start skip = some ret) :
    ret.blocks.Nodup ∧ ret.pistons.Nodup := by
  have h0 : ∀ P : Id, (({} : ConnectedShipParts).addPiston P).blocks.Nodup ∧
      (({} : ConnectedShipParts).addPiston P).pistons.Nodup := fun P =>
    ⟨List.nodup_nil, by simp [ConnectedShipParts.addPiston]⟩
  cases start with
  | blocks s =>
    cases skip with
    | some d => simp [FindConnectedShipParts] at h
    | none =>
      rw [FindConnectedShipParts_blocks] at h
      exact (HandleBlocks_run _ h rfl).nodup ⟨List.nodup_nil, List.nodup_nil⟩
  | piston P =>
    cases skip with
    | some d =>
      rw [FindConnectedShipParts_piston_excl] at h
      exact (HandleBlocks_run _ h rfl).nodup (h0 P)
    | none =>
      rw [FindConnectedShipParts_piston_none] at h
      cases h2 : HandleBlocks g none none (g.structures.length + 1) (g.a P) (some P)
          (({} : ConnectedShipParts).addPiston P) with
      | none => simp [h2] at h
      | some r2 =>
        have hn2 := (HandleBlocks_run _ h2 rfl).nodup (h0 P)
        simp only [h2] at h
        by_cases hfl : r2.cant_skip_because_of_cycle = true
        · simp only [hfl, if_true, Option.some.injEq] at h
          exact h ▸ hn2
        · simp only [hfl, Bool.false_eq_true, if_false] at h
          exact (HandleBlocks_run _ h (by simpa using hfl)).nodup hn2

theorem length_eq_of_mem_iff {l1 l2 : List Id} (h1 : l1.Nodup) (h2 : l2.Nodup)
    (h : ∀ x, x ∈ l1 ↔ x ∈ l2) : l1.length = l2.length :=
  ((List.perm_ext_iff_of_nodup h1 h2).2 h).length_eq

/-- C20 as stated fails: `exampleKite` and `exampleKiteReordered` differ only in the
order in which Structure `0` enumerates its links, both have consistent links, and
`FindConnectedShipParts` from piston `10` with exclusion direction `true` returns three
Structures and three pistons in the first and four of each in the second. -/
theorem FindConnectedShipParts_order_counterexample :
    exampleKiteReordered.structures = exampleKite.structures ∧
    exampleKiteReordered.pistons = exampleKite.pistons ∧
    (∀ p ∈ exampleKite.pistons, exampleKiteReordered.a p = exampleKite.a p ∧
      exampleKiteReordered.b p = exampleKite.b p) ∧
    (∀ s ∈ exampleKite.structures,
      (exampleKiteReordered.links s).Perm (exampleKite.links s)) ∧
    (FindConnectedShipParts exampleKite (.piston 10) (some true)).map
      (fun r => (r.blocks.length, r.pistons.length)) = some (3, 3) ∧
    (FindConnectedShipParts exampleKiteReordered (.piston 10) (some true)).map
      (fun r => (r.blocks.length, r.pistons.length)) = some (4, 4) := by
  decide

theorem Game.Reachable.congr_graph {g1 g2 : Game} (hp : g2.pistons = g1.pistons)
    (ha : g2.a = g1.a) (hb : g2.b = g1.b) (A : Option Id) (u w : Id) :
    g2.Reachable A u w ↔ g1.Reachable A u w := by
  have : g2.Adj A = g1.Adj A := by
    funext u w
    simp only [Game.Adj, hp, ha, hb]
  simp only [Game.Reachable, this]

theorem Game.LinksConsistent.reorder {g1 g2 : Game} (hc : g1.LinksConsistent)
    (hs : g2.structures = g1.structures) (hp : g2.pistons = g1.pistons)
    (ha : g2.a = g1.a) (hb : g2.b = g1.b)
    (hl : ∀ s, (g2.links s).Perm (g1.links s)) : g2.LinksConsistent := by
  refine ⟨fun s hs' p hp' => ?_, fun s hs' p hp' => ?_, fun p hp' => ?_, fun p hp' => ?_⟩
  · rw [hp]
    exact hc.links_mem s (hs ▸ hs') p ((hl s).mem_iff.1 hp')
  · rw [(hl s).mem_iff, ha, hb]
    exact hc.links_iff s (hs ▸ hs') p (hp ▸ hp')
  · rw [hs, ha]
    exact hc.a_mem p (hp ▸ hp')
  · rw [hs, hb]
    exact hc.b_mem p (hp ▸ hp')

/-- Two results with the same Structures, whose pistons are those touching a recorded
Structure, have the same sizes. -/
theorem sizes_of_members {g1 g2 : Game} (hp : g2.pistons = g1.pistons)
    (ha : g2.a = g1.a) (hb : g2.b = g1.b) {r1 r2 : ConnectedShipParts}
    (hn1 : r1.blocks.Nodup ∧ r1.pistons.Nodup) (hn2 : r2.blocks.Nodup ∧ r2.pistons.Nodup)
    (hblocks : ∀ u, u ∈ r1.blocks ↔ u ∈ r2.blocks)
    (hp1 : ∀ p, p ∈ r1.pistons ↔ p ∈ g1.pistons ∧ (g1.a p ∈ r1.blocks ∨ g1.b p ∈ r1.blocks))
    (hp2 : ∀ p, p ∈ r2.pistons ↔ p ∈ g2.pistons ∧ (g2.a p ∈ r2.blocks ∨ g2.b p ∈ r2.blocks)) :
    r1.blocks.length = r2.blocks.length ∧ r1.pistons.length = r2.pistons.length := by
  refine ⟨length_eq_of_mem_iff hn1.1 hn2.1 hblocks, length_eq_of_mem_iff hn1.2 hn2.2 ?_⟩
  intro p
  rw [hp1 p, hp2 p, hp, ha, hb, hblocks, hblocks]

/-- C20 (as amended): take two worlds that differ only in the order in which each
Structure enumerates its `"pistons"` links, with consistent links, and any starting point
(a Structure, or a piston with or without an exclusion direction).  Both traversals
return; each Structure and each piston appears in either result at most once; the value
of `cant_skip_because_of_cycle` is the same in both; and when it is false (as always
without an exclusion direction) the two block sets have the same size and the two piston
sets have the same size. -/
theorem FindConnectedShipParts_link_order (g1 g2 : Game) (hc : g1.LinksConsistent)
    (hs : g2.structures = g1.structures) (hp : g2.pistons = g1.pistons)
    (ha : g2.a = g1.a) (hb : g2.b = g1.b)
    (hl : ∀ s, (g2.links s).Perm (g1.links s))
    (start : BlocksOrPiston) (hstart : start.Exists g1) (skip : Option Bool)
    (hskip : ∀ s, start = .blocks s → skip = none) :
    ∃ r1 r2, FindConnectedShipParts g1 start skip = some r1 ∧
      FindConnectedShipParts g2 start skip = some r2 ∧
      r1.blocks.Nodup ∧ r1.pistons.Nodup ∧ r2.blocks.Nodup ∧ r2.pistons.Nodup ∧
      r1.cant_skip_because_of_cycle = r2.cant_skip_because_of_cycle ∧
      (r1.cant_skip_because_of_cycle = false →
        r1.blocks.length = r2.blocks.length ∧ r1.pistons.length = r2.pistons.length) := by
  have hc2 := hc.reorder hs hp ha hb hl
  have hreach := Game.Reachable.congr_graph hp ha hb
  cases start with
  | blocks s =>
    obtain rfl := hskip s rfl
    have hs1 : s ∈ g1.structures := hstart
    obtain ⟨r1, h1, hb1, hp1, _, hf1⟩ := HandleBlocks_plain hc hs1
    obtain ⟨r2, h2, hb2, hp2, _, hf2⟩ := HandleBlocks_plain hc2 (hs ▸ hs1)
    rw [← FindConnectedShipParts_blocks] at h1 h2
    have hn1 := FindConnectedShipParts_nodup h1
    have hn2 := FindConnectedShipParts_nodup h2
    refine ⟨r1, r2, h1, h2, hn1.1, hn1.2, hn2.1, hn2.2, by rw [hf1, hf2], fun _ => ?_⟩
    exact sizes_of_members hp ha hb hn1 hn2
      (fun u => by rw [hb1 u, hb2 u, hreach]) hp1 hp2
  | piston P =>
    have hP1 : P ∈ g1.pistons := hstart
    have hP2 : P ∈ g2.pistons := hp ▸ hP1
    cases skip with
    | none =>
      obtain ⟨r1, h1, hb1, hp1, _, hf1⟩ := FindConnectedShipParts_piston_plain hc hP1
      obtain ⟨r2, h2, hb2, hp2, _, hf2⟩ := FindConnectedShipParts_piston_plain hc2 hP2
      have hn1 := FindConnectedShipParts_nodup h1
      have hn2 := FindConnectedShipParts_nodup h2
      refine ⟨r1, r2, h1, h2, hn1.1, hn1.2, hn2.1, hn2.2, by rw [hf1, hf2], fun _ => ?_⟩
      exact sizes_of_members hp ha hb hn1 hn2
        (fun u => by rw [hb1 u, hb2 u, hreach, hreach, ha, hb]) hp1 hp2
    | some d =>
      obtain ⟨r1, h1, hfl1, he1, _, _⟩ := FindConnectedShipParts_excl hc hP1 d
      obtain ⟨r2, h2, hfl2, he2, _, _⟩ := FindConnectedShipParts_excl hc2 hP2 d
      have hn1 := FindConnectedShipParts_nodup h1
      have hn2 := FindConnectedShipParts_nodup h2
      have hend : ∀ d', g2.endpoint d' P = g1.endpoint d' P := fun d' => by
        simp only [Game.endpoint, ha, hb]
      have hflag : r1.cant_skip_because_of_cycle = r2.cant_skip_because_of_cycle := by
        rw [Bool.eq_iff_iff, hfl1, hfl2, hreach, hend, hend, ha, hb]
      refine ⟨r1, r2, h1, h2, hn1.1, hn1.2, hn2.1, hn2.2, hflag, fun hf => ?_⟩
      obtain ⟨hb1, hp1⟩ := he1 hf
      obtain ⟨hb2, hp2⟩ := he2 (hflag ▸ hf)
      exact sizes_of_members hp ha hb hn1 hn2
        (fun u => by rw [hb1 u, hb2 u, hreach, hend]) hp1 hp2

theorem exampleKite_consistent : exampleKite.LinksConsistent :=
  ⟨by decide, by decide, by decide, by decide⟩

theorem exampleKite_links_perm :
    ∀ s, (exampleKiteReordered.links s).Perm (exampleKite.links s)
  | 0 => by decide
  | 1 => List.Perm.refl _
  | 2 => List.Perm.refl _
  | 3 => List.Perm.refl _
  | _ + 4 => List.Perm.refl _

theorem FindConnectedShipParts_link_order_witness :
    exampleKite.LinksConsistent ∧
    exampleKiteReordered.structures = exampleKite.structures ∧
    exampleKiteReordered.pistons = exampleKite.pistons ∧
    exampleKiteReordered.a = exampleKite.a ∧ exampleKiteReordered.b = exampleKite.b ∧
    (∀ s, (exampleKiteReordered.links s).Perm (exampleKite.links s)) ∧
    (BlocksOrPiston.piston 13).Exists exampleKite ∧
    (∀ s, BlocksOrPiston.piston 13 = .blocks s → some true = none) ∧
    ∃ r1 r2, FindConnectedShipParts exampleKite (.piston 13) (some true) = some r1 ∧
      FindConnectedShipParts exampleKiteReordered (.piston 13) (some true) = some r2 ∧
      r1.blocks.Nodup ∧ r1.pistons.Nodup ∧ r2.blocks.Nodup ∧ r2.pistons.Nodup ∧
      r1.cant_skip_because_of_cycle = r2.cant_skip_because_of_cycle ∧
      (r1.cant_skip_because_of_cycle = false →
        r1.blocks.length = r2.blocks.length ∧ r1.pistons.length = r2.pistons.length) :=
  ⟨exampleKite_consistent, rfl, rfl, rfl, rfl, exampleKite_links_perm, by decide,
    (fun _ h => nomatch h),
    FindConnectedShipParts_link_order exampleKite exampleKiteReordered exampleKite_consistent
      rfl rfl rfl rfl exampleKite_links_perm (.piston 13) (by decide) (some true)
      (fun _ h => nomatch h)⟩


/-! ## The flood fill of the decomposition -/

section FloodFill

variable {tile_size : Int} {self : ShipPartBlocks} {new_part : Nat}

theorem ivec2.ext_iff' (u v : ivec2) : u = v ↔ u.x = v.x ∧ u.y = v.y := by
  cases u; cases v; simp

theorem ivec2.add_x (u v : ivec2) : (u + v).x = u.x + v.x := rfl
theorem ivec2.add_y (u v : ivec2) : (u + v).y = u.y + v.y := rfl
theorem ivec2.sub_x (u v : ivec2) : (u - v).x = u.x - v.x := rfl
theorem ivec2.sub_y (u v : ivec2) : (u - v).y = u.y - v.y := rfl
theorem ivec2.neg_x (u : ivec2) : (-u).x = -u.x := rfl
theorem ivec2.neg_y (u : ivec2) : (-u).y = -u.y := rfl
theorem ivec2.mul_x (u : ivec2) (n : Int) : (u * n).x = u.x * n := rfl
theorem ivec2.mul_y (u : ivec2) (n : Int) : (u * n).y = u.y * n := rfl

theorem Array2D.contains_iff {α : Type} (arr : Array2D α) (p : ivec2) :
    arr.contains p = true ↔ 0 ≤ p.x ∧ p.x < arr.size.x ∧ 0 ≤ p.y ∧ p.y < arr.size.y := by
  simp [Array2D.contains, and_assoc]

theorem fillF_run {f : ivec2 → FillState → Except Fault FillState}
    (hf : ∀ abs st st', f abs st = .ok st' → FillRun tile_size self new_part abs st st')
    {abs : ivec2} {st st' : FillState}
    (h : fillF tile_size self new_part f abs st = .ok st') :
    FillRun tile_size self new_part abs st st' := by
  unfold fillF at h
  by_cases c1 : self.cells.contains abs = true
  · by_cases c2 : IsRegularTile (self.cells.safe_nonthrowing_at abs).tile = true
    · by_cases c3 : abs ∈ st.visited
      · simp [c1, c2, c3] at h
        subst h
        exact FillRun.skip (Or.inr (Or.inr c3))
      · simp only [c1, c2, Bool.not_true, Bool.false_eq_true, if_false,
          List.elem_eq_mem, c3, decide_False] at h
        cases hv : visit tile_size self new_part abs st with
        | error e => simp [hv, Except.bind] at h
        | ok st0 =>
          simp only [hv, Except.bind] at h
          cases h1 : f (abs + ivec2.dir4 0) st0 with
          | error e => simp [h1] at h
          | ok st1 =>
            simp only [h1] at h
            cases h2 : f (abs + ivec2.dir4 1) st1 with
            | error e => simp [h2] at h
            | ok st2 =>
              simp only [h2] at h
              cases h3 : f (abs + ivec2.dir4 2) st2 with
              | error e => simp [h3] at h
              | ok st3 =>
                simp only [h3] at h
                exact FillRun.visit c1 c2 c3 hv (hf _ _ _ h1) (hf _ _ _ h2) (hf _ _ _ h3)
                  (hf _ _ _ h)
    · simp [c1, c2] at h
      subst h
      exact FillRun.skip (Or.inr (Or.inl (by simpa using c2)))
  · simp [c1] at h
    subst h
    exact FillRun.skip (Or.inl (by simpa using c1))

theorem fill_run (fuel : Nat) {abs : ivec2} {st st' : FillState}
    (h : fill tile_size self new_part fuel abs st = .ok st') :
    FillRun tile_size self new_part abs st st' := by
  induction fuel generalizing abs st st' with
  | zero => simp [fill] at h
  | succ n ih => exact fillF_run (fun _ _ _ h => ih h) h

end FloodFill

section
variable {tile_size : Int} {self : ShipPartBlocks} {new_part : Nat}

theorem visit_spec {abs : ivec2} {st st0 : FillState}
    (h : visit tile_size self new_part abs st = .ok st0) :
    st0.visited = abs :: st.visited ∧
    (st0.cells, st0.new_part_tile_offset) =
      grow_and_copy self abs st.cells st.new_part_tile_offset ∧
    ∃ q1, arriving tile_size self new_part abs st.queued_pistons = .ok q1 ∧
      starting tile_size self new_part abs (abs :: st.visited)
        (self.cells.safe_nonthrowing_at abs).tile q1 = .ok st0.queued_pistons := by
  unfold visit at h
  cases ha : arriving tile_size self new_part abs st.queued_pistons with
  | error e => simp [ha] at h
  | ok q1 =>
    simp only [ha] at h
    cases hs : starting tile_size self new_part abs (abs :: st.visited)
        (self.cells.safe_nonthrowing_at abs).tile q1 with
    | error e => simp [hs] at h
    | ok q2 =>
      simp only [hs, Except.ok.injEq] at h
      subst h
      exact ⟨rfl, rfl, q1, rfl, hs⟩

end
section ArrayLemmas

theorem Array2D.assign_size {α : Type} (arr : Array2D α) (p : ivec2) (v : α) :
    (arr.assign p v).size = arr.size := by
  unfold Array2D.assign; split <;> rfl

theorem Array2D.contains_assign {α : Type} (arr : Array2D α) (p q : ivec2) (v : α) :
    (arr.assign p v).contains q = arr.contains q := by
  simp [Array2D.contains, Array2D.assign_size]

theorem Array2D.safe_at_assign {α : Type} [Inhabited α] (arr : Array2D α) (p q : ivec2) (v : α)
    (hp : arr.contains p = true) :
    (arr.assign p v).safe_nonthrowing_at q = if q = p then v else arr.safe_nonthrowing_at q := by
  unfold Array2D.safe_nonthrowing_at
  rw [Array2D.contains_assign]
  by_cases hq : q = p
  · subst hq; simp [hp, Array2D.assign]
  · simp only [if_neg hq]
    by_cases hc : arr.contains q = true
    · simp [hc, Array2D.assign, hp, Function.update_noteq hq]
    · simp [hc]

theorem Array2D.contains_grown {α : Type} (arr : Array2D α) (rel : ivec2) :
    ({ size := arr.combine_size rel, data := arr.data } : Array2D α).contains
      (rel - clamp_max rel 0) = true := by
  rw [Array2D.contains_iff]
  simp only [ivec2.sub_x, ivec2.sub_y, clamp_max, Array2D.combine_size]
  refine ⟨?_, ?_, ?_, ?_⟩ <;> omega

theorem Array2D.safe_at_resize {α : Type} [Inhabited α] (arr : Array2D α) (rel q : ivec2) :
    (arr.resize (arr.combine_size rel) (-clamp_max rel 0)).safe_nonthrowing_at q =
      arr.safe_nonthrowing_at (q + clamp_max rel 0) := by
  have e : q - -clamp_max rel 0 = q + clamp_max rel 0 := by
    rw [ivec2.ext_iff']; simp [ivec2.sub_x, ivec2.sub_y, ivec2.add_x, ivec2.add_y,
      ivec2.neg_x, ivec2.neg_y]
  unfold Array2D.safe_nonthrowing_at Array2D.resize
  simp only [e]
  by_cases hc : arr.contains (q + clamp_max rel 0) = true
  · have : ∀ d : ivec2 → α,
        ({ size := arr.combine_size rel, data := d } : Array2D α).contains q = true := by
      intro d
      rw [Array2D.contains_iff] at hc ⊢
      simp only [ivec2.add_x, ivec2.add_y, clamp_max, Array2D.combine_size] at hc ⊢
      refine ⟨?_, ?_, ?_, ?_⟩ <;> omega
    rw [if_pos (this _), if_pos hc]
  · simp [hc]

theorem grow_and_copy_spec (self : ShipPartBlocks) (abs : ivec2) (c : Array2D ShipGrid.Cell)
    (o t : ivec2) :
    (grow_and_copy self abs c o).1.safe_nonthrowing_at (t - (grow_and_copy self abs c o).2) =
      if t = abs then self.cells.safe_nonthrowing_at abs else c.safe_nonthrowing_at (t - o) := by
  unfold grow_and_copy
  by_cases hc : c.contains (abs - o) = true
  · simp only [hc, Bool.not_true, Bool.false_eq_true, if_false]
    rw [Array2D.safe_at_assign _ _ _ _ hc]
    have : (t - o = abs - o) ↔ t = abs := by
      rw [ivec2.ext_iff', ivec2.ext_iff' t]; simp [ivec2.sub_x, ivec2.sub_y]
    simp only [this]
  · simp only [hc, Bool.not_false, if_true]
    have hg : (c.resize (c.combine_size (abs - o)) (-clamp_max (abs - o) 0)).contains
        (abs - o - clamp_max (abs - o) 0) = true := Array2D.contains_grown c (abs - o)
    rw [Array2D.safe_at_assign _ _ _ _ hg, Array2D.safe_at_resize]
    have h1 : (t - (o + clamp_max (abs - o) 0) = abs - o - clamp_max (abs - o) 0) ↔ t = abs := by
      rw [ivec2.ext_iff', ivec2.ext_iff' t]
      simp only [ivec2.sub_x, ivec2.sub_y, ivec2.add_x, ivec2.add_y]
      constructor <;> rintro ⟨h1, h2⟩ <;> constructor <;> omega
    have h2 : t - (o + clamp_max (abs - o) 0) + clamp_max (abs - o) 0 = t - o := by
      rw [ivec2.ext_iff']
      simp only [ivec2.sub_x, ivec2.sub_y, ivec2.add_x, ivec2.add_y]
      constructor <;> omega
    simp only [h1, h2]

theorem mem_vector_range (size p : ivec2) :
    p ∈ vector_range size ↔ 0 ≤ p.x ∧ p.x < size.x ∧ 0 ≤ p.y ∧ p.y < size.y := by
  unfold vector_range
  simp only [List.mem_flatMap, List.mem_range, List.mem_map]
  constructor
  · rintro ⟨y, hy, x, hx, rfl⟩
    simp only
    omega
  · rintro ⟨h1, h2, h3, h4⟩
    refine ⟨p.y.toNat, by omega, p.x.toNat, by omega, ?_⟩
    rw [ivec2.ext_iff']
    simp only
    constructor <;> omega

theorem mem_vector_range_iff_contains {α : Type} (arr : Array2D α) (p : ivec2) :
    p ∈ vector_range arr.size ↔ arr.contains p = true := by
  rw [mem_vector_range, Array2D.contains_iff]

theorem nodup_vector_range (size : ivec2) : (vector_range size).Nodup := by
  unfold vector_range
  rw [List.nodup_flatMap]
  constructor
  · intro y _
    refine (List.nodup_range _).map ?_
    intro a b h
    simpa using congrArg ivec2.x h
  · refine (List.nodup_range _).pairwise_of_forall_ne ?_
    intro a _ b _ hab
    intro p ha hb
    simp only [List.mem_map, List.mem_range] at ha hb
    obtain ⟨x, _, rfl⟩ := ha
    obtain ⟨x2, _, h⟩ := hb
    exact hab (by simpa using (congrArg ivec2.y h).symm)

theorem length_vector_range_le (size : ivec2) :
    (vector_range size).length ≤ (size.x * size.y).toNat := by
  unfold vector_range
  simp only [List.length_flatMap, List.length_map, List.length_range]
  simp only [Function.comp_def, List.length_map, List.length_range, List.map_const',
    List.sum_replicate, smul_eq_mul]
  by_cases hx : 0 ≤ size.x
  · by_cases hy : 0 ≤ size.y
    · obtain ⟨a, ha⟩ := Int.eq_ofNat_of_zero_le hx
      obtain ⟨b, hb⟩ := Int.eq_ofNat_of_zero_le hy
      have e : ((a : Int) * (b : Int)).toNat = a * b := by
        rw [← Nat.cast_mul]; exact Int.toNat_natCast _
      rw [ha, hb, e]
      simp [Nat.mul_comm]
    · have : size.y.toNat = 0 := by omega
      simp [this]
  · have : size.x.toNat = 0 := by omega
    simp [this]

end ArrayLemmas
section QueueLemmas

variable {tile_size : Int} {self : ShipPartBlocks} {new_part : Nat}

theorem ShipPartBlocks.Solid.contains {t : ivec2} (h : self.Solid t) :
    self.cells.contains t = true := by
  unfold ShipPartBlocks.Solid Array2D.safe_nonthrowing_at at h
  by_contra hc
  rw [if_neg hc] at h
  exact absurd h (by decide)

theorem probe_isSome (ty : ShipGrid.Tile) (step : ivec2) (m : ivec2 → Int)
    (hm : ∀ p, m (p + step) = m p - 1)
    (hpos : ∀ p, self.cells.contains p = true → 0 ≤ m p) :
    ∀ (fuel : Nat) (pos : ivec2), 0 ≤ m pos → m pos < fuel →
      ∃ r, probe self ty step fuel pos = some r := by
  intro fuel
  induction fuel with
  | zero => intro pos h0 h1; exact absurd h1 (by push_cast; omega)
  | succ n ih =>
    intro pos h0 h1
    unfold probe
    simp only
    split
    · exact ⟨_, rfl⟩
    · rename_i hc
      simp only [Bool.or_eq_true, Bool.not_eq_true', not_or, Bool.not_eq_false] at hc
      refine ih _ (hpos _ hc.1) ?_
      rw [hm]
      push_cast at h1
      omega

theorem probe_line (ty : ShipGrid.Tile) (step : ivec2) :
    ∀ (fuel : Nat) (pos r : ivec2), probe self ty step fuel pos = some r →
      ∃ j : Nat, r = pos + step * (j : Int) := by
  intro fuel
  induction fuel with
  | zero => intro pos r h; simp [probe] at h
  | succ n ih =>
    intro pos r h
    unfold probe at h
    simp only at h
    split at h
    · refine ⟨0, ?_⟩
      simp only [Option.some.injEq] at h
      subst h
      rw [ivec2.ext_iff']
      simp [ivec2.add_x, ivec2.add_y, ivec2.mul_x, ivec2.mul_y]
    · obtain ⟨j, hj⟩ := ih _ _ h
      refine ⟨j + 1, ?_⟩
      rw [hj, ivec2.ext_iff']
      simp only [ivec2.add_x, ivec2.add_y, ivec2.mul_x, ivec2.mul_y]
      push_cast
      constructor <;> ring

theorem probe_no_track (ty : ShipGrid.Tile) (step : ivec2)
    (hty : ShipGrid.GetTileInfo ty = .track)
    (hnt : ∀ p, ShipGrid.GetTileInfo (self.cells.safe_nonthrowing_at p).tile ≠ .track) :
    ∀ (fuel : Nat) (pos r : ivec2), probe self ty step fuel pos = some r → r = pos := by
  intro fuel pos r h
  cases fuel with
  | zero => simp [probe] at h
  | succ n =>
    unfold probe at h
    simp only at h
    split at h
    · exact (Option.some.inj h).symm
    · rename_i hc
      simp only [Bool.or_eq_true, Bool.not_eq_true', not_or, Bool.not_eq_false] at hc
      have := hnt (pos + step)
      have h2 : (self.cells.safe_nonthrowing_at (pos + step)).tile = ty := by
        simpa using hc.2
      rw [h2] at this
      exact absurd hty this

theorem probe_total (abs : ivec2) (hc : self.cells.contains abs = true)
    (is_vertical is_backward : Bool) (ty : ShipGrid.Tile) :
    ∃ r, probe self ty (ivec2.axis is_vertical (if is_backward then -1 else 1))
      ((self.cells.size.x + self.cells.size.y).toNat + 1) abs = some r := by
  rw [Array2D.contains_iff] at hc
  cases is_vertical <;> cases is_backward
  · refine probe_isSome ty _ (fun p => self.cells.size.x - 1 - p.x) ?_ ?_ _ _ ?_ ?_
    · intro p; simp [ivec2.axis, ivec2.add_x]; ring
    · intro p hp; rw [Array2D.contains_iff] at hp; beta_reduce; omega
    · beta_reduce; omega
    · beta_reduce; push_cast; omega
  · refine probe_isSome ty _ (fun p => p.x) ?_ ?_ _ _ ?_ ?_
    · intro p; simp [ivec2.axis, ivec2.add_x]; ring
    · intro p hp; rw [Array2D.contains_iff] at hp; beta_reduce; omega
    · beta_reduce; omega
    · beta_reduce; push_cast; omega
  · refine probe_isSome ty _ (fun p => self.cells.size.y - 1 - p.y) ?_ ?_ _ _ ?_ ?_
    · intro p; simp [ivec2.axis, ivec2.add_y]; ring
    · intro p hp; rw [Array2D.contains_iff] at hp; beta_reduce; omega
    · beta_reduce; omega
    · beta_reduce; push_cast; omega
  · refine probe_isSome ty _ (fun p => p.y) ?_ ?_ _ _ ?_ ?_
    · intro p; simp [ivec2.axis, ivec2.add_y]; ring
    · intro p hp; rw [Array2D.contains_iff] at hp; beta_reduce; omega
    · beta_reduce; omega
    · beta_reduce; push_cast; omega

theorem starting_one_spec (abs : ivec2) (hc : self.cells.contains abs = true)
    (visited : List ivec2) (is_vertical is_backward : Bool)
    (q : List (ivec2 × QueuedPiston)) :
    ∃ q1, starting_one tile_size self new_part abs visited is_vertical is_backward q = .ok q1 ∧
      (q1 = q ∨ ∃ e, q1 = q ++ [e] ∧ Pushed tile_size self new_part abs visited e) := by
  unfold starting_one
  simp only
  obtain ⟨r, hr⟩ := probe_total abs hc is_vertical is_backward
    (if is_vertical then ShipGrid.Tile.piston_v else ShipGrid.Tile.piston_h)
  rw [hr]
  simp only
  by_cases hne : r = abs
  · simp [hne]
  · rw [if_pos hne]
    by_cases hcond : (self.cells.contains
          (r + ivec2.axis is_vertical (if is_backward then -1 else 1))
        && ShipGrid.GetTileInfo (self.cells.safe_nonthrowing_at
          (r + ivec2.axis is_vertical (if is_backward then -1 else 1))).tile
            == .solid_attachable
        && !(visited.contains (r + ivec2.axis is_vertical (if is_backward then -1 else 1))))
        = true
    · rw [if_pos hcond]
      refine ⟨_, rfl, Or.inr ⟨_, rfl, ?_⟩⟩
      simp only [Bool.and_eq_true, Bool.not_eq_true', List.elem_eq_mem,
        decide_eq_false_iff_not] at hcond
      obtain ⟨j, hj⟩ := probe_line _ _ _ _ _ hr
      refine ⟨hcond.2, rfl, rfl, if is_backward then -1 else 1, j, ?_, ?_, ?_, rfl⟩
      · cases is_backward <;> simp
      · rcases Nat.eq_zero_or_pos j with h0 | h0
        · exfalso; apply hne; rw [hj, h0, ivec2.ext_iff']
          simp [ivec2.add_x, ivec2.add_y, ivec2.mul_x, ivec2.mul_y]
        · exact h0
      · simp only
        rw [hj, ivec2.ext_iff']
        simp only [ivec2.add_x, ivec2.add_y, ivec2.mul_x, ivec2.mul_y]
        constructor <;> ring
    · rw [if_neg hcond]
      exact ⟨_, rfl, Or.inl rfl⟩

theorem starting_one_no_track (abs : ivec2)
    (hnt : ∀ p, ShipGrid.GetTileInfo (self.cells.safe_nonthrowing_at p).tile ≠ .track)
    (visited : List ivec2) (is_vertical is_backward : Bool)
    (q q1 : List (ivec2 × QueuedPiston))
    (h : starting_one tile_size self new_part abs visited is_vertical is_backward q = .ok q1) :
    q1 = q := by
  unfold starting_one at h
  simp only at h
  split at h
  · simp at h
  · rename_i r hr
    have := probe_no_track _ _ (by cases is_vertical <;> rfl) hnt _ _ _ hr
    simp only [this, ne_eq, not_true_eq_false, if_false, Except.ok.injEq] at h
    exact h.symm

end QueueLemmas
section QueueLemmas2

variable {tile_size : Int} {self : ShipPartBlocks} {new_part : Nat}

theorem starting_spec (abs : ivec2) (hc : self.cells.contains abs = true)
    (visited : List ivec2) (tile : ShipGrid.Tile) (q : List (ivec2 × QueuedPiston)) :
    ∃ extra, starting tile_size self new_part abs visited tile q = .ok (q ++ extra) ∧
      ∀ e ∈ extra, Pushed tile_size self new_part abs visited e := by
  have one : ∀ (iv ib : Bool) (q : List (ivec2 × QueuedPiston)),
      ∃ extra, starting_one tile_size self new_part abs visited iv ib q = .ok (q ++ extra) ∧
        ∀ e ∈ extra, Pushed tile_size self new_part abs visited e := by
    intro iv ib q
    obtain ⟨q1, h1, h2⟩ := @starting_one_spec tile_size self new_part abs hc visited iv ib q
    rcases h2 with rfl | ⟨e, rfl, he⟩
    · exact ⟨[], by simpa using h1, by simp⟩
    · exact ⟨[e], h1, by simpa using he⟩
  unfold starting
  split
  · obtain ⟨e1, h1, p1⟩ := one false false q
    obtain ⟨e2, h2, p2⟩ := one false true (q ++ e1)
    obtain ⟨e3, h3, p3⟩ := one true false (q ++ e1 ++ e2)
    obtain ⟨e4, h4, p4⟩ := one true true (q ++ e1 ++ e2 ++ e3)
    refine ⟨e1 ++ e2 ++ e3 ++ e4, ?_, ?_⟩
    · simp only [h1, h2, h3, h4, Except.bind]
      simp only [List.append_assoc]
    · intro e he
      simp only [List.mem_append] at he
      rcases he with ((he | he) | he) | he
      exacts [p1 e he, p2 e he, p3 e he, p4 e he]
  · exact ⟨[], by simp, by simp⟩

theorem starting_no_track (abs : ivec2)
    (hnt : ∀ p, ShipGrid.GetTileInfo (self.cells.safe_nonthrowing_at p).tile ≠ .track)
    (visited : List ivec2) (tile : ShipGrid.Tile) (q q1 : List (ivec2 × QueuedPiston))
    (h : starting tile_size self new_part abs visited tile q = .ok q1) : q1 = q := by
  unfold starting at h
  split at h
  · cases h1 : starting_one tile_size self new_part abs visited false false q with
    | error e => simp [h1, Except.bind] at h
    | ok q2 =>
      simp only [h1, Except.bind] at h
      cases h2 : starting_one tile_size self new_part abs visited false true q2 with
      | error e => simp [h2] at h
      | ok q3 =>
        simp only [h2] at h
        cases h3 : starting_one tile_size self new_part abs visited true false q3 with
        | error e => simp [h3] at h
        | ok q4 =>
          simp only [h3] at h
          have e1 := starting_one_no_track abs hnt _ _ _ _ _ h1
          have e2 := starting_one_no_track abs hnt _ _ _ _ _ h2
          have e3 := starting_one_no_track abs hnt _ _ _ _ _ h3
          have e4 := starting_one_no_track abs hnt _ _ _ _ _ h
          rw [e4, e3, e2, e1]
  · exact (Except.ok.inj h).symm

theorem arriving_ok (abs : ivec2) :
    ∀ q : List (ivec2 × QueuedPiston), (∀ e ∈ q, e.1 = abs → e.2.block_b = none) →
      ∃ q1, arriving tile_size self new_part abs q = .ok q1 := by
  intro q
  induction q with
  | nil => intro _; exact ⟨[], rfl⟩
  | cons e rest ih =>
    intro h
    obtain ⟨key, elem⟩ := e
    obtain ⟨r1, hr1⟩ := ih (fun e he => h e (List.mem_cons_of_mem _ he))
    unfold arriving
    by_cases hk : key = abs
    · have := h (key, elem) (List.mem_cons_self _ _) hk
      simp only at this
      simp [hk, this, hr1]
    · simp [hk, hr1]

theorem arriving_mem (abs : ivec2) :
    ∀ q q1 : List (ivec2 × QueuedPiston), arriving tile_size self new_part abs q = .ok q1 →
      ∀ e1 ∈ q1, (e1.1 ≠ abs ∧ e1 ∈ q) ∨
        ∃ e ∈ q, e.1 = abs ∧ e.2.block_b = none ∧
          e1 = (e.1, arriving_one tile_size self new_part abs e.2) := by
  intro q
  induction q with
  | nil =>
    intro q1 h e1 he1
    simp only [arriving, Except.ok.injEq] at h
    subst h
    simp at he1
  | cons e rest ih =>
    intro q1 h e1 he1
    obtain ⟨key, elem⟩ := e
    unfold arriving at h
    cases hr : arriving tile_size self new_part abs rest with
    | error err =>
      simp only [hr] at h
      split at h
      · split at h <;> simp at h
      · simp at h
    | ok r1 =>
      have lift : (e1.1 ≠ abs ∧ e1 ∈ rest) ∨
          (∃ e ∈ rest, e.1 = abs ∧ e.2.block_b = none ∧
            e1 = (e.1, arriving_one tile_size self new_part abs e.2)) →
          (e1.1 ≠ abs ∧ e1 ∈ (key, elem) :: rest) ∨
          (∃ e ∈ (key, elem) :: rest, e.1 = abs ∧ e.2.block_b = none ∧
            e1 = (e.1, arriving_one tile_size self new_part abs e.2)) := by
        rintro (⟨a, b⟩ | ⟨e, he, a, b, c⟩)
        · exact Or.inl ⟨a, List.mem_cons_of_mem _ b⟩
        · exact Or.inr ⟨e, List.mem_cons_of_mem _ he, a, b, c⟩
      simp only [hr] at h
      by_cases hk : key = abs
      · rw [if_pos hk] at h
        by_cases hb : elem.block_b.isSome = true
        · simp [hb] at h
        · rw [if_neg hb] at h
          simp only [Except.ok.injEq] at h
          subst h
          rcases List.mem_cons.1 he1 with rfl | hmem
          · refine Or.inr ⟨(key, elem), List.mem_cons_self _ _, hk, ?_, rfl⟩
            simpa using hb
          · exact lift (ih _ hr _ hmem)
      · rw [if_neg hk] at h
        simp only [Except.ok.injEq] at h
        subst h
        rcases List.mem_cons.1 he1 with rfl | hmem
        · exact Or.inl ⟨hk, List.mem_cons_self _ _⟩
        · exact lift (ih _ hr _ hmem)

theorem arriving_one_good (abs : ivec2) (elem : QueuedPiston)
    (hb : elem.block_b = none)
    (hg : EntryGood tile_size self (new_part + 1) (abs, elem)) :
    EntryGood tile_size self (new_part + 1)
      (abs, arriving_one tile_size self new_part abs elem) := by
  unfold arriving_one
  by_cases ha : elem.block_a = new_part
  · rw [if_pos ha]; exact hg
  · rw [if_neg ha]
    obtain ⟨h1, h2⟩ := hg
    simp only [hb] at h2
    obtain ⟨h2, h3⟩ := h2
    simp only
    split
    · rename_i hgt
      refine ⟨Nat.lt_succ_self _, ?_⟩
      simp only
      refine ⟨h1, fun h => ha h.symm, ?_, ?_⟩
      · cases hv : elem.is_vertical <;>
          simp only [hv, ivec2.get, ivec2.axis, ivec2.add_x, ivec2.add_y, if_true,
            Bool.false_eq_true, if_false] at hgt ⊢ <;> omega
      · cases hv : elem.is_vertical <;>
          simp only [hv, ivec2.get, ivec2.axis, ivec2.add_x, ivec2.add_y, if_true,
            Bool.false_eq_true, if_false, Bool.not_false, Bool.not_true] at h3 ⊢ <;> omega
    · rename_i hgt
      refine ⟨h1, ?_⟩
      simp only
      refine ⟨Nat.lt_succ_self _, ha, ?_, h3⟩
      omega

theorem Pushed.good (hts : tile_size ≠ 0) {abs : ivec2} {visited : List ivec2}
    {e : ivec2 × QueuedPiston} (h : Pushed tile_size self new_part abs visited e) :
    EntryGood tile_size self (new_part + 1) e := by
  obtain ⟨_, hb, ha, σ, j, hσ, hj, hk, hp⟩ := h
  refine ⟨by omega, ?_⟩
  simp only [hb]
  rw [hk, hp]
  have hjz : ((j : Int)) * tile_size ≠ 0 :=
    mul_ne_zero (by exact_mod_cast (by omega : j ≠ 0)) hts
  constructor
  · cases hv : e.2.is_vertical <;>
      simp only [ivec2.get, ivec2.axis, ivec2.add_x, ivec2.add_y, ivec2.mul_x, ivec2.mul_y,
        if_true, Bool.false_eq_true, if_false] <;>
      rcases hσ with rfl | rfl <;> intro h <;> apply hjz <;> linarith
  · cases hv : e.2.is_vertical <;>
      simp only [ivec2.get, ivec2.axis, ivec2.add_x, ivec2.add_y, ivec2.mul_x, ivec2.mul_y,
        if_true, Bool.false_eq_true, if_false, Bool.not_false, Bool.not_true] <;> ring

end QueueLemmas2
section FillLemmas

variable {tile_size : Int} {self : ShipPartBlocks} {new_part : Nat}

theorem ivec2.dir4_cases (i : Nat) :
    ivec2.dir4 i = ivec2.dir4 0 ∨ ivec2.dir4 i = ivec2.dir4 1 ∨
      ivec2.dir4 i = ivec2.dir4 2 ∨ ivec2.dir4 i = ivec2.dir4 3 := by
  have h : i % 4 = 0 ∨ i % 4 = 1 ∨ i % 4 = 2 ∨ i % 4 = 3 := by omega
  rcases h with h | h | h | h
  · left; simp [ivec2.dir4, h]
  · right; left; simp [ivec2.dir4, h]
  · right; right; left; simp [ivec2.dir4, h]
  · right; right; right; simp [ivec2.dir4, h]

theorem ivec2.dir4_opposite (i : Nat) : ivec2.dir4 (i + 2) = -ivec2.dir4 i := by
  have h : i % 4 = 0 ∨ i % 4 = 1 ∨ i % 4 = 2 ∨ i % 4 = 3 := by omega
  rcases h with h | h | h | h
  · have h2 : (i + 2) % 4 = 2 := by omega
    simp only [ivec2.dir4, h, h2]; rfl
  · have h2 : (i + 2) % 4 = 3 := by omega
    simp only [ivec2.dir4, h, h2]; rfl
  · have h2 : (i + 2) % 4 = 0 := by omega
    simp only [ivec2.dir4, h, h2]; rfl
  · have h2 : (i + 2) % 4 = 1 := by omega
    simp only [ivec2.dir4, h, h2]; rfl

theorem ShipPartBlocks.Link.flip {t u : ivec2} (h : self.Link t u) : self.Link u t := by
  obtain ⟨h1, h2, i, hi⟩ := h
  refine ⟨h2, h1, i + 2, ?_⟩
  rw [ivec2.dir4_opposite, hi, ivec2.ext_iff']
  simp [ivec2.add_x, ivec2.add_y, ivec2.neg_x, ivec2.neg_y]

theorem ShipPartBlocks.Joined.reverse {t u : ivec2} (h : self.Joined t u) : self.Joined u t := by
  induction h with
  | refl => exact Relation.ReflTransGen.refl
  | tail _ hl ih => exact Relation.ReflTransGen.head hl.flip ih

theorem ShipPartBlocks.Joined.solid_left {t u : ivec2} (h : self.Joined t u)
    (hu : self.Solid u) : self.Solid t := by
  rcases Relation.ReflTransGen.cases_head h with rfl | ⟨c, hl, _⟩
  · exact hu
  · exact hl.1

theorem ShipPartBlocks.Joined.solid_right {t u : ivec2} (h : self.Joined t u)
    (ht : self.Solid t) : self.Solid u :=
  h.reverse.solid_left ht

theorem visit_inv {visited0 : List ivec2} {abs : ivec2} {st : FillState}
    (hI : FillInv self visited0 st) (hs : self.Solid abs) (hv : abs ∉ st.visited) :
    ∃ st0, visit tile_size self new_part abs st = .ok st0 ∧ FillInv self visited0 st0 ∧
      st0.visited = abs :: st.visited := by
  obtain ⟨q1, hq1⟩ := @arriving_ok tile_size self new_part abs st.queued_pistons
    (fun e he hk => hI.queue e he (hk ▸ hv))
  obtain ⟨extra, hq2, hp⟩ := @starting_spec tile_size self new_part abs hs.contains
    (abs :: st.visited) (self.cells.safe_nonthrowing_at abs).tile q1
  refine ⟨{ visited := abs :: st.visited, queued_pistons := q1 ++ extra,
            cells := (grow_and_copy self abs st.cells st.new_part_tile_offset).1,
            new_part_tile_offset := (grow_and_copy self abs st.cells st.new_part_tile_offset).2 },
    ?_, ?_, rfl⟩
  · unfold visit
    simp only [hq1, hq2]
  · constructor
    · intro t ht
      rcases List.mem_cons.1 ht with rfl | ht
      · exact hs
      · exact hI.solid t ht
    · exact List.nodup_cons.2 ⟨hv, hI.nodup⟩
    · intro t ht; exact List.mem_cons_of_mem _ (hI.old t ht)
    · intro t
      simp only
      rw [grow_and_copy_spec, hI.view]
      by_cases hta : t = abs
      · subst hta
        have : t ∉ visited0 := fun h => hv (hI.old t h)
        simp [this]
      · simp [hta]
    · intro e he hk
      simp only [List.mem_append] at he
      rcases he with he | he
      · rcases arriving_mem abs _ _ hq1 e he with ⟨hne, hmem⟩ | ⟨e0, _, hk0, _, rfl⟩
        · exact hI.queue e hmem (fun h => hk (List.mem_cons_of_mem _ h))
        · exact absurd (by simp [hk0]) hk
      · exact (hp e he).2.1

theorem visit_good (hts : tile_size ≠ 0) {abs : ivec2} {st st0 : FillState}
    (hc : self.cells.contains abs = true)
    (hg : ∀ e ∈ st.queued_pistons, EntryGood tile_size self (new_part + 1) e)
    (h : visit tile_size self new_part abs st = .ok st0) :
    ∀ e ∈ st0.queued_pistons, EntryGood tile_size self (new_part + 1) e := by
  obtain ⟨_, _, q1, hq1, hq2⟩ := visit_spec h
  obtain ⟨extra, hq3, hp⟩ := @starting_spec tile_size self new_part abs hc
    (abs :: st.visited) (self.cells.safe_nonthrowing_at abs).tile q1
  rw [hq3] at hq2
  have := Except.ok.inj hq2
  rw [← this]
  intro e he
  simp only [List.mem_append] at he
  rcases he with he | he
  · rcases arriving_mem abs _ _ hq1 e he with ⟨_, hmem⟩ | ⟨e0, he0, hk0, hb0, rfl⟩
    · exact hg e hmem
    · have := hg e0 he0
      obtain ⟨k0, el0⟩ := e0
      simp only at hk0 hb0 ⊢
      subst hk0
      exact arriving_one_good k0 el0 hb0 this
  · exact (hp e he).good hts

theorem visit_no_track
    (hnt : ∀ p, ShipGrid.GetTileInfo (self.cells.safe_nonthrowing_at p).tile ≠ .track)
    {abs : ivec2} {st st0 : FillState} (hq : st.queued_pistons = [])
    (h : visit tile_size self new_part abs st = .ok st0) : st0.queued_pistons = [] := by
  obtain ⟨_, _, q1, hq1, hq2⟩ := visit_spec h
  rw [hq] at hq1
  simp only [arriving, Except.ok.injEq] at hq1
  subst hq1
  exact starting_no_track abs hnt _ _ _ _ hq2

theorem FillRun.invariant (I : FillState → Prop)
    (hstep : ∀ abs st st0, I st → self.Solid abs → abs ∉ st.visited →
      Ship.visit tile_size self new_part abs st = .ok st0 → I st0)
    {abs : ivec2} {st st1 : FillState} (h : FillRun tile_size self new_part abs st st1)
    (hI : I st) : I st1 := by
  induction h with
  | skip _ => exact hI
  | visit c1 c2 c3 hv _ _ _ _ ih1 ih2 ih3 ih4 =>
    exact ih4 (ih3 (ih2 (ih1 (hstep _ _ _ hI c2 c3 hv))))

theorem FillRun.fillInv {visited0 : List ivec2} {abs : ivec2} {st st1 : FillState}
    (h : FillRun tile_size self new_part abs st st1) (hI : FillInv self visited0 st) :
    FillInv self visited0 st1 := by
  refine FillRun.invariant (FillInv self visited0) ?_ h hI
  intro abs st st0 hI hs hv hvis
  obtain ⟨st0', h1, h2, _⟩ := @visit_inv tile_size self new_part visited0 abs st hI hs hv
  rw [hvis] at h1
  rw [Except.ok.inj h1]
  exact h2

theorem FillRun.suffix {abs : ivec2} {st st1 : FillState}
    (h : FillRun tile_size self new_part abs st st1) :
    ∃ new, st1.visited = new ++ st.visited := by
  induction h with
  | skip _ => exact ⟨[], rfl⟩
  | @visit abs st st0 st1 st2 st3 st4 c1 c2 c3 hv _ _ _ _ ih1 ih2 ih3 ih4 =>
    obtain ⟨n1, e1⟩ := ih1
    obtain ⟨n2, e2⟩ := ih2
    obtain ⟨n3, e3⟩ := ih3
    obtain ⟨n4, e4⟩ := ih4
    refine ⟨n4 ++ n3 ++ n2 ++ n1 ++ [abs], ?_⟩
    rw [e4, e3, e2, e1, (visit_spec hv).1]
    simp

theorem FillRun.subset {abs : ivec2} {st st1 : FillState}
    (h : FillRun tile_size self new_part abs st st1) {t : ivec2} (ht : t ∈ st.visited) :
    t ∈ st1.visited := by
  obtain ⟨new, e⟩ := h.suffix
  rw [e]; exact List.mem_append_right _ ht

theorem FillRun.post {visited0 : List ivec2} {abs : ivec2} {st st1 : FillState}
    (h : FillRun tile_size self new_part abs st st1) (hI : FillInv self visited0 st) :
    (self.Solid abs → abs ∈ st1.visited) ∧
    ∀ t ∈ st1.visited, t ∉ st.visited →
      (∀ i, self.Solid (t + ivec2.dir4 i) → t + ivec2.dir4 i ∈ st1.visited) ∧
      self.Joined abs t := by
  induction h with
  | @skip abs st hsk =>
    refine ⟨fun hs => ?_, fun t ht hn => absurd ht hn⟩
    rcases hsk with h | h | h
    · exact absurd hs.contains (by simp [h])
    · exact absurd hs (by unfold ShipPartBlocks.Solid; simp [h])
    · exact h
  | @visit abs st st0 st1 st2 st3 st4 c1 c2 c3 hv r1 r2 r3 r4 ih1 ih2 ih3 ih4 =>
    have hv0 := (visit_spec hv).1
    have I0 : FillInv self visited0 st0 := by
      obtain ⟨st0', h1, h2, _⟩ := @visit_inv tile_size self new_part visited0 abs st hI c2 c3
      rw [hv] at h1
      rw [Except.ok.inj h1]
      exact h2
    have I1 := r1.fillInv I0
    have I2 := r2.fillInv I1
    have I3 := r3.fillInv I2
    have I4 := r4.fillInv I3
    obtain ⟨p1, q1⟩ := ih1 I0
    obtain ⟨p2, q2⟩ := ih2 I1
    obtain ⟨p3, q3⟩ := ih3 I2
    obtain ⟨p4, q4⟩ := ih4 I3
    have habs : abs ∈ st0.visited := by rw [hv0]; exact List.mem_cons_self _ _
    have link : ∀ (k : Nat) (t : ivec2), self.Joined (abs + ivec2.dir4 k) t → self.Solid t →
        self.Joined abs t := fun k t hj ht =>
      Relation.ReflTransGen.head ⟨c2, hj.solid_left ht, k, rfl⟩ hj
    refine ⟨fun _ => r4.subset (r3.subset (r2.subset (r1.subset habs))), ?_⟩
    intro t ht hn
    by_cases m3 : t ∈ st3.visited
    · by_cases m2 : t ∈ st2.visited
      · by_cases m1 : t ∈ st1.visited
        · by_cases m0 : t ∈ st0.visited
          · rw [hv0] at m0
            rcases List.mem_cons.1 m0 with rfl | m0
            · refine ⟨?_, Relation.ReflTransGen.refl⟩
              intro i hs
              rcases ivec2.dir4_cases i with e | e | e | e <;> rw [e] at hs ⊢
              · exact r4.subset (r3.subset (r2.subset (p1 hs)))
              · exact r4.subset (r3.subset (p2 hs))
              · exact r4.subset (p3 hs)
              · exact p4 hs
            · exact absurd m0 hn
          · obtain ⟨a, b⟩ := q1 t m1 m0
            exact ⟨fun i hs => r4.subset (r3.subset (r2.subset (a i hs))),
              link 0 t b (I4.solid t ht)⟩
        · obtain ⟨a, b⟩ := q2 t m2 m1
          exact ⟨fun i hs => r4.subset (r3.subset (a i hs)), link 1 t b (I4.solid t ht)⟩
      · obtain ⟨a, b⟩ := q3 t m3 m2
        exact ⟨fun i hs => r4.subset (a i hs), link 2 t b (I4.solid t ht)⟩
    · obtain ⟨a, b⟩ := q4 t ht m3
      exact ⟨a, link 3 t b (I4.solid t ht)⟩

end FillLemmas
section FuelLemmas

variable {tile_size : Int} {self : ShipPartBlocks} {new_part : Nat}

theorem unvisited_card_mono {v w : List ivec2} (h : ∀ t ∈ v, t ∈ w) :
    (unvisited_tiles self w).card ≤ (unvisited_tiles self v).card := by
  apply Finset.card_le_card
  intro p hp
  simp only [unvisited_tiles, Finset.mem_filter] at hp ⊢
  exact ⟨hp.1, hp.2.1, fun hv => hp.2.2 (h p hv)⟩

theorem unvisited_card_lt {v : List ivec2} {abs : ivec2} (hs : self.Solid abs)
    (hv : abs ∉ v) :
    (unvisited_tiles self (abs :: v)).card < (unvisited_tiles self v).card := by
  apply Finset.card_lt_card
  rw [Finset.ssubset_iff_of_subset]
  · refine ⟨abs, ?_, ?_⟩
    · simp only [unvisited_tiles, Finset.mem_filter, List.mem_toFinset]
      exact ⟨(mem_vector_range_iff_contains _ _).2 hs.contains, hs, hv⟩
    · simp [unvisited_tiles]
  · intro p hp
    simp only [unvisited_tiles, Finset.mem_filter] at hp ⊢
    exact ⟨hp.1, hp.2.1, fun h => hp.2.2 (List.mem_cons_of_mem _ h)⟩

theorem unvisited_card_le (v : List ivec2) :
    (unvisited_tiles self v).card ≤ (self.cells.size.x * self.cells.size.y).toNat := by
  refine le_trans (Finset.card_filter_le _ _) ?_
  exact le_trans (List.toFinset_card_le _) (length_vector_range_le _)

theorem fill_total {visited0 : List ivec2} :
    ∀ (fuel : Nat) (abs : ivec2) (st : FillState), FillInv self visited0 st →
      (unvisited_tiles self st.visited).card < fuel →
      ∃ st1, fill tile_size self new_part fuel abs st = .ok st1 := by
  intro fuel
  induction fuel with
  | zero => intro abs st _ h; exact absurd h (Nat.not_lt_zero _)
  | succ k ih =>
    intro abs st hI hlt
    have child : ∀ (pos : ivec2) (s : FillState), FillInv self visited0 s →
        (unvisited_tiles self s.visited).card < k →
        ∃ s1, fill tile_size self new_part k pos s = .ok s1 ∧ FillInv self visited0 s1 ∧
          (unvisited_tiles self s1.visited).card < k := by
      intro pos s hs hk
      obtain ⟨s1, h1⟩ := ih pos s hs hk
      have r := fill_run k h1
      exact ⟨s1, h1, r.fillInv hs,
        lt_of_le_of_lt (unvisited_card_mono (fun t ht => r.subset ht)) hk⟩
    show ∃ st1, fillF tile_size self new_part (fill tile_size self new_part k) abs st = .ok st1
    unfold fillF
    by_cases c1 : self.cells.contains abs = true
    · by_cases c2 : IsRegularTile (self.cells.safe_nonthrowing_at abs).tile = true
      · by_cases c3 : abs ∈ st.visited
        · exact ⟨st, by simp [c1, c2, c3]⟩
        · obtain ⟨st0, hv, I0, e0⟩ :=
            @visit_inv tile_size self new_part visited0 abs st hI c2 c3
          have k0 : (unvisited_tiles self st0.visited).card < k := by
            rw [e0]
            have := @unvisited_card_lt self st.visited abs c2 c3
            omega
          obtain ⟨s1, h1, I1, k1⟩ := child (abs + ivec2.dir4 0) st0 I0 k0
          obtain ⟨s2, h2, I2, k2⟩ := child (abs + ivec2.dir4 1) s1 I1 k1
          obtain ⟨s3, h3, I3, k3⟩ := child (abs + ivec2.dir4 2) s2 I2 k2
          obtain ⟨s4, h4, _, _⟩ := child (abs + ivec2.dir4 3) s3 I3 k3
          refine ⟨s4, ?_⟩
          simp only [c1, c2, Bool.not_true, Bool.false_eq_true, if_false,
            List.elem_eq_mem, c3, decide_False, hv, Except.bind, h1, h2, h3, h4]
      · exact ⟨st, by simp [c1, c2]⟩
    · exact ⟨st, by simp [c1]⟩

/-- The flood fill started on an unvisited solid tile `seed`, with a visited list that
is closed under adjacency, returns, and what it adds to the visited list is the
4-connected component of `seed`. -/
theorem fill_component {visited0 : List ivec2} {q0 : List (ivec2 × QueuedPiston)}
    {seed : ivec2} (hseed : self.Solid seed) (hnew : seed ∉ visited0)
    (hsol : ∀ t ∈ visited0, self.Solid t) (hnd : visited0.Nodup)
    (hcl : ∀ t ∈ visited0, ∀ i, self.Solid (t + ivec2.dir4 i) → t + ivec2.dir4 i ∈ visited0)
    (hq : QueueOpen visited0 q0) :
    ∃ st, fill tile_size self new_part ((self.cells.size.x * self.cells.size.y).toNat + 1) seed
        { visited := visited0, queued_pistons := q0,
          cells := { size := ⟨0, 0⟩, data := fun _ => default },
          new_part_tile_offset := seed } = .ok st ∧
      FillRun tile_size self new_part seed
        { visited := visited0, queued_pistons := q0,
          cells := { size := ⟨0, 0⟩, data := fun _ => default },
          new_part_tile_offset := seed } st ∧
      FillInv self visited0 st ∧
      (∃ new, st.visited = new ++ visited0) ∧
      (∀ t, (t ∈ st.visited ∧ t ∉ visited0) ↔ self.Joined seed t) ∧
      (∀ t ∈ st.visited, ∀ i, self.Solid (t + ivec2.dir4 i) →
        t + ivec2.dir4 i ∈ st.visited) := by
  have I0 : FillInv self visited0
      { visited := visited0, queued_pistons := q0,
        cells := { size := ⟨0, 0⟩, data := fun _ => default },
        new_part_tile_offset := seed } := by
    refine ⟨hsol, hnd, fun t ht => ht, ?_, hq⟩
    intro t
    have : ¬ (t ∈ visited0 ∧ t ∉ visited0) := fun h => h.2 h.1
    simp only [this, if_false]
    unfold Array2D.safe_nonthrowing_at
    split <;> rfl
  obtain ⟨st, hst⟩ := @fill_total tile_size self new_part visited0
    ((self.cells.size.x * self.cells.size.y).toNat + 1) seed _ I0
    (Nat.lt_succ_of_le (unvisited_card_le _))
  have r := fill_run _ hst
  have I1 := r.fillInv I0
  obtain ⟨p1, p2⟩ := r.post I0
  have closed : ∀ t ∈ st.visited, ∀ i, self.Solid (t + ivec2.dir4 i) →
      t + ivec2.dir4 i ∈ st.visited := by
    intro t ht i hs
    by_cases h0 : t ∈ visited0
    · exact I1.old _ (hcl t h0 i hs)
    · exact (p2 t ht h0).1 i hs
  have reach : ∀ (v : List ivec2), (∀ t ∈ v, ∀ i, self.Solid (t + ivec2.dir4 i) →
      t + ivec2.dir4 i ∈ v) → ∀ a b, self.Joined a b → a ∈ v → b ∈ v := by
    intro v hv a b hj ha
    induction hj with
    | refl => exact ha
    | tail _ hl ih =>
      obtain ⟨_, hs, i, rfl⟩ := hl
      exact hv _ ih i hs
  refine ⟨st, hst, r, I1, r.suffix, ?_, closed⟩
  intro t
  constructor
  · rintro ⟨h1, h2⟩
    exact (p2 t h1 h2).2
  · intro hj
    refine ⟨reach _ closed _ _ hj (p1 hseed), fun h0 => hnew ?_⟩
    exact reach _ hcl _ _ hj.reverse h0

end FuelLemmas
section OuterLemmas

variable {tile_size : Int} {self : ShipPartBlocks} {new_part : Nat}

theorem not_regular_default : IsRegularTile (default : ShipGrid.Cell).tile = false := rfl

theorem regular_contains {cells : Array2D ShipGrid.Cell} {r : ivec2}
    (h : IsRegularTile (cells.safe_nonthrowing_at r).tile = true) : cells.contains r = true := by
  unfold Array2D.safe_nonthrowing_at at h
  by_contra hc
  rw [if_neg hc] at h
  exact absurd h (by decide)

theorem ivec2.sub_add_cancel' (t o : ivec2) : t - o + o = t := by
  rw [ivec2.ext_iff']; simp [ivec2.add_x, ivec2.add_y, ivec2.sub_x, ivec2.sub_y]

theorem ivec2.add_sub_cancel' (t o : ivec2) : t + o - o = t := by
  rw [ivec2.ext_iff']; simp [ivec2.add_x, ivec2.add_y, ivec2.sub_x, ivec2.sub_y]

theorem FillInv.holds_iff {visited0 : List ivec2} {st : FillState}
    (hI : FillInv self visited0 st) (t : ivec2) :
    IsRegularTile (st.cells.safe_nonthrowing_at (t - st.new_part_tile_offset)).tile = true ↔
      (t ∈ st.visited ∧ t ∉ visited0) := by
  rw [hI.view]
  constructor
  · intro h
    by_contra hc
    rw [if_neg hc] at h
    exact absurd h (by decide)
  · intro h
    rw [if_pos h]
    exact hI.solid t h.1

theorem FillInv.solid_count_eq {visited0 new : List ivec2} {st : FillState}
    (hI : FillInv self visited0 st) (hs : st.visited = new ++ visited0) :
    solid_count st.cells = new.length := by
  have nd := hI.nodup
  rw [hs] at nd
  have hperm : ((vector_range st.cells.size).filter
      (fun p => IsRegularTile (st.cells.safe_nonthrowing_at p).tile)).Perm
      (new.map (fun t => t - st.new_part_tile_offset)) := by
    rw [List.perm_ext_iff_of_nodup ((nodup_vector_range _).filter _)]
    · intro r
      simp only [List.mem_filter, List.mem_map]
      constructor
      · rintro ⟨_, h⟩
        refine ⟨r + st.new_part_tile_offset, ?_, ivec2.add_sub_cancel' _ _⟩
        rw [← ivec2.add_sub_cancel' r st.new_part_tile_offset] at h
        have := (hI.holds_iff _).1 h
        rw [hs] at this
        rcases List.mem_append.1 this.1 with h1 | h1
        · exact h1
        · exact absurd h1 this.2
      · rintro ⟨t, ht, rfl⟩
        have h : IsRegularTile (st.cells.safe_nonthrowing_at
            (t - st.new_part_tile_offset)).tile = true := by
          rw [hI.holds_iff]
          refine ⟨by rw [hs]; exact List.mem_append_left _ ht, fun h0 => ?_⟩
          exact (List.nodup_append.1 nd).2.2 ht h0
        exact ⟨(mem_vector_range_iff_contains _ _).2 (regular_contains h), h⟩
    · refine (List.Nodup.of_append_left nd).map ?_
      intro a b hab
      simp only at hab
      rw [ivec2.ext_iff'] at hab ⊢
      simp only [ivec2.sub_x, ivec2.sub_y] at hab
      constructor <;> omega
  unfold solid_count
  rw [hperm.length_eq, List.length_map]

theorem OuterInv.fill_step {s : DecomposeState} {seed : ivec2}
    (hO : OuterInv tile_size self s) (hseed : self.Solid seed) (hnew : seed ∉ s.visited) :
    ∃ st, fill tile_size self s.parts.length
        ((self.cells.size.x * self.cells.size.y).toNat + 1) seed
        { visited := s.visited, queued_pistons := s.queued_pistons,
          cells := { size := ⟨0, 0⟩, data := fun _ => default },
          new_part_tile_offset := seed } = .ok st ∧
      OuterInv tile_size self
        { visited := st.visited, queued_pistons := st.queued_pistons,
          parts := s.parts ++ [{ cells := st.cells, tile_offset := st.new_part_tile_offset,
                                 pos := self.pos + st.new_part_tile_offset * tile_size }] } ∧
      (∀ t ∈ s.visited, t ∈ st.visited) ∧ seed ∈ st.visited := by
  obtain ⟨st, hst, _, I1, ⟨new, hsuf⟩, hcomp, hclosed⟩ :=
    @fill_component tile_size self s.parts.length s.visited s.queued_pistons seed hseed hnew
      hO.solid hO.nodup hO.closed hO.queue
  have hold : ∀ t,
      IsRegularTile (st.cells.safe_nonthrowing_at (t - st.new_part_tile_offset)).tile = true ↔
        (t ∈ st.visited ∧ t ∉ s.visited) := fun t => I1.holds_iff t
  refine ⟨st, hst, ?_, I1.old, ((hcomp seed).2 Relation.ReflTransGen.refl).1⟩
  constructor
  · exact I1.solid
  · exact I1.nodup
  · exact hclosed
  · exact I1.queue
  · intro t
    simp only [List.mem_append, List.mem_singleton]
    constructor
    · intro ht
      by_cases h0 : t ∈ s.visited
      · obtain ⟨P, hP, hh⟩ := (hO.cover t).1 h0
        exact ⟨P, Or.inl hP, hh⟩
      · exact ⟨_, Or.inr rfl, (hold t).2 ⟨ht, h0⟩⟩
    · rintro ⟨P, hP | rfl, hh⟩
      · exact I1.old _ ((hO.cover t).2 ⟨P, hP, hh⟩)
      · exact ((hold t).1 hh).1
  · intro P hP
    simp only [List.mem_append, List.mem_singleton] at hP
    rcases hP with hP | rfl
    · exact hO.component P hP
    · exact ⟨seed, hseed, fun t => (hold t).trans (hcomp t)⟩
  · intro P hP t hh
    simp only [List.mem_append, List.mem_singleton] at hP
    rcases hP with hP | rfl
    · exact hO.copy P hP t hh
    · have := (hold t).1 hh
      show st.cells.safe_nonthrowing_at (t - st.new_part_tile_offset) = _
      rw [I1.view, if_pos this]
  · rw [List.pairwise_append]
    refine ⟨hO.disjoint, List.pairwise_singleton _ _, ?_⟩
    intro P hP Q hQ t hh hh2
    rw [List.mem_singleton] at hQ
    subst hQ
    exact ((hold t).1 hh2).2 ((hO.cover t).2 ⟨P, hP, hh⟩)
  · simp only [List.map_append, List.sum_append, List.map_cons, List.map_nil, List.sum_cons,
      List.sum_nil, add_zero]
    rw [hO.count, I1.solid_count_eq hsuf, hsuf, List.length_append]
    omega
  · intro P hP
    simp only [List.mem_append, List.mem_singleton] at hP
    rcases hP with hP | rfl
    · exact hO.pos P hP
    · rfl

theorem fill_loop_spec :
    ∀ (l : List ivec2) (s : DecomposeState), OuterInv tile_size self s →
      ∃ s1, fill_loop tile_size self l s = .ok s1 ∧ OuterInv tile_size self s1 ∧
        (∀ t ∈ s.visited, t ∈ s1.visited) ∧ (∀ t ∈ l, self.Solid t → t ∈ s1.visited) := by
  intro l
  induction l with
  | nil => intro s hO; exact ⟨s, rfl, hO, fun _ h => h, fun _ h => nomatch h⟩
  | cons p rest ih =>
    intro s hO
    unfold fill_loop
    by_cases hc : (IsRegularTile (self.cells.safe_nonthrowing_at p).tile
        && !(s.visited.contains p)) = true
    · rw [if_pos hc]
      simp only [Bool.and_eq_true, Bool.not_eq_true', List.elem_eq_mem,
        decide_eq_false_iff_not] at hc
      obtain ⟨st, hst, hO1, hsub, hseed⟩ := hO.fill_step hc.1 hc.2
      rw [hst]
      simp only
      obtain ⟨s1, h1, hO2, hsub2, hall⟩ := ih _ hO1
      refine ⟨s1, h1, hO2, fun t ht => hsub2 t (hsub t ht), ?_⟩
      intro t ht hs
      rcases List.mem_cons.1 ht with rfl | ht
      · exact hsub2 _ hseed
      · exact hall t ht hs
    · rw [if_neg hc]
      obtain ⟨s1, h1, hO2, hsub2, hall⟩ := ih _ hO
      refine ⟨s1, h1, hO2, hsub2, ?_⟩
      intro t ht hs
      rcases List.mem_cons.1 ht with rfl | ht
      · apply hsub2
        by_contra hn
        apply hc
        simp only [Bool.and_eq_true, Bool.not_eq_true', List.elem_eq_mem,
          decide_eq_false_iff_not]
        exact ⟨hs, hn⟩
      · exact hall t ht hs

/-- The flood fill phase of the decomposition always returns; its Structures partition
the solid tiles into the 4-connected components. -/
theorem fill_loop_total (tile_size : Int) (self : ShipPartBlocks) :
    ∃ s, fill_loop tile_size self (vector_range self.cells.size)
        { visited := [], queued_pistons := [], parts := [] } = .ok s ∧
      OuterInv tile_size self s ∧ (∀ t, self.Solid t ↔ t ∈ s.visited) := by
  have h0 : OuterInv tile_size self { visited := [], queued_pistons := [], parts := [] } := by
    constructor
    · intro t h; exact nomatch h
    · exact List.nodup_nil
    · intro t h; exact nomatch h
    · intro e h; exact nomatch h
    · intro t; simp
    · intro P h; exact nomatch h
    · intro P h; exact nomatch h
    · exact List.Pairwise.nil
    · rfl
    · intro P h; exact nomatch h
  obtain ⟨s, h1, hO, _, hall⟩ := fill_loop_spec (vector_range self.cells.size) _ h0
  refine ⟨s, h1, hO, fun t => ⟨fun hs => ?_, hO.solid t⟩⟩
  exact hall t ((mem_vector_range_iff_contains _ _).2 hs.contains) hs

theorem OuterInv.total_count {s : DecomposeState} (hO : OuterInv tile_size self s)
    (hall : ∀ t, self.Solid t ↔ t ∈ s.visited) :
    (s.parts.map (fun P => solid_count P.cells)).sum = solid_count self.cells := by
  rw [hO.count]
  unfold solid_count
  apply List.Perm.length_eq
  rw [List.perm_ext_iff_of_nodup hO.nodup ((nodup_vector_range _).filter _)]
  intro t
  simp only [List.mem_filter]
  rw [← hall]
  constructor
  · intro hs
    exact ⟨(mem_vector_range_iff_contains _ _).2 hs.contains, hs⟩
  · exact fun h => h.2

end OuterLemmas
section PistonLemmas

variable {tile_size : Int} {self : ShipPartBlocks} {new_part : Nat}

theorem EntryLinked.raise {n : Nat} {e : ivec2 × QueuedPiston} (h : EntryLinked n e) :
    EntryLinked (n + 1) e :=
  ⟨Nat.lt_succ_of_lt h.1, fun b hb => ⟨Nat.lt_succ_of_lt (h.2 b hb).1, (h.2 b hb).2⟩⟩

theorem EntryGood.raise_bound {n : Nat} {e : ivec2 × QueuedPiston}
    (h : EntryGood tile_size self n e) : EntryGood tile_size self (n + 1) e := by
  obtain ⟨h1, h2⟩ := h
  refine ⟨Nat.lt_succ_of_lt h1, ?_⟩
  cases hb : e.2.block_b with
  | none => simpa [hb] using h2
  | some b =>
    simp only [hb] at h2 ⊢
    exact ⟨Nat.lt_succ_of_lt h2.1, h2.2⟩

theorem arriving_one_linked (abs : ivec2) (elem : QueuedPiston)
    (hg : EntryLinked (new_part + 1) (abs, elem)) :
    EntryLinked (new_part + 1) (abs, arriving_one tile_size self new_part abs elem) := by
  unfold arriving_one
  by_cases ha : elem.block_a = new_part
  · rw [if_pos ha]; exact hg
  · rw [if_neg ha]
    simp only
    split
    · refine ⟨Nat.lt_succ_self _, ?_⟩
      intro b hb2
      simp only [Option.some.injEq] at hb2
      subst hb2
      exact ⟨hg.1, fun h => ha h.symm⟩
    · refine ⟨hg.1, ?_⟩
      intro b hb2
      simp only [Option.some.injEq] at hb2
      subst hb2
      exact ⟨Nat.lt_succ_self _, ha⟩

theorem visit_linked {abs : ivec2} {st st0 : FillState}
    (hc : self.cells.contains abs = true)
    (hg : ∀ e ∈ st.queued_pistons, EntryLinked (new_part + 1) e)
    (h : visit tile_size self new_part abs st = .ok st0) :
    ∀ e ∈ st0.queued_pistons, EntryLinked (new_part + 1) e := by
  obtain ⟨_, _, q1, hq1, hq2⟩ := visit_spec h
  obtain ⟨extra, hq3, hp⟩ := @starting_spec tile_size self new_part abs hc
    (abs :: st.visited) (self.cells.safe_nonthrowing_at abs).tile q1
  rw [hq3] at hq2
  have := Except.ok.inj hq2
  rw [← this]
  intro e he
  simp only [List.mem_append] at he
  rcases he with he | he
  · rcases arriving_mem abs _ _ hq1 e he with ⟨_, hmem⟩ | ⟨e0, he0, hk0, hb0, rfl⟩
    · exact hg e hmem
    · have := hg e0 he0
      obtain ⟨k0, el0⟩ := e0
      simp only at hk0 hb0 ⊢
      subst hk0
      exact arriving_one_linked k0 el0 this
  · obtain ⟨_, hb, ha, _⟩ := hp e he
    exact ⟨by omega, fun b hb2 => by rw [hb] at hb2; exact nomatch hb2⟩

theorem fill_loop_queue (J : Nat → List (ivec2 × QueuedPiston) → Prop)
    (hJ : ∀ n seed st0 st, J n st0.queued_pistons → FillRun tile_size self n seed st0 st →
      J (n + 1) st.queued_pistons) :
    ∀ (l : List ivec2) (s s1 : DecomposeState), fill_loop tile_size self l s = .ok s1 →
      J s.parts.length s.queued_pistons → J s1.parts.length s1.queued_pistons := by
  intro l
  induction l with
  | nil =>
    intro s s1 h hs
    simp only [fill_loop, Except.ok.injEq] at h
    subst h
    exact hs
  | cons p rest ih =>
    intro s s1 h hs
    unfold fill_loop at h
    split at h
    · split at h
      · exact absurd h (by simp)
      · rename_i st hst
        refine ih _ _ h ?_
        simp only [List.length_append, List.length_singleton]
        exact hJ _ _ _ _ hs (fill_run _ hst)
    · exact ih _ _ h hs

theorem fill_loop_linked {l : List ivec2} {s s1 : DecomposeState}
    (h : fill_loop tile_size self l s = .ok s1)
    (hs : ∀ e ∈ s.queued_pistons, EntryLinked s.parts.length e) :
    ∀ e ∈ s1.queued_pistons, EntryLinked s1.parts.length e := by
  refine fill_loop_queue (fun n q => ∀ e ∈ q, EntryLinked n e) ?_ l s s1 h hs
  intro n seed st0 st h0 r
  refine FillRun.invariant (fun st => ∀ e ∈ st.queued_pistons, EntryLinked (n + 1) e) ?_ r
    (fun e he => (h0 e he).raise)
  intro abs st st0 hI hsol _ hv
  exact visit_linked hsol.contains hI hv

theorem fill_loop_good (hts : tile_size ≠ 0) {l : List ivec2} {s s1 : DecomposeState}
    (h : fill_loop tile_size self l s = .ok s1)
    (hs : ∀ e ∈ s.queued_pistons, EntryGood tile_size self s.parts.length e) :
    ∀ e ∈ s1.queued_pistons, EntryGood tile_size self s1.parts.length e := by
  refine fill_loop_queue (fun n q => ∀ e ∈ q, EntryGood tile_size self n e) ?_ l s s1 h hs
  intro n seed st0 st h0 r
  refine FillRun.invariant (fun st => ∀ e ∈ st.queued_pistons, EntryGood tile_size self (n + 1) e)
    ?_ r (fun e he => (h0 e he).raise_bound)
  intro abs st st0 hI hsol _ hv
  exact visit_good hts hsol.contains hI hv

theorem fill_loop_no_track
    (hnt : ∀ p, ShipGrid.GetTileInfo (self.cells.safe_nonthrowing_at p).tile ≠ .track)
    {l : List ivec2} {s s1 : DecomposeState}
    (h : fill_loop tile_size self l s = .ok s1) (hs : s.queued_pistons = []) :
    s1.queued_pistons = [] := by
  refine fill_loop_queue (fun _ q => q = []) ?_ l s s1 h hs
  intro n seed st0 st h0 r
  refine FillRun.invariant (fun st => st.queued_pistons = []) ?_ r h0
  intro abs st st0 hI _ _ hv
  exact visit_no_track hnt hI hv

theorem add_pistons_mem (parts : List NewPart) :
    ∀ (q : List (ivec2 × QueuedPiston)) (pistons : List NewPiston),
      add_pistons parts q = .ok pistons →
      ∀ p ∈ pistons, ∃ e ∈ q, e.2.block_b = some p.b ∧ p.a = e.2.block_a ∧
        p.is_vertical = e.2.is_vertical ∧
        p.pos_relative_to_a = e.2.abs_pixel_pos_a
          - ((parts.get? p.a).map NewPart.pos).getD ⟨0, 0⟩ ∧
        p.pos_relative_to_b = e.2.abs_pixel_pos_b
          - ((parts.get? p.b).map NewPart.pos).getD ⟨0, 0⟩ := by
  intro q
  induction q with
  | nil =>
    intro pistons h p hp
    simp only [add_pistons, Except.ok.injEq] at h
    subst h
    exact nomatch hp
  | cons e rest ih =>
    intro pistons h p hp
    obtain ⟨key, elem⟩ := e
    unfold add_pistons at h
    cases hb : elem.block_b with
    | none => simp [hb] at h
    | some b =>
      simp only [hb] at h
      cases hr : add_pistons parts rest with
      | error err => simp [hr] at h
      | ok ps =>
        simp only [hr, Except.ok.injEq] at h
        subst h
        rcases List.mem_cons.1 hp with rfl | hmem
        · exact ⟨(key, elem), List.mem_cons_self _ _, hb, rfl, rfl, rfl, rfl⟩
        · obtain ⟨e, he, rest⟩ := ih _ hr p hmem
          exact ⟨e, List.mem_cons_of_mem _ he, rest⟩

theorem add_pistons_error (parts : List NewPart) :
    ∀ (q : List (ivec2 × QueuedPiston)) (err : Fault),
      add_pistons parts q = .error err → err = .unfinished_piston := by
  intro q
  induction q with
  | nil => intro err h; simp [add_pistons] at h
  | cons e rest ih =>
    intro err h
    obtain ⟨key, elem⟩ := e
    unfold add_pistons at h
    cases hb : elem.block_b with
    | none =>
      simp only [hb, Except.error.injEq] at h
      exact h.symm
    | some b =>
      simp only [hb] at h
      cases hr : add_pistons parts rest with
      | error err2 =>
        simp only [hr, Except.error.injEq] at h
        rw [← h]; exact ih _ hr
      | ok ps => simp [hr] at h

/-- The decomposition as its two phases: the flood fill phase returns a state `s`, and
the result is the list of Structures of `s` with the pistons of the queue of `s`. -/
theorem DecomposeToComponentsAndDelete_phases (tile_size : Int) (self : ShipPartBlocks) :
    ∃ s, fill_loop tile_size self (vector_range self.cells.size)
        { visited := [], queued_pistons := [], parts := [] } = .ok s ∧
      OuterInv tile_size self s ∧ (∀ t, self.Solid t ↔ t ∈ s.visited) ∧
      DecomposeToComponentsAndDelete tile_size self ≠ .error .out_of_fuel ∧
      ∀ parts pistons, DecomposeToComponentsAndDelete tile_size self = .ok (parts, pistons) ↔
        (parts = s.parts ∧ add_pistons s.parts s.queued_pistons = .ok pistons) := by
  obtain ⟨s, h1, hO, hall⟩ := fill_loop_total tile_size self
  refine ⟨s, h1, hO, hall, ?_, ?_⟩
  · unfold DecomposeToComponentsAndDelete
    rw [h1]
    simp only
    cases ha : add_pistons s.parts s.queued_pistons with
    | error err =>
      have := add_pistons_error _ _ _ ha
      subst this
      simp
    | ok ps => simp
  · intro parts pistons
    unfold DecomposeToComponentsAndDelete
    rw [h1]
    simp only
    cases ha : add_pistons s.parts s.queued_pistons with
    | error err => simp
    | ok ps =>
      simp only [Except.ok.injEq, Prod.mk.injEq]
      constructor
      · rintro ⟨rfl, rfl⟩; exact ⟨rfl, rfl⟩
      · rintro ⟨rfl, rfl⟩; exact ⟨rfl, rfl⟩

theorem pairwise_get? {α : Type} {R : α → α → Prop} :
    ∀ {l : List α}, l.Pairwise R → ∀ {i j : Nat} {a b : α},
      l.get? i = some a → l.get? j = some b → i < j → R a b := by
  intro l h
  induction h with
  | nil => intro i j a b hi; simp at hi
  | @cons x xs hx _ ih =>
    intro i j a b hi hj hij
    cases j with
    | zero => exact absurd hij (Nat.not_lt_zero _)
    | succ j =>
      simp only [List.get?_cons_succ] at hj
      cases i with
      | zero =>
        simp only [List.get?_cons_zero, Option.some.injEq] at hi
        subst hi
        exact hx b (List.get?_mem hj)
      | succ i =>
        simp only [List.get?_cons_succ] at hi
        exact ih hi hj (Nat.lt_of_succ_lt_succ hij)

theorem OuterInv.unique {s : DecomposeState} (hO : OuterInv tile_size self s)
    {i j : Nat} {P Q : NewPart} (hi : s.parts.get? i = some P) (hj : s.parts.get? j = some Q)
    {t : ivec2} (hP : P.Holds t) (hQ : Q.Holds t) : i = j := by
  rcases Nat.lt_trichotomy i j with h | h | h
  · exact absurd hQ (pairwise_get? hO.disjoint hi hj h t hP)
  · exact h
  · exact absurd hP (pairwise_get? hO.disjoint hj hi h t hQ)

theorem OuterInv.joinedIn {s : DecomposeState} (hO : OuterInv tile_size self s)
    {P : NewPart} (hP : P ∈ s.parts) {t u : ivec2} (ht : P.Holds t) (hu : P.Holds u) :
    P.JoinedIn self t u := by
  obtain ⟨seed, _, hcomp⟩ := hO.component P hP
  have fwd : ∀ x, self.Joined seed x → P.JoinedIn self seed x := by
    intro x hx
    induction hx with
    | refl => exact Relation.ReflTransGen.refl
    | @tail b c hb hl ih =>
      exact Relation.ReflTransGen.tail ih
        ⟨hl, (hcomp b).2 hb, (hcomp c).2 (Relation.ReflTransGen.tail hb hl)⟩
  have bwd : ∀ x, P.JoinedIn self seed x → P.JoinedIn self x seed := by
    intro x hx
    induction hx with
    | refl => exact Relation.ReflTransGen.refl
    | tail _ hl ih => exact Relation.ReflTransGen.head ⟨hl.1.flip, hl.2.2, hl.2.1⟩ ih
  exact (bwd t (fwd t ((hcomp t).1 ht))).trans (fwd u ((hcomp u).1 hu))

theorem OuterInv.card_components {s : DecomposeState} (hO : OuterInv tile_size self s)
    (hall : ∀ t, self.Solid t ↔ t ∈ s.visited) :
    Set.ncard {C : Set ivec2 | self.IsComponent C} = s.parts.length := by
  refine Set.ncard_eq_of_bijective
    (fun i (h : i < s.parts.length) => {t | (s.parts.get ⟨i, h⟩).Holds t}) ?_ ?_ ?_
  · rintro C ⟨t, ht, rfl⟩
    obtain ⟨P, hP, hh⟩ := (hO.cover t).1 ((hall t).1 ht)
    obtain ⟨n, hn⟩ := List.get_of_mem hP
    refine ⟨n.1, n.2, ?_⟩
    obtain ⟨seed, _, hcomp⟩ := hO.component P hP
    have hst := (hcomp t).1 hh
    ext u
    simp only [Set.mem_setOf_eq]
    rw [show s.parts.get ⟨n.1, n.2⟩ = P from hn, hcomp]
    exact ⟨fun h => hst.reverse.trans h, fun h => hst.trans h⟩
  · intro i h
    obtain ⟨seed, hs, hcomp⟩ := hO.component _ (List.get_mem s.parts i h)
    exact ⟨seed, hs, by ext u; exact hcomp u⟩
  · intro i j hi hj heq
    simp only at heq
    obtain ⟨seed, hs, hcomp⟩ := hO.component _ (List.get_mem s.parts i hi)
    have h1 : (s.parts.get ⟨i, hi⟩).Holds seed := (hcomp seed).2 Relation.ReflTransGen.refl
    have h2 : (s.parts.get ⟨j, hj⟩).Holds seed := by
      have : seed ∈ {t | (s.parts.get ⟨i, hi⟩).Holds t} := h1
      rw [heq] at this
      exact this
    exact hO.unique (List.get?_eq_get hi) (List.get?_eq_get hj) h1 h2

theorem gridOf_no_tracks (pos : ivec2) (rows : List (List ShipGrid.Tile))
    (h : ∀ row ∈ rows, ∀ t ∈ row, ShipGrid.GetTileInfo t ≠ .track) :
    (⟨pos, gridOf rows⟩ : ShipPartBlocks).NoTracks := by
  intro p
  unfold Array2D.safe_nonthrowing_at
  split
  · show ShipGrid.GetTileInfo
      ((((rows.get? p.y.toNat).getD []).get? p.x.toNat).getD .air) ≠ .track
    cases hrow : rows.get? p.y.toNat with
    | none => simp [ShipGrid.GetTileInfo]
    | some row =>
      simp only [Option.getD_some]
      cases ht : row.get? p.x.toNat with
      | none => simp [ShipGrid.GetTileInfo]
      | some t => exact h row (List.get?_mem hrow) t (List.get?_mem ht)
  · decide

end PistonLemmas
section DecompositionClaims

/-- C12: for a grid without piston tracks the decomposition returns and creates no
piston; every solid tile of the original is copied, with its cell contents, into exactly
one produced Structure; the produced Structures hold nothing but such copies; the numbers
of solid tiles of the produced Structures sum to the number of solid tiles of the
original; and no Structure is produced when the original has no solid tile. -/
theorem DecomposeToComponentsAndDelete_partition (tile_size : Int) (self : ShipPartBlocks)
    (hnt : self.NoTracks) :
    ∃ parts, DecomposeToComponentsAndDelete tile_size self = .ok (parts, []) ∧
      (∀ t, self.Solid t → ∃ i P, parts.get? i = some P ∧
        P.at_original t = self.cells.safe_nonthrowing_at t ∧
        ∀ j Q, parts.get? j = some Q → Q.Holds t → j = i) ∧
      (∀ P ∈ parts, ∀ t, P.Holds t → self.Solid t) ∧
      (parts.map (fun P => solid_count P.cells)).sum = solid_count self.cells ∧
      (solid_count self.cells = 0 → parts = []) := by
  obtain ⟨s, h1, hO, hall, _, hD⟩ := DecomposeToComponentsAndDelete_phases tile_size self
  have hq : s.queued_pistons = [] := fill_loop_no_track hnt h1 rfl
  have hcount := hO.total_count hall
  refine ⟨s.parts, (hD _ _).2 ⟨rfl, by rw [hq]; rfl⟩, ?_, ?_, hcount, ?_⟩
  · intro t ht
    obtain ⟨P, hP, hh⟩ := (hO.cover t).1 ((hall t).1 ht)
    obtain ⟨n, hn⟩ := List.get_of_mem hP
    have hi : s.parts.get? n.1 = some P := by rw [List.get?_eq_get n.2]; exact congrArg some hn
    exact ⟨n.1, P, hi, hO.copy P hP t hh, fun j Q hj hQ => hO.unique hj hi hQ hh⟩
  · intro P hP t hh
    exact (hall t).2 ((hO.cover t).2 ⟨P, hP, hh⟩)
  · intro h0
    rw [← hcount, hO.count] at h0
    have hv : s.visited = [] := List.length_eq_zero.1 h0
    cases hp : s.parts with
    | nil => rfl
    | cons P rest =>
      obtain ⟨seed, hs, _⟩ := hO.component P (by rw [hp]; exact List.mem_cons_self _ _)
      have := (hall seed).1 hs
      rw [hv] at this
      exact nomatch this

theorem DecomposeToComponentsAndDelete_partition_witness :
    exampleIslands.NoTracks ∧
    ∃ parts, DecomposeToComponentsAndDelete 4 exampleIslands = .ok (parts, []) ∧
      parts.length = 2 ∧
      (parts.map (fun P => solid_count P.cells)).sum = solid_count exampleIslands.cells :=
  ⟨gridOf_no_tracks _ _ (by decide),
    match DecomposeToComponentsAndDelete_partition 4 exampleIslands
      (gridOf_no_tracks _ _ (by decide)) with
    | ⟨parts, h1, _, _, h4, _⟩ =>
      ⟨parts, h1, by
        have e : DecomposeToComponentsAndDelete 4 exampleIslands = .ok (_, []) := rfl
        rw [e] at h1
        have := congrArg (fun r => r.1.length) (Except.ok.inj h1)
        simpa using this.symm, h4⟩⟩

/-- C13: the embedding of the decomposition never runs out of fuel, and every Structure
that it produces is internally 4-connected: any two tiles held by the same produced
Structure are joined by a path of 4-adjacent solid tiles of the original that are all
held by that Structure. -/
theorem DecomposeToComponentsAndDelete_connected (tile_size : Int) (self : ShipPartBlocks) :
    DecomposeToComponentsAndDelete tile_size self ≠ .error .out_of_fuel ∧
    ∀ parts pistons, DecomposeToComponentsAndDelete tile_size self = .ok (parts, pistons) →
      ∀ P ∈ parts, ∀ t u, P.Holds t → P.Holds u → P.JoinedIn self t u := by
  obtain ⟨s, _, hO, _, hfuel, hD⟩ := DecomposeToComponentsAndDelete_phases tile_size self
  refine ⟨hfuel, ?_⟩
  intro parts pistons h P hP t u ht hu
  obtain ⟨rfl, _⟩ := (hD _ _).1 h
  exact hO.joinedIn hP ht hu

theorem DecomposeToComponentsAndDelete_connected_witness :
    ∃ parts pistons, DecomposeToComponentsAndDelete 4 exampleTwo = .ok (parts, pistons) ∧
      parts.length = 2 ∧
      ∀ P ∈ parts, ∀ t u, P.Holds t → P.Holds u → P.JoinedIn exampleTwo t u :=
  ⟨_, _, rfl, rfl, (DecomposeToComponentsAndDelete_connected 4 exampleTwo).2 _ _ rfl⟩

/-- C14: the embedding of the decomposition never runs out of fuel, and the Structures
that it produces are maximal: two 4-adjacent solid tiles of the original are held by one
and the same produced Structure, and the number of produced Structures is the number of
4-connected components of solid tiles of the original. -/
theorem DecomposeToComponentsAndDelete_maximal (tile_size : Int) (self : ShipPartBlocks) :
    DecomposeToComponentsAndDelete tile_size self ≠ .error .out_of_fuel ∧
    ∀ parts pistons, DecomposeToComponentsAndDelete tile_size self = .ok (parts, pistons) →
      (∀ t u, self.Link t u → ∃ P ∈ parts, P.Holds t ∧ P.Holds u) ∧
      (∀ t u, self.Link t u → ∀ P ∈ parts, P.Holds t → P.Holds u) ∧
      parts.length = Set.ncard {C : Set ivec2 | self.IsComponent C} := by
  obtain ⟨s, _, hO, hall, hfuel, hD⟩ := DecomposeToComponentsAndDelete_phases tile_size self
  refine ⟨hfuel, ?_⟩
  intro parts pistons h
  obtain ⟨rfl, _⟩ := (hD _ _).1 h
  have same : ∀ t u, self.Link t u → ∀ P ∈ s.parts, P.Holds t → P.Holds u := by
    intro t u hl P hP ht
    obtain ⟨seed, _, hcomp⟩ := hO.component P hP
    exact (hcomp u).2 (Relation.ReflTransGen.tail ((hcomp t).1 ht) hl)
  refine ⟨?_, same, (hO.card_components hall).symm⟩
  intro t u hl
  obtain ⟨P, hP, ht⟩ := (hO.cover t).1 ((hall t).1 hl.1)
  exact ⟨P, hP, ht, same t u hl P hP ht⟩

theorem DecomposeToComponentsAndDelete_maximal_witness :
    ∃ parts pistons, DecomposeToComponentsAndDelete 4 exampleTwo = .ok (parts, pistons) ∧
      parts.length = 2 ∧
      parts.length = Set.ncard {C : Set ivec2 | exampleTwo.IsComponent C} :=
  ⟨_, _, rfl, rfl, ((DecomposeToComponentsAndDelete_maximal 4 exampleTwo).2 _ _ rfl).2.2⟩

/-- C15 (refuted on the U shape): on the Structure `exampleU`, whose horizontal track
has both end tiles in one 4-connected component, the decomposition does not run to
completion: the entry queued for the track is skipped when its far end is visited and
stays unfinished, and the loop that adds the pistons stops on the fatal assertion
"Why do we have an unfinished piston?". -/
theorem DecomposeToComponentsAndDelete_self_link :
    DecomposeToComponentsAndDelete 4 exampleU = .error .unfinished_piston := rfl

/-- C16: the embedding of the decomposition never runs out of fuel, and, the tile size
being nonzero, every piston that it creates has canonically ordered ends: the corner
`A.pos + pos_relative_to_a` is strictly smaller than the corner
`B.pos + pos_relative_to_b` along the axis of the piston and equal to it on the other
axis, where `A` and `B` are the Structures linked as `a` and `b`. -/
theorem DecomposeToComponentsAndDelete_canonical (tile_size : Int) (self : ShipPartBlocks)
    (hts : tile_size ≠ 0) :
    DecomposeToComponentsAndDelete tile_size self ≠ .error .out_of_fuel ∧
    ∀ parts pistons, DecomposeToComponentsAndDelete tile_size self = .ok (parts, pistons) →
      ∀ p ∈ pistons, ∃ A B, parts.get? p.a = some A ∧ parts.get? p.b = some B ∧
        (A.pos + p.pos_relative_to_a).get p.is_vertical
          < (B.pos + p.pos_relative_to_b).get p.is_vertical ∧
        (A.pos + p.pos_relative_to_a).get (!p.is_vertical)
          = (B.pos + p.pos_relative_to_b).get (!p.is_vertical) := by
  obtain ⟨s, h1, _, _, hfuel, hD⟩ := DecomposeToComponentsAndDelete_phases tile_size self
  refine ⟨hfuel, ?_⟩
  intro parts pistons h p hp
  obtain ⟨rfl, hadd⟩ := (hD _ _).1 h
  have hgood := fill_loop_good hts h1 (fun e he => nomatch he)
  obtain ⟨e, he, hb, ha, hv, hra, hrb⟩ := add_pistons_mem _ _ _ hadd p hp
  obtain ⟨g1, g2⟩ := hgood e he
  simp only [hb] at g2
  obtain ⟨g2, _, g3, g4⟩ := g2
  rw [← ha] at g1
  obtain ⟨A, hA⟩ : ∃ A, s.parts.get? p.a = some A := ⟨_, List.get?_eq_get g1⟩
  obtain ⟨B, hB⟩ : ∃ B, s.parts.get? p.b = some B := ⟨_, List.get?_eq_get g2⟩
  have cancel : ∀ u v : ivec2, u + (v - u) = v := by
    intro u v; rw [ivec2.ext_iff']
    simp [ivec2.add_x, ivec2.add_y, ivec2.sub_x, ivec2.sub_y]
  refine ⟨A, B, hA, hB, ?_⟩
  rw [hra, hrb, hA, hB]
  simp only [Option.map_some', Option.getD_some, cancel, hv]
  exact ⟨g3, g4⟩

theorem DecomposeToComponentsAndDelete_canonical_witness :
    (4 : Int) ≠ 0 ∧
    ∃ parts pistons, DecomposeToComponentsAndDelete 4 exampleSwap = .ok (parts, pistons) ∧
      pistons.length = 1 ∧
      ∀ p ∈ pistons, ∃ A B, parts.get? p.a = some A ∧ parts.get? p.b = some B ∧
        (A.pos + p.pos_relative_to_a).get p.is_vertical
          < (B.pos + p.pos_relative_to_b).get p.is_vertical ∧
        (A.pos + p.pos_relative_to_a).get (!p.is_vertical)
          = (B.pos + p.pos_relative_to_b).get (!p.is_vertical) :=
  ⟨by decide, _, _, rfl, rfl,
    (DecomposeToComponentsAndDelete_canonical 4 exampleSwap (by decide)).2 _ _ rfl⟩

/-- C17: the embedding of the decomposition never runs out of fuel, and every piston
that it creates is linked to two different Structures, both of them produced by this
decomposition (their indices are below the number of produced Structures). -/
theorem DecomposeToComponentsAndDelete_distinct (tile_size : Int) (self : ShipPartBlocks) :
    DecomposeToComponentsAndDelete tile_size self ≠ .error .out_of_fuel ∧
    ∀ parts pistons, DecomposeToComponentsAndDelete tile_size self = .ok (parts, pistons) →
      ∀ p ∈ pistons, p.a ≠ p.b ∧ p.a < parts.length ∧ p.b < parts.length := by
  obtain ⟨s, h1, _, _, hfuel, hD⟩ := DecomposeToComponentsAndDelete_phases tile_size self
  refine ⟨hfuel, ?_⟩
  intro parts pistons h p hp
  obtain ⟨rfl, hadd⟩ := (hD _ _).1 h
  have hlinked := fill_loop_linked h1 (fun e he => nomatch he)
  obtain ⟨e, he, hb, ha, _⟩ := add_pistons_mem _ _ _ hadd p hp
  obtain ⟨g1, g2⟩ := hlinked e he
  obtain ⟨g2, g3⟩ := g2 _ hb
  rw [← ha] at g1 g3
  exact ⟨g3, g1, g2⟩

theorem DecomposeToComponentsAndDelete_distinct_witness :
    ∃ parts pistons, DecomposeToComponentsAndDelete 4 exampleTwo = .ok (parts, pistons) ∧
      pistons.length = 1 ∧
      ∀ p ∈ pistons, p.a ≠ p.b ∧ p.a < parts.length ∧ p.b < parts.length :=
  ⟨_, _, rfl, rfl, (DecomposeToComponentsAndDelete_distinct 4 exampleTwo).2 _ _ rfl⟩

end DecompositionClaims
section StartContract

/-- C21: a query that starts from a Structure with a non-empty `skip_piston_direction`
fails its assertion, for either value of the direction, and gives no result; the same
start with an empty `skip_piston_direction`, in a world with consistent links, gives a
result. -/
theorem FindConnectedShipParts_blocks_skip (g : Game) (hc : g.LinksConsistent) (s : Id)
    (hs : s ∈ g.structures) :
    (∀ d : Bool, FindConnectedShipParts g (.blocks s) (some d) = none) ∧
    ∃ ret, FindConnectedShipParts g (.blocks s) none = some ret := by
  refine ⟨fun d => rfl, ?_⟩
  obtain ⟨ret, h, _⟩ := HandleBlocks_plain hc hs
  exact ⟨ret, by rw [FindConnectedShipParts_blocks]; exact h⟩

theorem FindConnectedShipParts_blocks_skip_witness :
    exampleChain.LinksConsistent ∧ (1 : Id) ∈ exampleChain.structures ∧
    (∀ d : Bool, FindConnectedShipParts exampleChain (.blocks 1) (some d) = none) ∧
    ∃ ret, FindConnectedShipParts exampleChain (.blocks 1) none = some ret :=
  ⟨exampleChain_consistent, by decide,
    FindConnectedShipParts_blocks_skip exampleChain exampleChain_consistent 1 (by decide)⟩

end StartContract
section FillTermination

variable {tile_size : Int} {self : ShipPartBlocks} {new_part : Nat}

theorem probe_contains (ty : ShipGrid.Tile) (step : ivec2) :
    ∀ (fuel : Nat) (pos r : ivec2), self.cells.contains pos = true →
      probe self ty step fuel pos = some r → self.cells.contains r = true := by
  intro fuel
  induction fuel with
  | zero => intro pos r _ h; simp [probe] at h
  | succ n ih =>
    intro pos r hc h
    unfold probe at h
    simp only at h
    split at h
    · rw [← Option.some.inj h]; exact hc
    · rename_i hcond
      simp only [Bool.or_eq_true, Bool.not_eq_true', not_or, Bool.not_eq_false] at hcond
      exact ih _ _ hcond.1 h

/-- C30: the flood fill of the decomposition terminates on every grid.  The outer loop
with all its fills returns within the recursion bound of the embedding; a call of the
recursive lambda on an out-of-bounds, non-solid or visited tile returns at once without
any effect; a tile is marked visited (by `visit`) before the recursive calls are made; the
tiles entered with effect are pairwise different solid tiles of the grid, so there are at
most as many as the grid has tiles; and every piston-track probe started inside the grid
stops, within its bound, on a tile inside the grid. -/
theorem fill_loop_terminates (tile_size : Int) (self : ShipPartBlocks) :
    (∃ s, fill_loop tile_size self (vector_range self.cells.size)
        { visited := [], queued_pistons := [], parts := [] } = .ok s ∧
      s.visited.Nodup ∧ (∀ t ∈ s.visited, self.Solid t) ∧
      s.visited.length ≤ (vector_range self.cells.size).length) ∧
    (∀ new_part lambda abs st,
      (self.cells.contains abs = false ∨
        IsRegularTile (self.cells.safe_nonthrowing_at abs).tile = false ∨ abs ∈ st.visited) →
      fillF tile_size self new_part lambda abs st = .ok st) ∧
    (∀ new_part abs st st0, visit tile_size self new_part abs st = .ok st0 →
      st0.visited = abs :: st.visited) ∧
    (∀ abs, self.cells.contains abs = true → ∀ (is_vertical is_backward : Bool) ty,
      ∃ r, probe self ty (ivec2.axis is_vertical (if is_backward then -1 else 1))
          ((self.cells.size.x + self.cells.size.y).toNat + 1) abs = some r ∧
        self.cells.contains r = true) := by
  refine ⟨?_, ?_, ?_, ?_⟩
  · obtain ⟨s, h1, hO, _⟩ := fill_loop_total tile_size self
    refine ⟨s, h1, hO.nodup, hO.solid, ?_⟩
    apply List.Subperm.length_le
    apply List.subperm_of_subset hO.nodup
    intro t ht
    exact (mem_vector_range_iff_contains _ _).2 (hO.solid t ht).contains
  · intro new_part lambda abs st h
    unfold fillF
    rcases h with h | h | h
    · simp [h]
    · by_cases c1 : self.cells.contains abs = true
      · simp [c1, h]
      · simp [c1]
    · by_cases c1 : self.cells.contains abs = true
      · by_cases c2 : IsRegularTile (self.cells.safe_nonthrowing_at abs).tile = true
        · simp [c1, c2, h]
        · simp [c1, c2]
      · simp [c1]
  · intro new_part abs st st0 h
    exact (visit_spec h).1
  · intro abs hc is_vertical is_backward ty
    obtain ⟨r, hr⟩ := probe_total abs hc is_vertical is_backward ty
    exact ⟨r, hr, probe_contains _ _ _ _ _ hc hr⟩

end FillTermination
section RobustClaims

theorem IntType.cast_of_inRange (T : IntType) (v : Int) (h : T.InRange v) : T.cast v = v := by
  unfold IntType.cast
  unfold IntType.InRange IntType.max at h
  have hp : (0 : Int) < 2 ^ (T.bits - 1) := by positivity
  have hm : T.min = -(2 ^ (T.bits - 1)) ∨ T.min = 0 := by
    unfold IntType.min; split <;> simp
  have hx : T.signed = true → T.min = -(2 ^ (T.bits - 1)) := by
    intro hs; unfold IntType.min; rw [if_pos hs]
  have hy : ¬ T.signed = true → T.min = 0 := by
    intro hs; unfold IntType.min; rw [if_neg hs]
  generalize T.min = m at *
  generalize (2 : Int) ^ (T.bits - 1) = P at *
  rw [Int.emod_eq_of_lt]
  · omega
  · omega
  · by_cases hs : T.signed = true
    · rw [if_pos hs] at h; have := hx hs; omega
    · rw [if_neg hs] at h; have := hy hs; omega

theorem pow_pred_mono {x y : Nat} (h : x ≤ y) : (2 : Int) ^ (x - 1) ≤ 2 ^ (y - 1) :=
  pow_le_pow_right₀ (by norm_num) (by omega)

theorem pow_pred_strict {x y : Nat} (hx : 0 < x) (h : x < y) :
    2 * (2 : Int) ^ (x - 1) ≤ 2 ^ (y - 1) := by
  have e : 2 * (2 : Int) ^ (x - 1) = 2 ^ x := by
    obtain ⟨k, rfl⟩ : ∃ k, x = k + 1 := ⟨x - 1, by omega⟩
    simp [pow_succ, mul_comm]
  rw [e]
  exact pow_le_pow_right₀ (by norm_num) (by omega)

theorem common_type_fits (int_bits : Nat) (A B : IntType) (a b : Int)
    (hA : 0 < A.bits) (hB : 0 < B.bits)
    (ha : A.InRange a) (hb : B.InRange b)
    (h1 : A.signed = true → B.signed = false → 0 ≤ a)
    (h2 : A.signed = false → B.signed = true → 0 ≤ b) :
    (common_type int_bits A B).InRange a ∧ (common_type int_bits A B).InRange b := by
  obtain ⟨sa, wa⟩ := A
  obtain ⟨sb, wb⟩ := B
  simp only at hA hB h1 h2
  have pa : (0 : Int) < 2 ^ (wa - 1) := by positivity
  have pb : (0 : Int) < 2 ^ (wb - 1) := by positivity
  have pi : (0 : Int) < 2 ^ (int_bits - 1) := by positivity
  have m1 : wa ≤ wb → (2 : Int) ^ (wa - 1) ≤ 2 ^ (wb - 1) := pow_pred_mono
  have m2 : wb ≤ wa → (2 : Int) ^ (wb - 1) ≤ 2 ^ (wa - 1) := pow_pred_mono
  have m3 : wa < wb → 2 * (2 : Int) ^ (wa - 1) ≤ 2 ^ (wb - 1) := pow_pred_strict hA
  have m4 : wb < wa → 2 * (2 : Int) ^ (wb - 1) ≤ 2 ^ (wa - 1) := pow_pred_strict hB
  have m5 : wa < int_bits → 2 * (2 : Int) ^ (wa - 1) ≤ 2 ^ (int_bits - 1) := pow_pred_strict hA
  have m6 : wb < int_bits → 2 * (2 : Int) ^ (wb - 1) ≤ 2 ^ (int_bits - 1) := pow_pred_strict hB
  have m7 : int_bits ≤ wa → (2 : Int) ^ (int_bits - 1) ≤ 2 ^ (wa - 1) := pow_pred_mono
  have m8 : int_bits ≤ wb → (2 : Int) ^ (int_bits - 1) ≤ 2 ^ (wb - 1) := pow_pred_mono
  have m9 : wa ≤ int_bits → (2 : Int) ^ (wa - 1) ≤ 2 ^ (int_bits - 1) := pow_pred_mono
  have m10 : wb ≤ int_bits → (2 : Int) ^ (wb - 1) ≤ 2 ^ (int_bits - 1) := pow_pred_mono
  have key : ∀ (C : IntType), (C = ⟨sa, wa⟩ ∨ C = ⟨sb, wb⟩ ∨ C = ⟨true, int_bits⟩) →
      C = common_type int_bits ⟨sa, wa⟩ ⟨sb, wb⟩ → C.InRange a ∧ C.InRange b := by
    intro C hC hE
    unfold common_type IntType.promote at hE
    simp only at hE
    unfold IntType.InRange IntType.min IntType.max at ha hb ⊢
    simp only at ha hb
    cases sa <;> cases sb <;>
      simp only [Bool.false_eq_true, if_false, if_true, forall_const, not_true_eq_false,
        not_false_eq_true, imp_false, false_implies, true_implies] at ha hb h1 h2 hE <;>
      split_ifs at hE <;> subst hE <;>
      (try simp only [Bool.false_eq_true, if_false, if_true] at *) <;>
      generalize (2 : Int) ^ (wa - 1) = PA at * <;>
      generalize (2 : Int) ^ (wb - 1) = PB at * <;>
      generalize (2 : Int) ^ (int_bits - 1) = PI at * <;>
      first | omega | simp only [not_true_eq_false] at *
  refine key _ ?_ rfl
  unfold common_type IntType.promote
  simp only
  split_ifs <;> simp

theorem Robust.less_iff (int_bits : Nat) (A B : IntType) (a b : Int)
    (hA : 0 < A.bits) (hB : 0 < B.bits) (ha : A.InRange a) (hb : B.InRange b) :
    Robust.less int_bits A B a b = true ↔ a < b := by
  have nonneg : ∀ (T : IntType) (v : Int), T.signed = false → T.InRange v → 0 ≤ v := by
    intro T v hs hv
    unfold IntType.InRange IntType.min at hv
    rw [hs] at hv
    simpa using hv.1
  unfold Robust.less
  simp only
  cases hsa : A.signed <;> cases hsb : B.signed <;>
    simp only [Bool.false_eq_true, Bool.not_false, Bool.not_true, Bool.and_true, Bool.and_false,
      Bool.true_and, Bool.false_and, if_false, if_true]
  · obtain ⟨f1, f2⟩ := common_type_fits int_bits A B a b hA hB ha hb
      (fun h => by rw [hsa] at h; exact nomatch h) (fun _ h => by rw [hsb] at h; exact nomatch h)
    rw [IntType.cast_of_inRange _ _ f1, IntType.cast_of_inRange _ _ f2, decide_eq_true_iff]
  · have ha0 := nonneg A a hsa ha
    by_cases hb0 : 0 ≤ b
    · obtain ⟨f1, f2⟩ := common_type_fits int_bits A B a b hA hB ha hb
        (fun h => by rw [hsa] at h; exact nomatch h) (fun _ _ => hb0)
      rw [IntType.cast_of_inRange _ _ f1, IntType.cast_of_inRange _ _ f2]
      simp only [gt_iff_lt, Bool.and_eq_true, decide_eq_true_iff]
      omega
    · simp only [gt_iff_lt, Bool.and_eq_true, decide_eq_true_iff]
      omega
  · have hb0 := nonneg B b hsb hb
    by_cases ha0 : 0 ≤ a
    · obtain ⟨f1, f2⟩ := common_type_fits int_bits A B a b hA hB ha hb
        (fun _ _ => ha0) (fun h => by rw [hsa] at h; exact nomatch h)
      rw [IntType.cast_of_inRange _ _ f1, IntType.cast_of_inRange _ _ f2]
      simp only [Bool.or_eq_true, decide_eq_true_iff]
      omega
    · simp only [Bool.or_eq_true, decide_eq_true_iff]
      omega
  · obtain ⟨f1, f2⟩ := common_type_fits int_bits A B a b hA hB ha hb
      (fun _ h => by rw [hsb] at h; exact nomatch h) (fun h => by rw [hsa] at h; exact nomatch h)
    rw [IntType.cast_of_inRange _ _ f1, IntType.cast_of_inRange _ _ f2, decide_eq_true_iff]

theorem Robust.equal_iff (int_bits : Nat) (A B : IntType) (a b : Int)
    (hA : 0 < A.bits) (hB : 0 < B.bits) (ha : A.InRange a) (hb : B.InRange b) :
    Robust.equal int_bits A B a b = true ↔ a = b := by
  have nonneg : ∀ (T : IntType) (v : Int), T.signed = false → T.InRange v → 0 ≤ v := by
    intro T v hs hv
    unfold IntType.InRange IntType.min at hv
    rw [hs] at hv
    simpa using hv.1
  unfold Robust.equal
  simp only
  cases hsa : A.signed <;> cases hsb : B.signed <;>
    simp only [Bool.false_eq_true, Bool.not_false, Bool.not_true, Bool.and_true, Bool.and_false,
      Bool.true_and, Bool.false_and, if_false, if_true]
  · obtain ⟨f1, f2⟩ := common_type_fits int_bits A B a b hA hB ha hb
      (fun h => by rw [hsa] at h; exact nomatch h) (fun _ h => by rw [hsb] at h; exact nomatch h)
    rw [IntType.cast_of_inRange _ _ f1, IntType.cast_of_inRange _ _ f2, beq_iff_eq]
  · have ha0 := nonneg A a hsa ha
    by_cases hb0 : 0 ≤ b
    · obtain ⟨f1, f2⟩ := common_type_fits int_bits A B a b hA hB ha hb
        (fun h => by rw [hsa] at h; exact nomatch h) (fun _ _ => hb0)
      rw [IntType.cast_of_inRange _ _ f1, IntType.cast_of_inRange _ _ f2]
      simp only [ge_iff_le, Bool.and_eq_true, decide_eq_true_iff, beq_iff_eq]
      omega
    · simp only [ge_iff_le, Bool.and_eq_true, decide_eq_true_iff, beq_iff_eq]
      omega
  · have hb0 := nonneg B b hsb hb
    by_cases ha0 : 0 ≤ a
    · obtain ⟨f1, f2⟩ := common_type_fits int_bits A B a b hA hB ha hb
        (fun _ _ => ha0) (fun h => by rw [hsa] at h; exact nomatch h)
      rw [IntType.cast_of_inRange _ _ f1, IntType.cast_of_inRange _ _ f2]
      simp only [ge_iff_le, Bool.and_eq_true, decide_eq_true_iff, beq_iff_eq]
      omega
    · simp only [ge_iff_le, Bool.and_eq_true, decide_eq_true_iff, beq_iff_eq]
      omega
  · obtain ⟨f1, f2⟩ := common_type_fits int_bits A B a b hA hB ha hb
      (fun _ h => by rw [hsb] at h; exact nomatch h) (fun h => by rw [hsa] at h; exact nomatch h)
    rw [IntType.cast_of_inRange _ _ f1, IntType.cast_of_inRange _ _ f2, beq_iff_eq]

/-- C23: the comparisons of two integers of any two integral types (any signedness, any
positive width, for any width of `int`) are reliable: for values `a` of type `A` and `b`
of type `B`, `Robust::equal(a, b)` holds exactly when `a = b` as integers,
`Robust::less(a, b)` exactly when `a < b`, and `Robust::compare_three_way(a, b)` is
`less`, `equal` or `greater` accordingly, never `unordered`. -/
theorem Robust.comparisons_reliable (int_bits : Nat) (A B : IntType) (a b : Int)
    (hA : 0 < A.bits) (hB : 0 < B.bits) (ha : A.InRange a) (hb : B.InRange b) :
    (Robust.equal int_bits A B a b = true ↔ a = b) ∧
    (Robust.less int_bits A B a b = true ↔ a < b) ∧
    Robust.compare_three_way int_bits A B a b =
      (if a < b then .less else if a = b then .equal else .greater) ∧
    Robust.compare_three_way int_bits A B a b ≠ .unordered := by
  have e := Robust.equal_iff int_bits A B a b hA hB ha hb
  have l := Robust.less_iff int_bits A B a b hA hB ha hb
  have g := Robust.less_iff int_bits B A b a hB hA hb ha
  have c : Robust.compare_three_way int_bits A B a b =
      (if a < b then .less else if a = b then .equal else .greater) := by
    unfold Robust.compare_three_way Robust.greater
    by_cases h1 : a < b
    · rw [if_pos (l.2 h1), if_pos h1]
    · rw [if_neg (fun h => h1 (l.1 h)), if_neg h1]
      by_cases h2 : b < a
      · rw [if_pos (g.2 h2), if_neg (by omega)]
      · rw [if_neg (fun h => h2 (g.1 h))]
        have h3 : a = b := by omega
        rw [if_pos (e.2 h3), if_pos h3]
  refine ⟨e, l, c, ?_⟩
  rw [c]
  split_ifs <;> exact fun h => nomatch h

theorem Robust.comparisons_reliable_witness :
    0 < (⟨true, 32⟩ : IntType).bits ∧ 0 < (⟨false, 32⟩ : IntType).bits ∧
    (⟨true, 32⟩ : IntType).InRange (-1) ∧ (⟨false, 32⟩ : IntType).InRange 4294967295 ∧
    (Robust.equal 32 ⟨true, 32⟩ ⟨false, 32⟩ (-1) 4294967295 = true ↔
      (-1 : Int) = 4294967295) ∧
    (Robust.less 32 ⟨true, 32⟩ ⟨false, 32⟩ (-1) 4294967295 = true ↔
      (-1 : Int) < 4294967295) ∧
    Robust.compare_three_way 32 ⟨true, 32⟩ ⟨false, 32⟩ (-1) 4294967295 =
      (if (-1 : Int) < 4294967295 then .less
        else if (-1 : Int) = 4294967295 then .equal else .greater) ∧
    Robust.compare_three_way 32 ⟨true, 32⟩ ⟨false, 32⟩ (-1) 4294967295 ≠ .unordered :=
  ⟨by decide, by decide, by decide, by decide,
    Robust.comparisons_reliable 32 ⟨true, 32⟩ ⟨false, 32⟩ (-1) 4294967295
      (by decide) (by decide) (by decide) (by decide)⟩

/-- C22 (refuted at the minimum divided by minus one): on the 32-bit signed type, the
operands `-2147483648` and `-1` are representable and the divisor is not zero, the
quotient `2147483648` is not representable, and `Robust::division_fails` does not return
true: it evaluates the built-in division, whose behaviour is undefined here; no overflow
check precedes it. -/
theorem Robust.division_fails_overflow :
    (⟨true, 32⟩ : IntType).InRange (-2147483648) ∧ (⟨true, 32⟩ : IntType).InRange (-1) ∧
    ¬ (⟨true, 32⟩ : IntType).InRange (Int.tdiv (-2147483648) (-1)) ∧
    Robust.division_fails ⟨true, 32⟩ (-2147483648) (-1) = none ∧
    Robust.remainder_fails ⟨true, 32⟩ (-2147483648) (-1) = none := by
  decide

end RobustClaims
section ActuationClaims

/-- C24 as stated fails: retracting the vertical piston of `exampleTall`
with the terrain of `exampleBlocked`.  Side A (Structure `0`) fails its collision test for
its candidate offset `(0,1)` (`can_move_a` is false), side B passes its test, and side B
sits on the floor; the override of source line 121 sets `move_b = false`, the call returns
`ok`, and `MoveShipParts` moves side A by `(0,1)`, to a position where its grid collides
with the terrain. -/
theorem ExtendOrRetract_moves_blocked_side :
    (ExtendOrRetract.locals exampleBlocked exampleTall 10 false false).map
      (fun l => (l.parts_a.blocks, l.parts_b.blocks, l.offset_a, l.can_move_a, l.can_move_b)) =
      some ([0], [1], ⟨0, 1⟩, false, true) ∧
    exampleTall.pos 0 = ⟨0, 0⟩ ∧ exampleTall.pos 1 = ⟨0, 9⟩ ∧
    (ExtendOrRetract exampleBlocked exampleTall 10 false false).map
      (fun r => (r.1, r.2.pos 0, r.2.pos 1)) = some (.ok, ⟨0, 1⟩, ⟨0, 9⟩) ∧
    exampleBlocked.map.map (fun m => m.CollidesWithMap 0 (⟨0, 1⟩ - m.pos)) = some true := by
  decide

/-- C24 (as amended): in every execution of `ExtendOrRetract` that returns `ok`, for
every combination of `extend`, orientation and `gravity_tweaks`, the set passed to
`MoveShipParts` is side B only if `can_move_b` is true, and it is side A only if
`can_move_a` is true or the override of source line 121 has fired, that is, the piston is
vertical, `extend` is false and side B collides when shifted by `-offset_b`. -/
theorem ExtendOrRetract_validated_or_forced (env : Externals) (g g' : Game) (this : Id)
    (extend gravity_tweaks : Bool)
    (hres : ExtendOrRetract env g this extend gravity_tweaks = some (.ok, g')) :
    ∃ l move_b, ExtendOrRetract.locals env g this extend gravity_tweaks = some l ∧
      move_b = (if ExtendOrRetract.force_move_a env g this extend l then false
        else !l.can_move_a || (l.can_move_b && (decide (l.ground_a > l.ground_b) ||
          (l.ground_a == l.ground_b && g.dir_flip_flop this)))) ∧
      g' = ExtendOrRetract.commit env g this l move_b ∧
      (move_b = true → l.can_move_b = true) ∧
      (move_b = false → l.can_move_a = true ∨
        (ExtendOrRetract.force_move_a env g this extend l = true ∧
          g.is_vertical this = true ∧ extend = false)) := by
  obtain ⟨hguard, l, _, hl, hstuck, _⟩ := ExtendOrRetract_ok_inv hres
  have h := ExtendOrRetract_of_locals hguard hl
  rw [if_neg hstuck, hres] at h
  simp only [Option.some.injEq, Prod.mk.injEq, true_and] at h
  refine ⟨l, _, hl, rfl, h, ?_, ?_⟩
  · intro hm
    by_cases hf : ExtendOrRetract.force_move_a env g this extend l = true
    · rw [if_pos hf] at hm; exact nomatch hm
    · rw [if_neg hf] at hm
      cases ha : l.can_move_a <;> cases hb : l.can_move_b <;> simp_all
  · intro hm
    by_cases hf : ExtendOrRetract.force_move_a env g this extend l = true
    · right
      refine ⟨hf, ?_⟩
      unfold ExtendOrRetract.force_move_a at hf
      simp only [Bool.and_eq_true, Bool.not_eq_true'] at hf
      exact ⟨hf.1.1, hf.1.2⟩
    · left
      rw [if_neg hf] at hm
      cases ha : l.can_move_a
      · simp [ha] at hm
      · rfl

theorem ExtendOrRetract_validated_or_forced_witness :
    ExtendOrRetract exampleFloor exampleTall 10 false false = some (.ok, exampleTallRetracted) ∧
    ∃ l move_b, ExtendOrRetract.locals exampleFloor exampleTall 10 false false = some l ∧
      move_b = (if ExtendOrRetract.force_move_a exampleFloor exampleTall 10 false l then false
        else !l.can_move_a || (l.can_move_b && (decide (l.ground_a > l.ground_b) ||
          (l.ground_a == l.ground_b && exampleTall.dir_flip_flop 10)))) ∧
      exampleTallRetracted = ExtendOrRetract.commit exampleFloor exampleTall 10 l move_b ∧
      (move_b = true → l.can_move_b = true) ∧
      (move_b = false → l.can_move_a = true ∨
        (ExtendOrRetract.force_move_a exampleFloor exampleTall 10 false l = true ∧
          exampleTall.is_vertical 10 = true ∧ false = false)) :=
  ⟨rfl, ExtendOrRetract_validated_or_forced exampleFloor exampleTall exampleTallRetracted 10
    false false rfl⟩

/-- C25 as stated fails.  In `examplePair` (piston `10` from Structure `0` as `a` to
Structure `1` as `b`) side A is the Structure at endpoint A and does not hold the
Structure at endpoint B, so it is not the component reachable via endpoint B.  And in
`exampleKite`, where piston `10` lies on a cycle, side A is a traversal stopped by the
cycle flag: it lacks Structure `3`, which is joined to endpoint A without crossing the
piston. -/
theorem ExtendOrRetract_sides_counterexample :
    (∃ l, ExtendOrRetract.locals exampleFree examplePair 10 true false = some l ∧
      l.parts_a.blocks = [examplePair.a 10] ∧ examplePair.b 10 ∉ l.parts_a.blocks ∧
      ¬ (∀ u, u ∈ l.parts_a.blocks ↔
        examplePair.Reachable (some 10) (examplePair.b 10) u)) ∧
    (∃ l, ExtendOrRetract.locals exampleFree exampleKite 10 true false = some l ∧
      l.parts_a.cant_skip_because_of_cycle = true ∧
      ¬ (∀ u, u ∈ l.parts_a.blocks ↔
        exampleKite.Reachable (some 10) (exampleKite.a 10) u)) := by
  constructor
  · refine ⟨examplePairLocals, by decide, by decide, by decide, ?_⟩
    intro h
    have := (h 1).2 Relation.ReflTransGen.refl
    exact absurd this (by decide)
  · have e : (ExtendOrRetract.locals exampleFree exampleKite 10 true false).map
        (fun l => (l.parts_a.blocks, l.parts_a.cant_skip_because_of_cycle)) =
        some ([1, 2, 0], true) := by decide
    cases hl : ExtendOrRetract.locals exampleFree exampleKite 10 true false with
    | none => rw [hl] at e; exact nomatch e
    | some l =>
      rw [hl] at e
      simp only [Option.map_some', Option.some.injEq, Prod.mk.injEq] at e
      refine ⟨l, rfl, e.2, ?_⟩
      intro h
      have h3 : exampleKite.Reachable (some 10) (exampleKite.a 10) 3 :=
        Relation.ReflTransGen.single ⟨13, by decide, by decide, Or.inl ⟨rfl, rfl⟩⟩
      have := (h 3).2 h3
      rw [e.1] at this
      exact absurd this (by decide)

/-- C25 (as amended): in `ExtendOrRetract`, side A is the result of
`FindConnectedShipParts(this, true)`, the traversal that explores endpoint A and not
endpoint B, with the acting piston erased from its pistons, and side B is that of
`FindConnectedShipParts(this, false)`.  The acting piston is in the piston collection of
neither side.  When the piston lies on no cycle, side A holds exactly the Structures
joined to endpoint A without crossing the piston and the other pistons that touch them,
and side B the same for endpoint B. -/
theorem ExtendOrRetract_sides (env : Externals) (g : Game) (this : Id)
    (extend gravity_tweaks : Bool) (l : ExtendOrRetract.Locals)
    (hc : g.LinksConsistent) (hthis : this ∈ g.pistons)
    (hl : ExtendOrRetract.locals env g this extend gravity_tweaks = some l) :
    (∃ ra rb, FindConnectedShipParts g (.piston this) (some true) = some ra ∧
      FindConnectedShipParts g (.piston this) (some false) = some rb ∧
      l.parts_a = { ra with pistons := ra.pistons.erase this } ∧
      l.parts_b = { rb with pistons := rb.pistons.erase this }) ∧
    this ∉ l.parts_a.pistons ∧ this ∉ l.parts_b.pistons ∧
    (¬ g.Reachable (some this) (g.a this) (g.b this) →
      (∀ u, u ∈ l.parts_a.blocks ↔ g.Reachable (some this) (g.a this) u) ∧
      (∀ u, u ∈ l.parts_b.blocks ↔ g.Reachable (some this) (g.b this) u) ∧
      (∀ p, p ∈ l.parts_a.pistons ↔ p ≠ this ∧ p ∈ g.pistons ∧
        (g.a p ∈ l.parts_a.blocks ∨ g.b p ∈ l.parts_a.blocks)) ∧
      (∀ p, p ∈ l.parts_b.pistons ↔ p ≠ this ∧ p ∈ g.pistons ∧
        (g.a p ∈ l.parts_b.blocks ∨ g.b p ∈ l.parts_b.blocks))) := by
  obtain ⟨ra, rb, hra, hrb, ea, eb, _, _⟩ := ExtendOrRetract.locals_spec hl
  have nda := (FindConnectedShipParts_nodup hra).2
  have ndb := (FindConnectedShipParts_nodup hrb).2
  refine ⟨⟨ra, rb, hra, hrb, ea, eb⟩, ?_, ?_, ?_⟩
  · rw [ea]; exact fun h => (List.Nodup.mem_erase_iff nda).1 h |>.1 rfl
  · rw [eb]; exact fun h => (List.Nodup.mem_erase_iff ndb).1 h |>.1 rfl
  · intro htree
    obtain ⟨ra', hra', fa, ca, _, _⟩ := FindConnectedShipParts_excl hc hthis true
    obtain ⟨rb', hrb', fb, cb, _, _⟩ := FindConnectedShipParts_excl hc hthis false
    rw [hra] at hra'
    rw [hrb] at hrb'
    obtain rfl := Option.some.inj hra'
    obtain rfl := Option.some.inj hrb'
    have na : ra.cant_skip_because_of_cycle = false := by
      cases h : ra.cant_skip_because_of_cycle with
      | false => rfl
      | true => exact absurd (fa.1 h).2 htree
    have nb : rb.cant_skip_because_of_cycle = false := by
      cases h : rb.cant_skip_because_of_cycle with
      | false => rfl
      | true => exact absurd (fb.1 h).2.symm htree
    obtain ⟨ba, pa⟩ := ca na
    obtain ⟨bb, pb⟩ := cb nb
    rw [ea, eb]
    refine ⟨ba, bb, ?_, ?_⟩
    · intro p
      simp only
      rw [List.Nodup.mem_erase_iff nda, pa]
    · intro p
      simp only
      rw [List.Nodup.mem_erase_iff ndb, pb]

theorem ExtendOrRetract_sides_witness :
    examplePair.LinksConsistent ∧ 10 ∈ examplePair.pistons ∧
    ExtendOrRetract.locals exampleFree examplePair 10 true false = some examplePairLocals ∧
    (∃ ra rb, FindConnectedShipParts examplePair (.piston 10) (some true) = some ra ∧
      FindConnectedShipParts examplePair (.piston 10) (some false) = some rb ∧
      examplePairLocals.parts_a = { ra with pistons := ra.pistons.erase 10 } ∧
      examplePairLocals.parts_b = { rb with pistons := rb.pistons.erase 10 }) ∧
    10 ∉ examplePairLocals.parts_a.pistons ∧ 10 ∉ examplePairLocals.parts_b.pistons ∧
    (¬ examplePair.Reachable (some 10) (examplePair.a 10) (examplePair.b 10) →
      (∀ u, u ∈ examplePairLocals.parts_a.blocks ↔
        examplePair.Reachable (some 10) (examplePair.a 10) u) ∧
      (∀ u, u ∈ examplePairLocals.parts_b.blocks ↔
        examplePair.Reachable (some 10) (examplePair.b 10) u) ∧
      (∀ p, p ∈ examplePairLocals.parts_a.pistons ↔ p ≠ 10 ∧ p ∈ examplePair.pistons ∧
        (examplePair.a p ∈ examplePairLocals.parts_a.blocks ∨
          examplePair.b p ∈ examplePairLocals.parts_a.blocks)) ∧
      (∀ p, p ∈ examplePairLocals.parts_b.pistons ↔ p ≠ 10 ∧ p ∈ examplePair.pistons ∧
        (examplePair.a p ∈ examplePairLocals.parts_b.blocks ∨
          examplePair.b p ∈ examplePairLocals.parts_b.blocks))) :=
  ⟨examplePair_consistent, by decide, by decide,
    ExtendOrRetract_sides exampleFree examplePair 10 true false examplePairLocals
      examplePair_consistent (by decide) (by decide)⟩

theorem ExtendOrRetract.locals_ground {env : Externals} {g : Game} {this : Id}
    {extend gravity_tweaks : Bool} {l : ExtendOrRetract.Locals}
    (hl : ExtendOrRetract.locals env g this extend gravity_tweaks = some l) :
    l.ground_a =
      (if gravity_tweaks then
        if l.offset_a = ⟨0, 1⟩ then !l.can_move_a
        else CollideShipParts g l.parts_a ⟨0, 1⟩ env.map
          (env.tree.map (fun t => t g.pos g.last_rect))
          (some (fun e => l.parts_a.LambdaNoSuchEntityHere e &&
            l.parts_b.LambdaNoSuchEntityHere e))
      else false) ∧
    l.ground_b =
      (if gravity_tweaks then
        if l.offset_b = ⟨0, 1⟩ then !l.can_move_b
        else CollideShipParts g l.parts_b ⟨0, 1⟩ env.map
          (env.tree.map (fun t => t g.pos g.last_rect))
          (some (fun e => l.parts_a.LambdaNoSuchEntityHere e &&
            l.parts_b.LambdaNoSuchEntityHere e))
      else false) := by
  simp only [ExtendOrRetract.locals] at hl
  cases hra : FindConnectedShipParts g (.piston this) (some true) with
  | none => simp [hra] at hl
  | some ra =>
    cases hrb : FindConnectedShipParts g (.piston this) (some false) with
    | none => simp [hra, hrb] at hl
    | some rb =>
      simp only [hra, hrb, Option.some.injEq] at hl
      subst hl
      exact ⟨rfl, rfl⟩

theorem CollideShipParts_hits_only (g : Game) (map : Option MapObject)
    (tree : Option DynamicSolidTree) (Intersects : irect2 → Nat → Prop)
    (parts other : ConnectedShipParts) (offset : ivec2) (f : Id → Bool)
    (hquery : ∀ t, tree = some t → ∀ box visitor,
      t.CollideAabb box visitor = true ↔ ∃ node, Intersects box node ∧ visitor node = true)
    (hf : ∀ e, e ∈ parts.entity_ids ∨ e ∈ other.entity_ids → f e = false)
    (h : HitsOnlyMembers g map tree Intersects parts other offset) :
    CollideShipParts g parts offset map tree (some f) = false := by
  obtain ⟨hmap, htree⟩ := h
  have tb : ∀ t, tree = some t → ∀ blocks ∈ parts.blocks,
      t.ShipBlocksCollisionTest blocks offset (some f) = true → False := by
    intro t ht blocks hmem hcol
    unfold DynamicSolidTree.ShipBlocksCollisionTest at hcol
    rw [hquery t ht] at hcol
    obtain ⟨node, hi, hv⟩ := hcol
    simp only at hv
    by_cases hfe : f (t.GetNodeUserData node) = true
    · simp only [hfe, Bool.not_true, Bool.false_eq_true, if_false] at hv
      have := hf _ (htree t ht node (Or.inl ⟨blocks, hmem, hi, hv⟩))
      rw [hfe] at this
      exact nomatch this
    · simp [hfe] at hv
  have tp : ∀ t, tree = some t → ∀ piston ∈ parts.pistons,
      t.BoxCollisionTest (g.last_rect piston + offset) (some f) = true → False := by
    intro t ht piston hmem hcol
    unfold DynamicSolidTree.BoxCollisionTest at hcol
    rw [hquery t ht] at hcol
    obtain ⟨node, hi, hv⟩ := hcol
    simp only at hv
    by_cases hfe : f (t.GetNodeUserData node) = true
    · simp only [hfe, Bool.not_true, Bool.false_eq_true, if_false] at hv
      have := hf _ (htree t ht node (Or.inr ⟨piston, hmem, hi, hv⟩))
      rw [hfe] at this
      exact nomatch this
    · simp [hfe] at hv
  unfold CollideShipParts
  split_ifs with h1 h2
  · exfalso
    rw [List.any_eq_true] at h1
    obtain ⟨blocks, hmem, hcol⟩ := h1
    rw [Bool.or_eq_true] at hcol
    rcases hcol with hcol | hcol
    · rcases map with _ | m
      · exact nomatch hcol
      · simp only at hcol
        rw [(hmap m rfl).1 blocks hmem] at hcol
        exact nomatch hcol
    · rcases tree with _ | t
      · exact nomatch hcol
      · exact tb t rfl blocks hmem hcol
  · exfalso
    rw [List.any_eq_true] at h2
    obtain ⟨piston, hmem, hcol⟩ := h2
    rw [Bool.or_eq_true] at hcol
    rcases hcol with hcol | hcol
    · rcases map with _ | m
      · exact nomatch hcol
      · simp only at hcol
        rw [(hmap m rfl).2 piston hmem] at hcol
        exact nomatch hcol
    · rcases tree with _ | t
      · exact nomatch hcol
      · exact tp t rfl piston hmem hcol
  · rfl

/-- C26 (refuted on a side resting on its counterpart): retracting the vertical piston of
`exampleTall` with
`gravity_tweaks = true` in the world `exampleResting`, where the spatial index answers
queries as assumed and the only body that side A hits when shifted by `(0,1)` is
Structure `1`, a member of side B; the candidate offset of side A is the gravity vector,
so `ground_a` is `!can_move_a`, which is true. -/
theorem ExtendOrRetract_ground_counterexample :
    (∀ box visitor, exampleRestingTree.CollideAabb box visitor = true ↔
      ∃ node, (fun (_ : irect2) (n : Nat) => n = 0) box node ∧ visitor node = true) ∧
    ∃ l, ExtendOrRetract.locals exampleResting exampleTall 10 false true = some l ∧
      HitsOnlyMembers exampleTall exampleResting.map (some exampleRestingTree)
        (fun _ n => n = 0) l.parts_a l.parts_b ⟨0, 1⟩ ∧
      l.offset_a = ⟨0, 1⟩ ∧ l.ground_a = true := by
  constructor
  · intro box visitor
    show visitor 0 = true ↔ _
    constructor
    · intro h; exact ⟨0, rfl, h⟩
    · rintro ⟨node, rfl, h⟩; exact h
  · have e : (ExtendOrRetract.locals exampleResting exampleTall 10 false true).map
        (fun l => (l.parts_b.entity_ids, l.offset_a, l.ground_a)) =
        some ([1, 10], ⟨0, 1⟩, true) := by decide
    cases hl : ExtendOrRetract.locals exampleResting exampleTall 10 false true with
    | none => rw [hl] at e; exact nomatch e
    | some l =>
      rw [hl] at e
      simp only [Option.map_some', Option.some.injEq, Prod.mk.injEq] at e
      refine ⟨l, rfl, ⟨?_, ?_⟩, e.2.1, e.2.2⟩
      · intro m hm; exact nomatch hm
      · intro t ht node _
        obtain rfl := Option.some.inj ht
        right
        rw [e.1]
        show (1 : Id) ∈ [1, 10]
        decide

/-- C26 (amended): in a call of `ExtendOrRetract` with `gravity_tweaks = true`, where the
box query of the spatial index returns true exactly when the visitor accepts some entry
intersecting the query box, for every world, extend value and orientation: a side whose
candidate offset is not the gravity vector `(0,1)` and which, shifted by the gravity
vector, meets no terrain and hits only members of the two sides (the acting piston
included), has its ground flag false; for a side whose candidate offset is the gravity
vector no gravity test is made, and its ground flag is the negation of its `can_move`
flag. -/
theorem ExtendOrRetract_ground_counterpart (env : Externals) (g : Game) (this : Id)
    (extend : Bool) (l : ExtendOrRetract.Locals) (Intersects : irect2 → Nat → Prop)
    (hl : ExtendOrRetract.locals env g this extend true = some l)
    (hquery : ∀ t, env.tree.map (fun t => t g.pos g.last_rect) = some t → ∀ box visitor,
      t.CollideAabb box visitor = true ↔ ∃ node, Intersects box node ∧ visitor node = true) :
    (l.offset_a ≠ ⟨0, 1⟩ →
      HitsOnlyMembers g env.map (env.tree.map (fun t => t g.pos g.last_rect)) Intersects
        l.parts_a l.parts_b ⟨0, 1⟩ → l.ground_a = false) ∧
    (l.offset_b ≠ ⟨0, 1⟩ →
      HitsOnlyMembers g env.map (env.tree.map (fun t => t g.pos g.last_rect)) Intersects
        l.parts_b l.parts_a ⟨0, 1⟩ → l.ground_b = false) ∧
    (l.offset_a = ⟨0, 1⟩ → l.ground_a = !l.can_move_a) ∧
    (l.offset_b = ⟨0, 1⟩ → l.ground_b = !l.can_move_b) := by
  obtain ⟨ga, gb⟩ := ExtendOrRetract.locals_ground hl
  simp only [if_true] at ga gb
  refine ⟨?_, ?_, ?_, ?_⟩
  · intro hne hits
    rw [ga, if_neg hne]
    refine CollideShipParts_hits_only g _ _ Intersects _ _ _ _ hquery ?_ hits
    intro e he
    simp only [ConnectedShipParts.LambdaNoSuchEntityHere, List.elem_eq_mem]
    rcases he with he | he <;> simp [he]
  · intro hne hits
    rw [gb, if_neg hne]
    refine CollideShipParts_hits_only g _ _ Intersects _ _ _ _ hquery ?_ hits
    intro e he
    simp only [ConnectedShipParts.LambdaNoSuchEntityHere, List.elem_eq_mem]
    rcases he with he | he <;> simp [he]
  · intro h; rw [ga, if_pos h]
  · intro h; rw [gb, if_pos h]

theorem ExtendOrRetract_ground_counterpart_witness :
    ExtendOrRetract.locals exampleResting exampleFlat 10 true true =
      some exampleFlatRestingLocals ∧
    (∀ t, exampleResting.tree.map (fun t => t exampleFlat.pos exampleFlat.last_rect) = some t →
      ∀ box visitor, t.CollideAabb box visitor = true ↔
        ∃ node, (fun (_ : irect2) (n : Nat) => n = 0) box node ∧ visitor node = true) ∧
    exampleFlatRestingLocals.offset_a ≠ ⟨0, 1⟩ ∧
    CollideShipParts exampleFlat exampleFlatRestingLocals.parts_a ⟨0, 1⟩ exampleResting.map
      (exampleResting.tree.map (fun t => t exampleFlat.pos exampleFlat.last_rect))
      (some exampleFlatRestingLocals.parts_a.LambdaNoSuchEntityHere) = true ∧
    HitsOnlyMembers exampleFlat exampleResting.map
      (exampleResting.tree.map (fun t => t exampleFlat.pos exampleFlat.last_rect))
      (fun _ n => n = 0) exampleFlatRestingLocals.parts_a exampleFlatRestingLocals.parts_b
      ⟨0, 1⟩ ∧
    exampleFlatRestingLocals.ground_a = false ∧
    ((exampleFlatRestingLocals.offset_a ≠ ⟨0, 1⟩ →
      HitsOnlyMembers exampleFlat exampleResting.map
        (exampleResting.tree.map (fun t => t exampleFlat.pos exampleFlat.last_rect))
        (fun _ n => n = 0) exampleFlatRestingLocals.parts_a exampleFlatRestingLocals.parts_b
        ⟨0, 1⟩ →
      exampleFlatRestingLocals.ground_a = false) ∧
    (exampleFlatRestingLocals.offset_b ≠ ⟨0, 1⟩ →
      HitsOnlyMembers exampleFlat exampleResting.map
        (exampleResting.tree.map (fun t => t exampleFlat.pos exampleFlat.last_rect))
        (fun _ n => n = 0) exampleFlatRestingLocals.parts_b exampleFlatRestingLocals.parts_a
        ⟨0, 1⟩ →
      exampleFlatRestingLocals.ground_b = false) ∧
    (exampleFlatRestingLocals.offset_a = ⟨0, 1⟩ →
      exampleFlatRestingLocals.ground_a = !exampleFlatRestingLocals.can_move_a) ∧
    (exampleFlatRestingLocals.offset_b = ⟨0, 1⟩ →
      exampleFlatRestingLocals.ground_b = !exampleFlatRestingLocals.can_move_b)) :=
  have hq : ∀ t, exampleResting.tree.map
      (fun t => t exampleFlat.pos exampleFlat.last_rect) = some t →
      ∀ box visitor, t.CollideAabb box visitor = true ↔
        ∃ node, (fun (_ : irect2) (n : Nat) => n = 0) box node ∧ visitor node = true := by
    intro t ht box visitor
    obtain rfl := Option.some.inj ht
    show visitor 0 = true ↔ _
    constructor
    · intro h; exact ⟨0, rfl, h⟩
    · rintro ⟨node, rfl, h⟩; exact h
  have hits : HitsOnlyMembers exampleFlat exampleResting.map
      (exampleResting.tree.map (fun t => t exampleFlat.pos exampleFlat.last_rect))
      (fun _ n => n = 0) exampleFlatRestingLocals.parts_a exampleFlatRestingLocals.parts_b
      ⟨0, 1⟩ := by
    constructor
    · intro m hm; exact nomatch hm
    · intro t ht node _
      obtain rfl := Option.some.inj ht
      right
      show (1 : Id) ∈ [1, 10]
      decide
  ⟨by decide, hq, by decide, by decide, hits, by decide,
    ExtendOrRetract_ground_counterpart exampleResting exampleFlat 10 true _
      (fun _ n => n = 0) (by decide) hq⟩

end ActuationClaims
section CallCount

variable {g : Game} {hsp : Option Id} {skip : Option Bool}

theorem Counted.call_eq (st : Counted) : st.call = ⟨st.ret, st.calls + 1, st.bodies⟩ := rfl

theorem Counted.body_eq (st : Counted) : st.body = ⟨st.ret, st.calls, st.bodies + 1⟩ := rfl

theorem Counted.update_eq (f : ConnectedShipParts → ConnectedShipParts) (st : Counted) :
    st.update f = ⟨f st.ret, st.calls, st.bodies⟩ := rfl

theorem Counted.Within.followed_by {k1 k2 k : Nat} {st1 st2 st3 : Counted}
    (h1 : Counted.Within g k1 st1 st2) (h2 : Counted.Within g k2 st2 st3)
    (hk : k1 + k2 ≤ k) : Counted.Within g k st1 st3 := by
  obtain ⟨a1, b1, c1⟩ := h1
  obtain ⟨a2, b2, c2⟩ := h2
  exact ⟨by omega, by omega, fun u hu => (c2 u hu).elim (c1 u) Or.inr⟩

theorem Counted.Within.same_blocks {k : Nat} {st1 st2 : Counted}
    (hb : st2.ret.blocks = st1.ret.blocks) (hc : st2.calls ≤ st1.calls + k)
    (hn : st2.bodies = st1.bodies) : Counted.Within g k st1 st2 := by
  refine ⟨?_, ?_, fun u hu => Or.inl (hb ▸ hu)⟩
  · rw [hb]; omega
  · rw [hb, hn]

theorem Counted.Tracks.after {k1 k2 k : Nat} {st1 st2 : Counted}
    {plain : Option ConnectedShipParts} {counted : Option Counted}
    (h1 : Counted.Within g k1 st1 st2) (h2 : Counted.Tracks g k2 plain st2 counted)
    (hk : k1 + k2 ≤ k) : Counted.Tracks g k plain st1 counted := by
  cases counted with
  | none => exact h2
  | some st3 => exact ⟨h2.1, h1.followed_by h2.2 hk⟩

theorem Counted.Tracks.done {k : Nat} {st1 st2 : Counted}
    (h : Counted.Within g k st1 st2) : Counted.Tracks g k (some st2.ret) st1 (some st2) :=
  ⟨rfl, h⟩

/-- The counted lambda `HandlePiston` tracks the uncounted one, with an allowance of two
calls when one endpoint of the piston is the Structure it was reached from, and of three
calls otherwise. -/
theorem HandlePistonF_counted_tracks (hc : g.LinksConsistent)
    {f : Id → Option Id → ConnectedShipParts → Option ConnectedShipParts}
    {fc : Id → Option Id → Counted → Option Counted}
    (hf : ∀ v q st, v ∈ g.structures → Counted.Tracks g 1 (f v q st.ret) st (fc v q st))
    {p : Id} (hp : p ∈ g.pistons) (pv : Option Id) (k : Nat) (hk2 : 2 ≤ k)
    (hk : (some (g.a p) = pv ∨ some (g.b p) = pv) ∨ 3 ≤ k) (st : Counted) :
    Counted.Tracks g k (HandlePistonF g hsp skip f p pv st.ret) st
      (HandlePistonF_counted g hsp skip fc p pv st) := by
  have second : ∀ st1 : Counted,
      Counted.Tracks g (if some (g.b p) = pv then 0 else 1)
      (if (pv.isSome || skip.isNone || skip != some true) = true then
        if (some (g.b p) != pv) = true then
          if (pv.isSome && hsp == some p && skip == some false) = true then
            some { st1.ret with cant_skip_because_of_cycle := true }
          else f (g.b p) (some p) st1.ret
        else some st1.ret
      else some st1.ret) st1
      (if (pv.isSome || skip.isNone || skip != some true) = true then
        if (some (g.b p) != pv) = true then
          if (pv.isSome && hsp == some p && skip == some false) = true then
            some (st1.update (fun ret => { ret with cant_skip_because_of_cycle := true }))
          else fc (g.b p) (some p) st1
        else some st1
      else some st1) := by
    intro st1
    have h0 : ∀ j, Counted.Within g j st1 st1 := fun j =>
      Counted.Within.same_blocks rfl (by omega) rfl
    have hfl : ∀ j, Counted.Within g j st1
        (st1.update (fun ret => { ret with cant_skip_because_of_cycle := true })) := fun j =>
      Counted.Within.same_blocks rfl (Nat.le_add_right _ _) rfl
    by_cases hb : some (g.b p) = pv
    · have c2 : (some (g.b p) != pv) = false := by simp [hb]
      simp only [c2, if_pos hb, Bool.false_eq_true, if_false, ite_self]
      exact Counted.Tracks.done (h0 _)
    · have c2 : (some (g.b p) != pv) = true := by simpa using hb
      simp only [c2, if_neg hb, if_true]
      by_cases c1 : (pv.isSome || skip.isNone || skip != some true) = true
      · simp only [if_pos c1]
        by_cases c3 : (pv.isSome && hsp == some p && skip == some false) = true
        · simp only [if_pos c3]
          exact Counted.Tracks.done (hfl _)
        · simp only [if_neg c3]
          exact hf _ _ _ (hc.b_mem p hp)
      · simp only [if_neg c1]
        exact Counted.Tracks.done (h0 _)
  have h1 : Counted.Within g 1 st (st.call.update (fun ret =>
      { ret with pistons := ret.pistons.insert p, entity_ids := ret.entity_ids.insert p })) :=
    Counted.Within.same_blocks rfl (Nat.le_refl _) rfl
  simp only [HandlePistonF, HandlePistonF_counted]
  by_cases c1 : (pv.isSome || skip.isNone || skip != some false) = true
  · simp only [if_pos c1]
    by_cases ha : some (g.a p) = pv
    · have c2 : (some (g.a p) != pv) = false := by simp [ha]
      simp only [c2, Bool.false_eq_true, if_false]
      exact Counted.Tracks.after h1 (second _) (by split_ifs <;> omega)
    · have c2 : (some (g.a p) != pv) = true := by simpa using ha
      simp only [c2, if_true]
      by_cases c3 : (pv.isSome && hsp == some p && skip == some true) = true
      · simp only [if_pos c3]
        have hw : Counted.Within g k st ((st.call.update (fun ret =>
            { ret with pistons := ret.pistons.insert p,
                       entity_ids := ret.entity_ids.insert p })).update
            (fun ret => { ret with cant_skip_because_of_cycle := true })) :=
          Counted.Within.same_blocks rfl (by show st.calls + 1 ≤ st.calls + k; omega) rfl
        exact Counted.Tracks.done hw
      · simp only [if_neg c3]
        have hfa := hf (g.a p) (some p) (st.call.update (fun ret =>
          { ret with pistons := ret.pistons.insert p,
                     entity_ids := ret.entity_ids.insert p })) (hc.a_mem p hp)
        cases hfc : fc (g.a p) (some p) (st.call.update (fun ret =>
          { ret with pistons := ret.pistons.insert p,
                     entity_ids := ret.entity_ids.insert p })) with
        | none =>
          rw [hfc] at hfa
          have hfa : f (g.a p) (some p) _ = none := hfa
          simp only [Counted.update_eq, Counted.call_eq] at hfa ⊢
          rw [hfa]
          exact rfl
        | some st1 =>
          rw [hfc] at hfa
          obtain ⟨hfa, hw⟩ := hfa
          simp only [Counted.update_eq, Counted.call_eq] at hfa ⊢
          rw [hfa]
          simp only
          by_cases hfl : st1.ret.cant_skip_because_of_cycle = true
          · simp only [if_pos hfl]
            exact Counted.Tracks.done (h1.followed_by hw (by omega))
          · simp only [if_neg hfl]
            refine Counted.Tracks.after (h1.followed_by hw (Nat.le_refl _)) (second _) ?_
            rcases hk with (h | h) | h
            · exact absurd h ha
            · rw [if_pos h]; omega
            · split_ifs <;> omega
  · simp only [if_neg c1]
    exact Counted.Tracks.after h1 (second _) (by split_ifs <;> omega)

theorem HandleBlocksLoop_counted_tracks
    {f : Id → Option Id → ConnectedShipParts → Option ConnectedShipParts}
    {fc : Id → Option Id → Counted → Option Counted}
    (v : Id) (q : Option Id) (l : List Id)
    (hf : ∀ p ∈ l, ∀ st, Counted.Tracks g 2 (f p (some v) st.ret) st (fc p (some v) st))
    (st : Counted) :
    Counted.Tracks g (2 * l.length) (HandleBlocksLoop f v q l st.ret) st
      (HandleBlocksLoop_counted fc v q l st) := by
  induction l generalizing st with
  | nil => exact Counted.Tracks.done (Counted.Within.same_blocks rfl (Nat.le_refl _) rfl)
  | cons p l ih =>
    have ih := ih (fun p hp => hf p (List.mem_cons_of_mem _ hp))
    have h0 : Counted.Within g 0 st st := Counted.Within.same_blocks rfl (Nat.le_refl _) rfl
    simp only [HandleBlocksLoop, HandleBlocksLoop_counted, List.length_cons]
    by_cases c1 : (some p == q) = true
    · simp only [if_pos c1]
      exact Counted.Tracks.after h0 (ih st) (by omega)
    · simp only [if_neg c1]
      have hfp := hf p (List.mem_cons_self _ _) st
      cases hfc : fc p (some v) st with
      | none =>
        rw [hfc] at hfp
        have hfp : f p (some v) st.ret = none := hfp
        rw [hfp]
        exact rfl
      | some st1 =>
        rw [hfc] at hfp
        obtain ⟨hfp, hw⟩ := hfp
        rw [hfp]
        simp only
        by_cases hfl : st1.ret.cant_skip_because_of_cycle = true
        · simp only [if_pos hfl]
          exact Counted.Tracks.done (h0.followed_by hw (by omega))
        · simp only [if_neg hfl]
          exact Counted.Tracks.after hw (ih st1) (by omega)

theorem Game.link_count_cons (g : Game) (v : Id) (l : List Id) :
    g.link_count (v :: l) = (g.links v).length + g.link_count l := by
  simp [Game.link_count]

theorem HandleBlocksF_counted_tracks
    {f : Id → Option Id → ConnectedShipParts → Option ConnectedShipParts}
    {fc : Id → Option Id → Counted → Option Counted}
    {v : Id} (hv : v ∈ g.structures) (q : Option Id)
    (hf : ∀ p ∈ g.links v, ∀ st, Counted.Tracks g 2 (f p (some v) st.ret) st (fc p (some v) st))
    (st : Counted) :
    Counted.Tracks g 1 (HandleBlocksF g f v q st.ret) st (HandleBlocksF_counted g fc v q st) := by
  simp only [HandleBlocksF, HandleBlocksF_counted]
  by_cases hvr : v ∈ st.ret.blocks
  · have hvr2 : v ∈ st.call.ret.blocks := hvr
    simp only [if_pos hvr, if_pos hvr2]
    have hw : Counted.Within g 1 st st.call :=
      Counted.Within.same_blocks rfl (Nat.le_refl (st.calls + 1)) rfl
    exact Counted.Tracks.done hw
  · have hvr2 : v ∉ st.call.ret.blocks := hvr
    simp only [if_neg hvr, if_neg hvr2]
    have hl := HandleBlocksLoop_counted_tracks v q (g.links v) hf
      (st.call.body.update (fun ret =>
        { ret with blocks := v :: ret.blocks, entity_ids := ret.entity_ids.insert v }))
    cases hfc : HandleBlocksLoop_counted fc v q (g.links v)
      (st.call.body.update (fun ret =>
        { ret with blocks := v :: ret.blocks, entity_ids := ret.entity_ids.insert v })) with
    | none =>
      rw [hfc] at hl
      exact hl
    | some st1 =>
      rw [hfc] at hl
      obtain ⟨hl, h1, h2, h3⟩ := hl
      refine ⟨hl, ?_, ?_, ?_⟩
      · simp only [Counted.update_eq, Counted.call_eq, Counted.body_eq,
          Game.link_count_cons] at h1
        omega
      · simp only [Counted.update_eq, Counted.call_eq, Counted.body_eq,
          List.length_cons] at h2
        omega
      · intro u hu
        rcases h3 u hu with h | h
        · simp only [Counted.update_eq, Counted.call_eq, Counted.body_eq,
            List.mem_cons] at h
          rcases h with h | h
          · exact Or.inr (h ▸ hv)
          · exact Or.inl h
        · exact Or.inr h

theorem HandleBlocks_counted_tracks (hc : g.LinksConsistent) (fuel : Nat) {v : Id}
    (hv : v ∈ g.structures) (q : Option Id) (st : Counted) :
    Counted.Tracks g 1 (HandleBlocks g hsp skip fuel v q st.ret) st
      (HandleBlocks_counted g hsp skip fuel v q st) := by
  induction fuel generalizing v q st with
  | zero => exact rfl
  | succ n ih =>
    simp only [HandleBlocks, HandleBlocks_counted]
    refine HandleBlocksF_counted_tracks hv q (fun p hp st => ?_) st
    have hpm := hc.links_mem v hv p hp
    have hends := (hc.links_iff v hv p hpm).1 hp
    exact HandlePistonF_counted_tracks hc (fun v q st hv => ih hv q st) hpm (some v) 2
      (Nat.le_refl _) (Or.inl (hends.imp (congrArg some) (congrArg some))) st

theorem FindConnectedShipParts_counted_tracks (hc : g.LinksConsistent)
    {start : BlocksOrPiston} (hstart : start.Exists g) (skip : Option Bool) :
    Counted.Tracks g 3 (FindConnectedShipParts g start skip) ⟨{}, 0, 0⟩
      (FindConnectedShipParts_counted g start skip) := by
  cases start with
  | blocks s =>
    simp only [FindConnectedShipParts, FindConnectedShipParts_counted]
    by_cases hs : skip.isSome = true
    · simp only [if_pos hs]; exact rfl
    · simp only [if_neg hs]
      exact Counted.Tracks.after
        (Counted.Within.same_blocks rfl (Nat.le_refl _) rfl : Counted.Within g 0 _ _)
        (HandleBlocks_counted_tracks hc _ hstart none ⟨{}, 0, 0⟩) (by omega : 0 + 1 ≤ 3)
  | piston P =>
    simp only [FindConnectedShipParts, FindConnectedShipParts_counted, HandlePiston,
      HandlePiston_counted]
    exact HandlePistonF_counted_tracks hc
      (fun v q st hv => HandleBlocks_counted_tracks hc _ hv q st) hstart none 3 (by omega)
      (Or.inr (Nat.le_refl _)) ⟨{}, 0, 0⟩


theorem FindConnectedShipParts_returns (hc : g.LinksConsistent) {start : BlocksOrPiston}
    (hstart : start.Exists g) (skip : Option Bool)
    (hskip : ∀ s, start = .blocks s → skip = none) :
    ∃ ret, FindConnectedShipParts g start skip = some ret := by
  cases start with
  | blocks s =>
    rw [hskip s rfl, FindConnectedShipParts_blocks]
    obtain ⟨ret, h, _⟩ := HandleBlocks_plain hc hstart
    exact ⟨ret, h⟩
  | piston P =>
    cases skip with
    | none =>
      obtain ⟨ret, h, _⟩ := FindConnectedShipParts_piston_plain hc hstart
      exact ⟨ret, h⟩
    | some d => exact FindConnectedShipParts_piston_isSome hc hstart d

theorem Game.link_count_le (g : Game) {l1 l2 : List Id} (hn : l1.Nodup) (hs : l1 ⊆ l2) :
    l1.length ≤ l2.length ∧ g.link_count l1 ≤ g.link_count l2 := by
  have hsp : l1.Subperm l2 := List.subperm_of_subset hn hs
  refine ⟨hsp.length_le, ?_⟩
  obtain ⟨l, hperm, hsl⟩ := hsp
  unfold Game.link_count
  rw [← (hperm.map _).sum_eq]
  exact (hsl.map _).sum_le_sum (fun _ _ => Nat.zero_le _)

/-- C29 as stated fails: in `exampleTriple`, two Structures joined by three pistons (six
piston links), the traversal started from Structure `0` enters its two lambdas eleven
times, ten of them recursive calls, which is more than the two Structures plus the six
piston links; the body of `HandleBlocks` runs twice. -/
theorem FindConnectedShipParts_calls_counterexample :
    exampleTriple.LinksConsistent ∧
    (FindConnectedShipParts_counted exampleTriple (.blocks 0) none).map
      (fun t => (t.calls, t.bodies, t.ret.blocks)) = some (11, 2, [1, 0]) ∧
    exampleTriple.structures.length = 2 ∧ exampleTriple.pistons.length = 3 ∧
    exampleTriple.link_count exampleTriple.structures = 6 ∧
    exampleTriple.structures.length + exampleTriple.link_count exampleTriple.structures
      = 8 :=
  ⟨⟨by decide, by decide, by decide, by decide⟩, by decide, by decide, by decide, by decide,
    by decide⟩

/-- C29 (amended): in a finite world with consistent links, for every existing start and
every exclusion direction (a Structure start takes none), `FindConnectedShipParts`
returns; the counted traversal returns the same result; the body of `HandleBlocks` past
the visited-set test has run exactly once for each Structure of the result, which lists
no Structure twice, hence at most once per Structure of the world; and the number of
calls of the two lambdas, the starting call included, is at most three plus twice the
number of piston links of the Structures reached, hence at most three plus twice the
number of piston links of the world. -/
theorem FindConnectedShipParts_call_bound (g : Game) (hc : g.LinksConsistent)
    (start : BlocksOrPiston) (hstart : start.Exists g) (skip : Option Bool)
    (hskip : ∀ s, start = .blocks s → skip = none) :
    ∃ t, FindConnectedShipParts_counted g start skip = some t ∧
      FindConnectedShipParts g start skip = some t.ret ∧
      t.ret.blocks.Nodup ∧ (∀ u ∈ t.ret.blocks, u ∈ g.structures) ∧
      t.bodies = t.ret.blocks.length ∧ t.bodies ≤ g.structures.length ∧
      t.calls ≤ 3 + 2 * g.link_count t.ret.blocks ∧
      t.calls ≤ 3 + 2 * g.link_count g.structures := by
  obtain ⟨ret, hret⟩ := FindConnectedShipParts_returns hc hstart skip hskip
  have htr := FindConnectedShipParts_counted_tracks hc hstart skip
  cases hfc : FindConnectedShipParts_counted g start skip with
  | none =>
    rw [hfc] at htr
    have htr : FindConnectedShipParts g start skip = none := htr
    rw [hret] at htr
    exact absurd htr (by simp)
  | some t =>
    rw [hfc] at htr
    obtain ⟨h1, h2, h3, h4⟩ := htr
    have hn := (FindConnectedShipParts_nodup h1).1
    have hsub : ∀ u ∈ t.ret.blocks, u ∈ g.structures := fun u hu =>
      (h4 u hu).elim (fun h => absurd h (List.not_mem_nil u)) id
    have hle := g.link_count_le hn hsub
    have h2 : t.calls + 2 * g.link_count [] ≤ 0 + 3 + 2 * g.link_count t.ret.blocks := h2
    have h3 : t.bodies + 0 = 0 + t.ret.blocks.length := h3
    have h0 : g.link_count [] = 0 := rfl
    refine ⟨t, rfl, h1, hn, hsub, by omega, by omega, by omega, by omega⟩

theorem FindConnectedShipParts_call_bound_witness :
    exampleTriple.LinksConsistent ∧ (BlocksOrPiston.piston 10).Exists exampleTriple ∧
    ∃ t, FindConnectedShipParts_counted exampleTriple (.piston 10) (some true) = some t ∧
      FindConnectedShipParts exampleTriple (.piston 10) (some true) = some t.ret ∧
      t.ret.blocks.Nodup ∧ (∀ u ∈ t.ret.blocks, u ∈ exampleTriple.structures) ∧
      t.bodies = t.ret.blocks.length ∧ t.bodies ≤ exampleTriple.structures.length ∧
      t.calls ≤ 3 + 2 * exampleTriple.link_count t.ret.blocks ∧
      t.calls ≤ 3 + 2 * exampleTriple.link_count exampleTriple.structures :=
  ⟨⟨by decide, by decide, by decide, by decide⟩, by decide,
    FindConnectedShipParts_call_bound exampleTriple
      ⟨by decide, by decide, by decide, by decide⟩ (.piston 10) (by decide) (some true)
      (fun _ h => nomatch h)⟩

end CallCount
section TrackClaims

variable {tile_size : Int} {self : ShipPartBlocks} {new_part : Nat}

theorem ivec2.axis_x (i : Bool) (n : Int) : (ivec2.axis i n).x = if i then 0 else n := by
  cases i <;> rfl

theorem ivec2.axis_y (i : Bool) (n : Int) : (ivec2.axis i n).y = if i then n else 0 := by
  cases i <;> rfl

theorem ivec2.axis_mul (i : Bool) (n k : Int) : ivec2.axis i n * k = ivec2.axis i (n * k) := by
  rw [ivec2.ext_iff']
  cases i <;> simp [ivec2.axis, ivec2.mul_x, ivec2.mul_y]

theorem ivec2.add_axis_axis (p : ivec2) (i : Bool) (a b : Int) :
    p + ivec2.axis i a + ivec2.axis i b = p + ivec2.axis i (a + b) := by
  rw [ivec2.ext_iff']
  cases i <;> simp [ivec2.axis, ivec2.add_x, ivec2.add_y] <;> ring

theorem ivec2.add_axis_zero (p : ivec2) (i : Bool) : p + ivec2.axis i 0 = p := by
  rw [ivec2.ext_iff']
  cases i <;> simp [ivec2.axis, ivec2.add_x, ivec2.add_y]

theorem probe_track (ty : ShipGrid.Tile) (step : ivec2) :
    ∀ (fuel : Nat) (pos r : ivec2), probe self ty step fuel pos = some r →
      ∃ j : Nat, r = pos + step * (j : Int) ∧
        ∀ k : Nat, 1 ≤ k → k ≤ j →
          (self.cells.safe_nonthrowing_at (pos + step * (k : Int))).tile = ty := by
  intro fuel
  induction fuel with
  | zero => intro pos r h; simp [probe] at h
  | succ n ih =>
    intro pos r h
    unfold probe at h
    simp only at h
    split at h
    · refine ⟨0, ?_, fun k h1 h2 => absurd h1 (by omega)⟩
      simp only [Option.some.injEq] at h
      subst h
      rw [ivec2.ext_iff']
      simp [ivec2.add_x, ivec2.add_y, ivec2.mul_x, ivec2.mul_y]
    · rename_i hc
      simp only [Bool.or_eq_true, Bool.not_eq_true', not_or, Bool.not_eq_false] at hc
      have hty : (self.cells.safe_nonthrowing_at (pos + step)).tile = ty := by
        simpa using hc.2
      obtain ⟨j, hj, htr⟩ := ih _ _ h
      refine ⟨j + 1, ?_, ?_⟩
      · rw [hj, ivec2.ext_iff']
        simp only [ivec2.add_x, ivec2.add_y, ivec2.mul_x, ivec2.mul_y]
        push_cast
        constructor <;> ring
      · intro k h1 h2
        rcases Nat.lt_or_ge 1 k with hk | hk
        · have := htr (k - 1) (by omega) (by omega)
          have e : pos + step * ((k : Nat) : Int) = pos + step + step * ((k - 1 : Nat) : Int) := by
            rw [ivec2.ext_iff']
            simp only [ivec2.add_x, ivec2.add_y, ivec2.mul_x, ivec2.mul_y]
            have : ((k - 1 : Nat) : Int) = (k : Int) - 1 := by omega
            rw [this]
            constructor <;> ring
          rw [e]; exact this
        · have hk1 : k = 1 := by omega
          subst hk1
          have e : pos + step * ((1 : Nat) : Int) = pos + step := by
            rw [ivec2.ext_iff']
            simp [ivec2.add_x, ivec2.add_y, ivec2.mul_x, ivec2.mul_y]
          rw [e]; exact hty

theorem starting_one_track (abs : ivec2) (hc : self.cells.contains abs = true)
    (hatt : self.Attachable abs)
    (visited : List ivec2) (is_vertical is_backward : Bool)
    (q : List (ivec2 × QueuedPiston)) :
    ∃ q1, starting_one tile_size self new_part abs visited is_vertical is_backward q = .ok q1 ∧
      (q1 = q ∨ ∃ e, q1 = q ++ [e] ∧ PushedTrack tile_size self new_part abs e) := by
  unfold starting_one
  simp only
  obtain ⟨r, hr⟩ := probe_total abs hc is_vertical is_backward
    (if is_vertical then ShipGrid.Tile.piston_v else ShipGrid.Tile.piston_h)
  rw [hr]
  simp only
  by_cases hne : r = abs
  · simp [hne]
  · rw [if_pos hne]
    by_cases hcond : (self.cells.contains
          (r + ivec2.axis is_vertical (if is_backward then -1 else 1))
        && ShipGrid.GetTileInfo (self.cells.safe_nonthrowing_at
          (r + ivec2.axis is_vertical (if is_backward then -1 else 1))).tile
            == .solid_attachable
        && !(visited.contains (r + ivec2.axis is_vertical (if is_backward then -1 else 1))))
        = true
    · rw [if_pos hcond]
      refine ⟨_, rfl, Or.inr ⟨_, rfl, ?_⟩⟩
      simp only [Bool.and_eq_true, Bool.not_eq_true', List.elem_eq_mem,
        decide_eq_false_iff_not, beq_iff_eq] at hcond
      obtain ⟨j, hj, htr⟩ := probe_track _ _ _ _ _ hr
      refine ⟨rfl, rfl, hatt, hcond.1.2, if is_backward then -1 else 1, j, ?_, ?_, ?_, ?_, rfl⟩
      · cases is_backward <;> simp
      · rcases Nat.eq_zero_or_pos j with h0 | h0
        · exfalso; apply hne; rw [hj, h0, ivec2.ext_iff']
          simp [ivec2.add_x, ivec2.add_y, ivec2.mul_x, ivec2.mul_y]
        · exact h0
      · simp only
        rw [hj, ivec2.axis_mul, ivec2.add_axis_axis]
        congr 2
        ring
      · intro k h1 h2
        have := htr k h1 h2
        rw [ivec2.axis_mul] at this
        exact this
    · rw [if_neg hcond]
      exact ⟨_, rfl, Or.inl rfl⟩

theorem starting_track (abs : ivec2) (hc : self.cells.contains abs = true)
    (visited : List ivec2) (q : List (ivec2 × QueuedPiston)) :
    ∃ extra, starting tile_size self new_part abs visited
        (self.cells.safe_nonthrowing_at abs).tile q = .ok (q ++ extra) ∧
      ∀ e ∈ extra, PushedTrack tile_size self new_part abs e := by
  unfold starting
  split
  · rename_i hatt
    have hatt : self.Attachable abs := by simpa using hatt
    have one : ∀ (iv ib : Bool) (q : List (ivec2 × QueuedPiston)),
        ∃ extra, starting_one tile_size self new_part abs visited iv ib q = .ok (q ++ extra) ∧
          ∀ e ∈ extra, PushedTrack tile_size self new_part abs e := by
      intro iv ib q
      obtain ⟨q1, h1, h2⟩ :=
        @starting_one_track tile_size self new_part abs hc hatt visited iv ib q
      rcases h2 with rfl | ⟨e, rfl, he⟩
      · exact ⟨[], by simpa using h1, by simp⟩
      · exact ⟨[e], h1, by simpa using he⟩
    obtain ⟨e1, h1, p1⟩ := one false false q
    obtain ⟨e2, h2, p2⟩ := one false true (q ++ e1)
    obtain ⟨e3, h3, p3⟩ := one true false (q ++ e1 ++ e2)
    obtain ⟨e4, h4, p4⟩ := one true true (q ++ e1 ++ e2 ++ e3)
    refine ⟨e1 ++ e2 ++ e3 ++ e4, ?_, ?_⟩
    · simp only [h1, h2, h3, h4, Except.bind]
      simp only [List.append_assoc]
    · intro e he
      simp only [List.mem_append] at he
      rcases he with ((he | he) | he) | he
      exacts [p1 e he, p2 e he, p3 e he, p4 e he]
  · exact ⟨[], by simp, by simp⟩

theorem EntryTrack.mono_own {own own2 : Nat → ivec2 → Prop}
    (hmono : ∀ i t, own i t → own2 i t) {e : ivec2 × QueuedPiston}
    (h : EntryTrack tile_size self own e) : EntryTrack tile_size self own2 e := by
  obtain ⟨T, m, htr, h⟩ := h
  refine ⟨T, m, htr, ?_⟩
  cases hb : e.2.block_b with
  | none =>
    simp only [hb] at h ⊢
    rcases h with ⟨h1, h2, h3⟩ | ⟨h1, h2, h3⟩
    · exact Or.inl ⟨h1, hmono _ _ h2, h3⟩
    · exact Or.inr ⟨h1, hmono _ _ h2, h3⟩
  | some b =>
    simp only [hb] at h ⊢
    exact ⟨hmono _ _ h.1, hmono _ _ h.2.1, h.2.2⟩

theorem PushedTrack.entryTrack {own : Nat → ivec2 → Prop} {abs : ivec2}
    {e : ivec2 × QueuedPiston} (h : PushedTrack tile_size self new_part abs e)
    (hown : own new_part abs) : EntryTrack tile_size self own e := by
  obtain ⟨hb, ha, hatt, hatt1, σ, j, hσ, hj, hk, htr, hp⟩ := h
  rcases hσ with rfl | rfl
  · simp only [one_mul] at hk htr
    refine ⟨abs, j, ⟨hj, hatt, hk ▸ hatt1, htr⟩, ?_⟩
    rw [hb]
    exact Or.inl ⟨hk, ha ▸ hown, hp⟩
  · have hE : e.1 + ivec2.axis e.2.is_vertical ((j : Int) + 1) = abs := by
      rw [hk, ivec2.add_axis_axis]
      have : -1 * ((j : Int) + 1) + ((j : Int) + 1) = 0 := by ring
      rw [this, ivec2.add_axis_zero]
    refine ⟨e.1, j, ⟨hj, hatt1, hE.symm ▸ hatt, ?_⟩, ?_⟩
    · intro k h1 h2
      have := htr (j + 1 - k) (by omega) (by omega)
      have e2 : e.1 + ivec2.axis e.2.is_vertical (k : Int)
          = abs + ivec2.axis e.2.is_vertical (-1 * ((j + 1 - k : Nat) : Int)) := by
        rw [hk, ivec2.add_axis_axis]
        congr 2
        have : ((j + 1 - k : Nat) : Int) = (j : Int) + 1 - k := by omega
        rw [this]; ring
      rw [e2]; exact this
    · rw [hb]
      refine Or.inr ⟨rfl, ?_, ?_⟩
      · rw [hE, ha]; exact hown
      · rw [hp]
        congr 2
        rw [hk, ivec2.add_axis_axis]
        congr 2
        ring

theorem arriving_one_track (hts : 0 < tile_size) {own own2 : Nat → ivec2 → Prop}
    (hmono : ∀ i t, own i t → own2 i t) (abs : ivec2) (elem : QueuedPiston)
    (hb : elem.block_b = none) (hnew : own2 new_part abs)
    (hg : EntryTrack tile_size self own (abs, elem)) :
    EntryTrack tile_size self own2 (abs, arriving_one tile_size self new_part abs elem) := by
  unfold arriving_one
  by_cases ha : elem.block_a = new_part
  · rw [if_pos ha]; exact hg.mono_own hmono
  · rw [if_neg ha]
    obtain ⟨T, m, htr, h⟩ := hg
    simp only [hb] at h
    have hm : 0 < (m : Int) * tile_size := mul_pos (by exact_mod_cast htr.1) hts
    simp only
    rcases h with ⟨hk, ho, hp⟩ | ⟨hk, ho, hp⟩
    · have hle : ¬ (elem.abs_pixel_pos_a.get elem.is_vertical
          > (abs * tile_size + self.pos).get elem.is_vertical) := by
        rw [hp, hk]
        cases hv : elem.is_vertical <;>
          simp only [ivec2.get, ivec2.axis, ivec2.add_x, ivec2.add_y, ivec2.mul_x,
            ivec2.mul_y, if_true, Bool.false_eq_true, if_false] <;> nlinarith
      rw [if_neg hle]
      refine ⟨T, m, htr, ?_⟩
      simp only
      exact ⟨hmono _ _ ho, hk ▸ hnew, hp, by rw [hk]⟩
    · have hgt : elem.abs_pixel_pos_a.get elem.is_vertical
          > (abs * tile_size + self.pos).get elem.is_vertical := by
        rw [hp, hk]
        cases hv : elem.is_vertical <;>
          simp only [ivec2.get, ivec2.axis, ivec2.add_x, ivec2.add_y, ivec2.mul_x,
            ivec2.mul_y, if_true, Bool.false_eq_true, if_false] <;> nlinarith
      rw [if_pos hgt]
      refine ⟨T, m, htr, ?_⟩
      simp only
      refine ⟨hk ▸ hnew, hmono _ _ ho, ?_, ?_⟩
      · rw [hk, ivec2.ext_iff']
        cases hv : elem.is_vertical <;>
          simp only [ivec2.axis, ivec2.add_x, ivec2.add_y, ivec2.mul_x,
            ivec2.mul_y, if_true, Bool.false_eq_true, if_false] <;> constructor <;> ring
      · rw [hp, ivec2.ext_iff']
        cases hv : elem.is_vertical <;>
          simp only [ivec2.axis, ivec2.add_x, ivec2.add_y, ivec2.mul_x,
            ivec2.mul_y, if_true, Bool.false_eq_true, if_false] <;> constructor <;> ring

theorem visit_track (hts : 0 < tile_size) {parts : List NewPart} {visited0 : List ivec2}
    {abs : ivec2} {st st0 : FillState} (hn : new_part = parts.length)
    (hc : self.cells.contains abs = true) (hv0 : abs ∉ visited0)
    (hg : ∀ e ∈ st.queued_pistons,
      EntryTrack tile_size self (OwnedDuring parts visited0 st.visited) e)
    (h : visit tile_size self new_part abs st = .ok st0) :
    ∀ e ∈ st0.queued_pistons,
      EntryTrack tile_size self (OwnedDuring parts visited0 st0.visited) e := by
  obtain ⟨hvis, _, q1, hq1, hq2⟩ := visit_spec h
  obtain ⟨extra, hq3, hp⟩ := @starting_track tile_size self new_part abs hc
    (abs :: st.visited) q1
  rw [hq3] at hq2
  have := Except.ok.inj hq2
  rw [← this, hvis]
  have hmono : ∀ i t, OwnedDuring parts visited0 st.visited i t →
      OwnedDuring parts visited0 (abs :: st.visited) i t := by
    rintro i t (h | ⟨h1, h2, h3⟩)
    · exact Or.inl h
    · exact Or.inr ⟨h1, List.mem_cons_of_mem _ h2, h3⟩
  have hnew : OwnedDuring parts visited0 (abs :: st.visited) new_part abs :=
    Or.inr ⟨hn, List.mem_cons_self _ _, hv0⟩
  intro e he
  simp only [List.mem_append] at he
  rcases he with he | he
  · rcases arriving_mem abs _ _ hq1 e he with ⟨_, hmem⟩ | ⟨e0, he0, hk0, hb0, rfl⟩
    · exact (hg e hmem).mono_own hmono
    · have := hg e0 he0
      obtain ⟨k0, el0⟩ := e0
      simp only at hk0 hb0 ⊢
      subst hk0
      exact arriving_one_track hts hmono k0 el0 hb0 hnew this
  · exact (hp e he).entryTrack hnew

theorem OwnedBy.append {parts : List NewPart} {i : Nat} {t : ivec2} (P : NewPart)
    (h : OwnedBy parts i t) : OwnedBy (parts ++ [P]) i t := by
  obtain ⟨Q, hQ, hh⟩ := h
  refine ⟨Q, ?_, hh⟩
  have hlt : i < parts.length := (List.get?_eq_some.1 hQ).1
  rw [List.get?_eq_getElem?, List.getElem?_append_left hlt, ← List.get?_eq_getElem?]
  exact hQ

theorem fill_loop_track (hts : 0 < tile_size) :
    ∀ (l : List ivec2) (s s1 : DecomposeState), OuterInv tile_size self s →
      fill_loop tile_size self l s = .ok s1 →
      (∀ e ∈ s.queued_pistons, EntryTrack tile_size self (OwnedBy s.parts) e) →
      ∀ e ∈ s1.queued_pistons, EntryTrack tile_size self (OwnedBy s1.parts) e := by
  intro l
  induction l with
  | nil =>
    intro s s1 _ h hs
    simp only [fill_loop, Except.ok.injEq] at h
    subst h
    exact hs
  | cons p rest ih =>
    intro s s1 hO h hs
    unfold fill_loop at h
    by_cases hc : (IsRegularTile (self.cells.safe_nonthrowing_at p).tile
        && !(s.visited.contains p)) = true
    · rw [if_pos hc] at h
      simp only [Bool.and_eq_true, Bool.not_eq_true', List.elem_eq_mem,
        decide_eq_false_iff_not] at hc
      obtain ⟨st, hst, r, I1, _, _, _⟩ :=
        @fill_component tile_size self s.parts.length s.visited s.queued_pistons p hc.1 hc.2
          hO.solid hO.nodup hO.closed hO.queue
      obtain ⟨st2, hst2, hO1, _, _⟩ := hO.fill_step hc.1 hc.2
      have hst_eq : st2 = st := Except.ok.inj (hst2.symm.trans hst)
      subst hst_eq
      rw [hst2] at h
      simp only at h
      refine ih _ _ hO1 h ?_
      have hrun := FillRun.invariant
        (fun st : FillState => (∀ t ∈ s.visited, t ∈ st.visited) ∧
          ∀ e ∈ st.queued_pistons,
            EntryTrack tile_size self (OwnedDuring s.parts s.visited st.visited) e)
        (fun abs st st0 hI hsol hv hvis =>
          ⟨fun t ht => by
              rw [(visit_spec hvis).1]; exact List.mem_cons_of_mem _ (hI.1 t ht),
            visit_track hts rfl hsol.contains (fun h0 => hv (hI.1 _ h0)) hI.2 hvis⟩)
        r ⟨fun t ht => ht, fun e he => (hs e he).mono_own (fun i t h => Or.inl h)⟩
      have hown : ∀ i t, OwnedDuring s.parts s.visited st2.visited i t →
          OwnedBy (s.parts ++ [{
            cells := st2.cells, tile_offset := st2.new_part_tile_offset,
            pos := self.pos + st2.new_part_tile_offset * tile_size }]) i t := by
        rintro i t (h | ⟨h1, h2, h3⟩)
        · exact OwnedBy.append _ h
        · refine ⟨{
            cells := st2.cells, tile_offset := st2.new_part_tile_offset,
            pos := self.pos + st2.new_part_tile_offset * tile_size }, ?_, ?_⟩
          · rw [h1]
            rw [List.get?_eq_getElem?]
            exact List.getElem?_concat_length _ _
          · exact (I1.holds_iff t).2 ⟨h2, h3⟩
      exact fun e he => (hrun.2 e he).mono_own hown
    · rw [if_neg hc] at h
      exact ih _ _ hO h hs

/-- C28: the embedding of the decomposition never runs out of fuel, and, the tile size
being positive, every piston that it creates, swapped or not, lies on a tile track of
its orientation: there are an attachable tile `T` held by the Structure `A` linked as
`a`, then `m ≥ 1` track tiles along the axis, then an attachable tile `T + axis (m + 1)`
held by the Structure `B` linked as `b`; corner A (`A.pos + pos_relative_to_a`) is the
pixel corner of the first track tile `T + axis 1`, corner B (`B.pos + pos_relative_to_b`)
is the pixel corner of the attachable tile of `B`; so the length of the piston along its
axis is `m * tile_size`, at least one tile. -/
theorem DecomposeToComponentsAndDelete_corners (tile_size : Int) (self : ShipPartBlocks)
    (hts : 0 < tile_size) :
    DecomposeToComponentsAndDelete tile_size self ≠ .error .out_of_fuel ∧
    ∀ parts pistons, DecomposeToComponentsAndDelete tile_size self = .ok (parts, pistons) →
      ∀ p ∈ pistons, ∃ (A B : NewPart) (T : ivec2) (m : Nat),
        parts.get? p.a = some A ∧ parts.get? p.b = some B ∧
        self.IsTrack p.is_vertical T m ∧
        A.Holds T ∧ B.Holds (T + ivec2.axis p.is_vertical ((m : Int) + 1)) ∧
        A.pos + p.pos_relative_to_a
          = (T + ivec2.axis p.is_vertical 1) * tile_size + self.pos ∧
        B.pos + p.pos_relative_to_b
          = (T + ivec2.axis p.is_vertical ((m : Int) + 1)) * tile_size + self.pos ∧
        (B.pos + p.pos_relative_to_b).get p.is_vertical
          - (A.pos + p.pos_relative_to_a).get p.is_vertical = (m : Int) * tile_size ∧
        tile_size ≤ (m : Int) * tile_size := by
  obtain ⟨s, h1, hO0, _, hfuel, hD⟩ := DecomposeToComponentsAndDelete_phases tile_size self
  refine ⟨hfuel, ?_⟩
  intro parts pistons h p hp
  obtain ⟨rfl, hadd⟩ := (hD _ _).1 h
  have hO : OuterInv tile_size self { visited := [], queued_pistons := [], parts := [] } := by
    constructor
    · intro t h; exact nomatch h
    · exact List.nodup_nil
    · intro t h; exact nomatch h
    · intro e h; exact nomatch h
    · intro t; simp
    · intro P h; exact nomatch h
    · intro P h; exact nomatch h
    · exact List.Pairwise.nil
    · rfl
    · intro P h; exact nomatch h
  have htrack := fill_loop_track hts _ _ _ hO h1 (fun e he => nomatch he)
  obtain ⟨e, he, hb, ha, hv, hra, hrb⟩ := add_pistons_mem _ _ _ hadd p hp
  obtain ⟨T, m, htr, g⟩ := htrack e he
  simp only [hb] at g
  obtain ⟨⟨A, hA, hAT⟩, ⟨B, hB, hBE⟩, ga, gb⟩ := g
  rw [← ha] at hA
  have cancel : ∀ u v : ivec2, u + (v - u) = v := by
    intro u v; rw [ivec2.ext_iff']
    simp [ivec2.add_x, ivec2.add_y, ivec2.sub_x, ivec2.sub_y]
  have ea : A.pos + p.pos_relative_to_a
      = (T + ivec2.axis p.is_vertical 1) * tile_size + self.pos := by
    rw [hra, hA]
    simp only [Option.map_some', Option.getD_some, cancel, hv]
    exact ga
  have eb : B.pos + p.pos_relative_to_b
      = (T + ivec2.axis p.is_vertical ((m : Int) + 1)) * tile_size + self.pos := by
    rw [hrb, hB]
    simp only [Option.map_some', Option.getD_some, cancel, hv]
    exact gb
  have hm1 : (1 : Int) ≤ (m : Int) := by exact_mod_cast htr.1
  refine ⟨A, B, T, m, hA, hB, hv ▸ htr, hAT, hv ▸ hBE, ea, eb, ?_, ?_⟩
  · rw [ea, eb]
    cases p.is_vertical <;>
      simp only [ivec2.get, ivec2.axis, ivec2.add_x, ivec2.add_y, ivec2.mul_x,
        ivec2.mul_y, if_true, Bool.false_eq_true, if_false] <;> ring
  · nlinarith

theorem DecomposeToComponentsAndDelete_corners_witness :
    (0 : Int) < 4 ∧
    ∃ parts pistons, DecomposeToComponentsAndDelete 4 exampleSwap = .ok (parts, pistons) ∧
      pistons.length = 1 ∧
      ∀ p ∈ pistons, ∃ (A B : NewPart) (T : ivec2) (m : Nat),
        parts.get? p.a = some A ∧ parts.get? p.b = some B ∧
        exampleSwap.IsTrack p.is_vertical T m ∧
        A.Holds T ∧ B.Holds (T + ivec2.axis p.is_vertical ((m : Int) + 1)) ∧
        A.pos + p.pos_relative_to_a
          = (T + ivec2.axis p.is_vertical 1) * (4 : Int) + exampleSwap.pos ∧
        B.pos + p.pos_relative_to_b
          = (T + ivec2.axis p.is_vertical ((m : Int) + 1)) * (4 : Int) + exampleSwap.pos ∧
        (B.pos + p.pos_relative_to_b).get p.is_vertical
          - (A.pos + p.pos_relative_to_a).get p.is_vertical = (m : Int) * 4 ∧
        (4 : Int) ≤ (m : Int) * 4 :=
  ⟨by decide, _, _, rfl, rfl,
    (DecomposeToComponentsAndDelete_corners 4 exampleSwap (by decide)).2 _ _ rfl⟩

end TrackClaims
section TrackLost

set_option maxHeartbeats 4000000 in
/-- C27 fails on `exampleMixed` with tile size 4: the track tile `(3, 0)` is a maximal
horizontal run bounded by the attachable tiles `(2, 0)` and `(4, 0)`; the flood fill
phase produces two Structures, the first holding `(2, 0)` and the second `(4, 0)`, and
queues a finished entry between them; but the entry of the other track, `(1, 0)`, both
ends of which lie in the first Structure, stays unfinished, so the assertion of the loop
that adds the pistons fails and the call creates no piston at all. -/
theorem DecomposeToComponentsAndDelete_track_lost :
    exampleMixed.IsTrack false ⟨2, 0⟩ 1 ∧
    (∃ s, fill_loop 4 exampleMixed (vector_range exampleMixed.cells.size)
        { visited := [], queued_pistons := [], parts := [] } = .ok s ∧
      s.parts.length = 2 ∧ OwnedBy s.parts 0 ⟨2, 0⟩ ∧ OwnedBy s.parts 1 ⟨4, 0⟩ ∧
      s.queued_pistons.map (fun e => (e.1, e.2.is_vertical, e.2.block_a, e.2.block_b))
        = [(⟨2, 0⟩, false, 0, none), (⟨4, 0⟩, false, 0, some 1)]) ∧
    DecomposeToComponentsAndDelete 4 exampleMixed = .error .unfinished_piston :=
  ⟨⟨by decide, by decide, by decide, fun k h1 h2 => by
      obtain rfl : k = 1 := by omega
      decide⟩,
    ⟨_, rfl, rfl, ⟨_, rfl, by decide⟩, ⟨_, rfl, by decide⟩, by decide⟩, rfl⟩

end TrackLost
section ExcludedEndpoint

variable {g : Game}

/-- The cycle flag is raised only after the Structure at the excluded endpoint of the
half-skipped piston has been recorded. -/
theorem Run.flag_member (hc : g.LinksConsistent) {P : Id} {d : Bool} {c : Call}
    {r r' : ConnectedShipParts} (h : Run g (some P) (some d) c r r')
    (hpre : VisitPre g c r) :
    r'.cant_skip_because_of_cycle = true →
      r.cant_skip_because_of_cycle = true ∨ g.endpoint (!d) P ∈ r'.blocks := by
  induction h with
  | blocks_seen _ => exact fun hf => Or.inl hf
  | @blocks_new v q r r' hv hl ih =>
    exact ih ⟨hpre, List.mem_cons_self _ _, fun p hp => hp⟩
  | loop_nil => exact fun hf => Or.inl hf
  | @loop_skip v q p l r r' hq _ ih =>
    exact ih ⟨hpre.1, hpre.2.1, fun p hp => hpre.2.2 p (List.mem_cons_of_mem _ hp)⟩
  | @loop_stop v q p l r r' hq hp hf ih =>
    exact ih ⟨hpre.1, hpre.2.1, hpre.2.2 p (List.mem_cons_self _ _)⟩
  | @loop_next v q p l r r1 r' hq hp hf hl ih1 ih2 =>
    intro hf'
    rcases ih2 ⟨hpre.1, hp.grows.1 hpre.2.1,
      fun p hp => hpre.2.2 p (List.mem_cons_of_mem _ hp)⟩ hf' with h1 | h1
    · rw [hf] at h1; cases h1
    · exact Or.inr h1
  | @piston_stop p v r r' h1 hf ih => exact ih hpre
  | @piston_next p v r r1 r' h1 hf h2 ih1 ih2 =>
    intro hf'
    rcases ih2 ⟨hpre.1, h1.grows.1 hpre.2.1, hpre.2.2⟩ hf' with h | h
    · rw [hf] at h; cases h
    · exact Or.inr h
  | side_idle _ => exact fun hf => Or.inl hf
  | @side_flag p v dir r he hP hd =>
    intro _
    obtain ⟨hvs, hvr, hpl⟩ := hpre
    obtain ⟨_, hend, _, _⟩ := hc.of_link hvs hpl
    cases hP; cases hd
    refine Or.inr ?_
    have hv : g.endpoint (!d) P = v := by
      rcases g.endpoint_not d P with ⟨h1, h2⟩ | ⟨h1, h2⟩
      · rw [h1] at he; rw [h2]
        rcases hend with h | h
        · exact absurd h he
        · exact h
      · rw [h1] at he; rw [h2]
        rcases hend with h | h
        · exact h
        · exact absurd h he
    rw [hv]
    exact hvr
  | @side_visit p v dir r r' he ht hb ih =>
    obtain ⟨hvs, hvr, hpl⟩ := hpre
    obtain ⟨_, _, ham, hbm⟩ := hc.of_link hvs hpl
    refine ih ?_
    cases dir
    · exact hbm
    · exact ham

/-- A visit of a Structure leaves it recorded. -/
theorem Run.blocks_member {hsp : Option Id} {skip : Option Bool} {v : Id} {q : Option Id}
    {r r' : ConnectedShipParts} (h : Run g hsp skip (.blocks v q) r r') : v ∈ r'.blocks := by
  cases h with
  | blocks_seen hv => exact hv
  | blocks_new _ hl => exact hl.grows.1 (List.mem_cons_self _ _)

/-- The two endpoints of the starting piston in the result of a traversal with an
exclusion direction: the explored one is always recorded, the excluded one exactly when
the cycle flag is raised. -/
theorem FindConnectedShipParts_endpoints (hc : g.LinksConsistent) {P : Id}
    (hP : P ∈ g.pistons) (hab : g.a P ≠ g.b P) (d : Bool) {ret : ConnectedShipParts}
    (hret : FindConnectedShipParts g (.piston P) (some d) = some ret) :
    g.endpoint d P ∈ ret.blocks ∧
    (g.endpoint (!d) P ∈ ret.blocks ↔ ret.cant_skip_because_of_cycle = true) := by
  obtain ⟨ret2, hret2, hflag, hfalse, _, _⟩ := FindConnectedShipParts_excl hc hP d
  rw [hret] at hret2
  cases hret2
  rw [FindConnectedShipParts_piston_excl] at hret
  have hrun := HandleBlocks_run _ hret rfl
  refine ⟨hrun.blocks_member, ?_, fun hf => ?_⟩
  · intro hmem
    by_contra hf
    have hf : ret.cant_skip_because_of_cycle = false := by simpa using hf
    have hreach := ((hfalse hf).1 _).1 hmem
    have := hflag.2 ⟨hab, hreach⟩
    rw [hf] at this
    cases this
  · rcases hrun.flag_member hc (Game.endpoint_mem hc hP d) hf with h | h
    · cases h
    · exact h

/-- C32: in a finite world with consistent links, for a piston `P` with distinct endpoints
and a direction `d`, both traversals of `P` return, and the result for `d` holds the
Structure at the excluded endpoint of `P` exactly when `cant_skip_because_of_cycle` is
true; the two traversals raise the flag together; when it is false the two sides share
no Structure, and when it is true the result holds both endpoint Structures of `P`. -/
theorem FindConnectedShipParts_excluded_endpoint (g : Game) (hc : g.LinksConsistent)
    (P : Id) (hP : P ∈ g.pistons) (hab : g.a P ≠ g.b P) (d : Bool) :
    ∃ ret other, FindConnectedShipParts g (.piston P) (some d) = some ret ∧
      FindConnectedShipParts g (.piston P) (some (!d)) = some other ∧
      (g.endpoint (!d) P ∈ ret.blocks ↔ ret.cant_skip_because_of_cycle = true) ∧
      other.cant_skip_because_of_cycle = ret.cant_skip_because_of_cycle ∧
      (ret.cant_skip_because_of_cycle = false → ∀ u, u ∈ ret.blocks → u ∉ other.blocks) ∧
      (ret.cant_skip_because_of_cycle = true → g.a P ∈ ret.blocks ∧ g.b P ∈ ret.blocks) := by
  obtain ⟨ret, hret, hflag, hfalse, _, _⟩ := FindConnectedShipParts_excl hc hP d
  obtain ⟨other, hother, hflag2, hfalse2, _, _⟩ := FindConnectedShipParts_excl hc hP (!d)
  obtain ⟨hmem, hiff⟩ := FindConnectedShipParts_endpoints hc hP hab d hret
  rw [Bool.not_not] at hflag2
  have hsame : other.cant_skip_because_of_cycle = ret.cant_skip_because_of_cycle := by
    cases hr : ret.cant_skip_because_of_cycle with
    | true => exact hflag2.2 ⟨hab, ((hflag.1 hr).2).symm⟩
    | false =>
      cases ho : other.cant_skip_because_of_cycle with
      | false => rfl
      | true =>
        have := hflag.2 ⟨hab, ((hflag2.1 ho).2).symm⟩
        rw [hr] at this
        cases this
  refine ⟨ret, other, hret, hother, hiff, hsame, fun hf u hu hu2 => ?_, fun hf => ?_⟩
  · have h1 := ((hfalse hf).1 u).1 hu
    have h2 := ((hfalse2 (hsame.trans hf)).1 u).1 hu2
    have := hflag.2 ⟨hab, h1.trans h2.symm⟩
    rw [hf] at this
    cases this
  · have h2 := hiff.2 hf
    rcases g.endpoint_not d P with ⟨e1, e2⟩ | ⟨e1, e2⟩
    · exact ⟨e1 ▸ hmem, e2 ▸ h2⟩
    · exact ⟨e2 ▸ h2, e1 ▸ hmem⟩

theorem FindConnectedShipParts_excluded_endpoint_witness :
    exampleLoop.LinksConsistent ∧ 10 ∈ exampleLoop.pistons ∧
    exampleLoop.a 10 ≠ exampleLoop.b 10 ∧
    ∃ ret other, FindConnectedShipParts exampleLoop (.piston 10) (some true) = some ret ∧
      FindConnectedShipParts exampleLoop (.piston 10) (some (!true)) = some other ∧
      (exampleLoop.endpoint (!true) 10 ∈ ret.blocks ↔
        ret.cant_skip_because_of_cycle = true) ∧
      other.cant_skip_because_of_cycle = ret.cant_skip_because_of_cycle ∧
      (ret.cant_skip_because_of_cycle = false → ∀ u, u ∈ ret.blocks → u ∉ other.blocks) ∧
      (ret.cant_skip_because_of_cycle = true →
        exampleLoop.a 10 ∈ ret.blocks ∧ exampleLoop.b 10 ∈ ret.blocks) :=
  ⟨⟨by decide, by decide, by decide, by decide⟩, by decide, by decide,
    FindConnectedShipParts_excluded_endpoint exampleLoop
      ⟨by decide, by decide, by decide, by decide⟩ 10 (by decide) (by decide) true⟩

end ExcludedEndpoint
section LengthClaims

end LengthClaims
section ShortcutClaims

theorem DynamicSolidTree.ShipBlocksCollisionTest_mono {t : DynamicSolidTree}
    (ht : t.VisitorMonotone) (ship : Id) (offset : ivec2) {f f2 : Id → Bool}
    (hff : ∀ e, f2 e = true → f e = true)
    (h : t.ShipBlocksCollisionTest ship offset (some f2) = true) :
    t.ShipBlocksCollisionTest ship offset (some f) = true := by
  unfold DynamicSolidTree.ShipBlocksCollisionTest at h ⊢
  refine ht _ _ _ (fun n hn => ?_) h
  simp only at hn ⊢
  by_cases h2 : f2 (t.GetNodeUserData n) = true
  · simp only [h2, hff _ h2, Bool.not_true, Bool.false_eq_true, if_false] at hn ⊢
    exact hn
  · simp [h2] at hn

theorem DynamicSolidTree.BoxCollisionTest_mono {t : DynamicSolidTree}
    (ht : t.VisitorMonotone) (box : irect2) {f f2 : Id → Bool}
    (hff : ∀ e, f2 e = true → f e = true)
    (h : t.BoxCollisionTest box (some f2) = true) :
    t.BoxCollisionTest box (some f) = true := by
  unfold DynamicSolidTree.BoxCollisionTest at h ⊢
  refine ht _ _ _ (fun n hn => ?_) h
  simp only at hn ⊢
  by_cases h2 : f2 (t.GetNodeUserData n) = true
  · simp only [h2, hff _ h2, Bool.not_true, Bool.false_eq_true, if_false] at hn ⊢
    exact hn
  · simp [h2] at hn

theorem CollideShipParts_eq_true (g : Game) (parts : ConnectedShipParts) (offset : ivec2)
    (map : Option MapObject) (tree : Option DynamicSolidTree) (entity_filter : EntityFilter) :
    CollideShipParts g parts offset map tree entity_filter = true ↔
      (∃ blocks ∈ parts.blocks,
        (∃ m, map = some m ∧ m.CollidesWithMap blocks (g.pos blocks + offset - m.pos) = true) ∨
        (∃ t, tree = some t ∧ t.ShipBlocksCollisionTest blocks offset entity_filter = true)) ∨
      (∃ piston ∈ parts.pistons,
        (∃ m, map = some m ∧ m.CollidesWithBox (g.last_rect piston + offset - m.pos) = true) ∨
        (∃ t, tree = some t ∧
          t.BoxCollisionTest (g.last_rect piston + offset) entity_filter = true)) := by
  cases map <;> cases tree <;> simp [CollideShipParts]

/-- A spatial index whose box query is monotone in its visitor, or no index at all,
makes the collision test monotone in its filter. -/
theorem CollideShipParts.filterMonotone_of_tree (g : Game) (map : Option MapObject)
    (tree : Option DynamicSolidTree) (ht : ∀ t, tree = some t → t.VisitorMonotone) :
    CollideShipParts.FilterMonotone g map tree := by
  intro parts offset f f2 hff h
  rw [CollideShipParts_eq_true] at h ⊢
  rcases h with ⟨b, hb, h | ⟨t, ht1, h⟩⟩ | ⟨p, hp, h | ⟨t, ht1, h⟩⟩
  · exact Or.inl ⟨b, hb, Or.inl h⟩
  · exact Or.inl ⟨b, hb, Or.inr ⟨t, ht1,
      DynamicSolidTree.ShipBlocksCollisionTest_mono (ht t ht1) _ _ hff h⟩⟩
  · exact Or.inr ⟨p, hp, Or.inl h⟩
  · exact Or.inr ⟨p, hp, Or.inr ⟨t, ht1,
      DynamicSolidTree.BoxCollisionTest_mono (ht t ht1) _ hff h⟩⟩

theorem ExtendOrRetract.commit_congr (env : Externals) (g : Game) (this : Id)
    {l l2 : ExtendOrRetract.Locals} (h1 : l2.parts_a = l.parts_a)
    (h2 : l2.parts_b = l.parts_b) (h3 : l2.offset_a = l.offset_a)
    (h4 : l2.offset_b = l.offset_b) (move_b : Bool) :
    ExtendOrRetract.commit env g this l2 move_b = ExtendOrRetract.commit env g this l move_b := by
  simp only [ExtendOrRetract.commit, h1, h2, h3, h4]

theorem ExtendOrRetract.force_move_a_congr (env : Externals) (g : Game) (this : Id)
    (extend : Bool) {l l2 : ExtendOrRetract.Locals} (h2 : l2.parts_b = l.parts_b)
    (h4 : l2.offset_b = l.offset_b) :
    ExtendOrRetract.force_move_a env g this extend l2
      = ExtendOrRetract.force_move_a env g this extend l := by
  simp only [ExtendOrRetract.force_move_a, h2, h4]

theorem ground_flag_eq (gravity_tweaks : Bool) (offset gravity : ivec2) (C Cg : Bool)
    (hcan : (!C) = true) (h : offset = gravity → Cg = true → C = true) :
    (if gravity_tweaks = true then Cg else false) =
      (if gravity_tweaks = true then (if offset = gravity then !(!C) else Cg) else false) := by
  cases gravity_tweaks with
  | false => rfl
  | true =>
    simp only [if_true]
    by_cases hoff : offset = gravity
    · rw [if_pos hoff]
      cases hC : C with
      | true => rw [hC] at hcan; cases hcan
      | false =>
        cases hCg : Cg with
        | false => rfl
        | true => have := h hoff hCg; rw [hC] at this; cases this
    · rw [if_neg hoff]

/-- The locals computed with the shortcut and those computed without it: the same sides,
offsets and actuation tests, and the same ground flag on every side that can move. -/
theorem ExtendOrRetract.locals_always_tested_spec (env : Externals) (g : Game) (this : Id)
    (extend gravity_tweaks : Bool)
    (hmono : CollideShipParts.FilterMonotone g env.map
      (env.tree.map (fun t => t g.pos g.last_rect))) :
    (ExtendOrRetract.locals env g this extend gravity_tweaks = none ∧
      ExtendOrRetract.locals_always_tested env g this extend gravity_tweaks = none) ∨
    ∃ l l2, ExtendOrRetract.locals env g this extend gravity_tweaks = some l ∧
      ExtendOrRetract.locals_always_tested env g this extend gravity_tweaks = some l2 ∧
      l2.parts_a = l.parts_a ∧ l2.parts_b = l.parts_b ∧ l2.offset_a = l.offset_a ∧
      l2.offset_b = l.offset_b ∧ l2.can_move_a = l.can_move_a ∧
      l2.can_move_b = l.can_move_b ∧
      (l.can_move_a = true → l2.ground_a = l.ground_a) ∧
      (l.can_move_b = true → l2.ground_b = l.ground_b) := by
  unfold ExtendOrRetract.locals ExtendOrRetract.locals_always_tested
  cases hra : FindConnectedShipParts g (.piston this) (some true) with
  | none => exact Or.inl ⟨rfl, rfl⟩
  | some ra =>
    cases hrb : FindConnectedShipParts g (.piston this) (some false) with
    | none => exact Or.inl ⟨rfl, rfl⟩
    | some rb =>
      refine Or.inr ⟨_, _, rfl, rfl, rfl, rfl, rfl, rfl, rfl, rfl, ?_, ?_⟩
      · intro hcan
        refine ground_flag_eq _ _ _ _ _ hcan (fun hoff hcg => ?_)
        rw [hoff]
        exact hmono _ _ _ _ (fun e he => by rw [Bool.and_eq_true] at he; exact he.1) hcg
      · intro hcan
        refine ground_flag_eq _ _ _ _ _ hcan (fun hoff hcg => ?_)
        rw [hoff]
        exact hmono _ _ _ _ (fun e he => by rw [Bool.and_eq_true] at he; exact he.2) hcg

/-- C33: if the collision test is monotone in its filter, the shortcut that takes a
ground flag from the actuation test of a side whose candidate offset equals gravity does
not change the outcome of `ExtendOrRetract`: the call returns the same status and the
same world as the reference version that always computes both ground flags by
`CollideShipParts` with the gravity offset and the shared filter; the two versions work
on the same sides, offsets and actuation tests, and choose the same side to move (the
same final value of `move_b`, which is the one the call commits when it returns `ok`). -/
theorem ExtendOrRetract_shortcut_harmless (env : Externals) (g : Game) (this : Id)
    (extend gravity_tweaks : Bool)
    (hmono : CollideShipParts.FilterMonotone g env.map
      (env.tree.map (fun t => t g.pos g.last_rect))) :
    ExtendOrRetract env g this extend gravity_tweaks
      = ExtendOrRetract_always_tested env g this extend gravity_tweaks ∧
    (∀ l, ExtendOrRetract.locals env g this extend gravity_tweaks = some l →
      ∃ l2, ExtendOrRetract.locals_always_tested env g this extend gravity_tweaks = some l2 ∧
        l2.parts_a = l.parts_a ∧ l2.parts_b = l.parts_b ∧ l2.offset_a = l.offset_a ∧
        l2.offset_b = l.offset_b ∧ l2.can_move_a = l.can_move_a ∧
        l2.can_move_b = l.can_move_b ∧
        ExtendOrRetract.move_b env g this extend l2
          = ExtendOrRetract.move_b env g this extend l) ∧
    (∀ g2, ExtendOrRetract env g this extend gravity_tweaks = some (.ok, g2) →
      ∃ l, ExtendOrRetract.locals env g this extend gravity_tweaks = some l ∧
        g2 = ExtendOrRetract.commit env g this l
          (ExtendOrRetract.move_b env g this extend l)) := by
  have hmove : ∀ l l2 : ExtendOrRetract.Locals, l2.parts_b = l.parts_b →
      l2.offset_b = l.offset_b → l2.can_move_a = l.can_move_a →
      l2.can_move_b = l.can_move_b →
      (l.can_move_a = true → l2.ground_a = l.ground_a) →
      (l.can_move_b = true → l2.ground_b = l.ground_b) →
      ExtendOrRetract.move_b env g this extend l2
        = ExtendOrRetract.move_b env g this extend l := by
    intro l l2 h2 h4 h5 h6 h7 h8
    simp only [ExtendOrRetract.move_b,
      ExtendOrRetract.force_move_a_congr env g this extend h2 h4, h5, h6]
    cases ha : l.can_move_a with
    | false => simp
    | true =>
      cases hb : l.can_move_b with
      | false => simp
      | true => rw [h7 ha, h8 hb]
  refine ⟨?_, ?_, ?_⟩
  · unfold ExtendOrRetract ExtendOrRetract_always_tested
    simp only
    split
    · rfl
    · rcases ExtendOrRetract.locals_always_tested_spec env g this extend gravity_tweaks hmono
        with ⟨h1, h2⟩ | ⟨l, l2, h1, h2, p1, p2, p3, p4, p5, p6, p7, p8⟩
      · rw [h1, h2]
      · rw [h1, h2]
        have hm := hmove l l2 p2 p4 p5 p6 p7 p8
        simp only [ExtendOrRetract.move_b] at hm
        simp only
        rw [hm, ExtendOrRetract.commit_congr env g this p1 p2 p3 p4, p5, p6]
  · intro l hl
    rcases ExtendOrRetract.locals_always_tested_spec env g this extend gravity_tweaks hmono
        with ⟨h1, _⟩ | ⟨l1, l2, h1, h2, p1, p2, p3, p4, p5, p6, p7, p8⟩
    · rw [hl] at h1; cases h1
    · rw [hl] at h1
      cases h1
      exact ⟨l2, h2, p1, p2, p3, p4, p5, p6, hmove l l2 p2 p4 p5 p6 p7 p8⟩
  · intro g2 hres
    obtain ⟨_, l, move_b, hl, hns, hg2⟩ := ExtendOrRetract_ok_inv hres
    refine ⟨l, hl, ?_⟩
    have hguard : ¬ (extend = false ∧
        ShipPartPiston.current_length g this ≤ env.tile_size) :=
      (ExtendOrRetract_ok_inv hres).1
    have h := ExtendOrRetract_of_locals hguard hl
    rw [if_neg hns, hres] at h
    simp only [Option.some.injEq, Prod.mk.injEq, true_and] at h
    exact h

theorem exampleRestingTree_monotone : exampleRestingTree.VisitorMonotone :=
  fun _ _ _ h h2 => h 0 h2

theorem ExtendOrRetract_shortcut_harmless_witness :
    CollideShipParts.FilterMonotone exampleTall exampleResting.map
      (exampleResting.tree.map (fun t => t exampleTall.pos exampleTall.last_rect)) ∧
    (ExtendOrRetract.locals exampleResting exampleTall 10 false true).map
      (fun l => (l.can_move_a, l.can_move_b, l.ground_a, l.ground_b))
      = some (false, true, true, false) ∧
    (ExtendOrRetract.locals_always_tested exampleResting exampleTall 10 false true).map
      (fun l => (l.can_move_a, l.can_move_b, l.ground_a, l.ground_b))
      = some (false, true, false, false) ∧
    ExtendOrRetract exampleResting exampleTall 10 false true
      = ExtendOrRetract_always_tested exampleResting exampleTall 10 false true ∧
    (∀ l, ExtendOrRetract.locals exampleResting exampleTall 10 false true = some l →
      ∃ l2, ExtendOrRetract.locals_always_tested exampleResting exampleTall 10 false true
          = some l2 ∧
        l2.parts_a = l.parts_a ∧ l2.parts_b = l.parts_b ∧ l2.offset_a = l.offset_a ∧
        l2.offset_b = l.offset_b ∧ l2.can_move_a = l.can_move_a ∧
        l2.can_move_b = l.can_move_b ∧
        ExtendOrRetract.move_b exampleResting exampleTall 10 false l2
          = ExtendOrRetract.move_b exampleResting exampleTall 10 false l) ∧
    (∀ g2, ExtendOrRetract exampleResting exampleTall 10 false true = some (.ok, g2) →
      ∃ l, ExtendOrRetract.locals exampleResting exampleTall 10 false true = some l ∧
        g2 = ExtendOrRetract.commit exampleResting exampleTall 10 l
          (ExtendOrRetract.move_b exampleResting exampleTall 10 false l)) :=
  ⟨CollideShipParts.filterMonotone_of_tree _ _ _
      (fun t ht => by cases ht; exact exampleRestingTree_monotone),
    by decide, by decide,
    ExtendOrRetract_shortcut_harmless exampleResting exampleTall 10 false true
      (CollideShipParts.filterMonotone_of_tree _ _ _
        (fun t ht => by cases ht; exact exampleRestingTree_monotone))⟩

end ShortcutClaims
section DistanceClaims

theorem ivec2.get_axis_other (i : Bool) (n : Int) : (ivec2.axis i n).get (!i) = 0 := by
  cases i <;> rfl

theorem ivec2.get_axis_not (i : Bool) (n : Int) : (ivec2.axis (!i) n).get i = 0 := by
  cases i <;> rfl

theorem ivec2.get_axis_not_not (i : Bool) (n : Int) : (ivec2.axis (!i) n).get (!i) = n := by
  cases i <;> rfl

theorem ivec2.get_add_int (u v : ivec2) (i : Bool) :
    (ivec2.add_int u v).get i = int_wrap (u.get i + v.get i) := by
  cases i <;> rfl

theorem int_wrap_of_inRange {v : Int} (h : int32.InRange v) : int_wrap v = v :=
  IntType.cast_of_inRange int32 v h

/-- The value of `DistanceToPoint` in terms of the position of the point along and across
the piston, when no operation overflows. -/
theorem ShipPartPiston.DistanceToPoint_eq (tile_size : Int) (g : Game) (this : Id)
    (point : ivec2) (hno : ShipPartPiston.DistanceToPoint.NoOverflow tile_size g this point) :
    ShipPartPiston.DistanceToPoint tile_size g this point =
      max 0 (max (|ShipPartPiston.across tile_size g this point| - Int.tdiv tile_size 2)
        (max (-ShipPartPiston.along g this point)
          (ShipPartPiston.along g this point - ShipPartPiston.current_length g this))) := by
  obtain ⟨n1, n2, n3, n4, n5, n6, n7, n8, n9, n10, n11⟩ := hno
  simp only [ShipPartPiston.across, ShipPartPiston.along,
    ShipPartPiston.current_length, ivec2.get_add] at n4 n6 n7 n8 n9 n10 n11
  simp only [ShipPartPiston.DistanceToPoint, ShipPartPiston.across, ShipPartPiston.along,
    ShipPartPiston.current_length, clamp_var_min, clamp_min, ivec2.get_add,
    ivec2.get_add_int, ivec2.get_axis_not, ivec2.get_axis_not_not, add_zero]
  generalize (g.pos (g.a this)).get (g.is_vertical this) = pa at *
  generalize (g.pos_relative_to_a this).get (g.is_vertical this) = ra at *
  generalize (g.pos (g.b this)).get (g.is_vertical this) = pb at *
  generalize (g.pos_relative_to_b this).get (g.is_vertical this) = rb at *
  generalize (g.pos (g.a this)).get (!g.is_vertical this) = qa at *
  generalize (g.pos_relative_to_a this).get (!g.is_vertical this) = sa at *
  generalize point.get (g.is_vertical this) = x at *
  generalize point.get (!g.is_vertical this) = y at *
  generalize Int.tdiv tile_size 2 = half at *
  have e1 : int_wrap (pa + ra) = pa + ra := int_wrap_of_inRange n1
  have e2 : int_wrap (qa + sa) = qa + sa := int_wrap_of_inRange n2
  have e3 : int_wrap (qa + sa + half) = qa + sa + half := int_wrap_of_inRange n3
  have e4 : int_wrap (x - (pa + ra)) = x - (pa + ra) := int_wrap_of_inRange n4
  have e5 : int_wrap (pb + rb) = pb + rb := int_wrap_of_inRange n5
  have e6 : int_wrap (pb + rb - (pa + ra)) = pb + rb - (pa + ra) := int_wrap_of_inRange n6
  have e7 : int_wrap (y - (qa + sa + half)) = y - (qa + sa + half) := int_wrap_of_inRange n7
  have e8 : int_wrap |y - (qa + sa + half)| = |y - (qa + sa + half)| := int_wrap_of_inRange n8
  have e9 : int_wrap (|y - (qa + sa + half)| - half) = |y - (qa + sa + half)| - half :=
    int_wrap_of_inRange n9
  simp only [e1, e2, e3, e4, e5, e6, e7, e8, e9]
  clear e1 e2 e3 e4 e5 e6 e7 e8 e9 n1 n2 n3 n4 n5 n6 n7 n8 n9
  generalize |y - (qa + sa + half)| - half = W at *
  generalize x - (pa + ra) = X at *
  generalize pb + rb - (pa + ra) = L at *
  clear pa ra pb rb qa sa x y half
  by_cases c1 : X < 0
  · have e10 := int_wrap_of_inRange (n10 c1)
    by_cases c2 : X > L
    · have e11 := int_wrap_of_inRange (n11 c2)
      simp only [c1, c2, if_true, e10, e11, max_def]
      clear e10 e11 n10 n11
      split_ifs <;> omega
    · simp only [c1, c2, if_true, if_false, e10, max_def]
      clear e10 n10 n11
      split_ifs <;> omega
  · by_cases c2 : X > L
    · have e11 := int_wrap_of_inRange (n11 c2)
      simp only [c1, c2, if_true, if_false, e11, max_def]
      clear e11 n10 n11
      split_ifs <;> omega
    · simp only [c1, c2, if_false, max_def]
      clear n10 n11
      split_ifs <;> omega

theorem nearest_along (x L : Int) (hL : 0 ≤ L) :
    ∃ u : Int, 0 ≤ u ∧ u ≤ L ∧ |x - u| = max 0 (max (-x) (x - L)) := by
  rcases lt_or_le x 0 with h | h
  · refine ⟨0, le_refl _, hL, ?_⟩
    rw [sub_zero, abs_of_neg h]
    simp only [max_def]; split_ifs <;> omega
  · rcases lt_or_le L x with h2 | h2
    · refine ⟨L, hL, le_refl _, ?_⟩
      rw [abs_of_pos (by omega)]
      simp only [max_def]; split_ifs <;> omega
    · refine ⟨x, h, h2, ?_⟩
      rw [sub_self, abs_zero]
      simp only [max_def]; split_ifs <;> omega

theorem nearest_across (y h : Int) (hh : 0 ≤ h) :
    ∃ w : Int, |w| ≤ h ∧ |y - w| = max 0 (|y| - h) := by
  rcases lt_or_le y (-h) with h1 | h1
  · refine ⟨-h, by rw [abs_neg, abs_of_nonneg hh], ?_⟩
    rw [abs_of_neg (by omega : y - -h < 0), abs_of_neg (by omega : y < 0)]
    simp only [max_def]; split_ifs <;> omega
  · rcases lt_or_le h y with h2 | h2
    · refine ⟨h, by rw [abs_of_nonneg hh], ?_⟩
      rw [abs_of_pos (by omega : 0 < y - h), abs_of_pos (by omega : 0 < y)]
      simp only [max_def]; split_ifs <;> omega
    · refine ⟨y, abs_le.2 ⟨h1, h2⟩, ?_⟩
      have : |y| ≤ h := abs_le.2 ⟨h1, h2⟩
      rw [sub_self, abs_zero]
      generalize |y| = r at *
      simp only [max_def]; split_ifs <;> omega

/-- C36 (refuted at a point whose coordinate is the smallest `int`): for the vertical
piston of `examplePair`, of length 4 with corner A at `(0,4)`, the tile size 4 and the
point `(0, -2147483648)`, whose coordinates are representable, the difference
`point[is_vertical] - a[is_vertical]` overflows; `DistanceToPoint` returns 2147483640,
where `max(0, |across| - tile_size/2, -along, along - L)` is 2147483652. -/
theorem DistanceToPoint_overflow_counterexample :
    0 ≤ ShipPartPiston.current_length examplePair 10 ∧
    int32.InRange 0 ∧ int32.InRange (-2147483648) ∧
    ShipPartPiston.DistanceToPoint 4 examplePair 10 ⟨0, -2147483648⟩ = 2147483640 ∧
    max 0 (max (|ShipPartPiston.across 4 examplePair 10 ⟨0, -2147483648⟩| - Int.tdiv 4 2)
      (max (-ShipPartPiston.along examplePair 10 ⟨0, -2147483648⟩)
        (ShipPartPiston.along examplePair 10 ⟨0, -2147483648⟩
          - ShipPartPiston.current_length examplePair 10))) = 2147483652 ∧
    ¬ ShipPartPiston.DistanceToPoint.NoOverflow 4 examplePair 10 ⟨0, -2147483648⟩ := by
  decide

/-- C36 (amended): for a piston of non-negative length `L` and every integer point for
which no intermediate result of the computation leaves the range of `int`, with `along`
the position of the point along the axis from corner A and `across` its position across
the axis from the centre line, `DistanceToPoint` returns
`max(0, |across| - tile_size/2, -along, along - L)`; the result is never negative; it is
zero exactly when the point lies in the body, the closed rectangle `0 ≤ along ≤ L`,
`|across| ≤ tile_size/2`; and it is the Chebyshev distance to the body: no point of the
body is nearer to the point in the maximum norm, and, the tile size being non-negative,
some point of the body is at exactly that distance. -/
theorem DistanceToPoint_chebyshev (tile_size : Int) (g : Game) (this : Id) (point : ivec2)
    (hL : 0 ≤ ShipPartPiston.current_length g this)
    (hno : ShipPartPiston.DistanceToPoint.NoOverflow tile_size g this point) :
    ShipPartPiston.DistanceToPoint tile_size g this point =
      max 0 (max (|ShipPartPiston.across tile_size g this point| - Int.tdiv tile_size 2)
        (max (-ShipPartPiston.along g this point)
          (ShipPartPiston.along g this point - ShipPartPiston.current_length g this))) ∧
    0 ≤ ShipPartPiston.DistanceToPoint tile_size g this point ∧
    (ShipPartPiston.DistanceToPoint tile_size g this point = 0 ↔
      (0 ≤ ShipPartPiston.along g this point ∧
        ShipPartPiston.along g this point ≤ ShipPartPiston.current_length g this ∧
        |ShipPartPiston.across tile_size g this point| ≤ Int.tdiv tile_size 2)) ∧
    (∀ u w : Int, 0 ≤ u → u ≤ ShipPartPiston.current_length g this →
      |w| ≤ Int.tdiv tile_size 2 →
      ShipPartPiston.DistanceToPoint tile_size g this point ≤
        max |ShipPartPiston.along g this point - u|
          |ShipPartPiston.across tile_size g this point - w|) ∧
    (0 ≤ tile_size → ∃ u w : Int, 0 ≤ u ∧ u ≤ ShipPartPiston.current_length g this ∧
      |w| ≤ Int.tdiv tile_size 2 ∧
      max |ShipPartPiston.along g this point - u|
          |ShipPartPiston.across tile_size g this point - w|
        = ShipPartPiston.DistanceToPoint tile_size g this point) := by
  rw [ShipPartPiston.DistanceToPoint_eq tile_size g this point hno]
  clear hno
  generalize ShipPartPiston.along g this point = x
  generalize ShipPartPiston.across tile_size g this point = y
  generalize ShipPartPiston.current_length g this = L at hL
  refine ⟨rfl, le_max_left _ _, ?_, ?_, ?_⟩
  · generalize Int.tdiv tile_size 2 = h
    generalize |y| = r
    simp only [max_def]
    split_ifs <;> omega
  · intro u w hu hu2 hw
    generalize Int.tdiv tile_size 2 = h at hw
    have h1 := abs_nonneg (x - u)
    have h2 := le_abs_self (x - u)
    have h3 := neg_abs_le (x - u)
    have h4 : |y| ≤ |y - w| + |w| := by
      have := abs_add (y - w) w
      simpa using this
    have h5 := le_max_left |x - u| |y - w|
    have h6 := le_max_right |x - u| |y - w|
    generalize max |x - u| |y - w| = M at *
    generalize |x - u| = p at *
    generalize |y - w| = q at *
    generalize |y| = r at *
    generalize |w| = s at *
    simp only [max_def]
    split_ifs <;> omega
  · intro hts
    have hh : 0 ≤ Int.tdiv tile_size 2 := Int.tdiv_nonneg hts (by decide)
    generalize Int.tdiv tile_size 2 = h at hh
    obtain ⟨u, hu1, hu2, hu3⟩ := nearest_along x L hL
    obtain ⟨w, hw1, hw2⟩ := nearest_across y h hh
    refine ⟨u, w, hu1, hu2, hw1, ?_⟩
    rw [hu3, hw2]
    generalize |y| = r
    simp only [max_def]
    split_ifs <;> omega

theorem DistanceToPoint_chebyshev_witness :
    0 ≤ ShipPartPiston.current_length examplePair 10 ∧
    ShipPartPiston.DistanceToPoint.NoOverflow 4 examplePair 10 ⟨9, 10⟩ ∧
    ShipPartPiston.DistanceToPoint 4 examplePair 10 ⟨9, 10⟩ = 5 ∧
    ShipPartPiston.along examplePair 10 ⟨9, 10⟩ = 6 ∧
    ShipPartPiston.across 4 examplePair 10 ⟨9, 10⟩ = 7 ∧
    (ShipPartPiston.DistanceToPoint 4 examplePair 10 ⟨9, 10⟩ =
      max 0 (max (|ShipPartPiston.across 4 examplePair 10 ⟨9, 10⟩| - Int.tdiv 4 2)
        (max (-ShipPartPiston.along examplePair 10 ⟨9, 10⟩)
          (ShipPartPiston.along examplePair 10 ⟨9, 10⟩
            - ShipPartPiston.current_length examplePair 10))) ∧
    0 ≤ ShipPartPiston.DistanceToPoint 4 examplePair 10 ⟨9, 10⟩ ∧
    (ShipPartPiston.DistanceToPoint 4 examplePair 10 ⟨9, 10⟩ = 0 ↔
      (0 ≤ ShipPartPiston.along examplePair 10 ⟨9, 10⟩ ∧
        ShipPartPiston.along examplePair 10 ⟨9, 10⟩
          ≤ ShipPartPiston.current_length examplePair 10 ∧
        |ShipPartPiston.across 4 examplePair 10 ⟨9, 10⟩| ≤ Int.tdiv 4 2)) ∧
    (∀ u w : Int, 0 ≤ u → u ≤ ShipPartPiston.current_length examplePair 10 →
      |w| ≤ Int.tdiv 4 2 →
      ShipPartPiston.DistanceToPoint 4 examplePair 10 ⟨9, 10⟩ ≤
        max |ShipPartPiston.along examplePair 10 ⟨9, 10⟩ - u|
          |ShipPartPiston.across 4 examplePair 10 ⟨9, 10⟩ - w|) ∧
    ((0 : Int) ≤ 4 → ∃ u w : Int, 0 ≤ u ∧ u ≤ ShipPartPiston.current_length examplePair 10 ∧
      |w| ≤ Int.tdiv 4 2 ∧
      max |ShipPartPiston.along examplePair 10 ⟨9, 10⟩ - u|
          |ShipPartPiston.across 4 examplePair 10 ⟨9, 10⟩ - w|
        = ShipPartPiston.DistanceToPoint 4 examplePair 10 ⟨9, 10⟩)) :=
  ⟨by decide, by decide, by decide, by decide, by decide,
    DistanceToPoint_chebyshev 4 examplePair 10 ⟨9, 10⟩ (by decide) (by decide)⟩

end DistanceClaims
section StreamClaims
open Stream

theorem Stream.Output.Holds.after_Flush {s : Output} {w : List Byte} (h : s.Holds w) :
    s.Flush.Holds w ∧ s.Flush.buffer_pos = 0 ∧
      s.Flush.buffer_capacity = s.buffer_capacity := by
  obtain ⟨buffer, pos, cap, fl⟩ := s
  obtain ⟨h1, h2, h3, h4⟩ := h
  simp only at h1 h2 h3 h4
  unfold Output.Flush
  split_ifs with hp
  · simp only at hp
    have hk : (Output.set_pos (Output.flush ⟨buffer, pos, cap, fl⟩ (buffer.take pos)) 0)
        = ⟨buffer, 0, cap, fl ++ [buffer.take pos]⟩ := rfl
    rw [hk]
    refine ⟨⟨h1, Nat.zero_le _, ?_, ?_⟩, rfl, rfl⟩
    · show (fl ++ [buffer.take pos]).flatten ++ buffer.take 0 = w
      simp only [List.flatten_append, List.flatten_cons, List.flatten_nil, List.append_nil,
        List.take_zero]
      exact h3
    · intro r hr
      rcases List.mem_append.1 hr with hr | hr
      · exact h4 r hr
      · simp only [List.mem_singleton] at hr
        subst hr
        intro he
        have := congrArg List.length he
        simp only [List.length_take, List.length_nil] at this
        omega
  · simp only at hp
    have : pos = 0 := by omega
    subst this
    exact ⟨⟨h1, h2, h3, h4⟩, rfl, rfl⟩

theorem Stream.Output.Holds.after_callback {s : Output} {w : List Byte} (h : s.Holds w)
    (hpos : s.buffer_pos = 0) (range : List Byte) (hr : range ≠ []) :
    (s.flush range).Holds (w ++ range) ∧ (s.flush range).buffer_pos = 0 ∧
      (s.flush range).buffer_capacity = s.buffer_capacity := by
  obtain ⟨buffer, pos, cap, fl⟩ := s
  obtain ⟨h1, h2, h3, h4⟩ := h
  simp only at h1 h2 h3 h4 hpos
  subst hpos
  refine ⟨⟨h1, h2, ?_, ?_⟩, rfl, rfl⟩
  · show (fl ++ [range]).flatten ++ buffer.take 0 = w ++ range
    simp only [List.take_zero, List.append_nil] at h3
    simp only [List.flatten_append, List.flatten_cons, List.flatten_nil, List.append_nil,
      List.take_zero, h3]
  · intro r hr2
    rcases List.mem_append.1 hr2 with hr2 | hr2
    · exact h4 r hr2
    · simp only [List.mem_singleton] at hr2
      subst hr2
      exact hr

theorem Stream.take_set_succ (l : List Byte) (n : Nat) (b : Byte) (hn : n < l.length) :
    (l.set n b).take (n + 1) = l.take n ++ [b] := by
  induction l generalizing n with
  | nil => simp at hn
  | cons x xs ih =>
    cases n with
    | zero => simp
    | succ n =>
      simp only [List.length_cons, Nat.add_lt_add_iff_right] at hn
      simp [ih n hn]

theorem Stream.Output.Holds.after_WriteByte {s : Output} {w : List Byte} (h : s.Holds w)
    (hcap : 1 ≤ s.buffer_capacity) (byte : Byte) :
    ∃ s2, s.WriteByte byte = some s2 ∧ s2.Holds (w ++ [byte]) ∧
      s2.buffer_capacity = s.buffer_capacity := by
  have hn : s.NeedBufferSpace.Holds w ∧
      s.NeedBufferSpace.buffer_pos < s.NeedBufferSpace.buffer_capacity ∧
      s.NeedBufferSpace.buffer_capacity = s.buffer_capacity := by
    unfold Output.NeedBufferSpace
    split_ifs with he
    · obtain ⟨f1, f2, f3⟩ := h.after_Flush
      exact ⟨f1, by omega, f3⟩
    · have := h.pos
      exact ⟨h, by omega, rfl⟩
  unfold Output.WriteByte
  generalize s.NeedBufferSpace = t at hn
  obtain ⟨buffer, pos, cap, fl⟩ := t
  obtain ⟨⟨h1, h2, h3, h4⟩, hlt, hc⟩ := hn
  simp only at h1 h2 h3 h4 hlt hc
  have hlt2 : pos < buffer.length := by omega
  simp only [hlt2, if_true]
  refine ⟨_, rfl, ⟨?_, ?_, ?_, h4⟩, hc⟩
  · show (buffer.set pos byte).length = cap
    rw [List.length_set]; exact h1
  · show pos + 1 ≤ cap
    omega
  · show fl.flatten ++ (buffer.set pos byte).take (pos + 1) = w ++ [byte]
    rw [Stream.take_set_succ buffer pos byte hlt2, ← List.append_assoc, h3]

theorem Stream.Output.Holds.after_WriteBytes {s : Output} {w : List Byte} (h : s.Holds w)
    (bytes : List Byte) :
    ∃ s2, s.WriteBytes bytes = some s2 ∧ s2.Holds (w ++ bytes) ∧
      s2.buffer_capacity = s.buffer_capacity := by
  obtain ⟨buffer, pos, cap, fl⟩ := s
  obtain ⟨h1, h2, h3, h4⟩ := h
  simp only at h1 h2 h3 h4
  have hsub : size_sub cap pos = cap - pos := by simp [size_sub, h2]
  unfold Output.WriteBytes
  simp only [hsub]
  generalize hseg : min (cap - pos) bytes.length = seg
  have hs1 : seg ≤ bytes.length := by rw [← hseg]; exact Nat.min_le_right _ _
  have hs2 : pos + seg ≤ cap := by
    have : seg ≤ cap - pos := by rw [← hseg]; exact Nat.min_le_left _ _
    omega
  have hcopy : copy_n bytes seg buffer pos
      = some (buffer.take pos ++ bytes.take seg ++ buffer.drop (pos + seg)) := by
    simp [copy_n, hs1, h1, hs2]
  simp only [hcopy]
  have hmid : Output.Holds ⟨buffer.take pos ++ bytes.take seg ++ buffer.drop (pos + seg),
      pos + seg, cap, fl⟩ (w ++ bytes.take seg) := by
    refine ⟨?_, hs2, ?_, h4⟩
    · show (buffer.take pos ++ bytes.take seg ++ buffer.drop (pos + seg)).length = cap
      simp only [List.length_append, List.length_take, List.length_drop]
      omega
    · show fl.flatten ++ (buffer.take pos ++ bytes.take seg
        ++ buffer.drop (pos + seg)).take (pos + seg) = w ++ bytes.take seg
      have hl : (buffer.take pos ++ bytes.take seg).length = pos + seg := by
        simp only [List.length_append, List.length_take]
        omega
      rw [List.take_append_of_le_length (by omega), List.take_of_length_le (by omega),
        ← List.append_assoc, h3]
  split_ifs with hrest
  · obtain ⟨f1, f2, f3⟩ := hmid.after_Flush
    have hne : bytes.drop seg ≠ [] := by
      intro he
      have := congrArg List.length he
      simp only [List.length_drop, List.length_nil] at this
      simp only at hrest
      omega
    obtain ⟨g1, g2, g3⟩ := f1.after_callback f2 (bytes.drop seg) hne
    refine ⟨_, rfl, ?_, ?_⟩
    · have hw : w ++ bytes = w ++ bytes.take seg ++ bytes.drop seg := by
        rw [List.append_assoc, List.take_append_drop]
      rw [hw]
      exact g1
    · exact g3.trans f3
  · simp only at hrest
    have hfull : bytes.take seg = bytes := List.take_of_length_le (by omega)
    refine ⟨_, rfl, ?_, rfl⟩
    have hw : w ++ bytes = w ++ bytes.take seg := by rw [hfull]
    rw [hw]
    exact hmid

theorem Stream.written_cons (c : WriteCall) (calls : List WriteCall) :
    written (c :: calls) = c.written ++ written calls := by
  simp [written]

theorem Stream.Output.Holds.after_run {s : Output} {w : List Byte} (h : s.Holds w)
    (hcap : 1 ≤ s.buffer_capacity) (calls : List WriteCall) :
    ∃ s2, s.run calls = some s2 ∧ s2.Holds (w ++ written calls) ∧
      s2.buffer_capacity = s.buffer_capacity := by
  induction calls generalizing s w with
  | nil => exact ⟨s, rfl, by simpa [written] using h, rfl⟩
  | cons c calls ih =>
    have hstep : ∃ s1, s.call c = some s1 ∧ s1.Holds (w ++ c.written) ∧
        s1.buffer_capacity = s.buffer_capacity := by
      cases c with
      | WriteByte byte => exact h.after_WriteByte hcap byte
      | WriteBytes bytes => exact h.after_WriteBytes bytes
    obtain ⟨s1, e1, k1, c1⟩ := hstep
    obtain ⟨s2, e2, k2, c2⟩ := ih k1 (by omega)
    refine ⟨s2, ?_, ?_, by omega⟩
    · simp only [Output.run, e1]
      exact e2
    · rw [Stream.written_cons, ← List.append_assoc]
      exact k2

theorem Stream.Output.create_holds (capacity : Nat) : (Output.create capacity).Holds [] :=
  ⟨by simp [Output.create], Nat.zero_le _, by simp [Output.create],
    by intro r hr; simp [Output.create] at hr⟩

/-- C37: for every stream built with a capacity of at least 1 and every sequence of
`WriteByte` and `WriteBytes` calls, no call stores outside of the array (the sequence
returns a stream), after the final `Flush` the concatenation of the byte ranges handed to
the callback, in call order, is the concatenation of the written bytes in write order,
the callback was never called with an empty range, and after every prefix of the sequence
and after the final `Flush` `buffer_pos` is at most `buffer_capacity`, which is still the
capacity the stream was built with. -/
theorem Output_nothing_lost (capacity : Nat) (hcap : 1 ≤ capacity) (calls : List WriteCall) :
    ∃ s, (Output.create capacity).run calls = some s ∧
      s.Flush.flushed.flatten = written calls ∧
      (∀ r ∈ s.Flush.flushed, r ≠ []) ∧
      s.Flush.buffer_pos ≤ s.Flush.buffer_capacity ∧
      (∀ k, ∃ sk, (Output.create capacity).run (calls.take k) = some sk ∧
        sk.buffer_pos ≤ sk.buffer_capacity ∧ sk.buffer_capacity = capacity) := by
  obtain ⟨s, e, k, c⟩ := (Stream.Output.create_holds capacity).after_run hcap calls
  obtain ⟨f1, f2, f3⟩ := k.after_Flush
  refine ⟨s, e, ?_, f1.nonempty, f1.pos, ?_⟩
  · have := f1.data
    rw [f2] at this
    simpa using this
  · intro n
    obtain ⟨sk, e2, k2, c2⟩ := (Stream.Output.create_holds capacity).after_run hcap (calls.take n)
    exact ⟨sk, e2, k2.pos, c2⟩

theorem Output_nothing_lost_witness :
    1 ≤ 2 ∧
    ((Output.create 2).run [.WriteByte 1, .WriteBytes [2, 3, 4], .WriteBytes [5],
        .WriteByte 6, .WriteByte 7]).map (fun s => s.Flush.flushed)
      = some [[1, 2], [3, 4], [5, 6], [7]] ∧
    ∃ s, (Output.create 2).run [.WriteByte 1, .WriteBytes [2, 3, 4], .WriteBytes [5],
        .WriteByte 6, .WriteByte 7] = some s ∧
      s.Flush.flushed.flatten = written [.WriteByte 1, .WriteBytes [2, 3, 4],
        .WriteBytes [5], .WriteByte 6, .WriteByte 7] ∧
      (∀ r ∈ s.Flush.flushed, r ≠ []) ∧
      s.Flush.buffer_pos ≤ s.Flush.buffer_capacity ∧
      (∀ k, ∃ sk, (Output.create 2).run (List.take k [.WriteByte 1, .WriteBytes [2, 3, 4],
          .WriteBytes [5], .WriteByte 6, .WriteByte 7]) = some sk ∧
        sk.buffer_pos ≤ sk.buffer_capacity ∧ sk.buffer_capacity = 2) :=
  ⟨by decide, by decide, Output_nothing_lost 2 (by decide) _⟩

end StreamClaims
section PositionClaims

theorem NewPart.Holds.in_bounds {P : NewPart} {t : ivec2} (h : P.Holds t) :
    P.cells.contains (t - P.tile_offset) = true := by
  unfold NewPart.Holds NewPart.at_original Array2D.safe_nonthrowing_at at h
  by_contra hc
  rw [if_neg hc] at h
  exact absurd h (by decide)

theorem ivec2.world_pos (p o t : ivec2) (n : Int) :
    p + o * n + (t - o) * n = p + t * n := by
  rw [ivec2.ext_iff']
  simp only [ivec2.add_x, ivec2.add_y, ivec2.sub_x, ivec2.sub_y, ivec2.mul_x, ivec2.mul_y]
  constructor <;> ring

theorem grow_and_copy_offset (self : ShipPartBlocks) (abs : ivec2) (c : Array2D ShipGrid.Cell)
    (o : ivec2) :
    (grow_and_copy self abs c o).2 =
      if c.contains (abs - o) then o else o + clamp_max (abs - o) 0 := by
  unfold grow_and_copy
  by_cases hc : c.contains (abs - o) = true
  · simp [hc]
  · simp [hc]

/-- C34: for every input grid and tile size the flood fill phase of the decomposition
returns, and its Structures are those of the result when the decomposition returns.
Every solid tile at the grid coordinate `t` of the original is held by exactly one
produced Structure; with `p` its final position and `r = t - tile_offset` the local
coordinate of the tile, the cell of the produced grid at `r` lies inside that grid and is
the cell of the original at `t`, and `p + r * tile_size = self.pos + t * tile_size`.
Every growth step keeps this: `grow_and_copy` adds to the tile offset the negative part
of the relative coordinate of the new tile, and after it the cell of every other grid
coordinate `u` is found at `u` minus the new offset, where it was found at `u` minus the
old offset before. -/
theorem DecomposeToComponentsAndDelete_world_position (tile_size : Int)
    (self : ShipPartBlocks) :
    (∃ s, fill_loop tile_size self (vector_range self.cells.size)
        { visited := [], queued_pistons := [], parts := [] } = .ok s ∧
      (∀ parts pistons,
        DecomposeToComponentsAndDelete tile_size self = .ok (parts, pistons) →
          parts = s.parts) ∧
      ∀ t, self.Solid t → ∃ i P, s.parts.get? i = some P ∧ P.Holds t ∧
        (∀ j Q, s.parts.get? j = some Q → Q.Holds t → j = i) ∧
        P.cells.contains (t - P.tile_offset) = true ∧
        P.cells.safe_nonthrowing_at (t - P.tile_offset) = self.cells.safe_nonthrowing_at t ∧
        P.pos = self.pos + P.tile_offset * tile_size ∧
        P.pos + (t - P.tile_offset) * tile_size = self.pos + t * tile_size) ∧
    (∀ (abs : ivec2) (cells : Array2D ShipGrid.Cell) (offset : ivec2),
      (grow_and_copy self abs cells offset).2 =
        (if cells.contains (abs - offset) then offset
          else offset + clamp_max (abs - offset) 0) ∧
      (∀ u, (grow_and_copy self abs cells offset).1.safe_nonthrowing_at
          (u - (grow_and_copy self abs cells offset).2) =
        if u = abs then self.cells.safe_nonthrowing_at abs
        else cells.safe_nonthrowing_at (u - offset)) ∧
      ∀ u, self.pos + (grow_and_copy self abs cells offset).2 * tile_size
          + (u - (grow_and_copy self abs cells offset).2) * tile_size
        = self.pos + offset * tile_size + (u - offset) * tile_size) := by
  refine ⟨?_, ?_⟩
  · obtain ⟨s, h1, hO, hall, _, hD⟩ := DecomposeToComponentsAndDelete_phases tile_size self
    refine ⟨s, h1, fun parts pistons h => ((hD parts pistons).1 h).1, ?_⟩
    intro t ht
    obtain ⟨P, hP, hh⟩ := (hO.cover t).1 ((hall t).1 ht)
    obtain ⟨n, hn⟩ := List.get_of_mem hP
    have hi : s.parts.get? n.1 = some P := by rw [List.get?_eq_get n.2]; exact congrArg some hn
    refine ⟨n.1, P, hi, hh, fun j Q hj hQ => hO.unique hj hi hQ hh, hh.in_bounds,
      hO.copy P hP t hh, hO.pos P hP, ?_⟩
    rw [hO.pos P hP]
    exact ivec2.world_pos _ _ _ _
  · intro abs cells offset
    refine ⟨grow_and_copy_offset self abs cells offset,
      fun u => grow_and_copy_spec self abs cells offset u, fun u => ?_⟩
    rw [ivec2.world_pos, ivec2.world_pos]

theorem DecomposeToComponentsAndDelete_world_position_witness :
    (grow_and_copy exampleIslands ⟨0, 1⟩
        { size := ⟨1, 2⟩, data := fun _ => default } ⟨1, 0⟩).2 = ⟨0, 0⟩ ∧
    exampleIslands.Solid ⟨1, 0⟩ ∧
    ∃ s, fill_loop 4 exampleIslands (vector_range exampleIslands.cells.size)
        { visited := [], queued_pistons := [], parts := [] } = .ok s ∧
      s.parts.map (fun P => (P.cells.size, P.tile_offset, P.pos))
        = [(⟨2, 2⟩, ⟨0, 0⟩, ⟨100, 200⟩), (⟨1, 1⟩, ⟨3, 0⟩, ⟨112, 200⟩)] ∧
      ∃ i P, s.parts.get? i = some P ∧ P.Holds ⟨1, 0⟩ ∧
        P.pos + ((⟨1, 0⟩ : ivec2) - P.tile_offset) * (4 : Int)
          = exampleIslands.pos + (⟨1, 0⟩ : ivec2) * (4 : Int) :=
  ⟨by decide, by decide,
    match DecomposeToComponentsAndDelete_world_position 4 exampleIslands with
    | ⟨⟨s, h1, _, h3⟩, _⟩ =>
      ⟨s, h1, by
        have e : fill_loop 4 exampleIslands (vector_range exampleIslands.cells.size)
            { visited := [], queued_pistons := [], parts := [] } = .ok _ := rfl
        rw [e] at h1
        rw [← Except.ok.inj h1]
        rfl,
        match h3 ⟨1, 0⟩ (by decide) with
        | ⟨i, P, hi, hh, _, _, _, _, hw⟩ => ⟨i, P, hi, hh, hw⟩⟩⟩

end PositionClaims
section AssertionClaims

theorem arriving_ok_iff (tile_size : Int) (self : ShipPartBlocks) (new_part : Nat)
    (abs : ivec2) :
    ∀ q : List (ivec2 × QueuedPiston),
      (∃ q1, arriving tile_size self new_part abs q = .ok q1) ↔
        ∀ e ∈ q, e.1 = abs → e.2.block_b = none := by
  intro q
  refine ⟨?_, arriving_ok abs q⟩
  induction q with
  | nil => intro _ e he; exact nomatch he
  | cons e rest ih =>
    obtain ⟨key, elem⟩ := e
    rintro ⟨q1, h⟩
    unfold arriving at h
    by_cases hk : key = abs
    · rw [if_pos hk] at h
      cases hb : elem.block_b with
      | some b => simp [hb] at h
      | none =>
        simp only [hb, Option.isSome_none, Bool.false_eq_true, if_false] at h
        cases hr : arriving tile_size self new_part abs rest with
        | error err => simp [hr] at h
        | ok r1 =>
          intro e he he2
          rcases List.mem_cons.1 he with rfl | he
          · exact hb
          · exact ih ⟨r1, hr⟩ e he he2
    · rw [if_neg hk] at h
      cases hr : arriving tile_size self new_part abs rest with
      | error err => simp [hr] at h
      | ok r1 =>
        intro e he he2
        rcases List.mem_cons.1 he with rfl | he
        · exact absurd he2 hk
        · exact ih ⟨r1, hr⟩ e he he2

theorem starting_one_pushes (tile_size : Int) (self : ShipPartBlocks) (new_part : Nat)
    (abs : ivec2) (visited : List ivec2) (is_vertical is_backward : Bool)
    (q q1 : List (ivec2 × QueuedPiston))
    (h : starting_one tile_size self new_part abs visited is_vertical is_backward q = .ok q1) :
    q1 = q ∨ ∃ e, q1 = q ++ [e] ∧ e.1 ∉ visited ∧ e.2.block_b = none ∧
      e.2.block_a = new_part := by
  unfold starting_one at h
  simp only at h
  split at h
  · exact nomatch h
  · rename_i r hr
    by_cases hne : r = abs
    · simp only [hne, ne_eq, not_true_eq_false, if_false, Except.ok.injEq] at h
      exact Or.inl h.symm
    · rw [if_pos hne] at h
      by_cases hcond : (self.cells.contains
            (r + ivec2.axis is_vertical (if is_backward then -1 else 1))
          && ShipGrid.GetTileInfo (self.cells.safe_nonthrowing_at
            (r + ivec2.axis is_vertical (if is_backward then -1 else 1))).tile
              == .solid_attachable
          && !(visited.contains (r + ivec2.axis is_vertical (if is_backward then -1 else 1))))
          = true
      · rw [if_pos hcond] at h
        refine Or.inr ⟨_, (Except.ok.inj h).symm, ?_, rfl, rfl⟩
        simp only [Bool.and_eq_true, Bool.not_eq_true', List.elem_eq_mem,
          decide_eq_false_iff_not] at hcond
        exact hcond.2
      · rw [if_neg hcond] at h
        exact Or.inl (Except.ok.inj h).symm

/-- C35: the assertion "Why are we visiting the same piston twice?" never fires: for
every input grid and tile size the decomposition does not stop at it, and the flood fill
phase returns, with every tile visited once and every queued entry of an unvisited tile
unfinished.  In the embedding the loop over the arriving pistons fails exactly when an
entry keyed by the visited tile has a second endpoint; in a state that satisfies the
invariant of the flood fill, a visit of an unvisited solid tile finds every entry keyed by
that tile without a second endpoint, returns, marks the tile and keeps the invariant;
and what "handle pistons starting here" queues is one unfinished entry of the Structure
being built, keyed by a tile that is not visited. -/
theorem DecomposeToComponentsAndDelete_assertion_unreachable (tile_size : Int)
    (self : ShipPartBlocks) :
    DecomposeToComponentsAndDelete tile_size self ≠ .error .visiting_same_piston_twice ∧
    (∃ s, fill_loop tile_size self (vector_range self.cells.size)
        { visited := [], queued_pistons := [], parts := [] } = .ok s ∧
      s.visited.Nodup ∧ QueueOpen s.visited s.queued_pistons) ∧
    (∀ new_part abs q, (∃ q1, arriving tile_size self new_part abs q = .ok q1) ↔
      ∀ e ∈ q, e.1 = abs → e.2.block_b = none) ∧
    (∀ visited0 new_part abs st, FillInv self visited0 st → self.Solid abs →
      abs ∉ st.visited →
      (∀ e ∈ st.queued_pistons, e.1 = abs → e.2.block_b = none) ∧
      ∃ st0, visit tile_size self new_part abs st = .ok st0 ∧ FillInv self visited0 st0 ∧
        st0.visited = abs :: st.visited) ∧
    (∀ new_part abs visited is_vertical is_backward q q1,
      starting_one tile_size self new_part abs visited is_vertical is_backward q = .ok q1 →
      q1 = q ∨ ∃ e, q1 = q ++ [e] ∧ e.1 ∉ visited ∧ e.2.block_b = none ∧
        e.2.block_a = new_part) := by
  obtain ⟨s, h1, hO, _⟩ := fill_loop_total tile_size self
  refine ⟨?_, ⟨s, h1, hO.nodup, hO.queue⟩, arriving_ok_iff tile_size self, ?_,
    starting_one_pushes tile_size self⟩
  · unfold DecomposeToComponentsAndDelete
    rw [h1]
    simp only
    cases ha : add_pistons s.parts s.queued_pistons with
    | error err =>
      have := add_pistons_error _ _ _ ha
      subst this
      simp
    | ok ps => simp
  · intro visited0 new_part abs st hI hs hv
    exact ⟨fun e he hk => hI.queue e he (hk ▸ hv), visit_inv hI hs hv⟩

end AssertionClaims
end Ship
